import Mathlib

/-!
# RedoDB: a verification development of the Redo / RedoOpt persistent transactional memory

Shallow embedding of `ptmdb/ptms/redo/Redo.hpp` (and the parts of
`ptmdb/ptms/redoopt/RedoOpt.hpp` and `ptmdb/common/EsLoco.hpp` it relies on).

Conventions of the embedding

* Persistent memory is a total map from byte addresses to bytes.  Pointers are
  natural numbers (byte addresses); 64-bit words are stored little-endian, as on
  the x86 machines the code targets.
* A `persist<T>` cell is modelled for `T` a 64-bit integral type (pointers,
  `uint64_t`, `long`): a cell is named by the address of its `val` field.
* Write-backs and fences (`PWB`, `PFENCE`, `PSYNC`, `DEFER_PWB`) do not change the
  contents of memory; the embedding keeps the control flow that surrounds them and
  drops the calls themselves.
* C++ object graphs linked by pointers become indexed families: the chain of
  `WriteSetNode`s that starts at `State::logHead` is indexed by position
  (`logHead` is node 0, `node->next` is the following index, `node->prev` the
  preceding one and `nullptr` before node 0).
-/

namespace RedoDB

/-! ## Part I. Definitions -/

/-! ### Byte-addressed memory -/

/-- Persistent memory: one byte per address. -/
abbrev Mem := Nat → Fin 256

/-- Byte number `i` (little-endian) of the word `v`. -/
def byteOf (v i : Nat) : Fin 256 := ⟨(v / 256 ^ i) % 256, Nat.mod_lt _ (by decide)⟩

/-- Little-endian read of `n` bytes starting at `a`. -/
def loadN (m : Mem) : Nat → Nat → Nat
  | _, 0 => 0
  | a, n + 1 => (m a).val + 256 * loadN m (a + 1) n

/-- The C expression `*(uint64_t*)a`. -/
def load64 (m : Mem) (a : Nat) : Nat := loadN m a 8

/-- The C statement `*(uint64_t*)a = v`. -/
def store64 (m : Mem) (a v : Nat) : Mem :=
  fun x => if a ≤ x ∧ x < a + 8 then byteOf v (x - a) else m x

/-- The call `std::memcpy(to, from, len)` for ranges that do not overlap. -/
def memcpy (m : Mem) (dst src len : Nat) : Mem :=
  fun x => if dst ≤ x ∧ x < dst + len then m (x - dst + src) else m x

/-! ### Constants of `class Redo` -/

def MAX_READ_TRIES : Nat := 10
def MAX_THREADS : Nat := 65
def MAX_COMBINEDS : Nat := 128
def NUM_OBJS : Nat := 100
def MAXLOGSIZE : Nat := 256
def RINGSIZE : Nat := 16192
def STATESSIZE : Nat := 4096
def SEQ_BITS : Nat := 44
def TID_BITS : Nat := 8
def IDX_BITS : Nat := 12
def MAGIC_ID : Nat := 0x1337BAB8

/-- The macro `ADDR2CL`: `(size_t)addr & ~63ULL`. -/
def ADDR2CL (addr : Nat) : Nat := addr &&& 0xFFFFFFFFFFFFFFC0

/-! ### Redo log -/

/-- The struct `Redo::WriteSetEntry`. -/
structure WriteSetEntry where
  addr : Nat := 0
  oldval : Nat := 0
  val : Nat := 0
  deriving DecidableEq, Repr

/-- The struct `Redo::WriteSetNode`: `log[MAXLOGSIZE]`; `next` and `prev` are the
neighbouring positions of the chain. -/
structure WriteSetNode where
  log : Nat → WriteSetEntry := fun _ => {}

/-- The class `Redo::State`.  `nodes 0` is `logHead`; `numNodes` counts the nodes
of the chain that exist (`logHead` and the nodes allocated with `new`), so
`nodes i` has a `next` exactly when `i + 1 < numNodes`. -/
structure State where
  ticket : Nat := 0
  applied : Nat → Bool := fun _ => false
  results : Nat → Nat := fun _ => 0
  nodes : Nat → WriteSetNode := fun _ => {}
  numNodes : Nat := 1
  logTail : Nat := 0
  lSize : Nat := 0
  logSize : Nat := 0

/-- Write `e` into `node->log[i]`. -/
def WriteSetNode.setEntry (node : WriteSetNode) (i : Nat) (e : WriteSetEntry) : WriteSetNode :=
  { log := fun k => if k = i then e else node.log k }

/-- Replace node `n` of the chain. -/
def State.setNode (st : State) (n : Nat) (node : WriteSetNode) : State :=
  { st with nodes := fun k => if k = n then node else st.nodes k }

/-- Result of the inner `for` loop of `findAddrInLog`. -/
inductive ScanResult where
  | found (i : Nat)
  | cont (j : Nat) (sameCL : Bool)
  deriving DecidableEq, Repr

/-- The inner loop of `Redo::findAddrInLog`:
`for (int i = len-1; i >= 0; i--) { ... j++; if (j >= 32) break; }`. -/
def findAddrInNode (node : WriteSetNode) (addr : Nat) : Nat → Nat → Bool → ScanResult
  | 0, j, sameCL => .cont j sameCL
  | i + 1, j, sameCL =>
    let entry := node.log i
    if ADDR2CL addr = ADDR2CL entry.addr then
      if addr = entry.addr then .found i
      else if j + 1 ≥ 32 then .cont (j + 1) true
      else findAddrInNode node addr i (j + 1) true
    else if j + 1 ≥ 32 then .cont (j + 1) sameCL
    else findAddrInNode node addr i (j + 1) sameCL

/-- The outer loop of `Redo::findAddrInLog`:
`while (node != nullptr && j < 32) { ...; node = node->prev; len = MAXLOGSIZE; }`.
The first argument is the position of `node` plus one (zero for `nullptr`). -/
def findAddrInChain (st : State) (addr : Nat) : Nat → Nat → Nat → Bool → Int × Option Nat
  | 0, _, _, sameCL => (if sameCL then -2 else -1, none)
  | n + 1, len, j, sameCL =>
    if j < 32 then
      match findAddrInNode (st.nodes n) addr len j sameCL with
      | .found i => ((i : Int), some n)
      | .cont j1 s1 => findAddrInChain st addr n MAXLOGSIZE j1 s1
    else (if sameCL then -2 else -1, none)

/-- The method `Redo::findAddrInLog`: the position of `addr` among the (at most 32)
most recent entries with the node that holds it, `-2` when only its cache line was
seen, `-1` otherwise. -/
def findAddrInLog (st : State) (addr : Nat) : Int × Option Nat :=
  let len := st.lSize
  if len > 0 then
    let len1 := len % MAXLOGSIZE
    let len2 := if len1 = 0 then MAXLOGSIZE else len1
    findAddrInChain st addr (st.logTail + 1) len2 0 false
  else (-1, none)

/-- The method `Redo::add_to_log`. -/
def add_to_log (st : State) (addr oldval val : Nat) : State × Bool :=
  match findAddrInLog st addr with
  | (pos, tail) =>
    if pos < 0 then
      let size := st.lSize
      let len := size % MAXLOGSIZE
      let st1 : State :=
        if len = 0 ∧ size ≥ MAXLOGSIZE then
          if st.logTail + 1 < st.numNodes then
            { st with logTail := st.logTail + 1 }
          else
            { (st.setNode (st.logTail + 1) {}) with
                numNodes := st.numNodes + 1, logTail := st.logTail + 1 }
        else st
      let node := (st1.nodes st1.logTail).setEntry len { addr := addr, oldval := oldval, val := val }
      ({ (st1.setNode st1.logTail node) with lSize := size + 1 }, pos == -2)
    else
      let t := tail.getD 0
      let e := (st.nodes t).log pos.toNat
      (st.setNode t ((st.nodes t).setEntry pos.toNat { e with val := val }), true)

/-- Undo the entries `log[len-1] .. log[0]` of one node:
`*(uint64_t*)(entry->addr + offset) = entry->oldval`. -/
def undoNode (node : WriteSetNode) (offset : Nat) : Nat → Mem → Mem
  | 0, m => m
  | i + 1, m => undoNode node offset i (store64 m ((node.log i).addr + offset) (node.log i).oldval)

/-- The `while (node != nullptr)` loop of `Redo::apply_undologPWB`; the first
argument is the position of `node` plus one. -/
def undoChain (st : State) (offset : Nat) : Nat → Nat → Mem → Mem
  | 0, _, m => m
  | n + 1, len, m => undoChain st offset n MAXLOGSIZE (undoNode (st.nodes n) offset len m)

/-- The method `Redo::apply_undologPWB`, run with `tlocal.tl_cx_size = offset`. -/
def apply_undologPWB (st : State) (offset : Nat) (m : Mem) : Mem :=
  let len := st.lSize
  if len > 0 then
    let len1 := len % MAXLOGSIZE
    let len2 := if len1 = 0 then MAXLOGSIZE else len1
    undoChain st offset (st.logTail + 1) len2 m
  else m

/-- The `for (int i = 0; i < len; i++) { entries[j] = node->log[i]; j++; }` loop of
`Redo::copy_redolog`, the entries written so far being `acc`. -/
def copyNode (node : WriteSetNode) (len : Nat) (acc : List WriteSetEntry) : List WriteSetEntry :=
  acc ++ (List.range len).map node.log

/-- The `while (true)` loop of `Redo::copy_redolog`, with a bound on the number of
iterations: `none` when the bound is reached before the loop returns. -/
def copyChain (st : State) (redoSize : Nat) : Nat → Nat → List WriteSetEntry → Option (List WriteSetEntry)
  | 0, _, _ => none
  | fuel + 1, node, acc =>
    let j := acc.length
    let len := if redoSize - j < MAXLOGSIZE then redoSize % MAXLOGSIZE else MAXLOGSIZE
    let acc1 := copyNode (st.nodes node) len acc
    if acc1.length ≥ redoSize then some acc1
    else copyChain st redoSize fuel (node + 1) acc1

/-- The method `Redo::copy_redolog`: the first `redoSize` entries of the log of
`state`, in log order.  The loop runs at most `redoSize / MAXLOGSIZE + 1` times. -/
def copy_redolog (st : State) (redoSize : Nat) : Option (List WriteSetEntry) :=
  copyChain st redoSize (redoSize / MAXLOGSIZE + 1) 0 []

/-- The replay loop of `Redo::apply_redologs`:
`for (j < redoSize) *(uint64_t*)(entries[j].addr + offset) = entries[j].val`. -/
def replay (entries : List WriteSetEntry) (offset : Nat) (m : Mem) : Mem :=
  entries.foldl (fun mm e => store64 mm (e.addr + offset) e.val) m

/-! ### The log as a flat sequence -/

/-- Entry number `k` of the log: `log[k % MAXLOGSIZE]` of node `k / MAXLOGSIZE`. -/
def State.entryAt (st : State) (k : Nat) : WriteSetEntry :=
  (st.nodes (k / MAXLOGSIZE)).log (k % MAXLOGSIZE)

/-- The first `n` entries of the log, in log order. -/
def State.entries (st : State) (n : Nat) : List WriteSetEntry :=
  (List.range n).map st.entryAt

/-- Shape of the chain while a transaction logs: `logTail` is the node that holds
the last entry (`logHead` for an empty log) and that node exists. -/
def LogWF (st : State) : Prop :=
  st.logTail = (st.lSize - 1) / MAXLOGSIZE ∧ st.logTail < st.numNodes

/-- Undo of a flat list of entries, last entry first. -/
def undoList (es : List WriteSetEntry) (offset : Nat) (m : Mem) : Mem :=
  es.reverse.foldl (fun mm e => store64 mm (e.addr + offset) e.oldval) m

/-- A list of raw 64-bit stores `*(uint64_t*)w.1 = w.2`, first store first. -/
def writeAll (ws : List (Nat × Nat)) (m : Mem) : Mem :=
  ws.foldl (fun mm w => store64 mm w.1 w.2) m

/-! ### The globals and `persist<T>` -/

/-- The globals `g_main_addr` and `g_main_size`; `g_main_addr_end` and
`g_region_end` are computed from them as in the constructor of `Redo`. -/
structure Globals where
  g_main_addr : Nat
  g_main_size : Nat
  deriving DecidableEq, Repr

def Globals.g_main_addr_end (g : Globals) : Nat := g.g_main_addr + g.g_main_size

def Globals.g_region_end (g : Globals) : Nat := g.g_main_addr + MAX_COMBINEDS * g.g_main_size

/-- The macro `ADDR_IS_IN_MAIN`. -/
def ADDR_IS_IN_MAIN (g : Globals) (addr : Nat) : Bool :=
  decide (g.g_main_addr ≤ addr) && decide (addr < g.g_main_addr_end)

/-- The macro `ADDR_IS_IN_REGION`. -/
def ADDR_IS_IN_REGION (g : Globals) (addr : Nat) : Bool :=
  decide (g.g_main_addr ≤ addr) && decide (addr < g.g_region_end)

/-- The method `persist<T>::pload` of the cell at `valaddr`, with
`tlocal.tl_cx_size = cx_size`. -/
def pload (g : Globals) (cx_size : Nat) (m : Mem) (valaddr : Nat) : Nat :=
  if cx_size ≠ 0 ∧ ADDR_IS_IN_MAIN g valaddr = true then load64 m (valaddr + cx_size)
  else load64 m valaddr

/-- The method `persist<T>::pstore` of the cell at `valaddr`, with
`tlocal.tl_cx_size = offset` and `tlocal.st` pointing to `st`. -/
def pstore (g : Globals) (offset : Nat) (st : State) (m : Mem) (valaddr newVal : Nat) :
    State × Mem :=
  if offset ≠ 0 ∧ ADDR_IS_IN_MAIN g valaddr = true then
    let oldval := load64 m (valaddr + offset)
    let st1 := (add_to_log st valaddr oldval newVal).1
    (st1, if oldval ≠ newVal then store64 m (valaddr + offset) newVal else m)
  else if ADDR_IS_IN_REGION g valaddr = true then
    let oldval := load64 m valaddr
    let st1 := (add_to_log st (valaddr - offset) oldval newVal).1
    (st1, if oldval ≠ newVal then store64 m valaddr newVal else m)
  else (st, store64 m valaddr newVal)

/-- A sequence of `pstore` calls `(valaddr, newVal)` made by one transaction. -/
def pstoreAll (g : Globals) (offset : Nat) (stores : List (Nat × Nat)) (st : State) (m : Mem) :
    State × Mem :=
  stores.foldl (fun p s => pstore g offset p.1 p.2 s.1 s.2) (st, m)

/-- A sequence of `add_to_log` calls `(addr, oldval, val)` made by one transaction. -/
def logAll (calls : List WriteSetEntry) (st : State) : State :=
  calls.foldl (fun s c => (add_to_log s c.addr c.oldval c.val).1) st

/-- The value of the most recent call that stored to `addr`. -/
def lastVal (calls : List WriteSetEntry) (addr : Nat) : Option Nat :=
  calls.foldl (fun acc c => if c.addr = addr then some c.val else acc) none

/-- The position of the last of the first `n` entries of the log whose address is `addr`. -/
def lastEntryOf (st : State) (addr : Nat) : Nat → Option Nat
  | 0 => none
  | n + 1 => if (st.entryAt n).addr = addr then some n else lastEntryOf st addr n


/-- What the log of a transaction records about the `add_to_log` calls `seen` made so
far: every entry was stored to, every address stored to has a last entry and that entry
holds the value of the most recent call, the log is no longer than the number of calls,
and it has no duplicate address as long as at most 32 addresses were stored to. -/
def CoalesceInv (st : State) (seen : List WriteSetEntry) : Prop :=
  LogWF st ∧
  (∀ k, k < st.lSize → (st.entryAt k).addr ∈ seen.map WriteSetEntry.addr) ∧
  (∀ a, a ∈ seen.map WriteSetEntry.addr →
    ∃ k, k < st.lSize ∧ (st.entryAt k).addr = a ∧
      (∀ k1, k < k1 → k1 < st.lSize → (st.entryAt k1).addr ≠ a) ∧
      lastVal seen a = some (st.entryAt k).val) ∧
  st.lSize ≤ seen.length ∧
  ((seen.map WriteSetEntry.addr).toFinset.card ≤ 32 →
    ((st.entries st.lSize).map WriteSetEntry.addr).Nodup)

/-- A transaction that stores to one address, then to 32 other addresses, then to the
first address again. -/
def windowCalls : List WriteSetEntry :=
  [{ addr := 8, oldval := 0, val := 1 }]
    ++ (List.range 32).map (fun i => { addr := 8 * (i + 2), oldval := 0, val := 7 })
    ++ [{ addr := 8, oldval := 1, val := 2 }]


/-! ### Tickets -/

/-- The method `Redo::makeSeqTidIdx`, on 64-bit words. -/
def makeSeqTidIdx (seq tid idx : Nat) : Nat :=
  ((seq <<< (TID_BITS + IDX_BITS)) ||| (tid <<< IDX_BITS) ||| idx) % 2 ^ 64

/-- The method `Redo::sti2seq`. -/
def sti2seq (sti : Nat) : Nat := sti >>> (TID_BITS + IDX_BITS)

/-- The method `Redo::sti2tid`. -/
def sti2tid (sti : Nat) : Nat := (sti >>> IDX_BITS) &&& ((1 <<< TID_BITS) - 1)

/-- The method `Redo::sti2idx`. -/
def sti2idx (sti : Nat) : Nat := sti &&& ((1 <<< IDX_BITS) - 1)

/-! ### The reader-writer lock of a replica -/

/-- Modelled from the spec: the class `StrongTryRIRWLock` (header
`common/StrongTryRIRWLock.hpp`, which `Redo.hpp` includes).  The spec describes "a
multi-reader/single-writer lock" per replica, such that "a replica may be exclusively
re-acquired for mutation only after confirming no shared (reader) lock is held on it"
and shared holders "may overlap freely with each other but never with an exclusive
holder".  `writer` is the exclusive holder, `readers t` the shared hold of thread `t`,
and `readLock` the shared hold that `setReadLock` and `downgrade` take on behalf of
the replica that is (about to be) current. -/
structure StrongTryRIRWLock where
  writer : Bool := false
  readers : Nat → Bool := fun _ => false
  readLock : Bool := false

/-- Modelled from the spec: no thread below `MAX_THREADS` holds the lock in shared mode. -/
def StrongTryRIRWLock.noReaders (l : StrongTryRIRWLock) : Bool :=
  (List.range MAX_THREADS).all (fun t => !l.readers t)

/-- Modelled from the spec: `exclusiveTryLock(tid)` succeeds when nobody holds the lock. -/
def StrongTryRIRWLock.exclusiveTryLock (l : StrongTryRIRWLock) (_tid : Nat) :
    Bool × StrongTryRIRWLock :=
  if !l.writer && !l.readLock && l.noReaders then (true, { l with writer := true })
  else (false, l)

/-- Modelled from the spec: `exclusiveUnlock()`. -/
def StrongTryRIRWLock.exclusiveUnlock (l : StrongTryRIRWLock) : StrongTryRIRWLock :=
  { l with writer := false }

/-- Modelled from the spec: `sharedTryLock(tid)` succeeds when there is no exclusive holder. -/
def StrongTryRIRWLock.sharedTryLock (l : StrongTryRIRWLock) (tid : Nat) :
    Bool × StrongTryRIRWLock :=
  if !l.writer then (true, { l with readers := fun t => if t = tid then true else l.readers t })
  else (false, l)

/-- Modelled from the spec: `sharedUnlock(tid)`. -/
def StrongTryRIRWLock.sharedUnlock (l : StrongTryRIRWLock) (tid : Nat) : StrongTryRIRWLock :=
  { l with readers := fun t => if t = tid then false else l.readers t }

/-- Modelled from the spec: `setReadLock()`. -/
def StrongTryRIRWLock.setReadLock (l : StrongTryRIRWLock) : StrongTryRIRWLock :=
  { l with readLock := true }

/-- Modelled from the spec: `setReadUnlock()`. -/
def StrongTryRIRWLock.setReadUnlock (l : StrongTryRIRWLock) : StrongTryRIRWLock :=
  { l with readLock := false }

/-- Modelled from the spec: `downgrade()` turns the exclusive hold into a shared one. -/
def StrongTryRIRWLock.downgrade (l : StrongTryRIRWLock) : StrongTryRIRWLock :=
  { l with writer := false, readLock := true }

/-! ### Closures -/

/-- The outcome of running a closure: the value it returns (as the `uint64_t` that
`State::results` stores), an exception it throws, or a fault (a null pointer
dereferenced). -/
inductive Outcome where
  | value (r : Nat)
  | raised (e : Nat)
  | fault
  deriving DecidableEq, Repr

/-- The closures passed to `updateTx` and `readTx`: code that loads and stores
`persist<T>` cells (control flow may depend on the values loaded), returns a value or
throws. -/
inductive Prog where
  | ret (r : Nat)
  | pload (valaddr : Nat) (k : Nat → Prog)
  | pstore (valaddr newVal : Nat) (k : Prog)
  | raise (e : Nat)

/-- What a closure computes on a memory of its own, every cell at its own address:
the reference against which transactions are compared. -/
def Prog.run : Prog → Mem → Outcome × Mem
  | .ret r, m => (.value r, m)
  | .pload a k, m => (k (load64 m a)).run m
  | .pstore a v k, m => k.run (store64 m a v)
  | .raise e, m => (.raised e, m)

/-! ### The state of the engine -/

/-- The struct `Redo::Combined`; `root` is `g_main_addr + i*g_main_size` for replica `i`. -/
structure Combined where
  head : Nat := 0
  rwLock : StrongTryRIRWLock := {}

/-- The class `Redo::States`. -/
structure States where
  states : Nat → State := fun _ => {}
  lastIdx : Nat := 1

/-- The struct `varLocal` (the thread-local `tlocal`) together with the thread-local
counters `tl_nested_write_trans` and `tl_nested_read_trans`.  `st` points to a `State`
by the thread that owns it and its index in `States::states`. -/
structure VarLocal where
  st : Option (Nat × Nat) := none
  tl_cx_size : Nat := 0
  tl_nested_write_trans : Nat := 0
  tl_nested_read_trans : Nat := 0

/-- The struct `Redo::PersistentHeader`, at the start of the mapped file. -/
structure PersistentHeader where
  id : Nat := 0
  curComb : Nat := 0
  objects : Nat := 0

/-- The volatile fields of `EsLoco` that the engine reads. -/
structure EsLocoVol where
  poolAddr : Nat := 0
  poolSize : Nat := 0

/-- The global instance `gRedo` with the globals and thread-locals it works on.
`per` and `mem` are the contents of the mapped file, everything else is volatile. -/
structure Redo where
  g : Globals
  per : PersistentHeader := {}
  mem : Mem
  combs : Nat → Combined := fun _ => {}
  sauron : Nat → States := fun _ => {}
  ring : Nat → Nat := fun _ => 0
  enqueuers : Nat → Option Prog := fun _ => none
  announce : Nat → Bool := fun _ => false
  esloco : EsLocoVol := {}
  tlocal : Nat → VarLocal := fun _ => {}

/-- The `State` a pointer refers to. -/
def Redo.getState (s : Redo) (p : Nat × Nat) : State := (s.sauron p.1).states p.2

/-- Assign the `State` a pointer refers to. -/
def Redo.setState (s : Redo) (p : Nat × Nat) (st : State) : Redo :=
  { s with sauron := fun t => if t = p.1 then
      { (s.sauron t) with states := fun i => if i = p.2 then st else (s.sauron t).states i }
    else s.sauron t }

/-- Assign the thread-local variables of thread `tid`. -/
def Redo.setLocal (s : Redo) (tid : Nat) (v : VarLocal) : Redo :=
  { s with tlocal := fun t => if t = tid then v else s.tlocal t }

/-- Assign `combs[i]`. -/
def Redo.setComb (s : Redo) (i : Nat) (c : Combined) : Redo :=
  { s with combs := fun k => if k = i then c else s.combs k }

/-- Assign `ring[i]`. -/
def Redo.setRing (s : Redo) (i : Nat) (t : Nat) : Redo :=
  { s with ring := fun k => if k = i then t else s.ring k }

/-- Assign the contents of memory. -/
def Redo.setMem (s : Redo) (m : Mem) : Redo := { s with mem := m }

/-- Assign `per->curComb`. -/
def Redo.setCurComb (s : Redo) (c : Nat) : Redo := { s with per := { s.per with curComb := c } }

/-- Assign `enqueuers[tid]`. -/
def Redo.setEnqueuer (s : Redo) (tid : Nat) (f : Prog) : Redo :=
  { s with enqueuers := fun t => if t = tid then some f else s.enqueuers t }

/-- Assign `announce[tid]`. -/
def Redo.setAnnounce (s : Redo) (tid : Nat) (b : Bool) : Redo :=
  { s with announce := fun t => if t = tid then b else s.announce t }

/-- Assign `sauron[tid].lastIdx`. -/
def Redo.setLastIdx (s : Redo) (tid n : Nat) : Redo :=
  { s with sauron := fun t => if t = tid then { (s.sauron t) with lastIdx := n } else s.sauron t }

/-- Run the closure `p` on thread `tid`: `ret`, `pload` and `pstore` are the C++
`return`, `persist<T>::pload` and `persist<T>::pstore`, executed with the thread's
`tlocal`.  A `pstore` to a cell of the region while `tlocal.st` is `nullptr` is a
fault. -/
def exec (tid : Nat) : Prog → Redo → Outcome × Redo
  | .ret r, s => (.value r, s)
  | .pload a k, s => exec tid (k (pload s.g (s.tlocal tid).tl_cx_size s.mem a)) s
  | .pstore a v k, s =>
    match (s.tlocal tid).st with
    | some p =>
      let r := pstore s.g (s.tlocal tid).tl_cx_size (s.getState p) s.mem a v
      exec tid k ((s.setState p r.1).setMem r.2)
    | none =>
      if ADDR_IS_IN_REGION s.g a = true then (.fault, s)
      else exec tid k (s.setMem (store64 s.mem a v))
  | .raise e, s => (.raised e, s)


/-! ### Acquiring a replica: copy and catch-up -/

/-- The method `EsLoco::getUsedSize`, with `tlocal.tl_cx_size = cx_size`:
`poolTop->pload() - poolAddr` in 64-bit arithmetic (`poolTop` is the cell at
`poolAddr`), or 0 while `poolAddr` is `nullptr`. -/
def getUsedSize (s : Redo) (cx_size : Nat) : Nat :=
  if s.esloco.poolAddr = 0 then 0
  else (pload s.g cx_size s.mem s.esloco.poolAddr + 2 ^ 64 - s.esloco.poolAddr) % 2 ^ 64

/-- The `while (size > 0)` loop of `Redo::copyFromTo`, at most `fuel` iterations
(`none` when they do not suffice); the result is the returned flag (`false` for the
early `return false`, `true` when the loop ends) and the memory. -/
def copyLoop (s : Redo) (tid initCombSeq : Nat) :
    Nat → Nat → Nat → Nat → Nat → Nat → Mem → Option (Bool × Mem)
  | 0, size, _, _, _, _, m => if size > 0 then none else some (true, m)
  | fuel + 1, size, flushSize, dst, src, curC, m =>
    if size > 0 then
      let flushSize1 := if flushSize > size then size else flushSize
      let m1 := memcpy m dst src flushSize1
      let cComb := s.per.curComb
      if cComb ≠ curC then
        if sti2seq cComb ≥ initCombSeq + 2 then some (false, m1)
        else
          let ltail := (s.combs (sti2idx cComb)).head
          if cComb ≠ s.per.curComb then some (false, m1)
          else
            let tail_state := s.getState (sti2tid ltail, sti2idx ltail)
            if s.announce tid = tail_state.applied tid ∧ cComb = s.per.curComb then
              some (false, m1)
            else
              copyLoop s tid initCombSeq fuel (size - flushSize1) flushSize1
                (dst + flushSize1) (src + flushSize1) cComb m1
      else
        copyLoop s tid initCombSeq fuel (size - flushSize1) flushSize1
          (dst + flushSize1) (src + flushSize1) curC m1
    else some (true, m)

/-- The method `Redo::copyFromTo(from, to, fromIdx)` run by thread `tid`.  The loop
copies 4096 bytes per iteration, so `usedSize / 4096 + 1` iterations suffice. -/
def copyFromTo (s : Redo) (tid src dst fromIdx : Nat) : Bool × Redo :=
  let usedSize := getUsedSize s (fromIdx * s.g.g_main_size)
  let curC := s.per.curComb
  match copyLoop s tid (sti2seq curC) (usedSize / 4096 + 1) usedSize (4 * 1024) dst src curC s.mem with
  | some (ok, m) => (ok, s.setMem m)
  | none => (false, s)

/-- The loop of `Redo::getCombined`: the index of the current replica, shared-locked
by `tid`, or `none` (the C++ `-1`). -/
def getCombinedLoop (tid initCombSeq : Nat) : Nat → Redo → Option Nat × Redo
  | 0, s => (none, s)
  | n + 1, s =>
    let cComb := s.per.curComb
    if sti2seq cComb ≥ initCombSeq + 2 then (none, s)
    else
      let curCombIndex := sti2idx cComb
      let lcomb := s.combs curCombIndex
      match lcomb.rwLock.sharedTryLock tid with
      | (false, _) => getCombinedLoop tid initCombSeq n s
      | (true, l) =>
        let s1 := s.setComb curCombIndex { lcomb with rwLock := l }
        if cComb = s1.per.curComb then (some curCombIndex, s1)
        else
          getCombinedLoop tid initCombSeq n
            (s1.setComb curCombIndex { lcomb with rwLock := l.sharedUnlock tid })

/-- The method `Redo::getCombined`. -/
def getCombined (tid : Nat) (s : Redo) : Option Nat × Redo :=
  getCombinedLoop tid (sti2seq s.per.curComb) 2 s

/-- Assign `combs[i].head`. -/
def Redo.setHead (s : Redo) (i h : Nat) : Redo :=
  s.setComb i { (s.combs i) with head := h }

/-- The root of replica `i`: `combs[i].root = g_main_addr + i*g_main_size`. -/
def Redo.root (s : Redo) (i : Nat) : Nat := s.g.g_main_addr + i * s.g.g_main_size

/-- The method `Redo::makeCopy(newComb, tid)`, `newComb` being `&combs[newComb]`. -/
def makeCopy (newComb tid : Nat) (s : Redo) : Bool × Redo :=
  match getCombined tid s with
  | (none, s1) => (false, s1.setHead newComb (makeSeqTidIdx 0 1 0))
  | (some lCombIndex, s1) =>
    match copyFromTo s1 tid (s1.root lCombIndex) (s1.root newComb) lCombIndex with
    | (false, s2) =>
      let s3 := s2.setHead newComb (makeSeqTidIdx 0 1 0)
      (false, s3.setComb lCombIndex
        { (s3.combs lCombIndex) with rwLock := (s3.combs lCombIndex).rwLock.sharedUnlock tid })
    | (true, s2) =>
      let s3 := s2.setHead newComb (s2.combs lCombIndex).head
      (true, s3.setComb lCombIndex
        { (s3.combs lCombIndex) with rwLock := (s3.combs lCombIndex).rwLock.sharedUnlock tid })

/-- How the `for` loop of `Redo::apply_redologs` ends. -/
inductive RedoExit where
  | finished
  | broke
  | returnedNull
  deriving DecidableEq, Repr

/-- The loop `for (; i <= lastSeq; i++)` of `Redo::apply_redologs`.  The first
argument is the number of iterations left, `lastSeq + 1 - i`; the result carries the
final `i` and `ringTicket`. -/
def redoLoop (tid newComb initCombSeq : Nat) :
    Nat → Nat → Nat → Redo → RedoExit × Nat × Nat × Redo
  | 0, i, ringTicket, s => (.finished, i, ringTicket, s)
  | n + 1, i, _, s =>
    let ringTicket := s.ring (i % RINGSIZE)
    if i ≠ sti2seq ringTicket then (.broke, i, ringTicket, s)
    else
      let apply_state := s.getState (sti2tid ringTicket, sti2idx ringTicket)
      let redoSize := apply_state.logSize
      if redoSize > 0 ∧ ringTicket ≠ apply_state.ticket then (.broke, i, ringTicket, s)
      else
        let s1 : Redo :=
          if redoSize > 0 then
            let entries := (copy_redolog apply_state redoSize).getD []
            s.setMem (replay entries (s.tlocal tid).tl_cx_size s.mem)
          else s
        if sti2seq s1.per.curComb ≥ initCombSeq + 2 then
          (.returnedNull, i, ringTicket, s1.setHead newComb ringTicket)
        else redoLoop tid newComb initCombSeq n (i + 1) ringTicket s1

/-- The method `Redo::apply_redologs`; the result is `true` when it returns `newComb`
and `false` when it returns `nullptr`.  `uninit` is the indeterminate value that the
local variable `ringTicket` has before the loop assigns it. -/
def apply_redologs (newComb initCombSeq lastAppliedTicket ltail tid uninit : Nat) (s : Redo) :
    Bool × Redo :=
  let start := sti2seq lastAppliedTicket
  let lastSeq := sti2seq ltail
  match redoLoop tid newComb initCombSeq (lastSeq + 1 - (start + 1)) (start + 1) uninit s with
  | (.returnedNull, _, _, s1) => (false, s1)
  | (_, i, ringTicket, s1) =>
    if i ≠ lastSeq + 1 then
      match makeCopy newComb tid s1 with
      | (false, s2) => (false, s2)
      | (true, s2) => (true, s2)
    else (true, s1.setHead newComb ringTicket)


/-! ### Write transactions -/

/-- The scan `for (int i = 0; i < MAX_COMBINEDS; i++)` of `Redo::ns_write_transaction`
for a replica that `tid` can lock exclusively; on success `tlocal.tl_cx_size` is bound
to that replica.  The first argument is the number of iterations left. -/
def exclusiveScan (tid initCombSeq : Nat) : Nat → Nat → Redo → Option Nat × Redo
  | 0, _, s => (none, s)
  | n + 1, i, s =>
    if sti2seq s.per.curComb ≥ initCombSeq + 2 then (none, s)
    else
      match (s.combs i).rwLock.exclusiveTryLock tid with
      | (true, l) =>
        (some i, (s.setComb i { (s.combs i) with rwLock := l }).setLocal tid
          { (s.tlocal tid) with tl_cx_size := i * s.g.g_main_size })
      | (false, _) => exclusiveScan tid initCombSeq n (i + 1) s

/-- The flat-combining loop `for (uint64_t i = 0; i < maxThreads; i++)` of
`Redo::ns_write_transaction`: runs the closure of every thread whose request is open
and records its result in `newState`.  The result is the outcome of a closure that did
not return (it threw, or a null pointer was dereferenced), the flag `atleastone`, and
the state.  The first argument is the number of iterations left. -/
def combineLoop (tid cComb : Nat) (newState : Nat × Nat) :
    Nat → Nat → Bool → Redo → Option Outcome × Bool × Redo
  | 0, _, atleastone, s => (none, atleastone, s)
  | n + 1, i, atleastone, s =>
    let applied := (s.getState newState).applied i
    if s.announce i = applied then combineLoop tid cComb newState n (i + 1) atleastone s
    else if cComb ≠ s.per.curComb then (none, atleastone, s)
    else
      match s.enqueuers i with
      | none => (some .fault, true, s)
      | some mutation =>
        match exec tid mutation s with
        | (.value r, s1) =>
          let st := s1.getState newState
          let st1 : State :=
            { st with results := fun k => if k = i then r else st.results k,
                      applied := fun k => if k = i then !applied else st.applied k }
          combineLoop tid cComb newState n (i + 1) true (s1.setState newState st1)
        | (o, s1) => (some o, true, s1)

/-- How one iteration of the `for (int iter = 0; iter < 2; iter++)` loop of
`Redo::ns_write_transaction` ends: the function returns, the loop is left with
`break`, the next iteration starts (`continue`, or the end of the body), or an
exception thrown by a closure leaves the function. -/
inductive Ctl where
  | ret (o : Outcome)
  | brk
  | cont
  | unwind (o : Outcome)
  deriving DecidableEq, Repr

/-- The end of `Redo::ns_write_transaction` and `Redo::ns_read_transaction` for a
request that somebody else may have executed: the result recorded for `tid` in the
`State` of the current replica's head (or of the ring slot of the current sequence);
with `advance` the ring slot of the current sequence is advanced to that head. -/
def recordedResult (tid : Nat) (advance : Bool) (s : Redo) : Outcome × Redo :=
  let cComb := s.per.curComb
  let t := (s.combs (sti2idx cComb)).head
  let combSeq := sti2seq cComb
  if sti2seq t ≠ combSeq then
    let t1 := s.ring (combSeq % RINGSIZE)
    (.value ((s.getState (sti2tid t1, sti2idx t1)).results tid), s)
  else
    let oldTicket := s.ring (combSeq % RINGSIZE)
    let s1 := if advance ∧ sti2seq oldTicket < combSeq then s.setRing (combSeq % RINGSIZE) t else s
    (.value ((s1.getState (sti2tid t, sti2idx t)).results tid), s1)

/-- The statements of `Redo::ns_write_transaction` that prepare `newState` for an
attempt: `newState->ticket.store(newTicket)`, the reset of `logTail` and `lSize`,
`newState->copyFrom(tail_state)` and `newState->logSize.store(0)`. -/
def prepareState (newState tail_state : Nat × Nat) (newTicket : Nat) (s : Redo) : Redo :=
  let st0 := s.getState newState
  let s1 := s.setState newState { st0 with ticket := newTicket, logTail := 0, lSize := 0 }
  s1.setState newState
    { (s1.getState newState) with
        applied := (s1.getState tail_state).applied,
        results := (s1.getState tail_state).results,
        logSize := 0 }

/-- The end of a successful attempt of `Redo::ns_write_transaction`, after
`per->curComb.compare_exchange_strong(cComb, newcComb)` has succeeded: the old current
replica is released, the ring slot of the new sequence is advanced, `lastIdx` moves on
and the thread-locals are reset. -/
def finishCommit (tid lcomb seqltail newTicket : Nat) (s : Redo) : Redo :=
  let s11 := s.setComb lcomb { (s.combs lcomb) with rwLock := (s.combs lcomb).rwLock.setReadUnlock }
  let oldTicket := s11.ring ((seqltail + 1) % RINGSIZE)
  let s12 := if sti2seq oldTicket < seqltail + 1 then
      s11.setRing ((seqltail + 1) % RINGSIZE) newTicket
    else s11
  let lastIdx1 := (s12.sauron tid).lastIdx + 1
  let lastIdx2 := if lastIdx1 = STATESSIZE then 0 else lastIdx1
  let s13 := s12.setLastIdx tid lastIdx2
  let tl := s13.tlocal tid
  s13.setLocal tid
    { tl with tl_nested_write_trans := tl.tl_nested_write_trans - 1, tl_cx_size := 0, st := none }

/-- The part of an attempt of `Redo::ns_write_transaction` that follows the combining
loop when at least one closure ran: the log size and the head of the new replica are
published, the lock is downgraded and `per->curComb` is swung to the new replica with a
compare-and-swap; if that fails the stores are undone. -/
def publish (tid cComb ltail newTicket : Nat) (newState : Nat × Nat) (newCombIndex : Nat)
    (s6 : Redo) : Ctl × Option Nat × Redo :=
  let st6 := s6.getState newState
  let s7 := s6.setState newState { st6 with logSize := st6.lSize }
  let s8 := s7.setHead newCombIndex newTicket
  let s9 := s8.setComb newCombIndex
    { (s8.combs newCombIndex) with rwLock := (s8.combs newCombIndex).rwLock.downgrade }
  let newcComb := makeSeqTidIdx (sti2seq cComb + 1) tid newCombIndex
  if s9.per.curComb = cComb then
    let s10 := s9.setCurComb newcComb
    let s14 := finishCommit tid (sti2idx cComb) (sti2seq cComb) newTicket s10
    (.ret (.value ((s14.getState newState).results tid)), some newCombIndex, s14)
  else
    let m9 := apply_undologPWB (s9.getState newState) (s9.tlocal tid).tl_cx_size s9.mem
    let s10 := s9.setMem m9
    let s11 := s10.setHead newCombIndex ltail
    let s12 := s11.setComb newCombIndex
      { (s11.combs newCombIndex) with rwLock := (s11.combs newCombIndex).rwLock.setReadUnlock }
    (.cont, none, s12)

/-- The part of an attempt of `Redo::ns_write_transaction` that follows the
acquisition of an up-to-date replica: the check that the request is still open, the
combining loop and the publication. -/
def combineAndPublish (tid : Nat) (newrequest : Bool) (cComb ltail newTicket : Nat)
    (newState tail_state : Nat × Nat) (newCombIndex : Nat) (s5 : Redo) :
    Ctl × Option Nat × Redo :=
  if newrequest = (s5.getState tail_state).applied tid then
    if cComb = s5.per.curComb then (.brk, some newCombIndex, s5)
    else (.cont, some newCombIndex, s5)
  else if cComb ≠ s5.per.curComb then (.cont, some newCombIndex, s5)
  else
    match combineLoop tid cComb newState MAX_THREADS 0 false s5 with
    | (some o, _, s6) => (.unwind o, some newCombIndex, s6)
    | (none, false, s6) => (.cont, some newCombIndex, s6)
    | (none, true, s6) =>
      if cComb ≠ s6.per.curComb then
        let m6 := apply_undologPWB (s6.getState newState) (s6.tlocal tid).tl_cx_size s6.mem
        (.cont, some newCombIndex, s6.setMem m6)
      else publish tid cComb ltail newTicket newState newCombIndex s6

/-- The acquisition of an up-to-date replica in `Redo::ns_write_transaction`: a full
copy when the head of the replica is `makeSeqTidIdx(0, 1, 0)`, the replay of the missing
redo logs otherwise. -/
def acquire (tid uninit initCombSeq ltail newCombIndex : Nat) (s4 : Redo) : Bool × Redo :=
  let lastAppliedTicket := (s4.combs newCombIndex).head
  if lastAppliedTicket = makeSeqTidIdx 0 1 0 then makeCopy newCombIndex tid s4
  else apply_redologs newCombIndex initCombSeq lastAppliedTicket ltail tid uninit s4

/-- One iteration of the loop of `Redo::ns_write_transaction`; `newComb` is the
replica held exclusively (`nullptr` is `none`). -/
def writeAttempt (tid uninit : Nat) (newrequest : Bool) (initCombSeq : Nat)
    (newState : Nat × Nat) (newComb : Option Nat) (s : Redo) : Ctl × Option Nat × Redo :=
  let cComb := s.per.curComb
  let seqltail := sti2seq cComb
  let ltail := (s.combs (sti2idx cComb)).head
  if seqltail ≥ initCombSeq + 2 then (.brk, newComb, s)
  else if cComb ≠ s.per.curComb then (.cont, newComb, s)
  else
    let tail_state := (sti2tid ltail, sti2idx ltail)
    let newTicket := makeSeqTidIdx (seqltail + 1) tid (s.sauron tid).lastIdx
    let s2 := prepareState newState tail_state newTicket s
    if cComb ≠ s2.per.curComb then (.cont, newComb, s2)
    else
      let ringtail := s2.ring (seqltail % RINGSIZE)
      if ltail ≠ ringtail ∧ sti2seq ringtail > seqltail then (.cont, newComb, s2)
      else
        let s3 := if ltail ≠ ringtail then s2.setRing (seqltail % RINGSIZE) ltail else s2
        let scan := match newComb with
          | none => exclusiveScan tid initCombSeq MAX_COMBINEDS 0 s3
          | some i => (some i, s3)
        match scan with
        | (none, s4) => (.brk, none, s4)
        | (some newCombIndex, s4) =>
          match acquire tid uninit initCombSeq ltail newCombIndex s4 with
          | (false, s5) => (.brk, some newCombIndex, s5)
          | (true, s5) =>
            combineAndPublish tid newrequest cComb ltail newTicket newState tail_state
              newCombIndex s5

/-- The loop `for (int iter = 0; iter < 2; iter++)` of `Redo::ns_write_transaction`. -/
def writeLoop (tid uninit : Nat) (newrequest : Bool) (initCombSeq : Nat) (newState : Nat × Nat) :
    Nat → Option Nat → Redo → Ctl × Option Nat × Redo
  | 0, newComb, s => (.brk, newComb, s)
  | n + 1, newComb, s =>
    match writeAttempt tid uninit newrequest initCombSeq newState newComb s with
    | (.cont, newComb1, s1) => writeLoop tid uninit newrequest initCombSeq newState n newComb1 s1
    | r => r

/-- The `State` that thread `tid` uses for its next transaction (`newState`). -/
def Redo.nextState (s : Redo) (tid : Nat) : Nat × Nat := (tid, (s.sauron tid).lastIdx)

/-- The start of `Redo::ns_write_transaction`, up to its loop: the nesting counter is
incremented, the closure is stored in `enqueuers[tid]`, the request is announced by
flipping `announce[tid]`, and `tlocal.st` points to `newState`. -/
def announced (s : Redo) (tid : Nat) (f : Prog) : Redo :=
  let s1 := s.setLocal tid
    { (s.tlocal tid) with tl_nested_write_trans := (s.tlocal tid).tl_nested_write_trans + 1 }
  let s3 := (s1.setEnqueuer tid f).setAnnounce tid (!s.announce tid)
  s3.setLocal tid { (s3.tlocal tid) with st := some (s.nextState tid) }

/-- The method `Redo::ns_write_transaction` (`updateTx`) called by thread `tid` with the
closure `func`.  An exception thrown by a closure leaves the function at the call
`(*mutation)()`: the code has no handler, so the state is the one at the throw. -/
def ns_write_transaction (tid : Nat) (func : Prog) (uninit : Nat) (s : Redo) : Outcome × Redo :=
  if (s.tlocal tid).tl_nested_write_trans > 0 then exec tid func s
  else
    let s4 := announced s tid func
    let newrequest := s4.announce tid
    let initCombSeq := sti2seq s4.per.curComb
    match writeLoop tid uninit newrequest initCombSeq (s.nextState tid) 2 none s4 with
    | (.ret o, _, s5) => (o, s5)
    | (.unwind o, _, s5) => (o, s5)
    | (_, newComb, s5) =>
      let s6 := match newComb with
        | some i => s5.setComb i { (s5.combs i) with rwLock := (s5.combs i).rwLock.exclusiveUnlock }
        | none => s5
      let tl6 := s6.tlocal tid
      let s7 := s6.setLocal tid
        { tl6 with tl_nested_write_trans := tl6.tl_nested_write_trans - 1,
                   tl_cx_size := 0, st := none }
      recordedResult tid true s7

/-! ### Read transactions -/

/-- The loop `for (int i = 0; i < MAX_READ_TRIES + 2; i++)` of
`Redo::ns_read_transaction`; the first argument is the number of iterations left. -/
def readLoop (tid : Nat) (func : Prog) : Nat → Nat → Redo → Ctl × Redo
  | 0, _, s => (.brk, s)
  | n + 1, i, s =>
    let s1 : Redo :=
      if i = MAX_READ_TRIES then
        -- enqueue the read-only operation as if it was a mutation
        (s.setEnqueuer tid func).setAnnounce tid (!s.announce tid)
      else s
    let cComb := s1.per.curComb
    let curCombIndex := sti2idx cComb
    let lcomb := s1.combs curCombIndex
    match lcomb.rwLock.sharedTryLock tid with
    | (false, _) => readLoop tid func n (i + 1) s1
    | (true, l) =>
      let s2 := s1.setComb curCombIndex { lcomb with rwLock := l }
      let ticket := (s2.combs curCombIndex).head
      if sti2seq ticket = sti2seq cComb ∧ cComb = s2.per.curComb then
        let s3 := s2.setLocal tid
          { (s2.tlocal tid) with tl_cx_size := curCombIndex * s2.g.g_main_size }
        match exec tid func s3 with
        | (.value ret, s4) =>
          let s5 := s4.setComb curCombIndex
            { (s4.combs curCombIndex) with
                rwLock := (s4.combs curCombIndex).rwLock.sharedUnlock tid }
          let tl := s5.tlocal tid
          (.ret (.value ret), s5.setLocal tid
            { tl with tl_nested_read_trans := tl.tl_nested_read_trans - 1, tl_cx_size := 0 })
        | (o, s4) => (.unwind o, s4)
      else
        readLoop tid func n (i + 1)
          (s2.setComb curCombIndex
            { (s2.combs curCombIndex) with
                rwLock := (s2.combs curCombIndex).rwLock.sharedUnlock tid })

/-- The method `Redo::ns_read_transaction` (`readTx`) called by thread `tid` with the
closure `func`. -/
def ns_read_transaction (tid : Nat) (func : Prog) (s : Redo) : Outcome × Redo :=
  if (s.tlocal tid).tl_nested_read_trans > 0 then exec tid func s
  else
    let tl := s.tlocal tid
    let s1 := s.setLocal tid { tl with tl_nested_read_trans := tl.tl_nested_read_trans + 1 }
    match readLoop tid func (MAX_READ_TRIES + 2) 0 s1 with
    | (.ret o, s2) => (o, s2)
    | (.unwind o, s2) => (o, s2)
    | (_, s2) =>
      let tl2 := s2.tlocal tid
      let s3 := s2.setLocal tid { tl2 with tl_nested_read_trans := tl2.tl_nested_read_trans - 1 }
      recordedResult tid false s3

/-! ### The allocator calls of the bootstrap transaction -/

/-- The loop of `EsLoco::highestBit`: `while ((val >> (b+1)) != 0) b++`, at most `fuel`
iterations.  The result is `none` when the shift count reaches 64, which is undefined for
the 64-bit operand, or when the iterations do not suffice. -/
def highestBitLoop (val : Nat) : Nat → Nat → Option Nat
  | 0, _ => none
  | fuel + 1, b =>
    if 64 ≤ b + 1 then none
    else if val >>> (b + 1) ≠ 0 then highestBitLoop val fuel (b + 1) else some b

/-- The C++ expression `1 << b` with `b` of type `uint64_t`, as the 64-bit value that
both the conversion to `uint64_t` (in a comparison) and the addition to a pointer turn it
into.  The literal `1` is an `int` and so is the result: `2^b` for `b < 31`, `INT_MIN`
for `b = 31`, whose 64-bit two's complement is `2^64 - 2^31`, and undefined (`none`) for
`b ≥ 32`. -/
def shl1 (b : Nat) : Option Nat :=
  if b < 31 then some (2 ^ b) else if b = 31 then some (2 ^ 64 - 2 ^ 31) else none

/-- The method `EsLoco::highestBit` on a 64-bit value; `none` where one of its shifts is
undefined. -/
def highestBit (val : Nat) : Option Nat :=
  match highestBitLoop val 64 0 with
  | none => none
  | some b =>
    match shl1 b with
    | none => none
    | some sh => some (if val > sh then b + 1 else b)

/-- The method `EsLoco::aligned`. -/
def aligned (addr : Nat) : Nat := (addr &&& 0xFFFFFFFFFFFFFFC0) + 128

/-- Number of free lists of `EsLoco` (`kMaxBlockSize`). -/
def kMaxBlockSize : Nat := 40

/-- A sequence of `pstore` calls followed by `k`. -/
def Prog.stores : List (Nat × Nat) → Prog → Prog
  | [], k => k
  | (a, v) :: rest, k => .pstore a v (Prog.stores rest k)

/-- The method `EsLoco::malloc(size)` inside a closure; `poolTop` is the cell at
`poolAddr`, `freelists[i].next` the cell at `poolAddr + 8 + 16*i`, and a block has its
`next` cell at offset 0 and its `size` cell at offset 8.  Sizes and pointers are 64-bit
values; the result is `none` when `highestBit(size + sizeof(block))` or `1 << bsize` is
undefined. -/
def EsLoco_malloc (poolAddr poolSize size : Nat) (k : Nat → Prog) : Option Prog :=
  match highestBit ((size + 16) % 2 ^ 64) with
  | none => none
  | some bsize =>
    match shl1 bsize with
    | none => none
    | some sh =>
      let freelist := poolAddr + 8 + 16 * bsize
      some (.pload freelist fun fl =>
        if fl ≠ 0 then
          .pload freelist fun myblock =>
            .pload myblock fun next => .pstore freelist next (k ((myblock + 16) % 2 ^ 64))
        else
          .pload poolAddr fun top =>
            if (top + sh) % 2 ^ 64 > (poolSize + poolAddr) % 2 ^ 64 then k 0
            else
              .pload poolAddr fun myblock =>
                .pload poolAddr fun top1 =>
                  .pstore poolAddr ((top1 + sh) % 2 ^ 64)
                    (.pstore (myblock + 8) bsize (k ((myblock + 16) % 2 ^ 64))))

/-- The method `EsLoco::free(ptr)` inside a closure. -/
def EsLoco_free (poolAddr ptr : Nat) (k : Prog) : Prog :=
  if ptr = 0 then k
  else
    let myblock := (ptr + 2 ^ 64 - 16) % 2 ^ 64
    .pload (myblock + 8) fun size =>
      .pload (poolAddr + 8 + 16 * size) fun fl =>
        .pstore myblock fl (.pstore (poolAddr + 8 + 16 * size) myblock k)

/-- The method `EsLoco::getUsedSize` on the memory `m` that a closure sees:
`poolTop->pload() - poolAddr` in 64-bit arithmetic, or 0 while `poolAddr` is `nullptr`. -/
def EsLoco_getUsedSize (poolAddr : Nat) (m : Mem) : Nat :=
  if poolAddr = 0 then 0 else (load64 m poolAddr + 2 ^ 64 - poolAddr) % 2 ^ 64

/-- The method `EsLoco::init(poolAddr, poolSize, true)` inside a closure, followed by
`k`: the heads of the `kMaxBlockSize` free lists are cleared and `poolTop` is set to the
aligned end of the array of free lists. -/
def EsLoco_init (poolAddr : Nat) (k : Prog) : Prog :=
  Prog.stores ((List.range kMaxBlockSize).map (fun i => (poolAddr + 8 + 16 * i, 0)))
    (.pstore poolAddr (aligned (poolAddr + 8 + 16 * kMaxBlockSize)) k)

/-- The closure of the bootstrap transaction of `Redo::createFile`:
`esloco.init(g_main_addr, g_main_size, true)`, the allocation of the root directory and
the clearing of its `NUM_OBJS` slots.  The C++ closure assigns `per->objects` itself and
returns `true`; here the closure returns the pointer and `createFile` assigns it.  The
request of `8 * NUM_OBJS` bytes is one for which `EsLoco::malloc` is defined. -/
def bootstrapProg (g : Globals) : Prog :=
  EsLoco_init g.g_main_addr
    (match EsLoco_malloc g.g_main_addr g.g_main_size (8 * NUM_OBJS) fun objects =>
        Prog.stores ((List.range NUM_OBJS).map (fun i => (objects + 8 * i, 0))) (.ret objects) with
      | some p => p
      | none => .ret 0)

/-! ### Opening the file -/

/-- Size of `Redo::PersistentHeader`. -/
def HEADER_SIZE : Nat := 1024

/-- The globals that the constructor of `Redo` computes from `base_addr` and `max_size`. -/
def mkGlobals (base_addr max_size : Nat) : Globals :=
  { g_main_addr := base_addr + HEADER_SIZE, g_main_size := (max_size - HEADER_SIZE) / MAX_COMBINEDS }

/-- The engine right after the member initialisers of the constructor of `Redo` and the
mapping of the file, whose contents are `per` and `mem`: every volatile structure is
new. -/
def mapped (g : Globals) (per : PersistentHeader) (mem : Mem) : Redo :=
  { g := g, per := per, mem := mem }

/-- The statements `comb = &combs[sti2idx(per->curComb)]; comb->rwLock.setReadLock()`. -/
def setCurReadLock (s : Redo) : Redo :=
  let i := sti2idx s.per.curComb
  s.setComb i { (s.combs i) with rwLock := (s.combs i).rwLock.setReadLock }

/-- The method `Redo::createFile` up to the bootstrap transaction: a new
`PersistentHeader` is constructed over the start of the file and replica 0 is
read-locked.  `mem` is what the file holds (zeros when it has just been created). -/
def createFileStart (g : Globals) (mem : Mem) : Redo :=
  let s := setCurReadLock (mapped g {} mem)
  { s with esloco := { poolAddr := g.g_main_addr, poolSize := g.g_main_size } }

/-- The method `Redo::createFile`, run by thread `tid`. -/
def createFile (g : Globals) (tid uninit : Nat) (mem : Mem) : Redo :=
  let s := createFileStart g mem
  match ns_write_transaction tid (bootstrapProg g) uninit s with
  | (.value objects, s1) => { s1 with per := { s1.per with objects := objects, id := MAGIC_ID } }
  | (_, s1) => { s1 with per := { s1.per with id := MAGIC_ID } }

/-- The constructor of `Redo` when the file exists, run by thread `tid`: the contents
`per`, `mem` of the file are mapped, and kept if the magic number is valid. -/
def reopen (g : Globals) (tid uninit : Nat) (per : PersistentHeader) (mem : Mem) : Redo :=
  let s0 := if per.id ≠ MAGIC_ID then createFile g tid uninit mem else mapped g per mem
  let s1 := setCurReadLock s0
  { s1 with esloco := { poolAddr := g.g_main_addr, poolSize := g.g_main_size } }

/-- Closing the file (the destructor of `Redo`) and opening it again in a new process. -/
def closeAndReopen (tid uninit : Nat) (s : Redo) : Redo :=
  reopen s.g tid uninit s.per s.mem


/-! ### Predicates used by the statements -/

/-- The closure accesses only 8-byte-aligned 64-bit cells of the main region. -/
inductive Prog.InMain (g : Globals) : Prog → Prop where
  | ret (r : Nat) : Prog.InMain g (.ret r)
  | pload (a : Nat) (k : Nat → Prog) : ADDR_IS_IN_MAIN g a = true → a % 8 = 0 →
      (∀ v, Prog.InMain g (k v)) → Prog.InMain g (.pload a k)
  | pstore (a v : Nat) (k : Prog) : ADDR_IS_IN_MAIN g a = true → a % 8 = 0 →
      Prog.InMain g k → Prog.InMain g (.pstore a v k)
  | raise (e : Nat) : Prog.InMain g (.raise e)

/-- The closure makes no store. -/
inductive Prog.ReadOnly : Prog → Prop where
  | ret (r : Nat) : Prog.ReadOnly (.ret r)
  | pload (a : Nat) (k : Nat → Prog) : (∀ v, Prog.ReadOnly (k v)) → Prog.ReadOnly (.pload a k)
  | raise (e : Nat) : Prog.ReadOnly (.raise e)

/-- The offset of replica `i` from the main region: `i * g_main_size`. -/
def Redo.offsetOf (s : Redo) (i : Nat) : Nat := i * s.g.g_main_size

/-- The bytes of replica `i`, each at the address of the main region it stands for. -/
def Redo.replica (s : Redo) (i : Nat) : Mem := fun x => s.mem (x + s.offsetOf i)

/-- The index of the replica that the header designates as current. -/
def Redo.cur (s : Redo) : Nat := sti2idx s.per.curComb

/-- What relates the log `st` of a running transaction, bound to the replica at
`offset`, the memory `m` and the memory `m0` in which its closure started: the chain is
well formed, the log holds aligned addresses of the main region, replaying it onto `m0`
gives `m` and undoing it from `m` gives `m0`. -/
def LogInv (g : Globals) (st : State) (offset : Nat) (m m0 : Mem) : Prop :=
  LogWF st ∧
  (∀ k, k < st.lSize → ADDR_IS_IN_MAIN g (st.entryAt k).addr = true ∧ (st.entryAt k).addr % 8 = 0) ∧
  replay (st.entries st.lSize) offset m0 = m ∧
  undoList (st.entries st.lSize) offset m = m0

/-- The states in which one thread `tid` uses the engine and no transaction is running:
the state after `createFile`'s preparations and after every transaction that `tid` runs
from there.  With `c` the current replica and `o = 1 - c` the other replica that a single
thread uses: `c` is read-locked and every other lock is free; the head of `c` has the
sequence of `curComb` and is in the ring; no request is open in the `State` of that head,
which is not the `State` the thread will use next; and `o` either equals `c` on the main
region or will equal it after the log of that `State` is replayed. -/
structure Quiescent (s : Redo) (tid : Nat) : Prop where
  layout_addr : s.g.g_main_addr % 8 = 0
  layout_size : s.g.g_main_size % 8 = 0
  layout_pos : 0 < s.g.g_main_size
  tid_lt : tid < MAX_THREADS
  cur_le : s.cur ≤ 1
  seq_lt : sti2seq s.per.curComb + 1 < 2 ^ SEQ_BITS
  locks : ∀ i, (s.combs i).rwLock.writer = false ∧ (∀ t, (s.combs i).rwLock.readers t = false) ∧
    (s.combs i).rwLock.readLock = decide (i = s.cur)
  head_seq : sti2seq (s.combs s.cur).head = sti2seq s.per.curComb
  head_ne : (s.combs s.cur).head ≠ makeSeqTidIdx 0 1 0
  ring_cur : s.ring (sti2seq s.per.curComb % RINGSIZE) = (s.combs s.cur).head
  ring_le : ∀ j, sti2seq (s.ring j) ≤ sti2seq s.per.curComb
  no_pending : ∀ i, i < MAX_THREADS →
    s.announce i = (s.getState (sti2tid (s.combs s.cur).head, sti2idx (s.combs s.cur).head)).applied i
  slot_ne : (sti2tid (s.combs s.cur).head, sti2idx (s.combs s.cur).head)
    ≠ (tid, (s.sauron tid).lastIdx)
  lastIdx_lt : (s.sauron tid).lastIdx < STATESSIZE
  nodes_pos : ∀ k, 0 < (s.getState (tid, k)).numNodes
  other_head_ne : (s.combs (1 - s.cur)).head ≠ makeSeqTidIdx 0 1 0
  log_main : ∀ k,
    k < (s.getState (sti2tid (s.combs s.cur).head, sti2idx (s.combs s.cur).head)).logSize →
    ADDR_IS_IN_MAIN s.g ((s.getState (sti2tid (s.combs s.cur).head,
      sti2idx (s.combs s.cur).head)).entryAt k).addr = true ∧
    ((s.getState (sti2tid (s.combs s.cur).head, sti2idx (s.combs s.cur).head)).entryAt k).addr % 8 = 0
  catchup :
    (sti2seq (s.combs (1 - s.cur)).head = sti2seq s.per.curComb ∧
      ∀ x, ADDR_IS_IN_MAIN s.g x = true → s.replica (1 - s.cur) x = s.replica s.cur x) ∨
    (sti2seq (s.combs (1 - s.cur)).head + 1 = sti2seq s.per.curComb ∧
      (s.getState (sti2tid (s.combs s.cur).head, sti2idx (s.combs s.cur).head)).ticket
        = (s.combs s.cur).head ∧
      ∀ x, ADDR_IS_IN_MAIN s.g x = true →
        replay ((s.getState (sti2tid (s.combs s.cur).head, sti2idx (s.combs s.cur).head)).entries
          (s.getState (sti2tid (s.combs s.cur).head, sti2idx (s.combs s.cur).head)).logSize)
          (s.offsetOf (1 - s.cur)) s.mem (x + s.offsetOf (1 - s.cur)) = s.replica s.cur x)
  nested_write : (s.tlocal tid).tl_nested_write_trans = 0
  nested_read : (s.tlocal tid).tl_nested_read_trans = 0


/-! ### The states a write transaction of a single thread goes through -/

/-- The `State` of the head of the current replica (`tail_state`). -/
def Redo.tailState (s : Redo) : Nat × Nat :=
  (sti2tid (s.combs s.cur).head, sti2idx (s.combs s.cur).head)

/-- The ticket of the next transaction of thread `tid` (`newTicket`). -/
def Redo.nextTicket (s : Redo) (tid : Nat) : Nat :=
  makeSeqTidIdx (sti2seq s.per.curComb + 1) tid (s.sauron tid).lastIdx

/-- The state of `ns_write_transaction` when the replica `1 - cur` is held exclusively
and has been brought up to date: its bytes are then those of `m5` and its head is `hd`. -/
def acquired (s : Redo) (tid : Nat) (f : Prog) (m5 : Mem) (hd : Nat) : Redo :=
  let s2 := prepareState (s.nextState tid) s.tailState (s.nextTicket tid) (announced s tid f)
  let o := 1 - s.cur
  let s4 := (s2.setComb o { (s2.combs o) with
      rwLock := { (s2.combs o).rwLock with writer := true } }).setLocal tid
    { (s2.tlocal tid) with tl_cx_size := o * s2.g.g_main_size }
  (s4.setMem m5).setHead o hd

/-- The state of `ns_write_transaction` after the closure of `tid` has run: the log is
`st1` and the bytes are `m1`. -/
def executed (s : Redo) (tid : Nat) (f : Prog) (m5 : Mem) (hd : Nat) (st1 : State) (m1 : Mem) :
    Redo :=
  ((acquired s tid f m5 hd).setState (s.nextState tid) st1).setMem m1

/-- The state of `ns_write_transaction` after the combining loop has recorded the
result `r` of the closure of `tid`. -/
def recorded (s : Redo) (tid : Nat) (f : Prog) (m5 : Mem) (hd : Nat) (st1 : State) (m1 : Mem)
    (r : Nat) : Redo :=
  let s6 := executed s tid f m5 hd st1 m1
  s6.setState (s.nextState tid)
    { (s6.getState (s.nextState tid)) with
        results := fun k => if k = tid then r else (s6.getState (s.nextState tid)).results k,
        applied := fun k => if k = tid then
            !((acquired s tid f m5 hd).getState (s.nextState tid)).applied tid
          else (s6.getState (s.nextState tid)).applied k }

/-- The state in which `ns_write_transaction` returns after a successful
compare-and-swap of `per->curComb`. -/
def committed (s : Redo) (tid : Nat) (f : Prog) (m5 : Mem) (hd : Nat) (st1 : State) (m1 : Mem)
    (r : Nat) : Redo :=
  let s6 := recorded s tid f m5 hd st1 m1 r
  let o := 1 - s.cur
  let st6 := s6.getState (s.nextState tid)
  let s7 := s6.setState (s.nextState tid) { st6 with logSize := st6.lSize }
  let s8 := s7.setHead o (s.nextTicket tid)
  let s9 := s8.setComb o { (s8.combs o) with rwLock := (s8.combs o).rwLock.downgrade }
  let s10 := s9.setCurComb (makeSeqTidIdx (sti2seq s.per.curComb + 1) tid o)
  finishCommit tid (sti2idx s.per.curComb) (sti2seq s.per.curComb) (s.nextTicket tid) s10


/-- Memory filled with zero bytes (a freshly created file). -/
def zeroMem : Mem := fun _ => 0

/-- A small layout for examples: the main region starts at byte 1024 and each replica
has 4096 bytes. -/
def smallGlobals : Globals := { g_main_addr := 1024, g_main_size := 4096 }


/-- The closure of the examples: it increments the 64-bit counter at the start of the
main region of `smallGlobals` and returns the new value. -/
def incrProg : Prog := .pload 1024 fun v => .pstore 1024 (v + 1) (.ret (v + 1))


/-- The state of `ns_read_transaction` when the shared lock on the current replica is
held and the thread is bound to that replica. -/
def reading (s : Redo) (tid : Nat) : Redo :=
  let curCombIndex := sti2idx s.per.curComb
  let lcomb := s.combs curCombIndex
  let s2 := s.setComb curCombIndex { lcomb with rwLock := (lcomb.rwLock.sharedTryLock tid).2 }
  s2.setLocal tid { (s2.tlocal tid) with tl_cx_size := curCombIndex * s2.g.g_main_size }

/-- The state in which `ns_read_transaction` returns from its loop. -/
def readDone (s4 : Redo) (tid curCombIndex : Nat) : Redo :=
  let s5 := s4.setComb curCombIndex
    { (s4.combs curCombIndex) with rwLock := (s4.combs curCombIndex).rwLock.sharedUnlock tid }
  s5.setLocal tid { (s5.tlocal tid) with
    tl_nested_read_trans := (s5.tlocal tid).tl_nested_read_trans - 1, tl_cx_size := 0 }

/-- The read-only closure of the examples: it returns the 64-bit counter at the start of
the main region of `smallGlobals`. -/
def getProg : Prog := .pload 1024 fun v => .ret v


/-- A closure that increments the 64-bit counter at address `a` and returns the new
value. -/
def counterIncr (a : Nat) : Prog := .pload a fun v => .pstore a (v + 1) (.ret (v + 1))

/-- A closure that stores `v` in the 64-bit cell at address `a` and then throws `e`. -/
def storeThenRaise (a v e : Nat) : Prog := .pstore a v (.raise e)

/-- The counter of the scenarios: slot 0 of the root directory that the bootstrap
transaction allocates in the main region of `smallGlobals`. -/
def counterAddr : Nat := 1808

/-- Scenario: a file of `smallGlobals` is created by thread 0, which then commits three
increments of the counter. -/
def threeIncrements : Redo :=
  let s0 := createFile smallGlobals 0 0 zeroMem
  let s1 := (ns_write_transaction 0 (counterIncr counterAddr) 0 s0).2
  let s2 := (ns_write_transaction 0 (counterIncr counterAddr) 0 s1).2
  (ns_write_transaction 0 (counterIncr counterAddr) 0 s2).2

/-- Scenario: the file of `threeIncrements` is closed and opened again. -/
def reopened : Redo := closeAndReopen 0 0 threeIncrements

/-- The counter in the replica that the header designates as current. -/
def currentCounter (s : Redo) : Nat := load64 (s.replica s.cur) counterAddr

/-- Scenario: after `threeIncrements`, thread 0 runs a write transaction whose closure
stores 77 in the counter and then throws. -/
def afterRaise : Outcome × Redo :=
  ns_write_transaction 0 (storeThenRaise counterAddr 77 5) 0 threeIncrements


/-! ### Allocator scenarios -/

/-- The result of `EsLoco::malloc(size)` called on the memory `m`: the pointer returned
and the memory afterwards, or `none` where the call is undefined. -/
def mallocOn (poolAddr poolSize size : Nat) (m : Mem) : Option (Outcome × Mem) :=
  (EsLoco_malloc poolAddr poolSize size .ret).map fun p => p.run m

/-- The statements `p = malloc(size); free(p)` inside a closure that returns `p`. -/
def mallocFree (poolAddr poolSize size : Nat) : Option Prog :=
  EsLoco_malloc poolAddr poolSize size fun p => EsLoco_free poolAddr p (.ret p)

/-- The statements `malloc(size); free(.)` repeated `M` times on the memory `m`: the
pointers that `malloc` returned, in order, and the memory afterwards. -/
def mallocFreeTimes (poolAddr poolSize size : Nat) : Nat → Mem → Option (List Nat × Mem)
  | 0, m => some ([], m)
  | M + 1, m =>
    match mallocFree poolAddr poolSize size with
    | none => none
    | some prog =>
      match prog.run m with
      | (.value p, m1) =>
        match mallocFreeTimes poolAddr poolSize size M m1 with
        | some (ps, m2) => some (p :: ps, m2)
        | none => none
      | _ => none

/-- The layout that the constructor of `Redo` computes by default: `base_addr` is
`0x7fddc0000000` and `max_size` is `PM_REGION_SIZE + 1024` with a region of 2 GB, which
gives replicas of 16 MB. -/
def defaultGlobals : Globals := mkGlobals 0x7fddc0000000 (2 * 1024 * 1024 * 1024 + 1024)

/-- The bytes of a pool at `poolAddr` right after `EsLoco::init` on a zeroed file. -/
def freshPool (poolAddr : Nat) : Mem := ((EsLoco_init poolAddr (.ret 0)).run zeroMem).2

/-- The pointer that `EsLoco::malloc(size)` returns on the memory `m` and the pool top
afterwards. -/
def mallocTop (poolAddr poolSize size : Nat) (m : Mem) : Option (Outcome × Nat) :=
  (mallocOn poolAddr poolSize size m).map fun r => (r.1, load64 r.2 poolAddr)


/-! ### The root directory -/

/-- The method `Redo::get_object(idx)` inside a closure that returns the pointer:
`per->objects[idx].pload()`, where `objects` is the pointer `per->objects`. -/
def get_object (objects idx : Nat) : Prog := .pload (objects + 8 * idx) fun p => .ret p

/-- The method `Redo::put_object(idx, obj)` inside a closure, followed by `k`:
`per->objects[idx].pstore(obj)`. -/
def put_object (objects idx obj : Nat) (k : Prog) : Prog := .pstore (objects + 8 * idx) obj k

/-- The engine after `Redo::createFile` on a new file, with the default layout. -/
def created : Redo := createFile defaultGlobals 0 0 zeroMem

/-- Thread 0 inside a write transaction on a new file of the layout `smallGlobals`, bound
to replica 1 and logging into its `State` number 1. -/
def writing : Redo :=
  (createFileStart smallGlobals zeroMem).setLocal 0
    { tl_nested_write_trans := 1, tl_cx_size := 4096, st := some (0, 1) }

/-! ### The key-value store

The hash map of `TMHashMap.hpp` and the store of `db_impl.h` with `USE_REDO`, which
defines `PTMDB_CAPTURE_BY_COPY`.  Each `PTM_UPDATE_TX` and `PTM_READ_TX` of the store is
a transaction of a single thread, which has the effect and the result of its closure;
the closures are modelled on the objects they work on.  A `PSlice` holds a copy of the
bytes of the `Slice` it was made from, and is kept here as these bytes; a node of the
map is known by its number among the blocks of the nodes' size class instead of its
address. -/

/-- A `Slice`: the bytes `data_[0]` to `data_[size_ - 1]`. -/
abbrev Slice := List (Fin 256)

/-- The method `Slice::toHash`: from 5381, `h = ((h << 5) + h) + data_[i]` in 64-bit
arithmetic, where `data_[i]` is a `char`, which is signed on the platform of the
library: the bytes from 128 on are sign-extended. -/
def Slice.toHash (s : Slice) : Nat :=
  s.foldl (fun h c =>
    ((h <<< 5) + h + (if c.val < 128 then c.val else c.val + 2 ^ 64 - 256)) % 2 ^ 64) 5381

/-- The `Slice` that the constructor `Slice(const char* s)` makes of a buffer that
holds `bytes` followed by a zero byte: `strlen(s)` bytes, up to the first zero. -/
def cstr (bytes : List (Fin 256)) : Slice := bytes.takeWhile (fun c => c ≠ 0)

/-- A node of `TMHashMap`; `next` is the number of the next node of the chain, 0 for
`nullptr`. -/
structure TMHashMap.Node where
  key : Slice
  val : Slice
  next : Nat := 0
  deriving DecidableEq, Repr

/-- The class `TMHashMap` with the nodes it has allocated: `buckets i` is `buckets[i]`,
`nodes a` is the node number `a`; the nodes 1 to `top` have been carved from the pool and
`freeNodes` is the free list of their size class, most recently freed first.  The member
`loadFactor` is only used by `rebuild`, which is never called. -/
structure TMHashMap where
  capacity : Nat
  sizeHM : Nat := 0
  buckets : Nat → Nat := fun _ => 0
  nodes : Nat → TMHashMap.Node := fun _ => { key := [], val := [] }
  top : Nat := 0
  freeNodes : List Nat := []

/-- The assignment `buckets[i] = p`. -/
def TMHashMap.setBucket (m : TMHashMap) (i p : Nat) : TMHashMap :=
  { m with buckets := fun j => if j = i then p else m.buckets j }

/-- The assignment `a->next = p`. -/
def TMHashMap.setNext (m : TMHashMap) (a p : Nat) : TMHashMap :=
  { m with nodes := fun x => if x = a then { (m.nodes a) with next := p } else m.nodes x }

/-- The assignment `a->val = value`. -/
def TMHashMap.setVal (m : TMHashMap) (a : Nat) (value : Slice) : TMHashMap :=
  { m with nodes := fun x => if x = a then { (m.nodes a) with val := value } else m.nodes x }

/-- The constructor of `TMHashMap`: `capacity` buckets, all `nullptr`. -/
def TMHashMap.create (capacity : Nat) : TMHashMap := { capacity := capacity }

/-- The call `PTM_NEW<Node>(key, value)`: `EsLoco::malloc` takes the block on top of the
free list of the size class if there is one and carves a new block otherwise, and the
constructor of `Node` copies the key and the value. -/
def TMHashMap.tmNew (m : TMHashMap) (key value : Slice) : Nat × TMHashMap :=
  match m.freeNodes with
  | a :: rest =>
    (a, { m with freeNodes := rest,
                 nodes := fun x => if x = a then { key := key, val := value } else m.nodes x })
  | [] =>
    (m.top + 1, { m with top := m.top + 1,
                         nodes := fun x => if x = m.top + 1 then { key := key, val := value }
                                           else m.nodes x })

/-- The call `PTM_DELETE(node)`: the block goes on top of the free list. -/
def TMHashMap.tmDelete (m : TMHashMap) (node : Nat) : TMHashMap :=
  { m with freeNodes := node :: m.freeNodes }

/-- The method `TMHashMap::getBucket`: `std::hash<Slice>{}(key) % capacity`, where
`std::hash<uint64_t>` is the identity. -/
def TMHashMap.getBucket (m : TMHashMap) (key : Slice) : Nat := key.toHash % m.capacity

/-- The `while (true)` loop of `TMHashMap::innerPut` with the local variables `node` and
`prev`, at most `fuel` iterations (`none` when they do not suffice). -/
def TMHashMap.innerPutLoop (m : TMHashMap) (key value : Slice) (h : Nat) :
    Nat → Nat → Nat → Option (Bool × TMHashMap)
  | 0, _, _ => none
  | fuel + 1, node, prev =>
    if node = 0 then
      let r := m.tmNew key value
      if node = prev then some (true, r.2.setBucket h r.1)
      else some (true, r.2.setNext prev r.1)
    else if (m.nodes node).key = key then some (false, m.setVal node value)
    else innerPutLoop m key value h fuel (m.nodes node).next node

/-- The method `TMHashMap::innerPut`.  A chain has at most `top` nodes, so `top + 1`
iterations suffice unless the chain is circular, where the method does not return. -/
def TMHashMap.innerPut (m : TMHashMap) (key value : Slice) : Option (Bool × TMHashMap) :=
  if m.capacity = 0 then none
  else
    m.innerPutLoop key value (m.getBucket key) (m.top + 1) (m.buckets (m.getBucket key))
      (m.buckets (m.getBucket key))

/-- The `while (true)` loop of `TMHashMap::innerRemove`. -/
def TMHashMap.innerRemoveLoop (m : TMHashMap) (key : Slice) (h : Nat) :
    Nat → Nat → Nat → Option (Bool × TMHashMap)
  | 0, _, _ => none
  | fuel + 1, node, prev =>
    if node = 0 then some (false, m)
    else if (m.nodes node).key = key then
      if node = prev then some (true, (m.setBucket h (m.nodes node).next).tmDelete node)
      else some (true, (m.setNext prev (m.nodes node).next).tmDelete node)
    else innerRemoveLoop m key h fuel (m.nodes node).next node

/-- The method `TMHashMap::innerRemove`. -/
def TMHashMap.innerRemove (m : TMHashMap) (key : Slice) : Option (Bool × TMHashMap) :=
  if m.capacity = 0 then none
  else
    m.innerRemoveLoop key (m.getBucket key) (m.top + 1) (m.buckets (m.getBucket key))
      (m.buckets (m.getBucket key))

/-- The `while (true)` loop of `TMHashMap::innerGet`; the result is the value returned
and the contents of `*oldValue`. -/
def TMHashMap.innerGetLoop (m : TMHashMap) (key : Slice) (oldValue : Slice) :
    Nat → Nat → Option (Bool × Slice)
  | 0, _ => none
  | fuel + 1, node =>
    if node = 0 then some (false, oldValue)
    else if (m.nodes node).key = key then some (true, (m.nodes node).val)
    else innerGetLoop m key oldValue fuel (m.nodes node).next

/-- The method `TMHashMap::innerGet`. -/
def TMHashMap.innerGet (m : TMHashMap) (key : Slice) (oldValue : Slice) : Option (Bool × Slice) :=
  if m.capacity = 0 then none
  else m.innerGetLoop key oldValue (m.top + 1) (m.buckets (m.getBucket key))

/-- The state of a `TMHashMapIterator`: `bucket` and `node`. -/
structure TMHashMapIterator where
  bucket : Int := -1
  node : Nat := 0
  deriving DecidableEq, Repr

/-- The method `TMHashMapIterator::Valid`. -/
def TMHashMapIterator.Valid (it : TMHashMapIterator) : Bool :=
  if it.bucket = -1 then false else true

/-- The method `TMHashMapIterator::SeekToFirst` on the map `m`. -/
def TMHashMapIterator.SeekToFirst (m : TMHashMap) (it : TMHashMapIterator) : TMHashMapIterator :=
  if m.sizeHM = 0 then { it with bucket := -1 }
  else
    match (List.range m.capacity).find? (fun i => m.buckets i ≠ 0) with
    | some i => { bucket := i, node := m.buckets i }
    | none => it

/-- The method `TMHashMapIterator::Next` on the map `m`. -/
def TMHashMapIterator.Next (m : TMHashMap) (it : TMHashMapIterator) : TMHashMapIterator :=
  if it.bucket = -1 then it
  else if (m.nodes it.node).next ≠ 0 then { it with node := (m.nodes it.node).next }
  else
    match ((List.range m.capacity).drop (it.bucket + 1).toNat).find?
        (fun i => m.buckets i ≠ 0) with
    | some i => { bucket := i, node := m.buckets i }
    | none => { it with bucket := -1 }

/-- Modelled from the spec: the class `Status` (header `status.h` is not among the
sources): what `Status::OK()` and `Status::NotFound(..)` return, which `ok()` and
`IsNotFound()` tell apart. -/
inductive Status where
  | OK
  | NotFound
  deriving DecidableEq, Repr

/-- An entry of a `WriteBatch` (class `WriteBatch::Op`): `operation` is true for a put;
`key` and `value` are the bytes that the arrays hold before their final zero byte
(`value` is `nullptr` for a delete, here no bytes). -/
structure WriteBatch.Op where
  operation : Bool
  key : List (Fin 256)
  value : List (Fin 256)
  deriving DecidableEq, Repr

/-- The class `WriteBatch`: the vector `trans`. -/
structure WriteBatch where
  trans : List WriteBatch.Op := []
  deriving DecidableEq, Repr

/-- The method `WriteBatch::Put`. -/
def WriteBatch.Put (b : WriteBatch) (key value : Slice) : WriteBatch :=
  { trans := b.trans ++ [{ operation := true, key := key, value := value }] }

/-- The method `WriteBatch::Delete`. -/
def WriteBatch.Delete (b : WriteBatch) (key : Slice) : WriteBatch :=
  { trans := b.trans ++ [{ operation := false, key := key, value := [] }] }

/-- The class `DBImpl`: the hash map that `hashMap` points to. -/
structure DBImpl where
  hashMap : TMHashMap

/-- The constructor of `DBImpl` on a new file: the root pointer 0 is null and a
`TMHashMap` is made, with its default capacity. -/
def DBImpl.open : DBImpl := { hashMap := TMHashMap.create (10 * 1024 * 1024) }

/-- The method `DBImpl::Put`. -/
def DBImpl.Put (db : DBImpl) (k v : Slice) : Option (Status × DBImpl) :=
  match db.hashMap.innerPut k v with
  | some r => some (.OK, { db with hashMap := r.2 })
  | none => none

/-- The method `DBImpl::Delete`. -/
def DBImpl.Delete (db : DBImpl) (k : Slice) : Option (Status × DBImpl) :=
  match db.hashMap.innerRemove k with
  | some r => some (if r.1 then .OK else .NotFound, { db with hashMap := r.2 })
  | none => none

/-- The method `DBImpl::Get`; the result is the status and the contents of `*svalue`. -/
def DBImpl.Get (db : DBImpl) (k : Slice) (svalue : Slice) : Option (Status × Slice) :=
  match db.hashMap.innerGet k svalue with
  | some r => some (if r.1 then .OK else .NotFound, r.2)
  | none => none

/-- The loop of `DBImpl::Write` under `PTMDB_CAPTURE_BY_COPY`:
`while (!vec.empty()) { (transaction on vec[vec.size()-1]); vec.pop_back(); }`, at most
`fuel` iterations.  The keys and values reach the map through `Slice(const char*)`. -/
def DBImpl.WriteLoop : Nat → TMHashMap → List WriteBatch.Op → Option (TMHashMap × List WriteBatch.Op)
  | 0, _, _ => none
  | fuel + 1, m, vec =>
    match vec.getLast? with
    | none => some (m, vec)
    | some oper =>
      match (if oper.operation then m.innerPut (cstr oper.key) (cstr oper.value)
             else m.innerRemove (cstr oper.key)) with
      | some r => WriteLoop fuel r.2 vec.dropLast
      | none => none

/-- The method `DBImpl::Write`; the result is the status, the store and what is left in
the batch.  Every iteration removes an entry of the batch, so one more iteration than
it has entries suffices. -/
def DBImpl.Write (db : DBImpl) (my_batch : WriteBatch) : Option (Status × DBImpl × WriteBatch) :=
  match DBImpl.WriteLoop (my_batch.trans.length + 1) db.hashMap my_batch.trans with
  | some r => some (.OK, { db with hashMap := r.1 }, { trans := r.2 })
  | none => none

/-- The pointer `p` leads through the nodes `l`, in this order, to `nullptr`. -/
def IsChain (nodes : Nat → TMHashMap.Node) : Nat → List Nat → Prop
  | p, [] => p = 0
  | p, a :: l => p = a ∧ a ≠ 0 ∧ IsChain nodes (nodes a).next l

/-- The well-formed hash maps, with the chain `ch b` of every bucket `b`: the buckets
lead through their chains; the nodes of a chain are allocated, not free, they are in
the bucket of their key and their keys differ; the free nodes are allocated and listed
once; and `sizeHM` is 0. -/
structure TMHashMap.Rep (m : TMHashMap) (ch : Nat → List Nat) : Prop where
  cap_pos : 0 < m.capacity
  chain : ∀ b, IsChain m.nodes (m.buckets b) (ch b)
  live : ∀ b a, a ∈ ch b → a ≤ m.top ∧ a ∉ m.freeNodes ∧ m.getBucket (m.nodes a).key = b
  keys : ∀ b, ((ch b).map fun a => (m.nodes a).key).Nodup
  free : ∀ a, a ∈ m.freeNodes → a ≠ 0 ∧ a ≤ m.top
  free_nodup : m.freeNodes.Nodup
  size : m.sizeHM = 0

/-- The value that the chains `ch` of the map `m` hold for the key `k`. -/
def TMHashMap.contents (m : TMHashMap) (ch : Nat → List Nat) (k : Slice) : Option Slice :=
  (((ch (m.getBucket k)).map m.nodes).find? fun nd => decide (nd.key = k)).map fun nd => nd.val

/-- The states of the store that a single thread reaches from a new store by `Put`,
`Delete` and `Write`, each with the value that it should hold for every key: the one
last put, if the key has not been deleted since. -/
inductive DBImpl.Reached : DBImpl → (Slice → Option Slice) → Prop where
  | start : DBImpl.Reached DBImpl.open (fun _ => none)
  | put (db db1 : DBImpl) (c : Slice → Option Slice) (k v : Slice) (st : Status) :
      DBImpl.Reached db c → db.Put k v = some (st, db1) →
      DBImpl.Reached db1 (fun x => if x = k then some v else c x)
  | delete (db db1 : DBImpl) (c : Slice → Option Slice) (k : Slice) (st : Status) :
      DBImpl.Reached db c → db.Delete k = some (st, db1) →
      DBImpl.Reached db1 (fun x => if x = k then none else c x)

/-- What the store holds after the update `op` of a batch, if it held `c` before. -/
def WriteBatch.Op.apply (op : WriteBatch.Op) (c : Slice → Option Slice) : Slice → Option Slice :=
  fun x => if x = cstr op.key then (if op.operation then some (cstr op.value) else none) else c x

/-! ### The keys and values of `examples/ut2.cpp` -/

/-- The bytes of the string "This is key one" of `examples/ut2.cpp`. -/
def key1 : Slice :=
  [84, 104, 105, 115, 32, 105, 115, 32, 107, 101, 121, 32, 111, 110, 101]

/-- The bytes of the string "This is key two" of `examples/ut2.cpp`. -/
def key2 : Slice :=
  [84, 104, 105, 115, 32, 105, 115, 32, 107, 101, 121, 32, 116, 119, 111]

/-- The bytes of the string "This is key three" of `examples/ut2.cpp`. -/
def key3 : Slice :=
  [84, 104, 105, 115, 32, 105, 115, 32, 107, 101, 121, 32, 116, 104, 114, 101, 101]

/-- The bytes of the string "This is value one" of `examples/ut2.cpp`. -/
def value1 : Slice :=
  [84, 104, 105, 115, 32, 105, 115, 32, 118, 97, 108, 117, 101, 32, 111, 110, 101]

/-- The bytes of the string "This is value two" of `examples/ut2.cpp`. -/
def value2 : Slice :=
  [84, 104, 105, 115, 32, 105, 115, 32, 118, 97, 108, 117, 101, 32, 116, 119, 111]

/-- The bytes of the string "This is value three" of `examples/ut2.cpp`. -/
def value3 : Slice :=
  [84, 104, 105, 115, 32, 105, 115, 32, 118, 97, 108, 117, 101, 32, 116, 104, 114, 101, 101]

/-- The batch of the header comment of `write_batch.h`: `Put(key, v1)`, `Delete(key)`,
`Put(key, v2)`, `Put(key, v3)`. -/
def headerBatch (key v1 v2 v3 : Slice) : WriteBatch :=
  ((((({} : WriteBatch).Put key v1).Delete key).Put key v2).Put key v3)

/-! ### The bounded array queue

`pdatastructures/pqueues/TMArrayQueue.hpp`.  The closures of `enqueue` and `dequeue`
are run by `updateTx`; here they act on the fields of the queue directly. -/

/-- The value of an arithmetic result stored in an `int64_t`: reduced into
`[-2^63, 2^63)`. -/
def int64 (x : Int) : Int := (x + 2 ^ 63) % 2 ^ 64 - 2 ^ 63

/-- The fields of `TMArrayQueue<K, SIZE, TM, TMTYPE>`: `head`, `tail` (both
`TMTYPE<int64_t>`) and the array `items[SIZE]`. -/
structure TMArrayQueue (K : Type) where
  head : Int := 0
  tail : Int := 0
  items : Nat → K

/-- The member `K EMPTY {}`: the value-initialised `K` (0 for `uint64_t`). -/
def TMArrayQueue.EMPTY (K : Type) [Inhabited K] : K := default

/-- A newly constructed queue: `head {0}`, `tail {0}`; the constructor does not
initialise `items`, which holds whatever `items0` the memory held. -/
def TMArrayQueue.create {K : Type} (items0 : Nat → K) : TMArrayQueue K := { items := items0 }

/-- The element `items[i]` for an `int64_t` index: `none` outside the array. -/
def TMArrayQueue.index (SIZE : Nat) (i : Int) : Option Nat :=
  if 0 ≤ i ∧ i < SIZE then some i.toNat else none

/-- The closure of `TMArrayQueue::enqueue(item)`; `none` when `items` is indexed
outside its bounds. -/
def TMArrayQueue.enqueue {K : Type} (SIZE : Nat) (q : TMArrayQueue K) (item : K) :
    Option (Bool × TMArrayQueue K) :=
  if int64 (q.head + SIZE) = q.tail then some (false, q)
  else
    match TMArrayQueue.index SIZE (Int.tmod q.tail SIZE) with
    | none => none
    | some i =>
      some (true, { q with items := fun k => if k = i then item else q.items k,
                           tail := int64 (q.tail + 1) })

/-- The closure of `TMArrayQueue::dequeue()`; `none` when `items` is indexed outside
its bounds. -/
def TMArrayQueue.dequeue {K : Type} [Inhabited K] (SIZE : Nat) (q : TMArrayQueue K) :
    Option (K × TMArrayQueue K) :=
  if q.head = q.tail then some (TMArrayQueue.EMPTY K, q)
  else
    match TMArrayQueue.index SIZE (Int.tmod q.head SIZE) with
    | none => none
    | some i => some (q.items i, { q with head := int64 (q.head + 1) })

/-- A call of a queue. -/
inductive QueueCall (K : Type) where
  | enqueue (item : K)
  | dequeue
  deriving DecidableEq, Repr

/-- What a call of a queue returns: the flag of `enqueue`, the item of `dequeue`, or
the exception `std::invalid_argument`. -/
inductive QueueResult (K : Type) where
  | accepted (ok : Bool)
  | item (x : K)
  | thrown
  deriving DecidableEq, Repr

/-- A sequence of calls on a `TMArrayQueue`, with the values they return. -/
def TMArrayQueue.calls {K : Type} [Inhabited K] (SIZE : Nat) :
    TMArrayQueue K → List (QueueCall K) → Option (List (QueueResult K) × TMArrayQueue K)
  | q, [] => some ([], q)
  | q, .enqueue x :: rest =>
    match q.enqueue SIZE x with
    | none => none
    | some (ok, q1) =>
      match TMArrayQueue.calls SIZE q1 rest with
      | none => none
      | some (rs, q2) => some (.accepted ok :: rs, q2)
  | q, .dequeue :: rest =>
    match q.dequeue SIZE with
    | none => none
    | some (x, q1) =>
      match TMArrayQueue.calls SIZE q1 rest with
      | none => none
      | some (rs, q2) => some (.item x :: rs, q2)

/-- The bounded first-in first-out queue of the specification, on the list `l` of the
items it holds (oldest first): `enqueue` is refused when `l` has `SIZE` items,
`dequeue` yields `EMPTY` when `l` is empty and the oldest item otherwise. -/
def boundedFifo {K : Type} [Inhabited K] (SIZE : Nat) : List K → List (QueueCall K) → List (QueueResult K)
  | _, [] => []
  | l, .enqueue x :: rest =>
    if l.length = SIZE then .accepted false :: boundedFifo SIZE l rest
    else .accepted true :: boundedFifo SIZE (l ++ [x]) rest
  | [], .dequeue :: rest => .item (TMArrayQueue.EMPTY K) :: boundedFifo SIZE [] rest
  | x :: l, .dequeue :: rest => .item x :: boundedFifo SIZE l rest

/-- The queue `q` holds the items `l`, oldest first, after at most `n` calls. -/
structure TMArrayQueue.Holds {K : Type} (SIZE : Nat) (q : TMArrayQueue K) (l : List K) (n : Nat) :
    Prop where
  head_nonneg : 0 ≤ q.head
  tail_eq : q.tail = q.head + l.length
  length_le : l.length ≤ SIZE
  tail_le : q.tail ≤ n
  items_eq : ∀ i, (h : i < l.length) → q.items ((q.head.toNat + i) % SIZE) = l.get ⟨i, h⟩


/-! ### The linked-list queue with fat nodes

`pdatastructures/pqueues/TMLinkedListFatQueue.hpp`; `RedoOptLinkedListFatQueue.hpp` is the
same code with `redoopt::persist` and `redoopt::RedoOpt` written out. -/

/-- The constant `NUM_ITEMS = 16-3`. -/
def NUM_ITEMS : Nat := 16 - 3

/-- The struct `TMLinkedListFatQueue::Node`; `next` is the address of a node, 0 for
`nullptr`. -/
structure FatNode (T : Type) where
  it : Nat := 1
  ih : Nat := 0
  item : Nat → T
  next : Nat := 0

/-- The fields `head` and `tail` of `TMLinkedListFatQueue<T, TM, TMTYPE>` with the nodes
they reach, by address, and the allocator of nodes: `tmNew` takes the block freed last,
or a new block at `top`. -/
structure TMLinkedListFatQueue (T : Type) where
  head : Nat := 0
  tail : Nat := 0
  nodes : Nat → FatNode T
  top : Nat := 1
  freeNodes : List Nat := []

/-- The call `TM::tmNew<Node>(userItem)`: a block is allocated and `Node(userItem)` is
constructed in it, which sets `it {1}`, `ih {0}`, `next {nullptr}` and `item[0]`; the
other items keep the bytes of the block. -/
def TMLinkedListFatQueue.tmNew {T : Type} (q : TMLinkedListFatQueue T) (userItem : T) :
    Nat × TMLinkedListFatQueue T :=
  let a := match q.freeNodes with
    | [] => q.top
    | b :: _ => b
  let node : FatNode T :=
    { item := fun k => if k = 0 then userItem else (q.nodes a).item k }
  (a, { q with nodes := fun x => if x = a then node else q.nodes x,
               top := match q.freeNodes with
                 | [] => q.top + 1
                 | _ :: _ => q.top,
               freeNodes := q.freeNodes.tail })

/-- The call `TM::tmDelete(node)`. -/
def TMLinkedListFatQueue.tmDelete {T : Type} (q : TMLinkedListFatQueue T) (node : Nat) :
    TMLinkedListFatQueue T :=
  if node = 0 then q else { q with freeNodes := node :: q.freeNodes }

/-- Assign node `a`. -/
def TMLinkedListFatQueue.setNode {T : Type} (q : TMLinkedListFatQueue T) (a : Nat)
    (node : FatNode T) : TMLinkedListFatQueue T :=
  { q with nodes := fun x => if x = a then node else q.nodes x }

/-- The constructor `TMLinkedListFatQueue()` on a region whose blocks hold `nodes0`. -/
def TMLinkedListFatQueue.create {T : Type} [Inhabited T] (nodes0 : Nat → FatNode T) :
    TMLinkedListFatQueue T :=
  let r := TMLinkedListFatQueue.tmNew { nodes := nodes0 } (TMArrayQueue.EMPTY T)
  let q1 := r.2.setNode r.1 { (r.2.nodes r.1) with it := NUM_ITEMS }
  let q2 := q1.setNode r.1 { (q1.nodes r.1) with ih := NUM_ITEMS }
  { q2 with head := r.1, tail := r.1 }

/-- The method `TMLinkedListFatQueue::enqueue(item)`; `none` when a null pointer is
dereferenced. -/
def TMLinkedListFatQueue.enqueue {T : Type} [Inhabited T] [DecidableEq T]
    (q : TMLinkedListFatQueue T) (item : T) : Option (QueueResult T × TMLinkedListFatQueue T) :=
  if item = TMArrayQueue.EMPTY T then some (.thrown, q)
  else
    let ltail := q.tail
    if ltail = 0 then none
    else if (q.nodes ltail).it = NUM_ITEMS then
      let r := q.tmNew item
      let q1 := r.2.setNode r.2.tail { (r.2.nodes r.2.tail) with next := r.1 }
      some (.accepted true, { q1 with tail := r.1 })
    else
      let q1 := q.setNode ltail
        { (q.nodes ltail) with
            item := fun k => if k = (q.nodes ltail).it then item else (q.nodes ltail).item k }
      let q2 := q1.setNode ltail { (q1.nodes ltail) with it := ((q1.nodes ltail).it + 1) % 2 ^ 64 }
      some (.accepted true, q2)

/-- The method `TMLinkedListFatQueue::dequeue()`; `none` when a null pointer is
dereferenced. -/
def TMLinkedListFatQueue.dequeue {T : Type} [Inhabited T] (q : TMLinkedListFatQueue T) :
    Option (QueueResult T × TMLinkedListFatQueue T) :=
  let lhead := q.head
  if lhead = q.tail then some (.item (TMArrayQueue.EMPTY T), q)
  else if lhead = 0 then none
  else
    let r : Nat × TMLinkedListFatQueue T :=
      if (q.nodes lhead).ih = NUM_ITEMS then
        let q1 := { q with head := (q.nodes lhead).next }
        let q2 := q1.tmDelete lhead
        (q2.head, q2)
      else (lhead, q)
    if r.1 = 0 then none
    else
      let item := (r.2.nodes r.1).item (r.2.nodes r.1).ih
      some (.item item,
        r.2.setNode r.1 { (r.2.nodes r.1) with ih := ((r.2.nodes r.1).ih + 1) % 2 ^ 64 })

/-- A sequence of calls on a `TMLinkedListFatQueue`, with the values they return. -/
def TMLinkedListFatQueue.calls {T : Type} [Inhabited T] [DecidableEq T] :
    TMLinkedListFatQueue T → List (QueueCall T) →
      Option (List (QueueResult T) × TMLinkedListFatQueue T)
  | q, [] => some ([], q)
  | q, op :: rest =>
    let step := match op with
      | .enqueue x => q.enqueue x
      | .dequeue => q.dequeue
    match step with
    | none => none
    | some (r, q1) =>
      match TMLinkedListFatQueue.calls q1 rest with
      | none => none
      | some (rs, q2) => some (r :: rs, q2)

/-! ### Hazard pointers

`pdatastructures/pqueues/HazardPointers.hpp`.  Pointers are addresses, 0 for `nullptr`. -/

/-- The constant `HP_MAX_THREADS`. -/
def HP_MAX_THREADS : Nat := 128

/-- The constant `HP_MAX_HPS`. -/
def HP_MAX_HPS : Nat := 128

/-- The class `HazardPointers<T>`: the slots `hp[tid][ihp]` and the retired list of
every thread (`retiredList[tid*CLPAD]`).  `deleted` records the calls
`deleter(obj, tid)` made so far, oldest first. -/
structure HazardPointers where
  maxHPs : Nat
  maxThreads : Nat
  hp : Nat → Nat → Nat := fun _ _ => 0
  retiredList : Nat → List Nat := fun _ => []
  deleted : List (Nat × Nat) := []

/-- The method `HazardPointers::protectPtr(index, ptr, tid)`. -/
def HazardPointers.protectPtr (h : HazardPointers) (index ptr tid : Nat) : Nat × HazardPointers :=
  (ptr, { h with hp := fun t i => if t = tid ∧ i = index then ptr else h.hp t i })

/-- The method `HazardPointers::clear(tid)`. -/
def HazardPointers.clear (h : HazardPointers) (tid : Nat) : HazardPointers :=
  { h with hp := fun t i => if t = tid ∧ i < h.maxHPs then 0 else h.hp t i }

/-- Assign the retired list of thread `tid`. -/
def HazardPointers.setRetired (h : HazardPointers) (tid : Nat) (l : List Nat) : HazardPointers :=
  { h with retiredList := fun t => if t = tid then l else h.retiredList t }

/-- The call `deleter(obj, tid)`. -/
def HazardPointers.callDeleter (h : HazardPointers) (obj tid : Nat) : HazardPointers :=
  { h with deleted := h.deleted ++ [(obj, tid)] }

/-- The loop `for (int ihp = maxHPs-1; ihp >= 0; ihp--)` of `retire` over the slots of
thread `t`, with `n` slots left to look at: whether `obj` is in one of them. -/
def HazardPointers.scanSlots (h : HazardPointers) (t obj : Nat) : Nat → Bool
  | 0 => false
  | n + 1 => if h.hp t n = obj then true else HazardPointers.scanSlots h t obj n

/-- The loop `for (int tid = 0; tid < maxThreads && canDelete; tid++)` of `retire`,
from thread `t` with `n` threads left: the final value of `canDelete`. -/
def HazardPointers.scanThreads (h : HazardPointers) (obj : Nat) : Nat → Nat → Bool
  | 0, _ => true
  | n + 1, t =>
    if h.scanSlots t obj h.maxHPs then false else HazardPointers.scanThreads h obj n (t + 1)

/-- The value of `canDelete` after the scan of all slots for `obj`. -/
def HazardPointers.canDelete (h : HazardPointers) (obj : Nat) : Bool :=
  h.scanThreads obj h.maxThreads 0

/-- The loop `for (unsigned iret = 0; iret < retiredList[tid*CLPAD].size();)` of
`retire`; every iteration erases an element or advances `iret`, so the length of the
list bounds the number of iterations (the first argument). -/
def HazardPointers.retireLoop (tid : Nat) : Nat → Nat → HazardPointers → HazardPointers
  | 0, _, h => h
  | fuel + 1, iret, h =>
    if iret < (h.retiredList tid).length then
      let obj := (h.retiredList tid).getD iret 0
      if h.canDelete obj then
        HazardPointers.retireLoop tid fuel iret
          ((h.setRetired tid ((h.retiredList tid).eraseIdx iret)).callDeleter obj tid)
      else HazardPointers.retireLoop tid fuel (iret + 1) h
    else h

/-- The method `HazardPointers::retire(ptr, tid)`; `HP_THRESHOLD_R` is 0, so the scan
always runs.  The result is `none` when `maxHPs`, `maxThreads` or `tid` exceed the
arrays `hp[HP_MAX_THREADS][HP_MAX_HPS]` and `retiredList`, which the scan would then
index out of bounds. -/
def HazardPointers.retire (h : HazardPointers) (ptr tid : Nat) : Option HazardPointers :=
  if h.maxHPs ≤ HP_MAX_HPS ∧ h.maxThreads ≤ HP_MAX_THREADS ∧ tid < HP_MAX_THREADS then
    let h1 := h.setRetired tid (h.retiredList tid ++ [ptr])
    some (HazardPointers.retireLoop tid (h1.retiredList tid).length 0 h1)
  else none

/-- Some slot `hp[t][i]` with `t < maxThreads` and `i < maxHPs` holds `obj`. -/
def HazardPointers.Referenced (h : HazardPointers) (obj : Nat) : Prop :=
  ∃ t i, t < h.maxThreads ∧ i < h.maxHPs ∧ h.hp t i = obj

/-- Scenario: two threads with two slots each; thread 1 protects the object 500 in its
slot 0, and thread 0 has retired 500 earlier. -/
def hpExample : HazardPointers :=
  (({ maxHPs := 2, maxThreads := 2 } : HazardPointers).setRetired 0 [500]).protectPtr 0 500 1 |>.2

/-- A closure that loads the 64-bit cell at address `a` and returns it. -/
def readCell (a : Nat) : Prog := .pload a fun v => .ret v

/-- Scenario: the state in which the closure of a write transaction of thread 0 runs
after its first store, 77 in the counter, on `threeIncrements`.  The function
`ns_write_transaction` has no handler, so this is the state in which `afterRaise`, where
the closure throws right after that store, leaves the engine. -/
def midWrite : Redo := afterRaise.2

/-- Scenario: in `midWrite` the closure of the write transaction calls `readTx` with a
closure that returns the counter. -/
def nestedRead : Outcome × Redo := ns_read_transaction 0 (readCell counterAddr) midWrite

/-- Scenario: after `nestedRead` the closure of the write transaction stores 9 in the
counter. -/
def storeAfterRead : Redo := (exec 0 (.pstore counterAddr 9 (.ret 0)) nestedRead.2).2

/-- The calls `malloc(size)` for the sizes of a list, in order, on the memory `m`: the
pointers returned and the memory afterwards, or `none` where a call is undefined. -/
def mallocs (poolAddr poolSize : Nat) : List Nat → Mem → Option (List Nat × Mem)
  | [], m => some ([], m)
  | size :: rest, m =>
    match mallocOn poolAddr poolSize size m with
    | some (.value p, m1) =>
      match mallocs poolAddr poolSize rest m1 with
      | some (ps, m2) => some (p :: ps, m2)
      | none => none
    | _ => none

/-! ### The root pointer of the store -/

/-- The loop `while (node != nullptr)` of `TMHashMap::~TMHashMap` over one chain, at
most `fuel` iterations (`none` when they do not suffice). -/
def TMHashMap.destroyChain : Nat → Nat → TMHashMap → Option TMHashMap
  | 0, _, _ => none
  | fuel + 1, node, m =>
    if node = 0 then some m
    else TMHashMap.destroyChain fuel (m.nodes node).next (m.tmDelete node)

/-- The loop `for (int i = 0; i < capacity; i++)` of `TMHashMap::~TMHashMap`; the first
argument is the number of iterations left.  A chain has at most `top` nodes. -/
def TMHashMap.destroyBuckets : Nat → Nat → TMHashMap → Option TMHashMap
  | 0, _, m => some m
  | n + 1, i, m =>
    match TMHashMap.destroyChain (m.top + 1) (m.buckets i) m with
    | none => none
    | some m1 => TMHashMap.destroyBuckets n (i + 1) m1

/-- The destructor `TMHashMap::~TMHashMap`: every node of every bucket is deleted (and
the array of buckets is freed); `none` when a chain is circular and the destructor does
not return. -/
def TMHashMap.destroy (m : TMHashMap) : Option TMHashMap :=
  TMHashMap.destroyBuckets m.capacity 0 m

/-- What the constructor and the destructor of `DBImpl` work on in the persistent
region: the root pointer 0 (`per->objects[0]`), the `TMHashMap` objects by the number of
their block (0 for `nullptr`), which of these blocks hold a live object, and the free
list and top of their size class. -/
structure StoreRegion where
  root0 : Nat := 0
  hashMaps : Nat → TMHashMap := fun _ => TMHashMap.create 0
  live : Nat → Bool := fun _ => false
  freeBlocks : List Nat := []
  top : Nat := 0

/-- The call `PTM_NEW<TMHashMap>()`: a block is allocated and a `TMHashMap` with the
default capacity is constructed in it. -/
def StoreRegion.tmNew (r : StoreRegion) : Nat × StoreRegion :=
  let a := match r.freeBlocks with
    | [] => r.top + 1
    | b :: _ => b
  (a, { r with hashMaps := fun x => if x = a then TMHashMap.create (10 * 1024 * 1024)
                                    else r.hashMaps x,
               live := fun x => if x = a then true else r.live x,
               freeBlocks := r.freeBlocks.tail,
               top := match r.freeBlocks with
                 | [] => r.top + 1
                 | _ :: _ => r.top })

/-- The call `PTM_DELETE(obj)` for a `TMHashMap`: nothing for `nullptr`; otherwise the
destructor runs and the block is freed. -/
def StoreRegion.tmDelete (r : StoreRegion) (obj : Nat) : Option StoreRegion :=
  if obj = 0 then some r
  else
    match (r.hashMaps obj).destroy with
    | none => none
    | some m =>
      some { r with hashMaps := fun x => if x = obj then m else r.hashMaps x,
                    live := fun x => if x = obj then false else r.live x,
                    freeBlocks := obj :: r.freeBlocks }

/-- The transaction of the constructor `DBImpl::DBImpl`; the result is the member
`hashMap`. -/
def DBImpl.construct (r : StoreRegion) : Nat × StoreRegion :=
  let hashMap := r.root0
  if hashMap = 0 then
    let n := r.tmNew
    (n.1, { n.2 with root0 := n.1 })
  else (hashMap, r)

/-- The transaction of the destructor `DBImpl::~DBImpl` of a store whose member
`hashMap` is `hashMap`. -/
def DBImpl.destruct (hashMap : Nat) (r : StoreRegion) : Option StoreRegion :=
  r.tmDelete hashMap

/-- The closure `p` interrupted after `n` of its loads and stores: what is left of it
is replaced by a throw of `e`, which leaves `ns_write_transaction` in the state that the
engine has at that point. -/
def Prog.cutAfter (e : Nat) : Nat → Prog → Prog
  | _, .ret r => .ret r
  | _, .raise x => .raise x
  | 0, .pload _ _ => .raise e
  | 0, .pstore _ _ _ => .raise e
  | n + 1, .pload a k => .pload a fun v => Prog.cutAfter e n (k v)
  | n + 1, .pstore a v k => .pstore a v (Prog.cutAfter e n k)

/-! ### `PSlice` on `Redo`

`ptmdb/slice.h` compiled with `USE_REDO` or `USE_REDOOPT`: neither `USE_CXREDO` nor
`USE_CXREDOTIMED` nor `USE_REDOTIMEDHASH` is defined, so the constructor of `PSlice`
takes the branch `uint64_t offset = 0` without `PTM_LOG`, and `data()` too has
`offset = 0`.  A `PSlice` at the address `self` has its member `data_` in the cell at
`self` and `size_` in the cell at `self + 8`. -/

/-- The call `std::memcpy(a, bytes, n)` from a buffer outside the region. -/
def writeBytes (m : Mem) : Nat → List (Fin 256) → Mem
  | _, [] => m
  | a, b :: rest => writeBytes (fun x => if x = a then b else m x) (a + 1) rest

/-- The first statements of `PSlice::PSlice(const Slice& sl)`, which go through
`persist<T>`: `size_ = sl.size(); data_ = (char*)TM_PMALLOC(size_+1);
_addr = data_.pload(); _size = size_.pload()`.  The closure returns `_addr`; `TM_PMALLOC`
is `EsLoco::malloc`, and a request for which it is undefined ends the closure. -/
def PSlice.allocate (poolAddr poolSize self : Nat) (sl : Slice) : Prog :=
  .pstore (self + 8) sl.length
    (.pload (self + 8) fun size_ =>
      match EsLoco_malloc poolAddr poolSize ((size_ + 1) % 2 ^ 64) (fun p =>
          .pstore self p (.pload self fun _addr => .pload (self + 8) fun _ => .ret _addr)) with
      | some p => p
      | none => .ret 0)

/-- The constructor `PSlice::PSlice(const Slice& sl)` of the object at `self`, run by
thread `tid` inside a transaction: after the statements of `PSlice.allocate`,
`std::memcpy(_addr+offset, sl.data(), _size)` and `*(_addr+_size+offset) = 0` with
`offset = 0`.  The result is `_addr`. -/
def PSlice.construct (tid self : Nat) (sl : Slice) (s : Redo) : Outcome × Redo :=
  match exec tid (PSlice.allocate s.esloco.poolAddr s.esloco.poolSize self sl) s with
  | (.value _addr, s1) =>
    let _size := pload s1.g (s1.tlocal tid).tl_cx_size s1.mem (self + 8)
    let offset := 0
    let m1 := writeBytes s1.mem (_addr + offset) (sl.take _size)
    (.value _addr, s1.setMem (writeBytes m1 (_addr + _size + offset) [0]))
  | r => r

/-- The method `PSlice::data()` of the object at `self`, called by thread `tid`:
`data_.pload() + offset` with `offset = 0`. -/
def PSlice.data (tid self : Nat) (s : Redo) : Nat :=
  pload s.g (s.tlocal tid).tl_cx_size s.mem self + 0

/-- The bytes of memory at `a`, ..., `a + n - 1`. -/
def bytesAt (m : Mem) (a n : Nat) : List (Fin 256) := (List.range n).map fun i => m (a + i)

/-- The addresses of the entries of the redo log that `tlocal.st` of thread `tid`
points to. -/
def loggedAddrs (tid : Nat) (s : Redo) : List Nat :=
  match (s.tlocal tid).st with
  | some p => ((s.getState p).entries (s.getState p).lSize).map fun e => e.addr
  | none => []

/-- Scenario: in `midWrite`, where thread 0 runs a write transaction on replica 1, the
closure allocates a block of 16 bytes for a `PSlice`. -/
def sliceBlock : Outcome × Redo :=
  exec 0 ((EsLoco_malloc midWrite.esloco.poolAddr midWrite.esloco.poolSize 16 .ret).getD (.ret 0))
    midWrite

/-- The address of the `PSlice` of `sliceBlock`. -/
def sliceSelf : Nat :=
  match sliceBlock.1 with
  | .value p => p
  | _ => 0

/-- Scenario: after `sliceBlock` the closure constructs in that block the `PSlice` of
the `Slice` `key1`. -/
def sliceMade : Outcome × Redo := PSlice.construct 0 sliceSelf key1 sliceBlock.2

/-! ## RedoOpt

The engine of `ptms/redoopt/RedoOpt.hpp`, in the namespace `Opt`.  It shares with
`Redo` the byte memory, the globals, `persist<T>` cells, the lock, the closures and the
header.  Write-backs and fences (`PWB`, `PFENCE`, `PSYNC`, `flush_range`) change no
byte and are left out, and with them the bookkeeping that only selects what is flushed:
the cache-line sets (`WriteSetNodeCL`, `CLAggregate`, `clsets`, `addIfAbsent`) and the
flag `Combined::flushcopy`.  Clocks (`gstartTime`, `copyTime`) are left out as well. -/

namespace Opt

def MAX_COMBS : Nat := 2
def MAX_THREADS : Nat := 41
def MAX_COMBINEDS : Nat := MAX_THREADS + 1
def NUM_OBJS : Nat := 8
def MAXLOGSIZE : Nat := 64
def RINGSIZE : Nat := 16192
def STATESSIZE : Nat := 256
def SEQ_BITS : Nat := 40
def TID_BITS : Nat := 8
def IDX_BITS : Nat := 16

/-- The method `RedoOpt::makeSeqTidIdx`, on 64-bit words. -/
def makeSeqTidIdx (seq tid idx : Nat) : Nat :=
  ((seq <<< (TID_BITS + IDX_BITS)) ||| (tid <<< IDX_BITS) ||| idx) % 2 ^ 64

/-- The method `RedoOpt::sti2seq`. -/
def sti2seq (sti : Nat) : Nat := sti >>> (TID_BITS + IDX_BITS)

/-- The method `RedoOpt::sti2tid`. -/
def sti2tid (sti : Nat) : Nat := (sti >>> IDX_BITS) &&& ((1 <<< TID_BITS) - 1)

/-- The method `RedoOpt::sti2idx`. -/
def sti2idx (sti : Nat) : Nat := sti &&& ((1 <<< IDX_BITS) - 1)

/-- The end of the region of `RedoOpt`: `g_main_addr + MAX_COMBINEDS*g_main_size`. -/
def g_region_end (g : Globals) : Nat := g.g_main_addr + MAX_COMBINEDS * g.g_main_size

/-- The macro `ADDR_IS_IN_REGION` of `RedoOpt.hpp`. -/
def ADDR_IS_IN_REGION (g : Globals) (addr : Nat) : Bool :=
  decide (g.g_main_addr ≤ addr) && decide (addr < g_region_end g)

/-! ### The redo log with its hash buckets -/

/-- The struct `RedoOpt::WriteSetEntry`.  `next` points to an entry of the same node
and is its index in `log`. -/
structure WriteSetEntry where
  addr : Nat := 0
  oldval : Nat := 0
  val : Nat := 0
  next : Option Nat := none
  deriving DecidableEq, Repr

/-- The struct `RedoOpt::WriteSetNode`.  A bucket points to an entry of the same node
and is its index in `log`; the constructor makes every bucket point to the last entry.
The links `next` and `prev` are the position of the node in the chain. -/
structure WriteSetNode where
  buckets : Nat → Nat := fun _ => MAXLOGSIZE - 1
  log : Nat → WriteSetEntry := fun _ => {}

/-- The class `RedoOpt::State`.  `nodes 0` is `logHead`, `nodes (k+1)` is the `next`
of `nodes k`, `numNodes` is the number of nodes of the chain and `logTail` the position
of the node that `logTail` points to. -/
structure State where
  ticket : Nat := 0
  applied : Nat → Bool := fun _ => false
  results : Nat → Nat := fun _ => 0
  nodes : Nat → WriteSetNode := fun _ => {}
  numNodes : Nat := 1
  logTail : Nat := 0
  lSize : Nat := 0
  logSize : Nat := 0

/-- The method `RedoOpt::hashAddress`. -/
def hashAddress (addr : Nat) : Nat := (addr >>> 3) % MAXLOGSIZE

/-- Replace node `n` of the chain. -/
def State.setNode (st : State) (n : Nat) (node : WriteSetNode) : State :=
  { st with nodes := fun k => if k = n then node else st.nodes k }

/-- The method `RedoOpt::addAddress` on the node `tail`. -/
def addAddress (tail : WriteSetNode) (lSize addr oldval val hashAddr : Nat) (next : Option Nat) :
    WriteSetNode :=
  let e := lSize % MAXLOGSIZE
  { log := fun k => if k = e then { addr := addr, oldval := oldval, val := val, next := next }
      else tail.log k,
    buckets := fun h => if h = hashAddr then e else tail.buckets h }

/-- The loop `while (be != nullptr)` of `addAddrIfAbsent`: the entry of the bucket chain
starting at `be` whose address is `addr`.  Every `next` points to a lower index, so
`MAXLOGSIZE` steps (the first argument) reach the end of any chain. -/
def findInBucket (node : WriteSetNode) (addr : Nat) : Nat → Option Nat → Option Nat
  | 0, _ => none
  | _ + 1, none => none
  | fuel + 1, some be =>
    if (node.log be).addr = addr then some be
    else findInBucket node addr fuel (node.log be).next

/-- The search loop of `addAddrIfAbsent` when the tail node is full
(`lSize % MAXLOGSIZE == 0`): nodes `node`, `node - 1`, ... are searched, `i` counting
them; the result is the node and entry that hold `addr`.  The first argument is the
number of iterations left. -/
def searchFull (st : State) (addr hashAddr : Nat) : Nat → Nat → Nat → Option (Nat × Nat)
  | 0, _, _ => none
  | n + 1, i, node =>
    if i = 16 then none
    else
      let be := (st.nodes node).buckets hashAddr
      let found :=
        if hashAddress ((st.nodes node).log be).addr = hashAddr then
          findInBucket (st.nodes node) addr MAXLOGSIZE (some be)
        else none
      match found with
      | some k => some (node, k)
      | none => searchFull st addr hashAddr n (i + 1) (node - 1)

/-- The search loop of `addAddrIfAbsent` when the tail node is not full. -/
def searchPart (st : State) (addr hashAddr lSize : Nat) : Nat → Nat → Nat → Option (Nat × Nat)
  | 0, _, _ => none
  | n + 1, i, node =>
    if i = 16 then none
    else
      let be := (st.nodes node).buckets hashAddr
      if hashAddress ((st.nodes node).log be).addr ≠ hashAddr then
        searchPart st addr hashAddr lSize n (i + 1) (node - 1)
      else
        let found :=
          if i ≠ 0 ∨ (i = 0 ∧ be < lSize % MAXLOGSIZE) then
            findInBucket (st.nodes node) addr MAXLOGSIZE (some be)
          else none
        match found with
        | some k => some (node, k)
        | none => searchPart st addr hashAddr lSize n (i + 1) (node - 1)

/-- The statement `be->val = val` on entry `k` of node `n`. -/
def State.setVal (st : State) (n k val : Nat) : State :=
  st.setNode n { (st.nodes n) with
    log := fun j => if j = k then { ((st.nodes n).log k) with val := val } else (st.nodes n).log j }

/-- The end of `addAddrIfAbsent`: the entry is appended to the node `tail`. -/
def appendEntry (st : State) (tail lSize addr oldval val hashAddr : Nat) : State :=
  let e := lSize % MAXLOGSIZE
  let be := (st.nodes tail).buckets hashAddr
  let next : Option Nat :=
    if be < e ∧ hashAddress ((st.nodes tail).log be).addr = hashAddr then some be else none
  { (st.setNode tail (addAddress (st.nodes tail) lSize addr oldval val hashAddr next)) with
    lSize := lSize + 1 }

/-- The method `RedoOpt::addAddrIfAbsent` on the `State` that `tlocal.st` points to;
the result is `false` if the address is already present, otherwise `true`. -/
def addAddrIfAbsent (st : State) (addr oldval val : Nat) : Bool × State :=
  let hashAddr := hashAddress addr
  let tail := st.logTail
  let lSize := st.lSize
  if lSize = 0 then
    (true, { (st.setNode tail (addAddress (st.nodes tail) lSize addr oldval val hashAddr none)) with
      lSize := lSize + 1 })
  else if lSize % MAXLOGSIZE = 0 then
    match searchFull st addr hashAddr (lSize / MAXLOGSIZE) 0 tail with
    | some (n, k) => (false, st.setVal n k val)
    | none =>
      let st1 : State :=
        if tail + 1 < st.numNodes then { st with logTail := tail + 1 }
        else { (st.setNode (tail + 1) {}) with numNodes := tail + 2, logTail := tail + 1 }
      (true, appendEntry st1 (tail + 1) lSize addr oldval val hashAddr)
  else
    match searchPart st addr hashAddr lSize (lSize / MAXLOGSIZE + 1) 0 tail with
    | some (n, k) => (false, st.setVal n k val)
    | none => (true, appendEntry st tail lSize addr oldval val hashAddr)

/-- The method `persist<T>::pload` of `RedoOpt.hpp`. -/
def pload (g : Globals) (cx_size : Nat) (m : Mem) (valaddr : Nat) : Nat :=
  if cx_size ≠ 0 ∧ ADDR_IS_IN_MAIN g valaddr = true then load64 m (valaddr + cx_size)
  else load64 m valaddr

/-- The method `persist<T>::pstore` of `RedoOpt.hpp` for a 64-bit cell, with
`tlocal.tl_cx_size = offset` and `tlocal.st` pointing to `st`. -/
def pstore (g : Globals) (offset : Nat) (st : State) (m : Mem) (valaddr newVal : Nat) :
    State × Mem :=
  if offset ≠ 0 ∧ ADDR_IS_IN_MAIN g valaddr = true then
    let oldval := load64 m (valaddr + offset)
    if oldval ≠ newVal then
      ((addAddrIfAbsent st valaddr oldval newVal).2, store64 m (valaddr + offset) newVal)
    else (st, m)
  else if ADDR_IS_IN_REGION g valaddr = true then
    let oldval := load64 m valaddr
    if oldval ≠ newVal then
      ((addAddrIfAbsent st (valaddr - offset) oldval newVal).2, store64 m valaddr newVal)
    else (st, m)
  else (st, store64 m valaddr newVal)


/-! ### The state of the engine -/

/-- The class `RedoOpt::States`. -/
structure States where
  states : Nat → State := fun _ => {}
  lastIdx : Nat := 1

/-- The global instance `gRedo` of `RedoOpt` with the globals and thread-locals it
works on.  `per` and `mem` are the contents of the mapped file, everything else is
volatile.  `Combined` is used without its fields `flushcopy` and `clsets`, `VarLocal`
without `copy` and `writes`. -/
structure RedoOpt where
  g : Globals
  per : PersistentHeader := {}
  mem : Mem
  combs : Nat → Combined := fun _ => {}
  sauron : Nat → States := fun _ => {}
  ring : Nat → Nat := fun _ => 0
  enqueuers : Nat → Option Prog := fun _ => none
  announce : Nat → Bool := fun _ => false
  esloco : EsLocoVol := {}
  tlocal : Nat → VarLocal := fun _ => {}

/-- The `State` a pointer refers to. -/
def RedoOpt.getState (s : RedoOpt) (p : Nat × Nat) : State := (s.sauron p.1).states p.2

/-- Assign the `State` a pointer refers to. -/
def RedoOpt.setState (s : RedoOpt) (p : Nat × Nat) (st : State) : RedoOpt :=
  { s with sauron := fun t => if t = p.1 then
      { (s.sauron t) with states := fun i => if i = p.2 then st else (s.sauron t).states i }
    else s.sauron t }

/-- Assign the thread-local variables of thread `tid`. -/
def RedoOpt.setLocal (s : RedoOpt) (tid : Nat) (v : VarLocal) : RedoOpt :=
  { s with tlocal := fun t => if t = tid then v else s.tlocal t }

/-- Assign `combs[i]`. -/
def RedoOpt.setComb (s : RedoOpt) (i : Nat) (c : Combined) : RedoOpt :=
  { s with combs := fun k => if k = i then c else s.combs k }

/-- Assign `ring[i]`. -/
def RedoOpt.setRing (s : RedoOpt) (i : Nat) (t : Nat) : RedoOpt :=
  { s with ring := fun k => if k = i then t else s.ring k }

/-- Assign the contents of memory. -/
def RedoOpt.setMem (s : RedoOpt) (m : Mem) : RedoOpt := { s with mem := m }

/-- Assign `per->curComb`. -/
def RedoOpt.setCurComb (s : RedoOpt) (c : Nat) : RedoOpt :=
  { s with per := { s.per with curComb := c } }

/-- Assign `enqueuers[tid]`. -/
def RedoOpt.setEnqueuer (s : RedoOpt) (tid : Nat) (f : Prog) : RedoOpt :=
  { s with enqueuers := fun t => if t = tid then some f else s.enqueuers t }

/-- Assign `announce[tid]`. -/
def RedoOpt.setAnnounce (s : RedoOpt) (tid : Nat) (b : Bool) : RedoOpt :=
  { s with announce := fun t => if t = tid then b else s.announce t }

/-- Assign `sauron[tid].lastIdx`. -/
def RedoOpt.setLastIdx (s : RedoOpt) (tid n : Nat) : RedoOpt :=
  { s with sauron := fun t => if t = tid then { (s.sauron t) with lastIdx := n } else s.sauron t }

/-- Assign `combs[i].head`. -/
def RedoOpt.setHead (s : RedoOpt) (i h : Nat) : RedoOpt :=
  s.setComb i { (s.combs i) with head := h }

/-- The root of replica `i`: `combs[i].root = g_main_addr + i*g_main_size`. -/
def RedoOpt.root (s : RedoOpt) (i : Nat) : Nat := s.g.g_main_addr + i * s.g.g_main_size

/-- Run the closure `p` on thread `tid` with the `pload` and `pstore` of `RedoOpt.hpp`.
A `pstore` that logs while `tlocal.st` is `nullptr` is a fault. -/
def exec (tid : Nat) : Prog → RedoOpt → Outcome × RedoOpt
  | .ret r, s => (.value r, s)
  | .pload a k, s => exec tid (k (RedoDB.pload s.g (s.tlocal tid).tl_cx_size s.mem a)) s
  | .pstore a v k, s =>
    match (s.tlocal tid).st with
    | some p =>
      let r := pstore s.g (s.tlocal tid).tl_cx_size (s.getState p) s.mem a v
      exec tid k ((s.setState p r.1).setMem r.2)
    | none =>
      if ADDR_IS_IN_REGION s.g a = true then (.fault, s)
      else exec tid k (s.setMem (store64 s.mem a v))
  | .raise e, s => (.raised e, s)

/-! ### Undo and replay -/

/-- The loop `for (int i = len-1; i >= 0; i--)` of `RedoOpt::apply_undolog` on one node. -/
def undoNode (node : WriteSetNode) (offset : Nat) : Nat → Mem → Mem
  | 0, m => m
  | i + 1, m => undoNode node offset i (store64 m ((node.log i).addr + offset) (node.log i).oldval)

/-- The loop `while (node != nullptr)` of `RedoOpt::apply_undolog`: node `n` is undone
with length `len`, the nodes before it with length `MAXLOGSIZE`. -/
def undoChain (st : State) (offset : Nat) : Nat → Nat → Mem → Mem
  | 0, len, m => undoNode (st.nodes 0) offset len m
  | n + 1, len, m => undoChain st offset n MAXLOGSIZE (undoNode (st.nodes (n + 1)) offset len m)

/-- The method `RedoOpt::apply_undolog`, with `tlocal.tl_cx_size = offset`. -/
def apply_undolog (st : State) (offset : Nat) (m : Mem) : Mem :=
  if st.lSize > 0 then
    let len := st.lSize % MAXLOGSIZE
    undoChain st offset st.logTail (if len = 0 then MAXLOGSIZE else len) m
  else m

/-- The loop `for (int i = 0; i < len; i++)` of `RedoOpt::copy_redolog` on one node; the
flag tells whether the function returned at an entry outside the main region. -/
def redoNode (g : Globals) (node : WriteSetNode) (offset : Nat) : Nat → Nat → Mem → Bool × Mem
  | 0, _, m => (false, m)
  | n + 1, i, m =>
    if ADDR_IS_IN_MAIN g (node.log i).addr = true then
      redoNode g node offset n (i + 1) (store64 m ((node.log i).addr + offset) (node.log i).val)
    else (true, m)

/-- The loop `while (true)` of `RedoOpt::copy_redolog`; `j` entries have been written and
`node` is the position of the current node.  The first argument bounds the number of
nodes visited (`none` when it does not suffice). -/
def redoChain (g : Globals) (st : State) (redoSize offset : Nat) :
    Nat → Nat → Nat → Mem → Option Mem
  | 0, _, _, _ => none
  | fuel + 1, node, j, m =>
    let len := if redoSize - j < MAXLOGSIZE then redoSize % MAXLOGSIZE else MAXLOGSIZE
    match redoNode g (st.nodes node) offset len 0 m with
    | (true, m1) => some m1
    | (false, m1) =>
      if j + len ≥ redoSize then some m1
      else if node + 1 < st.numNodes then redoChain g st redoSize offset fuel (node + 1) (j + len) m1
      else none

/-- The method `RedoOpt::copy_redolog(state, redoSize, tid, offset)`; `none` when the
chain of nodes ends before `redoSize` entries. -/
def copy_redolog (g : Globals) (st : State) (redoSize offset : Nat) (m : Mem) : Option Mem :=
  redoChain g st redoSize offset (redoSize + 1) 0 0 m


/-! ### Acquiring a replica: copy and catch-up -/

/-- The method `EsLoco::getUsedSize` for `RedoOpt`, with `tlocal.tl_cx_size = cx_size`. -/
def getUsedSize (s : RedoOpt) (cx_size : Nat) : Nat :=
  if s.esloco.poolAddr = 0 then 0
  else (RedoDB.pload s.g cx_size s.mem s.esloco.poolAddr + 2 ^ 64 - s.esloco.poolAddr) % 2 ^ 64

/-- The function `ntstore` of `pfences.h`: an 8-byte copy. -/
def ntstore (m : Mem) (dst src : Nat) : Mem := memcpy m dst src 8

/-- The function `quadntstore` of `pfences.h`: 64 bytes are loaded and then stored. -/
def quadntstore (m : Mem) (dst src : Nat) : Mem := memcpy m dst src 64

/-- The loop of `RedoOpt::ntmemcpy`; the first argument is the number of words left. -/
def ntmemcpyLoop : Nat → Nat → Nat → Mem → Mem
  | 0, _, _, m => m
  | n + 1, dst, src, m => ntmemcpyLoop n (dst + 8) (src + 8) (ntstore m dst src)

/-- The method `RedoOpt::ntmemcpy`: one `ntstore` for every `ptr < last`. -/
def ntmemcpy (m : Mem) (dst src copySize : Nat) : Mem :=
  ntmemcpyLoop ((copySize + 7) / 8) dst src m

/-- The loop of `RedoOpt::quadntmemcpy`; the first argument is the number of blocks left. -/
def quadntmemcpyLoop : Nat → Nat → Nat → Mem → Mem
  | 0, _, _, m => m
  | n + 1, dst, src, m => quadntmemcpyLoop n (dst + 64) (src + 64) (quadntstore m dst src)

/-- The method `RedoOpt::quadntmemcpy`: one `quadntstore` for every `ptr < last`. -/
def quadntmemcpy (m : Mem) (dst src copySize : Nat) : Mem :=
  quadntmemcpyLoop ((copySize + 63) / 64) dst src m

/-- The result of `std::memcmp(to, from, n) != 0`. -/
def differ (m : Mem) (dst src n : Nat) : Bool :=
  (List.range n).any fun i => decide (m (dst + i) ≠ m (src + i))

/-- The first loop of `RedoOpt::copyFromTo`: single words are copied until `from` is
aligned to 64 bytes.  The first argument is the number of iterations left; the result
is the memory and the remaining `to`, `from` and `size`. -/
def alignLoop : Nat → Nat → Nat → Nat → Mem → Mem × Nat × Nat × Nat
  | 0, dst, src, size, m => (m, dst, src, size)
  | n + 1, dst, src, size, m =>
    if size > 0 then
      if src % 64 = 0 then (m, dst, src, size)
      else alignLoop n (dst + 8) (src + 8) ((size + 2 ^ 64 - 8) % 2 ^ 64) (ntstore m dst src)
    else (m, dst, src, size)

/-- The second loop of `RedoOpt::copyFromTo`, in chunks of `copySize` bytes; the result
is `false` for the early `return false`.  The first argument is the number of
iterations left (`none` when they do not suffice). -/
def chunkLoop (s : RedoOpt) (initComb copySize : Nat) :
    Nat → Nat → Nat → Nat → Mem → Option (Bool × Mem)
  | 0, _, _, size, m => if size > 0 then none else some (true, m)
  | fuel + 1, dst, src, size, m =>
    if size > 0 then
      if copySize > size then some (true, ntmemcpy m dst src size)
      else
        let m1 := if differ m dst src copySize then quadntmemcpy m dst src copySize else m
        if s.per.curComb ≠ initComb then some (false, m1)
        else chunkLoop s initComb copySize fuel (dst + copySize) (src + copySize) (size - copySize) m1
    else some (true, m)

/-- The method `RedoOpt::copyFromTo(from, to, fromIdx, initComb, tid)`.  The result is
`none` when one of the two assertions fails. -/
def copyFromTo (s : RedoOpt) (src dst fromIdx initComb : Nat) : Option (Bool × RedoOpt) :=
  let usedSize := getUsedSize s (fromIdx * s.g.g_main_size)
  if src % 8 ≠ 0 ∨ usedSize % 8 ≠ 0 then none
  else
    match alignLoop 8 dst src usedSize s.mem with
    | (m1, dst1, src1, size1) =>
      match chunkLoop s initComb (16 * 1024) (size1 / (16 * 1024) + 1) dst1 src1 size1 m1 with
      | none => none
      | some (false, m2) => some (false, s.setMem m2)
      | some (true, m2) =>
        if s.per.curComb ≠ initComb then some (false, s.setMem m2) else some (true, s.setMem m2)

/-- The loop `for (int i = 0; i < 2; i++)` of `RedoOpt::makeCopy`; `none` is the failed
`assert(false)` after the loop or a failed assertion of `copyFromTo`. -/
def makeCopyLoop (newComb tid initCombSeq : Nat) : Nat → Nat → RedoOpt → Option (Bool × RedoOpt)
  | 0, _, _ => none
  | n + 1, initComb, s =>
    let lCombIndex := sti2idx initComb
    let head := (s.combs lCombIndex).head
    if initComb ≠ s.per.curComb then
      let initComb1 := s.per.curComb
      if sti2seq initComb1 ≥ initCombSeq + 2 then some (false, s)
      else makeCopyLoop newComb tid initCombSeq n initComb1 s
    else
      let tail_state := s.getState (sti2tid head, sti2idx head)
      if s.announce tid = tail_state.applied tid then
        if initComb = s.per.curComb then some (false, s)
        else
          let initComb1 := s.per.curComb
          if sti2seq initComb1 ≥ initCombSeq + 2 then some (false, s)
          else makeCopyLoop newComb tid initCombSeq n initComb1 s
      else
        match copyFromTo s (s.root lCombIndex) (s.root newComb) lCombIndex initComb with
        | none => none
        | some (false, s1) =>
          let initComb1 := s1.per.curComb
          if sti2seq initComb1 ≥ initCombSeq + 2 then some (false, s1)
          else makeCopyLoop newComb tid initCombSeq n initComb1 s1
        | some (true, s1) => some (true, s1.setHead newComb head)

/-- The method `RedoOpt::makeCopy(newComb, tid)`, `newComb` being `&combs[newComb]`. -/
def makeCopy (newComb tid : Nat) (s : RedoOpt) : Option (Bool × RedoOpt) :=
  let initComb := s.per.curComb
  makeCopyLoop newComb tid (sti2seq initComb) 2 initComb (s.setHead newComb (makeSeqTidIdx 0 1 0))

/-- The loop `for (; i <= lastSeq; i++)` of `RedoOpt::apply_redologs`.  The first
argument is the number of iterations left; the result carries the final `i` and
`ringTicket`, and is `none` when `copy_redolog` runs off the chain of nodes. -/
def redoLoop (tid newComb initCombSeq : Nat) :
    Nat → Nat → Nat → RedoOpt → Option (RedoExit × Nat × Nat × RedoOpt)
  | 0, i, ringTicket, s => some (.finished, i, ringTicket, s)
  | n + 1, i, _, s =>
    let ringTicket := s.ring (i % RINGSIZE)
    if i ≠ sti2seq ringTicket then some (.broke, i, ringTicket, s)
    else
      let apply_state := s.getState (sti2tid ringTicket, sti2idx ringTicket)
      let redoSize := apply_state.logSize
      if ringTicket ≠ apply_state.ticket then some (.broke, i, ringTicket, s)
      else if redoSize > getUsedSize s (s.tlocal tid).tl_cx_size / (8 * 10) then
        some (.broke, i, ringTicket, s)
      else
        let applied : Option RedoOpt :=
          if redoSize > 0 then
            (copy_redolog s.g apply_state redoSize (s.tlocal tid).tl_cx_size s.mem).map s.setMem
          else some s
        match applied with
        | none => none
        | some s1 =>
          if sti2seq s1.per.curComb ≥ initCombSeq + 2 then
            some (.returnedNull, i, ringTicket, s1.setHead newComb ringTicket)
          else redoLoop tid newComb initCombSeq n (i + 1) ringTicket s1

/-- The method `RedoOpt::apply_redologs`; the flag is `true` when it returns `newComb`
and `false` when it returns `nullptr`.  `uninit` is the indeterminate value that the
local variable `ringTicket` has before the loop assigns it. -/
def apply_redologs (newComb initCombSeq lastAppliedTicket ltail tid uninit : Nat) (s : RedoOpt) :
    Option (Bool × RedoOpt) :=
  let start := sti2seq lastAppliedTicket
  let lastSeq := sti2seq ltail
  match redoLoop tid newComb initCombSeq (lastSeq + 1 - (start + 1)) (start + 1) uninit s with
  | none => none
  | some (.returnedNull, _, _, s1) => some (false, s1)
  | some (_, i, ringTicket, s1) =>
    if i ≠ lastSeq + 1 then makeCopy newComb tid s1
    else some (true, s1.setHead newComb ringTicket)

/-- One scan `for (int i = 0; i < maxCombs; i++)` of `RedoOpt::getNewComb`: the result
is `some (some i)` when replica `i` was locked, `some none` for `return -1`, and `none`
when the scan ends without a replica.  The first argument is the number of iterations
left. -/
def scanCombs (tid cComb : Nat) : Nat → Nat → RedoOpt → Option (Option Nat × RedoOpt)
  | 0, _, _ => none
  | n + 1, i, s =>
    if cComb ≠ s.per.curComb then some (none, s)
    else
      match (s.combs i).rwLock.exclusiveTryLock tid with
      | (true, l) => some (some i, s.setComb i { (s.combs i) with rwLock := l })
      | (false, _) => scanCombs tid cComb n (i + 1) s

/-- The method `RedoOpt::getNewComb`.  A scan over the first `maxCombs` replicas is
repeated until the time window ends and `maxCombs` is incremented; with nothing else
running a scan that fails fails again, so the scans are those for `maxCombs`,
`maxCombs + 1`, ...  The first argument is the number of values of `maxCombs` left
before `assert(maxCombs <= maxThreads + 1)` fails (`none`). -/
def getNewCombLoop (tid cComb : Nat) : Nat → Nat → RedoOpt → Option (Option Nat × RedoOpt)
  | 0, _, _ => none
  | n + 1, maxCombs, s =>
    match scanCombs tid cComb maxCombs 0 s with
    | some r => some r
    | none => getNewCombLoop tid cComb n (maxCombs + 1) s

/-- The method `RedoOpt::getNewComb(cComb, tid)`. -/
def getNewComb (tid cComb : Nat) (s : RedoOpt) : Option (Option Nat × RedoOpt) :=
  getNewCombLoop tid cComb (MAX_THREADS + 2 - MAX_COMBS) MAX_COMBS s


/-! ### Write transactions -/

/-- The loop of `RedoOpt::flushCopy`: it flushes `flushSize` bytes per iteration and
returns `false` when `per->curComb` has moved on.  The first argument is the number of
iterations left (`none` when they do not suffice). -/
def flushCopyLoop (s : RedoOpt) (tid initCombSeq : Nat) : Nat → Nat → Nat → Nat → Option Bool
  | 0, size, _, _ => if size > 0 then none else some true
  | fuel + 1, size, flushSize, curC =>
    if size > 0 then
      let flushSize1 := if flushSize > size then size else flushSize
      let cComb := s.per.curComb
      if cComb ≠ curC then
        if sti2seq cComb ≥ initCombSeq + 2 then some false
        else
          let ltail := (s.combs (sti2idx cComb)).head
          if cComb ≠ s.per.curComb then some false
          else
            let tail_state := s.getState (sti2tid ltail, sti2idx ltail)
            if s.announce tid = tail_state.applied tid ∧ cComb = s.per.curComb then some false
            else flushCopyLoop s tid initCombSeq fuel (size - flushSize1) flushSize1 cComb
      else flushCopyLoop s tid initCombSeq fuel (size - flushSize1) flushSize1 curC
    else some true

/-- The method `RedoOpt::flushCopy(to, usedSize)` run by thread `tid`. -/
def flushCopy (s : RedoOpt) (tid usedSize : Nat) : Option Bool :=
  flushCopyLoop s tid (sti2seq s.per.curComb) (usedSize / 4096 + 1) usedSize 4096 s.per.curComb

/-- The flat-combining loop `for (uint64_t i = 0; i < maxThreads; i++)` of
`RedoOpt::ns_write_transaction`. -/
def combineLoop (tid cComb : Nat) (newState : Nat × Nat) :
    Nat → Nat → Bool → RedoOpt → Option Outcome × Bool × RedoOpt
  | 0, _, atleastone, s => (none, atleastone, s)
  | n + 1, i, atleastone, s =>
    let applied := (s.getState newState).applied i
    if s.announce i = applied then combineLoop tid cComb newState n (i + 1) atleastone s
    else if cComb ≠ s.per.curComb then (none, atleastone, s)
    else
      match s.enqueuers i with
      | none => (some .fault, true, s)
      | some mutation =>
        match exec tid mutation s with
        | (.value r, s1) =>
          let st := s1.getState newState
          let st1 : State :=
            { st with results := fun k => if k = i then r else st.results k,
                      applied := fun k => if k = i then !applied else st.applied k }
          combineLoop tid cComb newState n (i + 1) true (s1.setState newState st1)
        | (o, s1) => (some o, true, s1)

/-- The end of `RedoOpt::ns_write_transaction` for a request that somebody else may
have executed: the result recorded for `tid` in the `State` of the current replica's
head (or of the ring slot of the current sequence). -/
def recordedResult (tid : Nat) (s : RedoOpt) : Outcome × RedoOpt :=
  let cComb := s.per.curComb
  let t := (s.combs (sti2idx cComb)).head
  let combSeq := sti2seq cComb
  if sti2seq t ≠ combSeq then
    let t1 := s.ring (combSeq % RINGSIZE)
    (.value ((s.getState (sti2tid t1, sti2idx t1)).results tid), s)
  else
    let oldTicket := s.ring (combSeq % RINGSIZE)
    let s1 := if sti2seq oldTicket < combSeq then s.setRing (combSeq % RINGSIZE) t else s
    (.value ((s1.getState (sti2tid t, sti2idx t)).results tid), s1)

/-- The statements of `RedoOpt::ns_write_transaction` that prepare `newState` for an
attempt. -/
def prepareState (newState tail_state : Nat × Nat) (newTicket : Nat) (s : RedoOpt) : RedoOpt :=
  let st0 := s.getState newState
  let s1 := s.setState newState { st0 with ticket := newTicket, logTail := 0, lSize := 0 }
  s1.setState newState
    { (s1.getState newState) with
        applied := (s1.getState tail_state).applied,
        results := (s1.getState tail_state).results,
        logSize := 0 }

/-- The end of a successful attempt of `RedoOpt::ns_write_transaction`, after the
compare-and-swap of `per->curComb` has succeeded. -/
def finishCommit (tid lcomb seqltail newTicket : Nat) (s : RedoOpt) : RedoOpt :=
  let s11 := s.setComb lcomb { (s.combs lcomb) with rwLock := (s.combs lcomb).rwLock.setReadUnlock }
  let oldTicket := s11.ring ((seqltail + 1) % RINGSIZE)
  let s12 := if sti2seq oldTicket < seqltail + 1 then
      s11.setRing ((seqltail + 1) % RINGSIZE) newTicket
    else s11
  let lastIdx1 := (s12.sauron tid).lastIdx + 1
  let lastIdx2 := if lastIdx1 = STATESSIZE then 0 else lastIdx1
  let s13 := s12.setLastIdx tid lastIdx2
  let tl := s13.tlocal tid
  s13.setLocal tid
    { tl with tl_nested_write_trans := tl.tl_nested_write_trans - 1, tl_cx_size := 0, st := none }

/-- The statements that undo a failed attempt after the compare-and-swap:
`apply_undolog(newState)` with the replica bound. -/
def undone (tid : Nat) (newState : Nat × Nat) (s : RedoOpt) : RedoOpt :=
  s.setMem (apply_undolog (s.getState newState) (s.tlocal tid).tl_cx_size s.mem)

/-- The part of an attempt of `RedoOpt::ns_write_transaction` that follows the
combining loop when at least one closure ran.  `copy` is the value of `tlocal.copy`
at that point, which selects `flushCopy` instead of the deferred write-backs. -/
def publish (tid cComb ltail newTicket : Nat) (newState : Nat × Nat) (newCombIndex : Nat)
    (copy : Bool) (s6 : RedoOpt) : Option (Ctl × Option Nat × RedoOpt) :=
  if cComb ≠ s6.per.curComb then some (.cont, some newCombIndex, undone tid newState s6)
  else
    let flushed : Option Bool :=
      if copy then flushCopy s6 tid (getUsedSize s6 (s6.tlocal tid).tl_cx_size) else some true
    match flushed with
    | none => none
    | some false => some (.brk, some newCombIndex, undone tid newState s6)
    | some true =>
      let st6 := s6.getState newState
      let s7 := s6.setState newState { st6 with logSize := st6.lSize }
      let s8 := s7.setHead newCombIndex newTicket
      let s9 := s8.setComb newCombIndex
        { (s8.combs newCombIndex) with rwLock := (s8.combs newCombIndex).rwLock.downgrade }
      let newcComb := makeSeqTidIdx (sti2seq cComb + 1) tid newCombIndex
      if s9.per.curComb = cComb then
        let s10 := s9.setCurComb newcComb
        let s14 := finishCommit tid (sti2idx cComb) (sti2seq cComb) newTicket s10
        some (.ret (.value ((s14.getState newState).results tid)), some newCombIndex, s14)
      else
        let s10 := undone tid newState s9
        let s11 := s10.setHead newCombIndex ltail
        let s12 := s11.setComb newCombIndex
          { (s11.combs newCombIndex) with rwLock := (s11.combs newCombIndex).rwLock.setReadUnlock }
        some (.cont, none, s12)

/-- The acquisition of an up-to-date replica in `RedoOpt::ns_write_transaction`. -/
def acquire (tid uninit initCombSeq ltail newCombIndex : Nat) (s4 : RedoOpt) :
    Option (Bool × RedoOpt) :=
  let lastAppliedTicket := (s4.combs newCombIndex).head
  if lastAppliedTicket = makeSeqTidIdx 0 1 0 then makeCopy newCombIndex tid s4
  else apply_redologs newCombIndex initCombSeq lastAppliedTicket ltail tid uninit s4

/-- The part of an attempt of `RedoOpt::ns_write_transaction` from the acquisition of an
up-to-date replica on. -/
def combineAndPublish (tid uninit initCombSeq cComb ltail newTicket : Nat) (newState : Nat × Nat)
    (newCombIndex : Nat) (copy : Bool) (s4 : RedoOpt) : Option (Ctl × Option Nat × RedoOpt) :=
  match acquire tid uninit initCombSeq ltail newCombIndex s4 with
  | none => none
  | some (false, s5) => some (.brk, some newCombIndex, s5)
  | some (true, s5) =>
    if cComb ≠ s5.per.curComb then some (.cont, some newCombIndex, s5)
    else
      match combineLoop tid cComb newState MAX_THREADS 0 false s5 with
      | (some o, _, s6) => some (.unwind o, some newCombIndex, s6)
      | (none, false, s6) => some (.cont, some newCombIndex, s6)
      | (none, true, s6) => publish tid cComb ltail newTicket newState newCombIndex copy s6

/-- One iteration of the loop of `RedoOpt::ns_write_transaction`; `newComb` is the
replica held exclusively (`nullptr` is `none`). -/
def writeAttempt (tid uninit : Nat) (newrequest : Bool) (initCombSeq : Nat)
    (newState : Nat × Nat) (copy : Bool) (newComb : Option Nat) (s : RedoOpt) :
    Option (Ctl × Option Nat × RedoOpt) :=
  let cComb := s.per.curComb
  let seqltail := sti2seq cComb
  let ltail := (s.combs (sti2idx cComb)).head
  if seqltail ≥ initCombSeq + 2 then some (.brk, newComb, s)
  else if cComb ≠ s.per.curComb then some (.cont, newComb, s)
  else
    let tail_state := (sti2tid ltail, sti2idx ltail)
    if newrequest = (s.getState tail_state).applied tid then
      if cComb = s.per.curComb then some (.brk, newComb, s) else some (.cont, newComb, s)
    else
      let newTicket := makeSeqTidIdx (seqltail + 1) tid (s.sauron tid).lastIdx
      let s2 := prepareState newState tail_state newTicket s
      if cComb ≠ s2.per.curComb then some (.cont, newComb, s2)
      else
        let ringtail := s2.ring (seqltail % RINGSIZE)
        if ltail ≠ ringtail ∧ sti2seq ringtail > seqltail then some (.cont, newComb, s2)
        else
          let s3 := if ltail ≠ ringtail then s2.setRing (seqltail % RINGSIZE) ltail else s2
          let picked : Option (Option Nat × RedoOpt) := match newComb with
            | none => getNewComb tid cComb s3
            | some i => some (some i, s3)
          match picked with
          | none => none
          | some (none, s4) => some (.cont, none, s4)
          | some (some newCombIndex, s4) =>
            let s5 := s4.setLocal tid
              { (s4.tlocal tid) with tl_cx_size := newCombIndex * s4.g.g_main_size }
            combineAndPublish tid uninit initCombSeq cComb ltail newTicket newState
              newCombIndex copy s5

/-- The loop `for (int iter = 0; iter < 2; iter++)` of `RedoOpt::ns_write_transaction`. -/
def writeLoop (tid uninit : Nat) (newrequest : Bool) (initCombSeq : Nat) (newState : Nat × Nat)
    (copy : Bool) : Nat → Option Nat → RedoOpt → Option (Ctl × Option Nat × RedoOpt)
  | 0, newComb, s => some (.brk, newComb, s)
  | n + 1, newComb, s =>
    match writeAttempt tid uninit newrequest initCombSeq newState copy newComb s with
    | some (.cont, newComb1, s1) =>
      writeLoop tid uninit newrequest initCombSeq newState copy n newComb1 s1
    | r => r

/-- The `State` that thread `tid` uses for its next transaction (`newState`). -/
def RedoOpt.nextState (s : RedoOpt) (tid : Nat) : Nat × Nat := (tid, (s.sauron tid).lastIdx)

/-- The start of `RedoOpt::ns_write_transaction`, up to its loop. -/
def announced (s : RedoOpt) (tid : Nat) (f : Prog) : RedoOpt :=
  let s1 := s.setLocal tid
    { (s.tlocal tid) with tl_nested_write_trans := (s.tlocal tid).tl_nested_write_trans + 1 }
  let s3 := (s1.setEnqueuer tid f).setAnnounce tid (!s.announce tid)
  s3.setLocal tid { (s3.tlocal tid) with st := some (s.nextState tid) }

/-- The method `RedoOpt::ns_write_transaction` (`updateTx`) called by thread `tid` with
the closure `func`.  `uninit` is the indeterminate initial value of `ringTicket` in
`apply_redologs` and `copy` the value of `tlocal.copy` after the closures have run.
The result is `none` when an assertion fails.  An exception thrown by a closure leaves
the function at the call `(*mutation)()`: the code has no handler. -/
def ns_write_transaction (tid : Nat) (func : Prog) (uninit : Nat) (copy : Bool) (s : RedoOpt) :
    Option (Outcome × RedoOpt) :=
  if (s.tlocal tid).tl_nested_write_trans > 0 then some (exec tid func s)
  else
    let s4 := announced s tid func
    let newrequest := s4.announce tid
    let initCombSeq := sti2seq s4.per.curComb
    match writeLoop tid uninit newrequest initCombSeq (s.nextState tid) copy 2 none s4 with
    | none => none
    | some (.ret o, _, s5) => some (o, s5)
    | some (.unwind o, _, s5) => some (o, s5)
    | some (_, newComb, s5) =>
      let s6 := match newComb with
        | some i => s5.setComb i { (s5.combs i) with rwLock := (s5.combs i).rwLock.exclusiveUnlock }
        | none => s5
      let tl6 := s6.tlocal tid
      let s7 := s6.setLocal tid
        { tl6 with tl_nested_write_trans := tl6.tl_nested_write_trans - 1,
                   tl_cx_size := 0, st := none }
      some (recordedResult tid s7)

/-! ### Opening the file -/

/-- The globals that the constructor of `RedoOpt` computes from `base_addr` and
`max_size`: `g_main_size` is rounded down to a multiple of 1024. -/
def mkGlobals (base_addr max_size : Nat) : Globals :=
  { g_main_addr := base_addr + HEADER_SIZE,
    g_main_size := ((max_size - HEADER_SIZE) / MAX_COMBINEDS) / 1024 * 1024 }

/-- The closure of the bootstrap transaction of `RedoOpt::createFile`; the closure
returns the pointer that the C++ closure assigns to `per->objects`. -/
def bootstrapProg (g : Globals) : Prog :=
  EsLoco_init g.g_main_addr
    (match EsLoco_malloc g.g_main_addr g.g_main_size (8 * NUM_OBJS) fun objects =>
        Prog.stores ((List.range NUM_OBJS).map (fun i => (objects + 8 * i, 0))) (.ret objects) with
      | some p => p
      | none => .ret 0)

/-- The engine right after the member initialisers of the constructor of `RedoOpt` and
the mapping of the file, whose contents are `per` and `mem`. -/
def mapped (g : Globals) (per : PersistentHeader) (mem : Mem) : RedoOpt :=
  { g := g, per := per, mem := mem }

/-- The method `RedoOpt::createFile` up to the bootstrap transaction.  The volatile
fields of `esloco`, which `esloco.init` assigns at the start of the closure, are
assigned here: nothing reads them before the closure runs. -/
def createFileStart (g : Globals) (mem : Mem) : RedoOpt :=
  let s := mapped g {} mem
  let i := sti2idx s.per.curComb
  let s1 := s.setComb i { (s.combs i) with rwLock := (s.combs i).rwLock.setReadLock }
  { s1 with esloco := { poolAddr := g.g_main_addr, poolSize := g.g_main_size } }

/-- The method `RedoOpt::createFile`, run by thread `tid`. -/
def createFile (g : Globals) (tid uninit : Nat) (copy : Bool) (mem : Mem) : Option RedoOpt :=
  match ns_write_transaction tid (bootstrapProg g) uninit copy (createFileStart g mem) with
  | none => none
  | some (.value objects, s1) =>
    some { s1 with per := { s1.per with objects := objects, id := MAGIC_ID } }
  | some (_, s1) => some { s1 with per := { s1.per with id := MAGIC_ID } }

/-- The loop of the constructor of `RedoOpt` that resets the heads: the head of the
current replica becomes 0 and every other head `makeSeqTidIdx(0, 1, 0)`. -/
def resetHeads (combidx : Nat) (s : RedoOpt) : RedoOpt :=
  { s with combs := fun i =>
      if i < MAX_COMBINEDS then
        { (s.combs i) with head := if i ≠ combidx then makeSeqTidIdx 0 1 0 else 0 }
      else s.combs i }

/-- The constructor of `RedoOpt` when the file exists, run by thread `tid`: the contents
`per`, `mem` of the file are mapped and kept if the magic number is valid; the heads are
reset, the current replica is read-locked and the sequence of `per->curComb` restarts
at 0. -/
def reopen (g : Globals) (tid uninit : Nat) (copy : Bool) (per : PersistentHeader) (mem : Mem) :
    Option RedoOpt :=
  let s0 : Option RedoOpt :=
    if per.id ≠ MAGIC_ID then createFile g tid uninit copy mem else some (mapped g per mem)
  s0.map fun s =>
    let combidx := sti2idx s.per.curComb
    let s1 := resetHeads combidx s
    let s2 := s1.setComb combidx
      { (s1.combs combidx) with rwLock := (s1.combs combidx).rwLock.setReadLock }
    let s3 := s2.setCurComb (makeSeqTidIdx 0 0 combidx)
    { s3 with esloco := { poolAddr := g.g_main_addr, poolSize := g.g_main_size } }

/-- Closing the file (the destructor of `RedoOpt`) and opening it again in a new
process. -/
def closeAndReopen (tid uninit : Nat) (copy : Bool) (s : RedoOpt) : Option RedoOpt :=
  reopen s.g tid uninit copy s.per s.mem

/-- The first `k` bytes at `D` in `m` are those at `S` in `m0`, and `m` is `m0`
elsewhere. -/
def CopiedUpTo (m0 m : Mem) (D S k : Nat) : Prop :=
  (∀ i, i < k → m (D + i) = m0 (S + i)) ∧ (∀ y, (y < D ∨ D + k ≤ y) → m y = m0 y)

/-- The loads of the closure are from cells whose bytes are in `U` or were stored
before by the closure itself. -/
inductive ReadsIn : (Nat → Prop) → Prog → Prop where
  | ret (U : Nat → Prop) (r : Nat) : ReadsIn U (.ret r)
  | raise (U : Nat → Prop) (e : Nat) : ReadsIn U (.raise e)
  | pload (U : Nat → Prop) (a : Nat) (k : Nat → Prog) : (∀ i, i < 8 → U (a + i)) →
      (∀ v, ReadsIn U (k v)) → ReadsIn U (.pload a k)
  | pstore (U : Nat → Prop) (a v : Nat) (k : Prog) :
      ReadsIn (fun x => U x ∨ (a ≤ x ∧ x < a + 8)) k → ReadsIn U (.pstore a v k)

/-! ### Predicates used by the statements -/

/-- The index of the replica that the header designates as current. -/
def RedoOpt.cur (s : RedoOpt) : Nat := sti2idx s.per.curComb

/-- The offset of replica `i` from the main region: `i * g_main_size`. -/
def RedoOpt.offsetOf (s : RedoOpt) (i : Nat) : Nat := i * s.g.g_main_size

/-- The bytes of replica `i`, each at the address of the main region it stands for. -/
def RedoOpt.replica (s : RedoOpt) (i : Nat) : Mem := fun x => s.mem (x + s.offsetOf i)

/-- The used bytes of the current replica: `esloco.getUsedSize()` bound to it. -/
def RedoOpt.used (s : RedoOpt) : Nat := getUsedSize s (s.cur * s.g.g_main_size)

/-- The address `x` of the main region is among the used bytes of the current replica. -/
def RedoOpt.InUsed (s : RedoOpt) (x : Nat) : Prop :=
  s.g.g_main_addr ≤ x ∧ x < s.g.g_main_addr + s.used

/-- The replica that a single thread locks when replica `c` is the current one: the
first of replicas 0 and 1 that is not `c`. -/
def other (c : Nat) : Nat := if c = 0 then 1 else 0

/-- The `State` of the head of the current replica (`tail_state`). -/
def RedoOpt.tailState (s : RedoOpt) : Nat × Nat :=
  (sti2tid (s.combs s.cur).head, sti2idx (s.combs s.cur).head)

/-- The ticket of the next transaction of thread `tid` (`newTicket`). -/
def RedoOpt.nextTicket (s : RedoOpt) (tid : Nat) : Nat :=
  makeSeqTidIdx (sti2seq s.per.curComb + 1) tid (s.sauron tid).lastIdx

/-- The engine as the constructor of `RedoOpt` leaves it over an existing file, seen by
thread `tid`: nobody runs a transaction, every announced request is applied, the locks
are free except for the read lock of the current replica, the head of the current
replica and the ring agree with `per->curComb`, the replica `other cur` is marked as
needing a copy, and the used size of the current replica is a multiple of 8 no larger
than a replica. -/
structure Recovered (s : RedoOpt) (tid : Nat) : Prop where
  layout_addr : s.g.g_main_addr % 8 = 0
  layout_size : s.g.g_main_size % 8 = 0
  tid_lt : tid < MAX_THREADS
  cur_lt : s.cur < MAX_COMBINEDS
  seq_lt : sti2seq s.per.curComb + 1 < 2 ^ SEQ_BITS
  locks : ∀ i, (s.combs i).rwLock.writer = false ∧ (∀ t, (s.combs i).rwLock.readers t = false) ∧
    (s.combs i).rwLock.readLock = decide (i = s.cur)
  head_seq : sti2seq (s.combs s.cur).head = sti2seq s.per.curComb
  ring_cur : s.ring (sti2seq s.per.curComb % RINGSIZE) = (s.combs s.cur).head
  no_pending : ∀ i, i < MAX_THREADS → s.announce i = (s.getState s.tailState).applied i
  slot_ne : s.tailState ≠ (tid, (s.sauron tid).lastIdx)
  lastIdx_lt : (s.sauron tid).lastIdx < STATESSIZE
  other_head : (s.combs (other s.cur)).head = makeSeqTidIdx 0 1 0
  used_mod : s.used % 8 = 0
  used_le : s.used ≤ s.g.g_main_size
  nested_write : (s.tlocal tid).tl_nested_write_trans = 0

/-- The state of `ns_write_transaction` when the replica `other cur` is held exclusively
and the thread is bound to it. -/
def locked (s : RedoOpt) (tid : Nat) (f : Prog) : RedoOpt :=
  let s2 := prepareState (s.nextState tid) s.tailState (s.nextTicket tid) (announced s tid f)
  let o := other s.cur
  let s4 := s2.setComb o { (s2.combs o) with rwLock := { (s2.combs o).rwLock with writer := true } }
  s4.setLocal tid { (s4.tlocal tid) with tl_cx_size := o * s4.g.g_main_size }

/-- The state of `ns_write_transaction` after `makeCopy` has copied the current replica
into the replica `other cur`, whose bytes are then those of `m5`. -/
def copied (s : RedoOpt) (tid : Nat) (f : Prog) (m5 : Mem) : RedoOpt :=
  (((locked s tid f).setHead (other s.cur) (makeSeqTidIdx 0 1 0)).setMem m5).setHead
    (other s.cur) (s.combs s.cur).head

/-- The state of `ns_write_transaction` after the closure of `tid` has run: the log is
`st1` and the bytes are `m1`. -/
def executed (s : RedoOpt) (tid : Nat) (f : Prog) (m5 : Mem) (st1 : State) (m1 : Mem) : RedoOpt :=
  ((copied s tid f m5).setState (s.nextState tid) st1).setMem m1

/-- The state of `ns_write_transaction` after the combining loop has recorded the
result `r` of the closure of `tid`. -/
def recorded (s : RedoOpt) (tid : Nat) (f : Prog) (m5 : Mem) (st1 : State) (m1 : Mem) (r : Nat) :
    RedoOpt :=
  let s6 := executed s tid f m5 st1 m1
  s6.setState (s.nextState tid)
    { (s6.getState (s.nextState tid)) with
        results := fun k => if k = tid then r else (s6.getState (s.nextState tid)).results k,
        applied := fun k => if k = tid then
            !((copied s tid f m5).getState (s.nextState tid)).applied tid
          else (s6.getState (s.nextState tid)).applied k }

/-- The state in which `ns_write_transaction` returns after a successful
compare-and-swap of `per->curComb`. -/
def committed (s : RedoOpt) (tid : Nat) (f : Prog) (m5 : Mem) (st1 : State) (m1 : Mem) (r : Nat) :
    RedoOpt :=
  let s6 := recorded s tid f m5 st1 m1 r
  let o := other s.cur
  let st6 := s6.getState (s.nextState tid)
  let s7 := s6.setState (s.nextState tid) { st6 with logSize := st6.lSize }
  let s8 := s7.setHead o (s.nextTicket tid)
  let s9 := s8.setComb o { (s8.combs o) with rwLock := (s8.combs o).rwLock.downgrade }
  let s10 := s9.setCurComb (makeSeqTidIdx (sti2seq s.per.curComb + 1) tid o)
  finishCommit tid (sti2idx s.per.curComb) (sti2seq s.per.curComb) (s.nextTicket tid) s10

/-- What `esloco.getUsedSize()` returns when bound to replica `c` of a file with the
contents `mem`, once the constructor has run `esloco.init(g_main_addr, g_main_size,
false)`. -/
def usedBytes (g : Globals) (mem : Mem) (c : Nat) : Nat :=
  getUsedSize
    { g := g, mem := mem, esloco := { poolAddr := g.g_main_addr, poolSize := g.g_main_size } }
    (c * g.g_main_size)

/-- Scenario for `RedoOpt`: a file of `smallGlobals` is created by thread 0, which then
commits three increments of the counter. -/
def threeIncrements : Option RedoOpt :=
  (createFile smallGlobals 0 0 false zeroMem).bind fun s0 =>
  (ns_write_transaction 0 (counterIncr counterAddr) 0 false s0).bind fun p1 =>
  (ns_write_transaction 0 (counterIncr counterAddr) 0 false p1.2).bind fun p2 =>
  (ns_write_transaction 0 (counterIncr counterAddr) 0 false p2.2).map fun p3 => p3.2

/-- The header of the file that `threeIncrements` leaves. -/
def closedHeader : PersistentHeader :=
  match threeIncrements with
  | some s => s.per
  | none => {}

/-- The bytes of the file that `threeIncrements` leaves. -/
def closedMem : Mem :=
  match threeIncrements with
  | some s => s.mem
  | none => zeroMem

/-! ### The set of cache lines to flush

The struct `CLAggregate` of `RedoOpt.hpp`, of which every replica has one (`clsets`). -/

/-- The constant `NodeCLAggr::HASH_BUCKETS`. -/
def HASH_BUCKETS : Nat := 1024

/-- The struct `RedoOpt::WriteSetCL`.  `next` points to an entry of the same node and is
its index in `log`. -/
structure WriteSetCL where
  addrCL : Nat := 0
  next : Option Nat := none
  deriving DecidableEq, Repr

/-- The struct `RedoOpt::NodeCLAggr`.  A bucket points to an entry of the same node and
is its index in `log`; the constructor makes every bucket point to the last entry.  The
links `next` and `prev` are the position of the node in the chain. -/
structure NodeCLAggr where
  buckets : Nat → Nat := fun _ => HASH_BUCKETS - 1
  log : Nat → WriteSetCL := fun _ => {}

/-- The struct `RedoOpt::CLAggregate`.  `nodes 0` is `logHeadCL`, `nodes (k+1)` is the
`next` of `nodes k`, `numNodes` is the number of nodes of the chain and `logTailCL` the
position of the node that `logTailCL` points to. -/
structure CLAggregate where
  nodes : Nat → NodeCLAggr := fun _ => {}
  numNodes : Nat := 1
  logTailCL : Nat := 0
  numCL : Nat := 0

/-- The method `CLAggregate::hash`. -/
def CLAggregate.hash (addr : Nat) : Nat := (addr >>> 6) % HASH_BUCKETS

/-- Replace node `n` of the chain. -/
def CLAggregate.setNode (a : CLAggregate) (n : Nat) (node : NodeCLAggr) : CLAggregate :=
  { a with nodes := fun k => if k = n then node else a.nodes k }

/-- The expression `(numCL%numBuckets==0) ? numCL/numBuckets : numCL/numBuckets+1`. -/
def numCLnodes (numCL : Nat) : Nat :=
  if numCL % HASH_BUCKETS = 0 then numCL / HASH_BUCKETS else numCL / HASH_BUCKETS + 1

/-- The loop `while (be != nullptr)` of `CLAggregate::addIfAbsent`: whether an entry of
the bucket chain starting at `be` holds the line `cl`.  Every `next` points to a lower
index, so `HASH_BUCKETS` steps (the first argument) reach the end of any chain. -/
def findCL (node : NodeCLAggr) (cl : Nat) : Nat → Option Nat → Bool
  | 0, _ => false
  | _ + 1, none => false
  | fuel + 1, some be =>
    if (node.log be).addrCL = cl then true else findCL node cl fuel (node.log be).next

/-- The search loop `for (int i = 0; i < numCLnodes; i++)` of `CLAggregate::addIfAbsent`
over the nodes `node`, `node->prev`, ...: whether the line `cl` is found, or `none` when
the loop dereferences the `prev` of `logHeadCL`, which is `nullptr`.  The first argument
is the number of iterations left. -/
def searchCL (a : CLAggregate) (cl hashAddr : Nat) : Nat → Nat → Option Nat → Option Bool
  | 0, _, _ => some false
  | n + 1, i, node =>
    if i = 32 then some false
    else
      match node with
      | none => none
      | some nd =>
        let be := (a.nodes nd).buckets hashAddr
        let prev := if nd = 0 then none else some (nd - 1)
        if CLAggregate.hash ((a.nodes nd).log be).addrCL ≠ hashAddr then
          searchCL a cl hashAddr n (i + 1) prev
        else if (i < numCLnodes a.numCL - 1 ∨
            (i = numCLnodes a.numCL - 1 ∧ be < a.numCL % HASH_BUCKETS)) ∧
            findCL (a.nodes nd) cl HASH_BUCKETS (some be) = true then some true
        else searchCL a cl hashAddr n (i + 1) prev

/-- The end of `CLAggregate::addIfAbsent`: the line is appended to the node `tail`. -/
def appendCL (a : CLAggregate) (tail cl hashAddr : Nat) : CLAggregate :=
  let e := a.numCL % HASH_BUCKETS
  let be := (a.nodes tail).buckets hashAddr
  let next : Option Nat :=
    if be < e ∧ CLAggregate.hash ((a.nodes tail).log be).addrCL = hashAddr then some be else none
  { (a.setNode tail
      { log := fun k => if k = e then { addrCL := cl, next := next } else (a.nodes tail).log k,
        buckets := fun h => if h = hashAddr then e else (a.nodes tail).buckets h }) with
    numCL := a.numCL + 1 }

/-- The method `CLAggregate::addIfAbsent(cl)`, with `usedSize` the value of
`gRedo.esloco.getUsedSize()`.  The result is whether `tlocal.copy` is set, and the
aggregate; `none` when a null pointer is dereferenced. -/
def CLAggregate.addIfAbsent (a : CLAggregate) (usedSize cl : Nat) :
    Option (Bool × CLAggregate) :=
  let hashAddr := CLAggregate.hash cl
  let tail := a.logTailCL
  if a.numCL ≠ 0 then
    if a.numCL + 1 > 3 * usedSize / (64 * 4) then some (true, { a with numCL := 0 })
    else
      match searchCL a cl hashAddr (numCLnodes a.numCL) 0 (some tail) with
      | none => none
      | some true => some (false, a)
      | some false =>
        if a.numCL % HASH_BUCKETS = 0 then
          let a1 : CLAggregate :=
            if tail + 1 < a.numNodes then { a with logTailCL := tail + 1 }
            else { (a.setNode (tail + 1) {}) with numNodes := tail + 2, logTailCL := tail + 1 }
          some (false, appendCL a1 (tail + 1) cl hashAddr)
        else some (false, appendCL a tail cl hashAddr)
  else some (false, appendCL a tail cl hashAddr)

/-- The loop `for (int i = 0; i < numCLnodes; i++)` of
`CLAggregate::flushDeferredPWBs`, from the node at position `i`: the addresses passed
to `PWB`, in order, or `none` when the loop reaches the end of the chain and
dereferences `nullptr`.  The first argument is the number of iterations left. -/
def flushNodes (a : CLAggregate) (tl_cx_size : Nat) : Nat → Nat → Option (List Nat)
  | 0, _ => some []
  | n + 1, i =>
    if i < a.numNodes then
      let size :=
        if i = numCLnodes a.numCL - 1 then
          (if a.numCL % HASH_BUCKETS = 0 then HASH_BUCKETS else a.numCL % HASH_BUCKETS)
        else HASH_BUCKETS
      match flushNodes a tl_cx_size n (i + 1) with
      | none => none
      | some rest =>
        some ((List.range size).map (fun k => ((a.nodes i).log k).addrCL + tl_cx_size) ++ rest)
    else none

/-- The method `CLAggregate::flushDeferredPWBs()`: the addresses passed to `PWB`. -/
def CLAggregate.flushDeferredPWBs (a : CLAggregate) (tl_cx_size : Nat) : Option (List Nat) :=
  if a.numCL = 0 then some [] else flushNodes a tl_cx_size (numCLnodes a.numCL) 0

/-- The method `CLAggregate::reset()`. -/
def CLAggregate.reset (a : CLAggregate) : CLAggregate := { a with numCL := 0 }

/-- The method `CLAggregate::merge(state)`, where `lines` are the cache lines
`log[k].addrCL` that the loops read from the log of `state`, in order: `addIfAbsent` is
called for each of them.  The result is whether `tlocal.copy` has been set. -/
def CLAggregate.merge (usedSize : Nat) : CLAggregate → List Nat → Option (Bool × CLAggregate)
  | a, [] => some (false, a)
  | a, cl :: rest =>
    match a.addIfAbsent usedSize cl with
    | none => none
    | some (c1, a1) =>
      match CLAggregate.merge usedSize a1 rest with
      | none => none
      | some (c2, a2) => some (c1 || c2, a2)

/-- Scenario: the cache lines at 64, 128, ..., `64 * n`. -/
def firstLines (n : Nat) : List Nat := (List.range n).map fun i => 64 * (i + 1)

/-- The aggregate is the one obtained from a new one by adding the `n` lines of
`firstLines n`: they are in the logs of the nodes, in order, the tail is the node of the
last one, and every other entry is as constructed. -/
structure CLAggregate.Filled (a : CLAggregate) (n : Nat) : Prop where
  numCL_eq : a.numCL = n
  tail_eq : a.logTailCL = (n - 1) / HASH_BUCKETS
  nodes_eq : a.numNodes = (n - 1) / HASH_BUCKETS + 1
  log_eq : ∀ nd j, ((a.nodes nd).log j).addrCL
    = if j < HASH_BUCKETS ∧ nd * HASH_BUCKETS + j < n then 64 * (nd * HASH_BUCKETS + j + 1) else 0

/-! ### Predicates for the round trip of `RedoOpt` -/

/-- Entry number `p` of the log of a `State`, counted from the head of the chain: entry
`p % MAXLOGSIZE` of node `p / MAXLOGSIZE`. -/
def State.entryAt (st : State) (p : Nat) : WriteSetEntry :=
  (st.nodes (p / MAXLOGSIZE)).log (p % MAXLOGSIZE)

/-- The memory after the first `n` entries of the log have been written at `offset`, in
the order of the log. -/
def State.replayed (st : State) (offset : Nat) : Nat → Mem → Mem
  | 0, m => m
  | n + 1, m => store64 (st.replayed offset n m) ((st.entryAt n).addr + offset) (st.entryAt n).val

/-- The number of entries of node `n` that belong to a log of `lSize` entries. -/
def nodeCount (lSize n : Nat) : Nat := min MAXLOGSIZE (lSize - MAXLOGSIZE * n)

/-- The link `next` of entry `k` of a node leads to the closest entry before it whose
address has the same hash, if there is one. -/
def NextOK (nd : WriteSetNode) (k : Nat) : Prop :=
  (∀ j, (nd.log k).next = some j → j < k ∧
    hashAddress (nd.log j).addr = hashAddress (nd.log k).addr ∧
    ∀ i, j < i → i < k → hashAddress (nd.log i).addr ≠ hashAddress (nd.log k).addr) ∧
  ((nd.log k).next = none →
    ∀ i, i < k → hashAddress (nd.log i).addr ≠ hashAddress (nd.log k).addr)

/-- The buckets and links of a node whose first `c` entries belong to the log: every
bucket points into the node, the bucket of the hash of an entry points to the last entry
with that hash, and the links are as in `NextOK`. -/
structure NodeOK (nd : WriteSetNode) (c : Nat) : Prop where
  bucket_lt : ∀ h, nd.buckets h < MAXLOGSIZE
  bucket_cur : ∀ k, k < c →
    k ≤ nd.buckets (hashAddress (nd.log k).addr) ∧
    nd.buckets (hashAddress (nd.log k).addr) < c ∧
    hashAddress (nd.log (nd.buckets (hashAddress (nd.log k).addr))).addr
      = hashAddress (nd.log k).addr
  next_ok : ∀ k, k < c → NextOK nd k

/-- The chain of nodes of a `State` is well formed for its `lSize` entries. -/
structure LogOK (st : State) : Prop where
  tail_eq : st.logTail = (st.lSize - 1) / MAXLOGSIZE
  nodes_gt : st.logTail < st.numNodes
  node_ok : ∀ n, NodeOK (st.nodes n) (nodeCount st.lSize n)

/-- The log `st` records the stores that lead from the memory `m0` to the memory `m` in
the replica at `offset`: it is well formed, its entries are aligned cells of the main
region, and replaying them on `m0` gives `m`. -/
structure LogRel (g : Globals) (st : State) (offset : Nat) (m0 m : Mem) : Prop where
  ok : LogOK st
  main : ∀ p, p < st.lSize →
    ADDR_IS_IN_MAIN g (st.entryAt p).addr = true ∧ (st.entryAt p).addr % 8 = 0
  rep : st.replayed offset st.lSize m0 = m

/-- What the search loops return is the last entry of the log that holds the address. -/
def LastAt (st : State) (L a n k : Nat) : Prop :=
  k < nodeCount L n ∧ ((st.nodes n).log k).addr = a ∧
  ∀ p, MAXLOGSIZE * n + k < p → p < L → (st.entryAt p).addr ≠ a

/-- Along its run on the memory `m`, the closure loads and stores only 8-byte-aligned
64-bit cells of the main region, and it stores only to cells that end at or before
`bound`. -/
def Prog.cellsIn (g : Globals) (bound : Nat) : Prog → Mem → Bool
  | .ret _, _ => true
  | .raise _, _ => true
  | .pload a k, m =>
    ADDR_IS_IN_MAIN g a && decide (a % 8 = 0) && Prog.cellsIn g bound (k (load64 m a)) m
  | .pstore a v k, m =>
    ADDR_IS_IN_MAIN g a && decide (a % 8 = 0) && decide (a + 8 ≤ bound) &&
      Prog.cellsIn g bound k (store64 m a v)

/-- The engine between two transactions of the single thread `tid`, which runs alone:
nobody runs a transaction, every announced request is applied, the locks are free
except for the read lock of the current replica, which is replica 0 or 1, the head of
the current replica and the ring agree with `per->curComb`, and every bucket of every
node of every `State` points into its node. -/
structure Idle (s : RedoOpt) (tid : Nat) : Prop where
  layout_addr : s.g.g_main_addr % 8 = 0
  layout_size : s.g.g_main_size % 8 = 0
  layout_pos : 0 < s.g.g_main_size
  tid_lt : tid < MAX_THREADS
  cur_lt : s.cur < 2
  seq_lt : sti2seq s.per.curComb + 1 < 2 ^ SEQ_BITS
  locks : ∀ i, (s.combs i).rwLock.writer = false ∧ (∀ t, (s.combs i).rwLock.readers t = false) ∧
    (s.combs i).rwLock.readLock = decide (i = s.cur)
  head_seq : sti2seq (s.combs s.cur).head = sti2seq s.per.curComb
  head_ne : (s.combs s.cur).head ≠ makeSeqTidIdx 0 1 0
  ring_cur : s.ring (sti2seq s.per.curComb % RINGSIZE) = (s.combs s.cur).head
  ring_le : ∀ j, sti2seq (s.ring j) ≤ sti2seq s.per.curComb
  no_pending : ∀ i, i < MAX_THREADS → s.announce i = (s.getState s.tailState).applied i
  slot_ne : s.tailState ≠ (tid, (s.sauron tid).lastIdx)
  lastIdx_lt : (s.sauron tid).lastIdx < STATESSIZE
  nested_write : (s.tlocal tid).tl_nested_write_trans = 0
  buckets_lt : ∀ q n h, ((s.getState q).nodes n).buckets h < MAXLOGSIZE
  nodes_pos : ∀ q, 0 < (s.getState q).numNodes
  pool : s.esloco.poolAddr = s.g.g_main_addr

/-- The state of `ns_write_transaction` after the replica `other cur` has been brought
up to date: the bytes are `m5` and the head of the replica is `h5`. -/
def acquiredAt (s : RedoOpt) (tid : Nat) (f : Prog) (m5 : Mem) (h5 : Nat) : RedoOpt :=
  ((locked s tid f).setMem m5).setHead (other s.cur) h5

/-- The state in which `ns_write_transaction` returns after the closure of `tid` has run
on the replica `other cur`, leaving the log `st1` and the bytes `m1` and returning `r`,
and the compare-and-swap of `per->curComb` has succeeded. -/
def finished (s : RedoOpt) (tid : Nat) (f : Prog) (m5 : Mem) (h5 : Nat) (st1 : State) (m1 : Mem)
    (r : Nat) : RedoOpt :=
  let s5 := acquiredAt s tid f m5 h5
  let s6 := (s5.setState (s.nextState tid) st1).setMem m1
  let s6r := s6.setState (s.nextState tid)
    { (s6.getState (s.nextState tid)) with
        results := fun k => if k = tid then r else (s6.getState (s.nextState tid)).results k,
        applied := fun k => if k = tid then !(s5.getState (s.nextState tid)).applied tid
          else (s6.getState (s.nextState tid)).applied k }
  let o := other s.cur
  let st6 := s6r.getState (s.nextState tid)
  let s7 := s6r.setState (s.nextState tid) { st6 with logSize := st6.lSize }
  let s8 := s7.setHead o (s.nextTicket tid)
  let s9 := s8.setComb o { (s8.combs o) with rwLock := (s8.combs o).rwLock.downgrade }
  let s10 := s9.setCurComb (makeSeqTidIdx (sti2seq s.per.curComb + 1) tid o)
  finishCommit tid (sti2idx s.per.curComb) (sti2seq s.per.curComb) (s.nextTicket tid) s10

/-- The engine that `createFile` has mapped over a new file, before the bootstrap
transaction: the replica `other cur` has the sequence number of the current one and the
same bytes on the main region. -/
structure Fresh (s : RedoOpt) (tid : Nat) : Prop where
  idle : Idle s tid
  head_ne : (s.combs (other s.cur)).head ≠ makeSeqTidIdx 0 1 0
  head_seq : sti2seq (s.combs (other s.cur)).head = sti2seq s.per.curComb
  same : ∀ x, ADDR_IS_IN_MAIN s.g x = true → s.replica (other s.cur) x = s.replica s.cur x

/-- The replica `other cur` is one transaction behind the current one, and the log of
the `State` of the head of the current replica brings it up to date. -/
structure Behind (s : RedoOpt) : Prop where
  head_ne : (s.combs (other s.cur)).head ≠ makeSeqTidIdx 0 1 0
  head_seq : sti2seq (s.combs (other s.cur)).head + 1 = sti2seq s.per.curComb
  size_eq : (s.getState s.tailState).logSize = (s.getState s.tailState).lSize
  ok : LogOK (s.getState s.tailState)
  main : ∀ p, p < (s.getState s.tailState).lSize →
    ADDR_IS_IN_MAIN s.g ((s.getState s.tailState).entryAt p).addr = true ∧
    ((s.getState s.tailState).entryAt p).addr % 8 = 0
  catchup : ∀ x, ADDR_IS_IN_MAIN s.g x = true →
    (s.getState s.tailState).replayed (s.offsetOf (other s.cur))
      (s.getState s.tailState).lSize s.mem (x + s.offsetOf (other s.cur)) = s.replica s.cur x

/-- The engine between two transactions of the single thread `tid`, after the bootstrap
transaction: the used size of the current replica is a multiple of 8 no larger than a
replica, the replica `other cur` agrees with the current one beyond the used bytes, and
it is either marked as needing a copy or one transaction behind. -/
structure Settled (s : RedoOpt) (tid : Nat) : Prop where
  idle : Idle s tid
  used_mod : s.used % 8 = 0
  used_le : s.used ≤ s.g.g_main_size
  beyond : ∀ x, ADDR_IS_IN_MAIN s.g x = true → s.g.g_main_addr + s.used ≤ x →
    s.replica (other s.cur) x = s.replica s.cur x
  behind : (s.combs (other s.cur)).head = makeSeqTidIdx 0 1 0 ∨ Behind s

/-- The write transactions of thread `tid` run one after another, each with its closure,
its value of the uninitialised `ringTicket` and its value of `tlocal.copy`; the result
is `none` when one of them fails or its closure does not return. -/
def runAll (tid : Nat) : List (Prog × Nat × Bool) → RedoOpt → Option RedoOpt
  | [], s => some s
  | t :: rest, s =>
    match ns_write_transaction tid t.1 t.2.1 t.2.2 s with
    | some (.value _, s1) => runAll tid rest s1
    | _ => none

/-- The closures of a sequence applied one after another to a memory of their own, in
the order of the sequence. -/
def applyAll : List Prog → Mem → Mem
  | [], m => m
  | f :: rest, m => applyAll rest (f.run m).2

/-- The closures of the sequence, run one after another from the memory `m`, each return
a value, load and store only 8-byte-aligned 64-bit cells of the main region, store only
below the end of the used bytes that they leave (the pool top of `EsLoco`), and leave a
used size that is a multiple of 8 and no larger than a replica. -/
def admissible (g : Globals) : List Prog → Mem → Bool
  | [], _ => true
  | f :: rest, m =>
    (match (f.run m).1 with
      | .value _ => true
      | _ => false) &&
    decide (EsLoco_getUsedSize g.g_main_addr (f.run m).2 % 8 = 0) &&
    decide (EsLoco_getUsedSize g.g_main_addr (f.run m).2 ≤ g.g_main_size) &&
    Prog.cellsIn g (g.g_main_addr + EsLoco_getUsedSize g.g_main_addr (f.run m).2) f m &&
    admissible g rest (f.run m).2

/-- A closure that stores `v` in the 64-bit cell at address `a` and returns 0. -/
def storeCell (a v : Nat) : Prog := .pstore a v (.ret 0)

/-- An aligned cell of the main region of `smallGlobals` that lies beyond the bytes that
the allocator has handed out: the pool top is at 1920 after the bootstrap transaction. -/
def strayCell : Nat := 3072

/-- Scenario: a file of `smallGlobals` is created by thread 0, which then commits a write
transaction that stores 77 in `strayCell`. -/
def strayClosed : Option RedoOpt :=
  (createFile smallGlobals 0 0 false zeroMem).bind fun s0 =>
  (ns_write_transaction 0 (storeCell strayCell 77) 0 false s0).map fun p => p.2

/-- Scenario: the file of `strayClosed` is closed and opened again. -/
def strayReopened : Option RedoOpt := strayClosed.bind (closeAndReopen 0 0 false)

/-- Scenario: the first write transaction after the re-open of `strayReopened`; its
closure returns `strayCell`. -/
def strayRead : Option (Outcome × RedoOpt) :=
  strayReopened.bind (ns_write_transaction 0 (readCell strayCell) 0 false)


end Opt


/-- The states that thread `tid` reaches on its own from a newly created file of
layout `g`: by write transactions whose closure returns and by read transactions whose
closure only loads. -/
inductive Reached (g : Globals) (tid : Nat) : Redo → Prop where
  | start : Reached g tid (createFileStart g zeroMem)
  | write (s : Redo) (f : Prog) (uninit r : Nat) : Reached g tid s → f.InMain g →
      (f.run (s.replica s.cur)).1 = .value r → sti2seq s.per.curComb + 2 < 2 ^ SEQ_BITS →
      Reached g tid (ns_write_transaction tid f uninit s).2
  | read (s : Redo) (f : Prog) (r : Nat) : Reached g tid s → f.InMain g → f.ReadOnly →
      (f.run (s.replica s.cur)).1 = .value r →
      Reached g tid (ns_read_transaction tid f s).2


/-! ## Part II. Lemmas and theorems -/

set_option maxRecDepth 100000

/-! ### Memory -/

theorem load64_eq (m : Mem) (a : Nat) : load64 m a =
    (m a).val + 256 * ((m (a+1)).val + 256 * ((m (a+2)).val + 256 * ((m (a+3)).val
      + 256 * ((m (a+4)).val + 256 * ((m (a+5)).val + 256 * ((m (a+6)).val
      + 256 * (m (a+7)).val)))))) := by
  simp [load64, loadN, Nat.add_assoc]

theorem store64_at (m : Mem) (a v i : Nat) (h : i < 8) : store64 m a v (a + i) = byteOf v i := by
  unfold store64
  have : a ≤ a + i ∧ a + i < a + 8 := ⟨by omega, by omega⟩
  simp [this]

theorem store64_other (m : Mem) (a v x : Nat) (h : x < a ∨ a + 8 ≤ x) :
    store64 m a v x = m x := by
  unfold store64
  have : ¬ (a ≤ x ∧ x < a + 8) := by omega
  simp [this]

theorem load64_store64_same (m : Mem) (a v : Nat) : load64 (store64 m a v) a = v % 2 ^ 64 := by
  rw [load64_eq]
  have h0 := store64_at m a v 0 (by decide)
  simp only [Nat.add_zero] at h0
  rw [h0, store64_at m a v 1 (by decide), store64_at m a v 2 (by decide),
    store64_at m a v 3 (by decide), store64_at m a v 4 (by decide),
    store64_at m a v 5 (by decide), store64_at m a v 6 (by decide),
    store64_at m a v 7 (by decide)]
  simp only [byteOf]
  norm_num
  omega

theorem store64_store64_same (m : Mem) (a v w : Nat) :
    store64 (store64 m a v) a w = store64 m a w := by
  funext x
  unfold store64
  split <;> rfl

theorem store64_load64_same (m : Mem) (a : Nat) : store64 m a (load64 m a) = m := by
  funext x
  unfold store64
  split
  · rename_i h
    obtain ⟨i, hi, rfl⟩ : ∃ i, i < 8 ∧ x = a + i := ⟨x - a, by omega, by omega⟩
    rw [load64_eq]
    have e : a + i - a = i := by omega
    rw [e]
    apply Fin.ext
    simp only [byteOf]
    have b0 := (m a).isLt
    have b1 := (m (a+1)).isLt
    have b2 := (m (a+2)).isLt
    have b3 := (m (a+3)).isLt
    have b4 := (m (a+4)).isLt
    have b5 := (m (a+5)).isLt
    have b6 := (m (a+6)).isLt
    have b7 := (m (a+7)).isLt
    interval_cases i <;> norm_num <;> omega
  · rfl

theorem store64_comm (m : Mem) (a b v w : Nat) (h : a + 8 ≤ b ∨ b + 8 ≤ a) :
    store64 (store64 m a v) b w = store64 (store64 m b w) a v := by
  funext x
  unfold store64
  by_cases h1 : a ≤ x ∧ x < a + 8 <;> by_cases h2 : b ≤ x ∧ x < b + 8 <;> simp [h1, h2]
  omega

theorem load64_congr (m1 m2 : Mem) (a : Nat) (h : ∀ i, i < 8 → m1 (a + i) = m2 (a + i)) :
    load64 m1 a = load64 m2 a := by
  rw [load64_eq, load64_eq]
  have h0 := h 0 (by decide)
  simp only [Nat.add_zero] at h0
  rw [h0, h 1 (by decide), h 2 (by decide), h 3 (by decide), h 4 (by decide), h 5 (by decide),
    h 6 (by decide), h 7 (by decide)]

theorem load64_store64_other (m : Mem) (a b v : Nat) (h : a + 8 ≤ b ∨ b + 8 ≤ a) :
    load64 (store64 m a v) b = load64 m b := by
  apply load64_congr
  intro i hi
  apply store64_other
  omega

/-! ### Searching the log -/

theorem entryAt_node (st : State) (n i : Nat) (h : i < MAXLOGSIZE) :
    st.entryAt (n * MAXLOGSIZE + i) = (st.nodes n).log i := by
  unfold State.entryAt
  have h1 : (n * MAXLOGSIZE + i) / MAXLOGSIZE = n := by
    simp only [MAXLOGSIZE] at h ⊢
    omega
  have h2 : (n * MAXLOGSIZE + i) % MAXLOGSIZE = i := by
    simp only [MAXLOGSIZE] at h ⊢
    omega
  rw [h1, h2]

theorem findAddrInNode_spec (node : WriteSetNode) (addr : Nat) :
    ∀ len j s,
      match findAddrInNode node addr len j s with
      | .found i => i < len ∧ (node.log i).addr = addr ∧
          ∀ k, i < k → k < len → (node.log k).addr ≠ addr
      | .cont j1 _ => j ≤ j1 ∧ j1 ≤ j + len ∧ (j1 < 32 → j1 = j + len) ∧
          ∀ k, k < len → len ≤ k + (j1 - j) → (node.log k).addr ≠ addr := by
  intro len
  induction len with
  | zero => intro j s; simp [findAddrInNode]
  | succ i ih =>
    intro j s
    unfold findAddrInNode
    by_cases hcl : ADDR2CL addr = ADDR2CL (node.log i).addr
    · by_cases ha : addr = (node.log i).addr
      · simp only [hcl, ha, if_true]
        refine ⟨by omega, trivial, ?_⟩
        intro k h1 h2
        omega
      · simp only [hcl, ha, if_true, if_false]
        by_cases hj : j + 1 ≥ 32
        · simp only [hj, if_true]
          refine ⟨by omega, by omega, by omega, ?_⟩
          intro k h1 h2
          have : k = i := by omega
          subst this
          exact fun h => ha h.symm
        · simp only [hj, if_false]
          have := ih (j + 1) true
          revert this
          cases findAddrInNode node addr i (j + 1) true with
          | found i1 =>
            simp only
            rintro ⟨h1, h2, h3⟩
            refine ⟨by omega, h2, ?_⟩
            intro k hk1 hk2
            by_cases hki : k = i
            · subst hki; exact fun h => ha h.symm
            · exact h3 k hk1 (by omega)
          | cont j1 s1 =>
            simp only
            rintro ⟨h0, h1, h2, h3⟩
            refine ⟨by omega, by omega, fun h => by have := h2 h; omega, ?_⟩
            intro k hk1 hk2
            by_cases hki : k = i
            · subst hki; exact fun h => ha h.symm
            · exact h3 k (by omega) (by omega)
    · have ha : addr ≠ (node.log i).addr := fun h => hcl (by rw [← h])
      simp only [hcl, if_false]
      by_cases hj : j + 1 ≥ 32
      · simp only [hj, if_true]
        refine ⟨by omega, by omega, by omega, ?_⟩
        intro k h1 h2
        have : k = i := by omega
        subst this
        exact fun h => ha h.symm
      · simp only [hj, if_false]
        have := ih (j + 1) s
        revert this
        cases findAddrInNode node addr i (j + 1) s with
        | found i1 =>
          simp only
          rintro ⟨h1, h2, h3⟩
          refine ⟨by omega, h2, ?_⟩
          intro k hk1 hk2
          by_cases hki : k = i
          · subst hki; exact fun h => ha h.symm
          · exact h3 k hk1 (by omega)
        | cont j1 s1 =>
          simp only
          rintro ⟨h0, h1, h2, h3⟩
          refine ⟨by omega, by omega, fun h => by have := h2 h; omega, ?_⟩
          intro k hk1 hk2
          by_cases hki : k = i
          · subst hki; exact fun h => ha h.symm
          · exact h3 k (by omega) (by omega)

theorem findAddrInChain_zero (st : State) (addr len j : Nat) (s : Bool) :
    (findAddrInChain st addr 0 len j s).1 < 0 := by
  unfold findAddrInChain
  split <;> decide

theorem findAddrInChain_spec (st : State) (addr : Nat) :
    ∀ n len j s, len ≤ MAXLOGSIZE →
      (∃ k, k < n * MAXLOGSIZE + len ∧
        findAddrInChain st addr (n + 1) len j s
          = (((k % MAXLOGSIZE : Nat) : Int), some (k / MAXLOGSIZE)) ∧
        (st.entryAt k).addr = addr ∧
        ∀ k1, k < k1 → k1 < n * MAXLOGSIZE + len → (st.entryAt k1).addr ≠ addr)
      ∨ ((findAddrInChain st addr (n + 1) len j s).1 < 0 ∧
        ∀ k1, k1 < n * MAXLOGSIZE + len → n * MAXLOGSIZE + len ≤ k1 + (32 - j) →
          (st.entryAt k1).addr ≠ addr) := by
  intro n
  induction n with
  | zero =>
    intro len j s hlen
    unfold findAddrInChain
    by_cases hj : j < 32
    · simp only [hj, if_true]
      have hn := findAddrInNode_spec (st.nodes 0) addr len j s
      revert hn
      cases findAddrInNode (st.nodes 0) addr len j s with
      | found i =>
        simp only
        rintro ⟨h1, h2, h3⟩
        left
        have hi : i < MAXLOGSIZE := by omega
        refine ⟨i, by omega, ?_, ?_, ?_⟩
        · have e1 : i % MAXLOGSIZE = i := Nat.mod_eq_of_lt hi
          have e2 : i / MAXLOGSIZE = 0 := Nat.div_eq_of_lt hi
          rw [e1, e2]
        · have := entryAt_node st 0 i hi
          simp only [Nat.zero_mul, Nat.zero_add] at this
          rw [this]; exact h2
        · intro k1 hk1 hk2
          have hk : k1 < MAXLOGSIZE := by omega
          have := entryAt_node st 0 k1 hk
          simp only [Nat.zero_mul, Nat.zero_add] at this
          rw [this]
          exact h3 k1 hk1 (by omega)
      | cont j1 s1 =>
        simp only
        rintro ⟨h0, h1, h2, h3⟩
        right
        refine ⟨findAddrInChain_zero st addr _ _ _, ?_⟩
        intro k1 hk1 hk2
        have hk : k1 < MAXLOGSIZE := by omega
        have := entryAt_node st 0 k1 hk
        simp only [Nat.zero_mul, Nat.zero_add] at this
        rw [this]
        apply h3 k1 (by omega)
        by_cases hj1 : j1 < 32
        · have := h2 hj1; omega
        · omega
    · simp only [hj, if_false]
      right
      refine ⟨by split <;> decide, ?_⟩
      intro k1 hk1 hk2
      omega
  | succ n ih =>
    intro len j s hlen
    unfold findAddrInChain
    by_cases hj : j < 32
    · simp only [hj, if_true]
      have hn := findAddrInNode_spec (st.nodes (n + 1)) addr len j s
      revert hn
      cases findAddrInNode (st.nodes (n + 1)) addr len j s with
      | found i =>
        simp only
        rintro ⟨h1, h2, h3⟩
        left
        have hi : i < MAXLOGSIZE := by omega
        refine ⟨(n + 1) * MAXLOGSIZE + i, by omega, ?_, ?_, ?_⟩
        · have e1 : ((n + 1) * MAXLOGSIZE + i) % MAXLOGSIZE = i := by
            simp only [MAXLOGSIZE] at hi ⊢; omega
          have e2 : ((n + 1) * MAXLOGSIZE + i) / MAXLOGSIZE = n + 1 := by
            simp only [MAXLOGSIZE] at hi ⊢; omega
          rw [e1, e2]
        · rw [entryAt_node st (n + 1) i hi]; exact h2
        · intro k1 hk1 hk2
          obtain ⟨i1, hi1, rfl⟩ : ∃ i1, i1 < MAXLOGSIZE ∧ k1 = (n + 1) * MAXLOGSIZE + i1 :=
            ⟨k1 - (n + 1) * MAXLOGSIZE, by omega, by omega⟩
          rw [entryAt_node st (n + 1) i1 hi1]
          exact h3 i1 (by omega) (by omega)
      | cont j1 s1 =>
        simp only
        rintro ⟨h0, h1, h2, h3⟩
        have hnode : ∀ k1, (n + 1) * MAXLOGSIZE ≤ k1 → k1 < (n + 1) * MAXLOGSIZE + len →
            (n + 1) * MAXLOGSIZE + len ≤ k1 + (j1 - j) → (st.entryAt k1).addr ≠ addr := by
          intro k1 hk1 hk2 hk3
          obtain ⟨i1, hi1, rfl⟩ : ∃ i1, i1 < MAXLOGSIZE ∧ k1 = (n + 1) * MAXLOGSIZE + i1 :=
            ⟨k1 - (n + 1) * MAXLOGSIZE, by omega, by omega⟩
          rw [entryAt_node st (n + 1) i1 hi1]
          exact h3 i1 (by omega) (by omega)
        have hmul : (n + 1) * MAXLOGSIZE = n * MAXLOGSIZE + MAXLOGSIZE := Nat.succ_mul n MAXLOGSIZE
        rcases ih MAXLOGSIZE j1 s1 (Nat.le_refl _) with ⟨k, hk, he, ha, hlast⟩ | ⟨hneg, hnone⟩
        · left
          refine ⟨k, by omega, he, ha, ?_⟩
          have hj1 : j1 < 32 := by
            by_contra hc
            have : (findAddrInChain st addr (n + 1) MAXLOGSIZE j1 s1).1 < 0 := by
              unfold findAddrInChain
              simp only [hc, if_false]
              split <;> decide
            rw [he] at this
            simp at this
            omega
          have hfull := h2 hj1
          intro k1 hk1 hk2
          by_cases hlow : k1 < (n + 1) * MAXLOGSIZE
          · exact hlast k1 hk1 (by omega)
          · exact hnode k1 (by omega) hk2 (by omega)
        · right
          refine ⟨hneg, ?_⟩
          intro k1 hk1 hk2
          by_cases hlow : k1 < (n + 1) * MAXLOGSIZE
          · apply hnone k1 (by omega)
            by_cases hj1 : j1 < 32
            · have := h2 hj1; omega
            · omega
          · apply hnode k1 (by omega) hk1
            by_cases hj1 : j1 < 32
            · have := h2 hj1; omega
            · omega
    · simp only [hj, if_false]
      right
      refine ⟨by split <;> decide, ?_⟩
      intro k1 hk1 hk2
      omega

theorem findAddrInLog_spec (st : State) (addr : Nat) (hwf : LogWF st) :
    (∃ k, k < st.lSize ∧
      findAddrInLog st addr = (((k % MAXLOGSIZE : Nat) : Int), some (k / MAXLOGSIZE)) ∧
      (st.entryAt k).addr = addr ∧
      ∀ k1, k < k1 → k1 < st.lSize → (st.entryAt k1).addr ≠ addr)
    ∨ ((findAddrInLog st addr).1 < 0 ∧
      ∀ k1, k1 < st.lSize → st.lSize ≤ k1 + 32 → (st.entryAt k1).addr ≠ addr) := by
  unfold findAddrInLog
  by_cases h0 : st.lSize > 0
  · simp only [h0, if_true]
    obtain ⟨ht, _⟩ := hwf
    have hpos : st.logTail * MAXLOGSIZE +
        (if st.lSize % MAXLOGSIZE = 0 then MAXLOGSIZE else st.lSize % MAXLOGSIZE) = st.lSize := by
      rw [ht]
      simp only [MAXLOGSIZE] at *
      split <;> omega
    have hlen : (if st.lSize % MAXLOGSIZE = 0 then MAXLOGSIZE else st.lSize % MAXLOGSIZE)
        ≤ MAXLOGSIZE := by
      simp only [MAXLOGSIZE]
      split <;> omega
    have := findAddrInChain_spec st addr st.logTail _ 0 false hlen
    rw [hpos] at this
    rcases this with ⟨k, hk, he, ha, hl⟩ | ⟨hneg, hnone⟩
    · exact Or.inl ⟨k, hk, he, ha, hl⟩
    · exact Or.inr ⟨hneg, fun k1 h1 h2 => hnone k1 h1 (by omega)⟩
  · simp only [h0, if_false]
    right
    exact ⟨by decide, fun k1 h1 _ => by omega⟩

theorem entryAt_setNode_setEntry (st : State) (t i : Nat) (e : WriteSetEntry) (k : Nat) :
    (st.setNode t ((st.nodes t).setEntry i e)).entryAt k
      = if k / MAXLOGSIZE = t ∧ k % MAXLOGSIZE = i then e else st.entryAt k := by
  unfold State.entryAt State.setNode WriteSetNode.setEntry
  by_cases h1 : k / MAXLOGSIZE = t
  · by_cases h2 : k % MAXLOGSIZE = i
    · simp [h1, h2]
    · simp [h1, h2]
  · simp [h1]

theorem add_to_log_spec (st : State) (addr oldval val : Nat) (hwf : LogWF st) :
    LogWF (add_to_log st addr oldval val).1 ∧
    (add_to_log st addr oldval val).1.ticket = st.ticket ∧
    (add_to_log st addr oldval val).1.applied = st.applied ∧
    (add_to_log st addr oldval val).1.results = st.results ∧
    (add_to_log st addr oldval val).1.logSize = st.logSize ∧
    ((∃ k, k < st.lSize ∧ (st.entryAt k).addr = addr ∧
        (∀ k1, k < k1 → k1 < st.lSize → (st.entryAt k1).addr ≠ addr) ∧
        (add_to_log st addr oldval val).1.lSize = st.lSize ∧
        ∀ k1, (add_to_log st addr oldval val).1.entryAt k1
          = if k1 = k then { st.entryAt k with val := val } else st.entryAt k1)
      ∨ ((∀ k1, k1 < st.lSize → st.lSize ≤ k1 + 32 → (st.entryAt k1).addr ≠ addr) ∧
        (add_to_log st addr oldval val).1.lSize = st.lSize + 1 ∧
        (∀ k1, k1 < st.lSize → (add_to_log st addr oldval val).1.entryAt k1 = st.entryAt k1) ∧
        (add_to_log st addr oldval val).1.entryAt st.lSize
          = { addr := addr, oldval := oldval, val := val })) := by
  rcases findAddrInLog_spec st addr hwf with ⟨k, hk, he, ha, hl⟩ | ⟨hneg, hnone⟩
  · have hkm : k % MAXLOGSIZE < MAXLOGSIZE := Nat.mod_lt _ (by decide)
    have hst : add_to_log st addr oldval val
        = (st.setNode (k / MAXLOGSIZE) ((st.nodes (k / MAXLOGSIZE)).setEntry (k % MAXLOGSIZE)
            { st.entryAt k with val := val }), true) := by
      unfold add_to_log
      rw [he]
      have : ¬ (((k % MAXLOGSIZE : Nat) : Int) < 0) := by omega
      simp only [this, if_false, Option.getD_some, Int.toNat_ofNat]
      rfl
    rw [hst]
    refine ⟨?_, rfl, rfl, rfl, rfl, Or.inl ⟨k, hk, ha, hl, rfl, ?_⟩⟩
    · exact hwf
    · intro k1
      rw [entryAt_setNode_setEntry]
      by_cases hkk : k1 = k
      · subst hkk; simp
      · have : ¬ (k1 / MAXLOGSIZE = k / MAXLOGSIZE ∧ k1 % MAXLOGSIZE = k % MAXLOGSIZE) := by
          simp only [MAXLOGSIZE]; omega
        simp [this, hkk]
  · obtain ⟨ht, hn⟩ := hwf
    rcases hf : findAddrInLog st addr with ⟨pos, tail⟩
    rw [hf] at hneg
    simp only at hneg
    by_cases hc : st.lSize % MAXLOGSIZE = 0 ∧ st.lSize ≥ MAXLOGSIZE
    · by_cases hr : st.logTail + 1 < st.numNodes
      · have hst : add_to_log st addr oldval val
            = ({ (({ st with logTail := st.logTail + 1 } : State).setNode (st.logTail + 1)
                  ((st.nodes (st.logTail + 1)).setEntry (st.lSize % MAXLOGSIZE)
                    { addr := addr, oldval := oldval, val := val })) with
                  lSize := st.lSize + 1 }, pos == -2) := by
          unfold add_to_log
          rw [hf]
          simp only [hneg, if_true, hc, and_self, hr]
        rw [hst]
        refine ⟨⟨?_, ?_⟩, rfl, rfl, rfl, rfl, Or.inr ⟨hnone, rfl, ?_, ?_⟩⟩
        · show st.logTail + 1 = (st.lSize + 1 - 1) / MAXLOGSIZE
          simp only [MAXLOGSIZE] at *; omega
        · exact hr
        · intro k1 hk1
          have := entryAt_setNode_setEntry { st with logTail := st.logTail + 1 }
            (st.logTail + 1) (st.lSize % MAXLOGSIZE)
            { addr := addr, oldval := oldval, val := val } k1
          have hne : ¬ (k1 / MAXLOGSIZE = st.logTail + 1 ∧
              k1 % MAXLOGSIZE = st.lSize % MAXLOGSIZE) := by
            simp only [MAXLOGSIZE] at *; omega
          simp only [hne, if_false] at this
          exact this
        · have := entryAt_setNode_setEntry { st with logTail := st.logTail + 1 }
            (st.logTail + 1) (st.lSize % MAXLOGSIZE)
            { addr := addr, oldval := oldval, val := val } st.lSize
          have hne : st.lSize / MAXLOGSIZE = st.logTail + 1 := by
            simp only [MAXLOGSIZE] at *; omega
          simp only [hne, and_self, if_true] at this
          exact this
      · have hst : add_to_log st addr oldval val
            = ({ (({ (st.setNode (st.logTail + 1) {}) with
                      numNodes := st.numNodes + 1, logTail := st.logTail + 1 } : State).setNode
                  (st.logTail + 1)
                  (((st.setNode (st.logTail + 1) {}).nodes (st.logTail + 1)).setEntry
                    (st.lSize % MAXLOGSIZE)
                    { addr := addr, oldval := oldval, val := val })) with
                  lSize := st.lSize + 1 }, pos == -2) := by
          unfold add_to_log
          rw [hf]
          simp only [hneg, if_true, hc, and_self, hr, if_false]
        rw [hst]
        refine ⟨⟨?_, ?_⟩, rfl, rfl, rfl, rfl, Or.inr ⟨hnone, rfl, ?_, ?_⟩⟩
        · show st.logTail + 1 = (st.lSize + 1 - 1) / MAXLOGSIZE
          simp only [MAXLOGSIZE] at *; omega
        · show st.logTail + 1 < st.numNodes + 1
          omega
        · intro k1 hk1
          have := entryAt_setNode_setEntry
            { (st.setNode (st.logTail + 1) {}) with
                numNodes := st.numNodes + 1, logTail := st.logTail + 1 }
            (st.logTail + 1) (st.lSize % MAXLOGSIZE)
            { addr := addr, oldval := oldval, val := val } k1
          have hne : ¬ (k1 / MAXLOGSIZE = st.logTail + 1 ∧
              k1 % MAXLOGSIZE = st.lSize % MAXLOGSIZE) := by
            simp only [MAXLOGSIZE] at *; omega
          simp only [hne, if_false] at this
          refine this.trans ?_
          unfold State.entryAt State.setNode
          have hne2 : ¬ (k1 / MAXLOGSIZE = st.logTail + 1) := by
            simp only [MAXLOGSIZE] at *; omega
          simp [hne2]
        · have := entryAt_setNode_setEntry
            { (st.setNode (st.logTail + 1) {}) with
                numNodes := st.numNodes + 1, logTail := st.logTail + 1 }
            (st.logTail + 1) (st.lSize % MAXLOGSIZE)
            { addr := addr, oldval := oldval, val := val } st.lSize
          have hne : st.lSize / MAXLOGSIZE = st.logTail + 1 := by
            simp only [MAXLOGSIZE] at *; omega
          simp only [hne, and_self, if_true] at this
          exact this
    · have hst : add_to_log st addr oldval val
          = ({ (st.setNode st.logTail
                ((st.nodes st.logTail).setEntry (st.lSize % MAXLOGSIZE)
                  { addr := addr, oldval := oldval, val := val })) with
                lSize := st.lSize + 1 }, pos == -2) := by
        unfold add_to_log
        rw [hf]
        simp only [hneg, if_true, hc, if_false]
      rw [hst]
      refine ⟨⟨?_, ?_⟩, rfl, rfl, rfl, rfl, Or.inr ⟨hnone, rfl, ?_, ?_⟩⟩
      · show st.logTail = (st.lSize + 1 - 1) / MAXLOGSIZE
        simp only [MAXLOGSIZE] at *; omega
      · exact hn
      · intro k1 hk1
        have := entryAt_setNode_setEntry st st.logTail (st.lSize % MAXLOGSIZE)
          { addr := addr, oldval := oldval, val := val } k1
        have hne : ¬ (k1 / MAXLOGSIZE = st.logTail ∧ k1 % MAXLOGSIZE = st.lSize % MAXLOGSIZE) := by
          simp only [MAXLOGSIZE] at *; omega
        simp only [hne, if_false] at this
        exact this
      · have := entryAt_setNode_setEntry st st.logTail (st.lSize % MAXLOGSIZE)
          { addr := addr, oldval := oldval, val := val } st.lSize
        have hne : st.lSize / MAXLOGSIZE = st.logTail := by
          simp only [MAXLOGSIZE] at *; omega
        simp only [hne, and_self, if_true] at this
        exact this

/-! ### Lists of stores -/

theorem writeAll_append (ws1 ws2 : List (Nat × Nat)) (m : Mem) :
    writeAll (ws1 ++ ws2) m = writeAll ws2 (writeAll ws1 m) := by
  unfold writeAll
  rw [List.foldl_append]

theorem writeAll_agree (ws : List (Nat × Nat)) :
    ∀ m1 m2 : Mem, (∀ x, m1 x = m2 x ∨ ∃ w ∈ ws, w.1 ≤ x ∧ x < w.1 + 8) →
      writeAll ws m1 = writeAll ws m2 := by
  induction ws with
  | nil =>
    intro m1 m2 h
    funext x
    rcases h x with h1 | ⟨w, hw, _⟩
    · exact h1
    · cases hw
  | cons w ws ih =>
    intro m1 m2 h
    show writeAll ws (store64 m1 w.1 w.2) = writeAll ws (store64 m2 w.1 w.2)
    apply ih
    intro x
    by_cases hx : w.1 ≤ x ∧ x < w.1 + 8
    · left
      unfold store64
      simp [hx]
    · rcases h x with h1 | ⟨w1, hw1, hr⟩
      · left
        unfold store64
        simp [hx, h1]
      · rcases List.mem_cons.mp hw1 with rfl | hmem
        · exact absurd hr hx
        · exact Or.inr ⟨w1, hmem, hr⟩

theorem writeAll_outside (ws : List (Nat × Nat)) :
    ∀ (m : Mem) (x : Nat), (∀ w ∈ ws, x < w.1 ∨ w.1 + 8 ≤ x) → writeAll ws m x = m x := by
  induction ws with
  | nil => intro m x _; rfl
  | cons w ws ih =>
    intro m x h
    show writeAll ws (store64 m w.1 w.2) x = m x
    rw [ih _ x (fun w1 hw1 => h w1 (List.mem_cons_of_mem _ hw1))]
    exact store64_other m w.1 w.2 x (h w (List.mem_cons_self _ _))

theorem writeAll_idem (ws : List (Nat × Nat)) (m : Mem) :
    writeAll ws (writeAll ws m) = writeAll ws m := by
  apply writeAll_agree
  intro x
  by_cases h : ∃ w ∈ ws, w.1 ≤ x ∧ x < w.1 + 8
  · exact Or.inr h
  · left
    apply writeAll_outside
    intro w hw
    by_contra hc
    exact h ⟨w, hw, by omega⟩

theorem replay_eq_writeAll (es : List WriteSetEntry) (offset : Nat) (m : Mem) :
    replay es offset m = writeAll (es.map (fun e => (e.addr + offset, e.val))) m := by
  unfold replay writeAll
  rw [List.foldl_map]

theorem undoList_eq_writeAll (es : List WriteSetEntry) (offset : Nat) (m : Mem) :
    undoList es offset m
      = writeAll (es.reverse.map (fun e => (e.addr + offset, e.oldval))) m := by
  unfold undoList writeAll
  rw [List.foldl_map]

theorem replay_append (es1 es2 : List WriteSetEntry) (offset : Nat) (m : Mem) :
    replay (es1 ++ es2) offset m = replay es2 offset (replay es1 offset m) := by
  unfold replay
  rw [List.foldl_append]

theorem undoList_append (es1 es2 : List WriteSetEntry) (offset : Nat) (m : Mem) :
    undoList (es1 ++ es2) offset m = undoList es1 offset (undoList es2 offset m) := by
  unfold undoList
  rw [List.reverse_append, List.foldl_append]

theorem undoList_nil (offset : Nat) (m : Mem) : undoList [] offset m = m := rfl

theorem undoList_single (e : WriteSetEntry) (offset : Nat) (m : Mem) :
    undoList [e] offset m = store64 m (e.addr + offset) e.oldval := rfl

/-! ### The chain of nodes and the flat log -/

theorem entries_length (st : State) (n : Nat) : (st.entries n).length = n := by
  simp [State.entries]

theorem entries_succ (st : State) (n : Nat) :
    st.entries (n + 1) = st.entries n ++ [st.entryAt n] := by
  simp [State.entries, List.range_succ]

theorem entries_split (st : State) (n len : Nat) (h : len ≤ MAXLOGSIZE) :
    st.entries (n * MAXLOGSIZE + len)
      = st.entries (n * MAXLOGSIZE) ++ (List.range len).map (st.nodes n).log := by
  induction len with
  | zero => simp
  | succ i ih =>
    rw [← Nat.add_assoc, entries_succ, ih (by omega), List.range_succ, List.map_append,
      List.append_assoc, entryAt_node st n i (by omega)]
    rfl

theorem undoNode_eq (node : WriteSetNode) (offset : Nat) :
    ∀ len m, undoNode node offset len m = undoList ((List.range len).map node.log) offset m := by
  intro len
  induction len with
  | zero => intro m; rfl
  | succ i ih =>
    intro m
    rw [List.range_succ, List.map_append, undoList_append]
    show undoNode node offset i _ = _
    rw [ih]
    rfl

theorem undoChain_eq (st : State) (offset : Nat) :
    ∀ n len m, len ≤ MAXLOGSIZE →
      undoChain st offset (n + 1) len m = undoList (st.entries (n * MAXLOGSIZE + len)) offset m := by
  intro n
  induction n with
  | zero =>
    intro len m hlen
    rw [entries_split st 0 len hlen, undoList_append]
    show undoNode (st.nodes 0) offset len m = _
    rw [undoNode_eq]
    simp [State.entries, undoList_nil]
  | succ n ih =>
    intro len m hlen
    rw [entries_split st (n + 1) len hlen, undoList_append, ← undoNode_eq]
    show undoChain st offset (n + 1) MAXLOGSIZE _ = _
    rw [ih MAXLOGSIZE _ (Nat.le_refl _), Nat.succ_mul]

theorem apply_undologPWB_eq (st : State) (offset : Nat) (m : Mem) (hwf : LogWF st) :
    apply_undologPWB st offset m = undoList (st.entries st.lSize) offset m := by
  unfold apply_undologPWB
  by_cases h0 : st.lSize > 0
  · simp only [h0, if_true]
    have hlen : (if st.lSize % MAXLOGSIZE = 0 then MAXLOGSIZE else st.lSize % MAXLOGSIZE)
        ≤ MAXLOGSIZE := by
      simp only [MAXLOGSIZE]
      split <;> omega
    rw [undoChain_eq st offset _ _ m hlen]
    have hpos : st.logTail * MAXLOGSIZE +
        (if st.lSize % MAXLOGSIZE = 0 then MAXLOGSIZE else st.lSize % MAXLOGSIZE) = st.lSize := by
      rw [hwf.1]
      simp only [MAXLOGSIZE] at *
      split <;> omega
    rw [hpos]
  · have : st.lSize = 0 := by omega
    simp [this, State.entries, undoList_nil]

theorem copyChain_eq (st : State) (n : Nat) :
    ∀ fuel node, node * MAXLOGSIZE ≤ n → n < (node + fuel) * MAXLOGSIZE →
      copyChain st n fuel node (st.entries (node * MAXLOGSIZE)) = some (st.entries n) := by
  intro fuel
  induction fuel with
  | zero => intro node h1 h2; simp only [Nat.add_zero] at h2; omega
  | succ fuel ih =>
    intro node h1 h2
    unfold copyChain
    simp only [entries_length, copyNode]
    by_cases hlt : n - node * MAXLOGSIZE < MAXLOGSIZE
    · simp only [hlt, if_true]
      have hm : n % MAXLOGSIZE = n - node * MAXLOGSIZE := by
        simp only [MAXLOGSIZE] at *; omega
      rw [← entries_split st node _ (by rw [hm]; omega)]
      have hn : node * MAXLOGSIZE + n % MAXLOGSIZE = n := by omega
      rw [hn]
      simp [entries_length]
    · simp only [hlt, if_false]
      rw [← entries_split st node _ (Nat.le_refl _)]
      have hn : node * MAXLOGSIZE + MAXLOGSIZE = (node + 1) * MAXLOGSIZE := by
        rw [Nat.succ_mul]
      rw [hn]
      by_cases hge : ((node + 1) * MAXLOGSIZE) ≥ n
      · have : (node + 1) * MAXLOGSIZE = n := by omega
        simp [entries_length, this]
      · simp only [entries_length, hge, if_false]
        apply ih (node + 1) (by omega)
        have : node + 1 + fuel = node + (fuel + 1) := by omega
        rw [this]; exact h2

theorem copy_redolog_eq (st : State) (redoSize : Nat) :
    copy_redolog st redoSize = some (st.entries redoSize) := by
  unfold copy_redolog
  have := copyChain_eq st redoSize (redoSize / MAXLOGSIZE + 1) 0 (by omega)
    (by simp only [MAXLOGSIZE]; omega)
  simpa [State.entries] using this

/-! ### `pstore` on cells of the main region -/

theorem in_main_in_region (g : Globals) (a : Nat) (h : ADDR_IS_IN_MAIN g a = true) :
    ADDR_IS_IN_REGION g a = true := by
  simp only [ADDR_IS_IN_MAIN, ADDR_IS_IN_REGION, Globals.g_main_addr_end, Globals.g_region_end,
    MAX_COMBINEDS, Bool.and_eq_true, decide_eq_true_eq] at *
  omega

theorem pstore_main (g : Globals) (offset : Nat) (st : State) (m : Mem) (a v : Nat)
    (h : ADDR_IS_IN_MAIN g a = true) :
    pstore g offset st m a v
      = ((add_to_log st a (load64 m (a + offset)) v).1, store64 m (a + offset) v) := by
  unfold pstore
  by_cases ho : offset = 0
  · subst ho
    simp only [ne_eq, not_true_eq_false, false_and, if_false, in_main_in_region g a h, if_true,
      Nat.sub_zero, Nat.add_zero]
    by_cases hv : load64 m a = v
    · simp only [hv, not_true_eq_false, if_false]
      rw [← hv, store64_load64_same]
    · simp only [hv, not_false_eq_true, if_true]
  · simp only [ne_eq, ho, not_false_eq_true, h, and_self, if_true]
    by_cases hv : load64 m (a + offset) = v
    · simp only [hv, not_true_eq_false, if_false]
      rw [← hv, store64_load64_same]
    · simp only [hv, not_false_eq_true, if_true]

theorem undoList_congr (es1 es2 : List WriteSetEntry) (offset : Nat) (m : Mem)
    (h : es1.map (fun e => (e.addr, e.oldval)) = es2.map (fun e => (e.addr, e.oldval))) :
    undoList es1 offset m = undoList es2 offset m := by
  rw [undoList_eq_writeAll, undoList_eq_writeAll]
  have e : ∀ es : List WriteSetEntry, es.reverse.map (fun e => (e.addr + offset, e.oldval))
      = ((es.map (fun e => (e.addr, e.oldval))).reverse).map (fun p => (p.1 + offset, p.2)) := by
    intro es
    rw [← List.map_reverse, List.map_map]
    rfl
  rw [e es1, e es2, h]

theorem undoList_mask (es : List WriteSetEntry) (offset a v : Nat) (m : Mem)
    (h : ∃ e ∈ es, e.addr = a) :
    undoList es offset (store64 m (a + offset) v) = undoList es offset m := by
  rw [undoList_eq_writeAll, undoList_eq_writeAll]
  apply writeAll_agree
  intro x
  by_cases hx : a + offset ≤ x ∧ x < a + offset + 8
  · right
    obtain ⟨e, he, rfl⟩ := h
    exact ⟨(e.addr + offset, e.oldval),
      List.mem_map.mpr ⟨e, List.mem_reverse.mpr he, rfl⟩, hx⟩
  · left
    apply store64_other
    omega

theorem pstore_undo_inv (g : Globals) (offset : Nat) (st : State) (m : Mem) (a v : Nat)
    (hwf : LogWF st) (h : ADDR_IS_IN_MAIN g a = true) :
    LogWF (pstore g offset st m a v).1 ∧
    undoList ((pstore g offset st m a v).1.entries (pstore g offset st m a v).1.lSize) offset
        (pstore g offset st m a v).2
      = undoList (st.entries st.lSize) offset m := by
  rw [pstore_main g offset st m a v h]
  obtain ⟨hwf1, -, -, -, -, hcase⟩ := add_to_log_spec st a (load64 m (a + offset)) v hwf
  refine ⟨hwf1, ?_⟩
  rcases hcase with ⟨k, hk, hka, -, hsz, hent⟩ | ⟨-, hsz, hold, hnew⟩
  · simp only
    rw [hsz]
    have hc : ((add_to_log st a (load64 m (a + offset)) v).1.entries st.lSize).map
        (fun e => (e.addr, e.oldval)) = (st.entries st.lSize).map (fun e => (e.addr, e.oldval)) := by
      unfold State.entries
      rw [List.map_map, List.map_map]
      apply List.map_congr_left
      intro k1 _
      simp only [Function.comp, hent k1]
      split
      · rename_i hkk; subst hkk; rfl
      · rfl
    rw [undoList_congr _ _ offset _ hc]
    apply undoList_mask
    exact ⟨st.entryAt k, List.mem_map.mpr ⟨k, List.mem_range.mpr hk, rfl⟩, hka⟩
  · simp only
    rw [hsz, entries_succ, hnew, undoList_append, undoList_single]
    simp only
    rw [store64_store64_same, store64_load64_same]
    have hc : (add_to_log st a (load64 m (a + offset)) v).1.entries st.lSize
        = st.entries st.lSize := by
      unfold State.entries
      apply List.map_congr_left
      intro k1 hk1
      exact hold k1 (List.mem_range.mp hk1)
    rw [hc]

theorem pstoreAll_undo_inv (g : Globals) (offset : Nat) (stores : List (Nat × Nat)) :
    ∀ (st : State) (m : Mem), LogWF st →
      (∀ s ∈ stores, ADDR_IS_IN_MAIN g s.1 = true) →
      LogWF (pstoreAll g offset stores st m).1 ∧
      undoList ((pstoreAll g offset stores st m).1.entries (pstoreAll g offset stores st m).1.lSize)
          offset (pstoreAll g offset stores st m).2
        = undoList (st.entries st.lSize) offset m := by
  induction stores with
  | nil => intro st m hwf _; exact ⟨hwf, rfl⟩
  | cons s rest ih =>
    intro st m hwf hmain
    have h1 := pstore_undo_inv g offset st m s.1 s.2 hwf (hmain s (List.mem_cons_self _ _))
    have h2 := ih (pstore g offset st m s.1 s.2).1 (pstore g offset st m s.1 s.2).2 h1.1
      (fun s1 hs1 => hmain s1 (List.mem_cons_of_mem _ hs1))
    have e : pstoreAll g offset (s :: rest) st m
        = pstoreAll g offset rest (pstore g offset st m s.1 s.2).1 (pstore g offset st m s.1 s.2).2 :=
      rfl
    rw [e]
    exact ⟨h2.1, h2.2.trans h1.2⟩

theorem logWF_of_empty (st : State) (h0 : st.lSize = 0) (ht : st.logTail = 0)
    (hn : 0 < st.numNodes) : LogWF st := by
  unfold LogWF
  rw [h0, ht]
  exact ⟨by simp, hn⟩

theorem replay_single_append (es : List WriteSetEntry) (e : WriteSetEntry) (offset : Nat)
    (m : Mem) :
    replay (es ++ [e]) offset m = store64 (replay es offset m) (e.addr + offset) e.val := by
  rw [replay_append]
  rfl

theorem replay_update (f g : Nat → WriteSetEntry) (k a v offset : Nat) (m0 : Mem)
    (ha : (f k).addr = a)
    (hg : ∀ k1, g k1 = if k1 = k then { f k with val := v } else f k1) :
    ∀ n, (∀ k1, k < k1 → k1 < n → (f k1).addr + 8 ≤ a ∨ a + 8 ≤ (f k1).addr) →
      replay ((List.range n).map g) offset m0
        = if k < n then store64 (replay ((List.range n).map f) offset m0) (a + offset) v
          else replay ((List.range n).map f) offset m0 := by
  intro n
  induction n with
  | zero => intro _; simp
  | succ n ih =>
    intro hdis
    have ih1 := ih (fun k1 h1 h2 => hdis k1 h1 (by omega))
    rw [List.range_succ, List.map_append, List.map_append, List.map_singleton,
      List.map_singleton, replay_single_append, replay_single_append, ih1, hg n]
    by_cases h1 : n = k
    · subst h1
      simp only [if_true, Nat.lt_irrefl, if_false, Nat.lt_succ_self]
      rw [← ha, store64_store64_same]
    · by_cases h2 : k < n
      · have h3 : k < n + 1 := by omega
        simp only [h1, if_false, h2, if_true, h3]
        apply store64_comm
        have := hdis n h2 (by omega)
        omega
      · have h3 : ¬ k < n + 1 := by omega
        simp only [h1, if_false, h2, h3]

theorem replay_view (es : List WriteSetEntry) (X : Nat → Prop) (off1 off2 : Nat) :
    ∀ m1 m2 : Mem, (∀ x, X x → m2 (x + off2) = m1 (x + off1)) →
      ∀ x, X x → replay es off2 m2 (x + off2) = replay es off1 m1 (x + off1) := by
  induction es with
  | nil => intro m1 m2 h x hx; exact h x hx
  | cons e es ih =>
    intro m1 m2 h x hx
    show replay es off2 (store64 m2 (e.addr + off2) e.val) (x + off2)
      = replay es off1 (store64 m1 (e.addr + off1) e.val) (x + off1)
    apply ih _ _ _ x hx
    intro y hy
    unfold store64
    by_cases hc : e.addr ≤ y ∧ y < e.addr + 8
    · have c1 : e.addr + off2 ≤ y + off2 ∧ y + off2 < e.addr + off2 + 8 := by omega
      have c2 : e.addr + off1 ≤ y + off1 ∧ y + off1 < e.addr + off1 + 8 := by omega
      have e1 : y + off2 - (e.addr + off2) = y - e.addr := by omega
      have e2 : y + off1 - (e.addr + off1) = y - e.addr := by omega
      simp only [c1, c2, and_self, if_true, e1, e2]
    · have c1 : ¬ (e.addr + off2 ≤ y + off2 ∧ y + off2 < e.addr + off2 + 8) := by omega
      have c2 : ¬ (e.addr + off1 ≤ y + off1 ∧ y + off1 < e.addr + off1 + 8) := by omega
      simp only [c1, c2, if_false]
      exact h y hy

theorem pstore_replay_inv (g : Globals) (offset : Nat) (st : State) (m m0 : Mem) (a v : Nat)
    (hwf : LogWF st) (h : ADDR_IS_IN_MAIN g a = true) (hal : a % 8 = 0)
    (hlog : ∀ k, k < st.lSize → (st.entryAt k).addr % 8 = 0)
    (hrep : replay (st.entries st.lSize) offset m0 = m) :
    LogWF (pstore g offset st m a v).1 ∧
    (∀ k, k < (pstore g offset st m a v).1.lSize →
      ((pstore g offset st m a v).1.entryAt k).addr % 8 = 0) ∧
    replay ((pstore g offset st m a v).1.entries (pstore g offset st m a v).1.lSize) offset m0
      = (pstore g offset st m a v).2 := by
  rw [pstore_main g offset st m a v h]
  obtain ⟨hwf1, -, -, -, -, hcase⟩ := add_to_log_spec st a (load64 m (a + offset)) v hwf
  refine ⟨hwf1, ?_⟩
  rcases hcase with ⟨k, hk, hka, hlast, hsz, hent⟩ | ⟨-, hsz, hold, hnew⟩
  · simp only
    rw [hsz]
    constructor
    · intro k1 hk1
      rw [hent k1]
      split
      · rename_i hkk; subst hkk; exact hlog k1 hk1
      · exact hlog k1 hk1
    · have := replay_update st.entryAt (add_to_log st a (load64 m (a + offset)) v).1.entryAt
        k a v offset m0 hka hent st.lSize (by
          intro k1 h1 h2
          have h3 := hlast k1 h1 h2
          have h4 := hlog k1 h2
          omega)
      simp only [hk, if_true] at this
      unfold State.entries
      rw [this]
      unfold State.entries at hrep
      rw [hrep]
  · simp only
    rw [hsz]
    constructor
    · intro k1 hk1
      by_cases hkk : k1 = st.lSize
      · subst hkk; rw [hnew]; exact hal
      · rw [hold k1 (by omega)]; exact hlog k1 (by omega)
    · rw [entries_succ, hnew, replay_single_append]
      have hc : (add_to_log st a (load64 m (a + offset)) v).1.entries st.lSize
          = st.entries st.lSize := by
        unfold State.entries
        apply List.map_congr_left
        intro k1 hk1
        exact hold k1 (List.mem_range.mp hk1)
      rw [hc, hrep]

theorem pstoreAll_replay_inv (g : Globals) (offset : Nat) (m0 : Mem)
    (stores : List (Nat × Nat)) :
    ∀ (st : State) (m : Mem), LogWF st →
      (∀ s ∈ stores, ADDR_IS_IN_MAIN g s.1 = true) → (∀ s ∈ stores, s.1 % 8 = 0) →
      (∀ k, k < st.lSize → (st.entryAt k).addr % 8 = 0) →
      replay (st.entries st.lSize) offset m0 = m →
      LogWF (pstoreAll g offset stores st m).1 ∧
      (∀ k, k < (pstoreAll g offset stores st m).1.lSize →
        ((pstoreAll g offset stores st m).1.entryAt k).addr % 8 = 0) ∧
      replay ((pstoreAll g offset stores st m).1.entries (pstoreAll g offset stores st m).1.lSize)
          offset m0 = (pstoreAll g offset stores st m).2 := by
  induction stores with
  | nil => intro st m hwf _ _ hlog hrep; exact ⟨hwf, hlog, hrep⟩
  | cons s rest ih =>
    intro st m hwf hmain hal hlog hrep
    have h1 := pstore_replay_inv g offset st m m0 s.1 s.2 hwf (hmain s (List.mem_cons_self _ _))
      (hal s (List.mem_cons_self _ _)) hlog hrep
    exact ih (pstore g offset st m s.1 s.2).1 (pstore g offset st m s.1 s.2).2 h1.1
      (fun s1 hs1 => hmain s1 (List.mem_cons_of_mem _ hs1))
      (fun s1 hs1 => hal s1 (List.mem_cons_of_mem _ hs1)) h1.2.1 h1.2.2

/-- C7. Replay idempotence.  For every `State`, every log length `redoSize` (so also
logs that span several `WriteSetNode`s), every replica offset and every memory,
`copy_redolog` returns the `redoSize` entries of the log and replaying them twice
gives the same bytes as replaying them once. -/
theorem C7_replay_idempotent (st : State) (redoSize offset : Nat) (m : Mem) :
    ∃ es, copy_redolog st redoSize = some es ∧ es.length = redoSize ∧
      replay es offset (replay es offset m) = replay es offset m := by
  refine ⟨_, copy_redolog_eq st redoSize, entries_length st redoSize, ?_⟩
  rw [replay_eq_writeAll, replay_eq_writeAll, writeAll_idem]

/-! ### Coalescing -/

theorem lastVal_append_single (seen : List WriteSetEntry) (c : WriteSetEntry) (a : Nat) :
    lastVal (seen ++ [c]) a = if c.addr = a then some c.val else lastVal seen a := by
  unfold lastVal
  rw [List.foldl_append]
  rfl

theorem entries_map_addr_mem (st : State) (n a : Nat) :
    a ∈ (st.entries n).map WriteSetEntry.addr ↔ ∃ k, k < n ∧ (st.entryAt k).addr = a := by
  unfold State.entries
  simp only [List.map_map, List.mem_map, List.mem_range, Function.comp]

theorem add_to_log_coalesce_inv (st : State) (seen : List WriteSetEntry) (c : WriteSetEntry)
    (hinv : CoalesceInv st seen) :
    CoalesceInv (add_to_log st c.addr c.oldval c.val).1 (seen ++ [c]) := by
  obtain ⟨hwf, hA, hB, hC, hD⟩ := hinv
  obtain ⟨hwf1, -, -, -, -, hcase⟩ := add_to_log_spec st c.addr c.oldval c.val hwf
  have hsub : (seen.map WriteSetEntry.addr).toFinset
      ⊆ ((seen ++ [c]).map WriteSetEntry.addr).toFinset := by
    intro x hx
    simp only [List.mem_toFinset, List.map_append, List.mem_append] at hx ⊢
    exact Or.inl hx
  have hsmall : ((seen ++ [c]).map WriteSetEntry.addr).toFinset.card ≤ 32 →
      ((st.entries st.lSize).map WriteSetEntry.addr).Nodup ∧ st.lSize ≤ 32 := by
    intro h32
    have hc1 : (seen.map WriteSetEntry.addr).toFinset.card ≤ 32 :=
      (Finset.card_le_card hsub).trans h32
    have hnd := hD hc1
    refine ⟨hnd, ?_⟩
    have hlen : ((st.entries st.lSize).map WriteSetEntry.addr).length = st.lSize := by
      simp [entries_length]
    have hsub2 : ((st.entries st.lSize).map WriteSetEntry.addr).toFinset
        ⊆ (seen.map WriteSetEntry.addr).toFinset := by
      intro x hx
      rw [List.mem_toFinset, entries_map_addr_mem] at hx
      obtain ⟨k, hk, rfl⟩ := hx
      exact List.mem_toFinset.mpr (hA k hk)
    have := Finset.card_le_card hsub2
    rw [List.toFinset_card_of_nodup hnd, hlen] at this
    omega
  rcases hcase with ⟨k, hk, hka, hlast, hsz, hent⟩ | ⟨hnone, hsz, hold, hnew⟩
  · have haddr : ∀ k1, ((add_to_log st c.addr c.oldval c.val).1.entryAt k1).addr
        = (st.entryAt k1).addr := by
      intro k1
      rw [hent k1]
      split
      · rename_i hkk; subst hkk; rfl
      · rfl
    refine ⟨hwf1, ?_, ?_, ?_, ?_⟩
    · intro k1 hk1
      rw [hsz] at hk1
      rw [haddr, List.map_append, List.mem_append]
      exact Or.inl (hA k1 hk1)
    · intro a ha
      rw [hsz, lastVal_append_single]
      by_cases hca : c.addr = a
      · subst hca
        refine ⟨k, hk, by rw [haddr]; exact hka, ?_, ?_⟩
        · intro k1 h1 h2; rw [haddr]; exact hlast k1 h1 h2
        · simp only [if_true, hent k]
      · have ha1 : a ∈ seen.map WriteSetEntry.addr := by
          rw [List.map_append, List.mem_append] at ha
          rcases ha with ha | ha
          · exact ha
          · simp only [List.map_cons, List.map_nil, List.mem_singleton] at ha
            exact absurd ha.symm hca
        obtain ⟨k2, hk2, hk2a, hk2l, hk2v⟩ := hB a ha1
        have hne : k2 ≠ k := by
          intro h; subst h; rw [hka] at hk2a; exact hca hk2a
        refine ⟨k2, hk2, by rw [haddr]; exact hk2a, ?_, ?_⟩
        · intro k1 h1 h2; rw [haddr]; exact hk2l k1 h1 h2
        · simp only [hca, if_false, hent k2, hne]
          exact hk2v
    · rw [hsz, List.length_append]
      simp only [List.length_singleton]
      omega
    · intro h32
      rw [hsz]
      have : ((add_to_log st c.addr c.oldval c.val).1.entries st.lSize).map WriteSetEntry.addr
          = (st.entries st.lSize).map WriteSetEntry.addr := by
        unfold State.entries
        rw [List.map_map, List.map_map]
        apply List.map_congr_left
        intro k1 _
        exact haddr k1
      rw [this]
      exact (hsmall h32).1
  · have hold2 : ∀ k1, k1 < st.lSize → (add_to_log st c.addr c.oldval c.val).1.entryAt k1
        = st.entryAt k1 := hold
    refine ⟨hwf1, ?_, ?_, ?_, ?_⟩
    · intro k1 hk1
      rw [hsz] at hk1
      rw [List.map_append, List.mem_append]
      by_cases hkk : k1 = st.lSize
      · subst hkk
        rw [hnew]
        right
        simp
      · rw [hold2 k1 (by omega)]
        exact Or.inl (hA k1 (by omega))
    · intro a ha
      rw [hsz, lastVal_append_single]
      by_cases hca : c.addr = a
      · subst hca
        refine ⟨st.lSize, by omega, by rw [hnew], ?_, ?_⟩
        · intro k1 h1 h2; omega
        · simp only [if_true, hnew]
      · have ha1 : a ∈ seen.map WriteSetEntry.addr := by
          rw [List.map_append, List.mem_append] at ha
          rcases ha with ha | ha
          · exact ha
          · simp only [List.map_cons, List.map_nil, List.mem_singleton] at ha
            exact absurd ha.symm hca
        obtain ⟨k2, hk2, hk2a, hk2l, hk2v⟩ := hB a ha1
        refine ⟨k2, by omega, by rw [hold2 k2 hk2]; exact hk2a, ?_, ?_⟩
        · intro k1 h1 h2
          by_cases hkk : k1 = st.lSize
          · subst hkk; rw [hnew]; exact hca
          · rw [hold2 k1 (by omega)]; exact hk2l k1 h1 (by omega)
        · simp only [hca, if_false, hold2 k2 hk2]
          exact hk2v
    · rw [hsz, List.length_append]
      simp only [List.length_singleton]
      omega
    · intro h32
      obtain ⟨hnd, hle⟩ := hsmall h32
      rw [hsz, entries_succ, hnew, List.map_append]
      have hc : (add_to_log st c.addr c.oldval c.val).1.entries st.lSize
          = st.entries st.lSize := by
        unfold State.entries
        apply List.map_congr_left
        intro k1 hk1
        exact hold k1 (List.mem_range.mp hk1)
      rw [hc]
      apply List.Nodup.append hnd (by simp)
      intro x hx1 hx2
      simp only [List.map_cons, List.map_nil, List.mem_singleton] at hx2
      subst hx2
      rw [entries_map_addr_mem] at hx1
      obtain ⟨k1, hk1, hk1a⟩ := hx1
      exact hnone k1 hk1 (by omega) hk1a

theorem logAll_coalesce_inv (calls : List WriteSetEntry) :
    ∀ (st : State) (seen : List WriteSetEntry), CoalesceInv st seen →
      CoalesceInv (logAll calls st) (seen ++ calls) := by
  induction calls with
  | nil => intro st seen h; simpa [logAll] using h
  | cons c rest ih =>
    intro st seen h
    have h1 := add_to_log_coalesce_inv st seen c h
    have h2 := ih _ _ h1
    have e : seen ++ [c] ++ rest = seen ++ c :: rest := by simp
    rw [e] at h2
    exact h2

theorem coalesceInv_empty (st0 : State) (h0 : st0.lSize = 0) (ht : st0.logTail = 0)
    (hn : 0 < st0.numNodes) : CoalesceInv st0 [] := by
  refine ⟨logWF_of_empty st0 h0 ht hn, ?_, ?_, ?_, ?_⟩
  · intro k hk; omega
  · intro a ha; simp at ha
  · omega
  · intro _; rw [h0]; simp [State.entries]

/-- C8, the claim as stated fails.  The transaction `windowCalls` stores to 33
distinct addresses; the second store to address 8 finds 32 more recent entries in the
log, which is as far as `findAddrInLog` looks, so `add_to_log` appends a second entry
for address 8: the log has 34 entries, and the first entry of address 8 still holds the
value 1 although the most recent value stored to it is 2. -/
theorem C8_window_counterexample :
    (logAll windowCalls {}).lSize = 34 ∧
    (windowCalls.map WriteSetEntry.addr).dedup.length = 33 ∧
    (logAll windowCalls {}).entryAt 0 = { addr := 8, oldval := 0, val := 1 } ∧
    lastVal windowCalls 8 = some 2 := by
  decide

/-- C8, amended.  For every sequence of `add_to_log` calls of one transaction,
starting from an empty log: the number of entries (`lSize`) is at least the number of
distinct addresses stored to and at most the number of calls; it equals the number of
distinct addresses when these are at most 32; and every address stored to has a last
entry in the log, which holds the most recent value stored to that address. -/
theorem C8_coalescing (st0 : State) (calls : List WriteSetEntry)
    (h0 : st0.lSize = 0) (ht : st0.logTail = 0) (hn : 0 < st0.numNodes) :
    (calls.map WriteSetEntry.addr).dedup.length ≤ (logAll calls st0).lSize ∧
    (logAll calls st0).lSize ≤ calls.length ∧
    ((calls.map WriteSetEntry.addr).dedup.length ≤ 32 →
      (logAll calls st0).lSize = (calls.map WriteSetEntry.addr).dedup.length) ∧
    ∀ a, a ∈ calls.map WriteSetEntry.addr →
      ∃ k, k < (logAll calls st0).lSize ∧ ((logAll calls st0).entryAt k).addr = a ∧
        (∀ k1, k < k1 → k1 < (logAll calls st0).lSize → ((logAll calls st0).entryAt k1).addr ≠ a) ∧
        lastVal calls a = some ((logAll calls st0).entryAt k).val := by
  have hinv := logAll_coalesce_inv calls st0 [] (coalesceInv_empty st0 h0 ht hn)
  simp only [List.nil_append] at hinv
  obtain ⟨-, hA, hB, hC, hD⟩ := hinv
  have hlen : (((logAll calls st0).entries (logAll calls st0).lSize).map
      WriteSetEntry.addr).length = (logAll calls st0).lSize := by
    simp [entries_length]
  have hsub1 : (calls.map WriteSetEntry.addr).toFinset
      ⊆ (((logAll calls st0).entries (logAll calls st0).lSize).map WriteSetEntry.addr).toFinset := by
    intro x hx
    rw [List.mem_toFinset] at hx
    obtain ⟨k, hk, hka, -, -⟩ := hB x hx
    rw [List.mem_toFinset, entries_map_addr_mem]
    exact ⟨k, hk, hka⟩
  have hsub2 : (((logAll calls st0).entries (logAll calls st0).lSize).map
      WriteSetEntry.addr).toFinset ⊆ (calls.map WriteSetEntry.addr).toFinset := by
    intro x hx
    rw [List.mem_toFinset, entries_map_addr_mem] at hx
    obtain ⟨k, hk, rfl⟩ := hx
    exact List.mem_toFinset.mpr (hA k hk)
  have hge : (calls.map WriteSetEntry.addr).dedup.length ≤ (logAll calls st0).lSize := by
    rw [← List.card_toFinset]
    have h1 := Finset.card_le_card hsub1
    have h2 := List.toFinset_card_le
      (((logAll calls st0).entries (logAll calls st0).lSize).map WriteSetEntry.addr)
    rw [hlen] at h2
    omega
  refine ⟨hge, hC, ?_, hB⟩
  intro h32
  rw [← List.card_toFinset] at h32 ⊢
  have hnd := hD h32
  have h1 := Finset.card_le_card hsub2
  rw [List.toFinset_card_of_nodup hnd, hlen] at h1
  rw [← List.card_toFinset] at hge
  omega

/-- Witness of C8: a transaction that stores to address 8 twice and to address 16 once. -/
theorem C8_coalescing_witness :
    (([{ addr := 8, oldval := 0, val := 1 }, { addr := 16, oldval := 0, val := 2 },
        { addr := 8, oldval := 1, val := 3 }] : List WriteSetEntry).map
        WriteSetEntry.addr).dedup.length
      ≤ (logAll [{ addr := 8, oldval := 0, val := 1 }, { addr := 16, oldval := 0, val := 2 },
        { addr := 8, oldval := 1, val := 3 }] {}).lSize :=
  (C8_coalescing {} [{ addr := 8, oldval := 0, val := 1 }, { addr := 16, oldval := 0, val := 2 },
    { addr := 8, oldval := 1, val := 3 }] rfl rfl (by decide)).1

theorem makeSeqTidIdx_eq (seq tid idx : Nat) (h1 : seq < 2 ^ SEQ_BITS) (h2 : tid < 2 ^ TID_BITS)
    (h3 : idx < 2 ^ IDX_BITS) :
    makeSeqTidIdx seq tid idx = 2 ^ 20 * seq + 2 ^ 12 * tid + idx := by
  unfold makeSeqTidIdx
  simp only [SEQ_BITS, TID_BITS, IDX_BITS] at *
  rw [Nat.shiftLeft_eq, Nat.shiftLeft_eq]
  have e1 : seq * 2 ^ (8 + 12) = 2 ^ 20 * seq := by ring
  have e2 : tid * 2 ^ 12 = 2 ^ 12 * tid := by ring
  rw [e1, e2, ← Nat.mul_add_lt_is_or (by omega) seq]
  have e3 : 2 ^ 20 * seq + 2 ^ 12 * tid = 2 ^ 12 * (2 ^ 8 * seq + tid) := by ring
  rw [e3, ← Nat.mul_add_lt_is_or h3, ← e3]
  apply Nat.mod_eq_of_lt
  omega

theorem sti2seq_make (seq tid idx : Nat) (h1 : seq < 2 ^ SEQ_BITS) (h2 : tid < 2 ^ TID_BITS)
    (h3 : idx < 2 ^ IDX_BITS) : sti2seq (makeSeqTidIdx seq tid idx) = seq := by
  rw [makeSeqTidIdx_eq seq tid idx h1 h2 h3]
  unfold sti2seq
  simp only [SEQ_BITS, TID_BITS, IDX_BITS] at *
  rw [Nat.shiftRight_eq_div_pow]
  omega

theorem sti2tid_make (seq tid idx : Nat) (h1 : seq < 2 ^ SEQ_BITS) (h2 : tid < 2 ^ TID_BITS)
    (h3 : idx < 2 ^ IDX_BITS) : sti2tid (makeSeqTidIdx seq tid idx) = tid := by
  rw [makeSeqTidIdx_eq seq tid idx h1 h2 h3]
  unfold sti2tid
  simp only [SEQ_BITS, TID_BITS, IDX_BITS] at *
  rw [Nat.shiftRight_eq_div_pow, Nat.shiftLeft_eq, Nat.one_mul, Nat.and_pow_two_sub_one_eq_mod]
  omega

theorem sti2idx_make (seq tid idx : Nat) (h1 : seq < 2 ^ SEQ_BITS) (h2 : tid < 2 ^ TID_BITS)
    (h3 : idx < 2 ^ IDX_BITS) : sti2idx (makeSeqTidIdx seq tid idx) = idx := by
  rw [makeSeqTidIdx_eq seq tid idx h1 h2 h3]
  unfold sti2idx
  simp only [SEQ_BITS, TID_BITS, IDX_BITS] at *
  rw [Nat.shiftLeft_eq, Nat.one_mul, Nat.and_pow_two_sub_one_eq_mod]
  omega


/-! ### Accessors of the engine state -/

@[simp] theorem setState_g (s : Redo) (p : Nat × Nat) (st : State) :
    (s.setState p st).g = s.g := rfl

@[simp] theorem setState_per (s : Redo) (p : Nat × Nat) (st : State) :
    (s.setState p st).per = s.per := rfl

@[simp] theorem setState_mem (s : Redo) (p : Nat × Nat) (st : State) :
    (s.setState p st).mem = s.mem := rfl

@[simp] theorem setState_combs (s : Redo) (p : Nat × Nat) (st : State) :
    (s.setState p st).combs = s.combs := rfl

@[simp] theorem setState_ring (s : Redo) (p : Nat × Nat) (st : State) :
    (s.setState p st).ring = s.ring := rfl

@[simp] theorem setState_enqueuers (s : Redo) (p : Nat × Nat) (st : State) :
    (s.setState p st).enqueuers = s.enqueuers := rfl

@[simp] theorem setState_announce (s : Redo) (p : Nat × Nat) (st : State) :
    (s.setState p st).announce = s.announce := rfl

@[simp] theorem setState_esloco (s : Redo) (p : Nat × Nat) (st : State) :
    (s.setState p st).esloco = s.esloco := rfl

@[simp] theorem setState_tlocal (s : Redo) (p : Nat × Nat) (st : State) :
    (s.setState p st).tlocal = s.tlocal := rfl

@[simp] theorem setLocal_g (s : Redo) (tid : Nat) (v : VarLocal) :
    (s.setLocal tid v).g = s.g := rfl

@[simp] theorem setLocal_per (s : Redo) (tid : Nat) (v : VarLocal) :
    (s.setLocal tid v).per = s.per := rfl

@[simp] theorem setLocal_mem (s : Redo) (tid : Nat) (v : VarLocal) :
    (s.setLocal tid v).mem = s.mem := rfl

@[simp] theorem setLocal_combs (s : Redo) (tid : Nat) (v : VarLocal) :
    (s.setLocal tid v).combs = s.combs := rfl

@[simp] theorem setLocal_ring (s : Redo) (tid : Nat) (v : VarLocal) :
    (s.setLocal tid v).ring = s.ring := rfl

@[simp] theorem setLocal_enqueuers (s : Redo) (tid : Nat) (v : VarLocal) :
    (s.setLocal tid v).enqueuers = s.enqueuers := rfl

@[simp] theorem setLocal_announce (s : Redo) (tid : Nat) (v : VarLocal) :
    (s.setLocal tid v).announce = s.announce := rfl

@[simp] theorem setLocal_esloco (s : Redo) (tid : Nat) (v : VarLocal) :
    (s.setLocal tid v).esloco = s.esloco := rfl

@[simp] theorem setLocal_getState (s : Redo) (tid : Nat) (v : VarLocal) (q : Nat × Nat) :
    (s.setLocal tid v).getState q = s.getState q := rfl

@[simp] theorem setLocal_lastIdx (s : Redo) (tid : Nat) (v : VarLocal) (u : Nat) :
    ((s.setLocal tid v).sauron u).lastIdx = (s.sauron u).lastIdx := rfl

@[simp] theorem setComb_g (s : Redo) (i : Nat) (c : Combined) :
    (s.setComb i c).g = s.g := rfl

@[simp] theorem setComb_per (s : Redo) (i : Nat) (c : Combined) :
    (s.setComb i c).per = s.per := rfl

@[simp] theorem setComb_mem (s : Redo) (i : Nat) (c : Combined) :
    (s.setComb i c).mem = s.mem := rfl

@[simp] theorem setComb_ring (s : Redo) (i : Nat) (c : Combined) :
    (s.setComb i c).ring = s.ring := rfl

@[simp] theorem setComb_enqueuers (s : Redo) (i : Nat) (c : Combined) :
    (s.setComb i c).enqueuers = s.enqueuers := rfl

@[simp] theorem setComb_announce (s : Redo) (i : Nat) (c : Combined) :
    (s.setComb i c).announce = s.announce := rfl

@[simp] theorem setComb_esloco (s : Redo) (i : Nat) (c : Combined) :
    (s.setComb i c).esloco = s.esloco := rfl

@[simp] theorem setComb_tlocal (s : Redo) (i : Nat) (c : Combined) :
    (s.setComb i c).tlocal = s.tlocal := rfl

@[simp] theorem setComb_getState (s : Redo) (i : Nat) (c : Combined) (q : Nat × Nat) :
    (s.setComb i c).getState q = s.getState q := rfl

@[simp] theorem setComb_lastIdx (s : Redo) (i : Nat) (c : Combined) (u : Nat) :
    ((s.setComb i c).sauron u).lastIdx = (s.sauron u).lastIdx := rfl

@[simp] theorem setHead_g (s : Redo) (i h : Nat) :
    (s.setHead i h).g = s.g := rfl

@[simp] theorem setHead_per (s : Redo) (i h : Nat) :
    (s.setHead i h).per = s.per := rfl

@[simp] theorem setHead_mem (s : Redo) (i h : Nat) :
    (s.setHead i h).mem = s.mem := rfl

@[simp] theorem setHead_ring (s : Redo) (i h : Nat) :
    (s.setHead i h).ring = s.ring := rfl

@[simp] theorem setHead_enqueuers (s : Redo) (i h : Nat) :
    (s.setHead i h).enqueuers = s.enqueuers := rfl

@[simp] theorem setHead_announce (s : Redo) (i h : Nat) :
    (s.setHead i h).announce = s.announce := rfl

@[simp] theorem setHead_esloco (s : Redo) (i h : Nat) :
    (s.setHead i h).esloco = s.esloco := rfl

@[simp] theorem setHead_tlocal (s : Redo) (i h : Nat) :
    (s.setHead i h).tlocal = s.tlocal := rfl

@[simp] theorem setHead_getState (s : Redo) (i h : Nat) (q : Nat × Nat) :
    (s.setHead i h).getState q = s.getState q := rfl

@[simp] theorem setHead_lastIdx (s : Redo) (i h : Nat) (u : Nat) :
    ((s.setHead i h).sauron u).lastIdx = (s.sauron u).lastIdx := rfl

@[simp] theorem setRing_g (s : Redo) (i t : Nat) :
    (s.setRing i t).g = s.g := rfl

@[simp] theorem setRing_per (s : Redo) (i t : Nat) :
    (s.setRing i t).per = s.per := rfl

@[simp] theorem setRing_mem (s : Redo) (i t : Nat) :
    (s.setRing i t).mem = s.mem := rfl

@[simp] theorem setRing_combs (s : Redo) (i t : Nat) :
    (s.setRing i t).combs = s.combs := rfl

@[simp] theorem setRing_enqueuers (s : Redo) (i t : Nat) :
    (s.setRing i t).enqueuers = s.enqueuers := rfl

@[simp] theorem setRing_announce (s : Redo) (i t : Nat) :
    (s.setRing i t).announce = s.announce := rfl

@[simp] theorem setRing_esloco (s : Redo) (i t : Nat) :
    (s.setRing i t).esloco = s.esloco := rfl

@[simp] theorem setRing_tlocal (s : Redo) (i t : Nat) :
    (s.setRing i t).tlocal = s.tlocal := rfl

@[simp] theorem setRing_getState (s : Redo) (i t : Nat) (q : Nat × Nat) :
    (s.setRing i t).getState q = s.getState q := rfl

@[simp] theorem setRing_lastIdx (s : Redo) (i t : Nat) (u : Nat) :
    ((s.setRing i t).sauron u).lastIdx = (s.sauron u).lastIdx := rfl

@[simp] theorem setMem_g (s : Redo) (m : Mem) :
    (s.setMem m).g = s.g := rfl

@[simp] theorem setMem_per (s : Redo) (m : Mem) :
    (s.setMem m).per = s.per := rfl

@[simp] theorem setMem_combs (s : Redo) (m : Mem) :
    (s.setMem m).combs = s.combs := rfl

@[simp] theorem setMem_ring (s : Redo) (m : Mem) :
    (s.setMem m).ring = s.ring := rfl

@[simp] theorem setMem_enqueuers (s : Redo) (m : Mem) :
    (s.setMem m).enqueuers = s.enqueuers := rfl

@[simp] theorem setMem_announce (s : Redo) (m : Mem) :
    (s.setMem m).announce = s.announce := rfl

@[simp] theorem setMem_esloco (s : Redo) (m : Mem) :
    (s.setMem m).esloco = s.esloco := rfl

@[simp] theorem setMem_tlocal (s : Redo) (m : Mem) :
    (s.setMem m).tlocal = s.tlocal := rfl

@[simp] theorem setMem_getState (s : Redo) (m : Mem) (q : Nat × Nat) :
    (s.setMem m).getState q = s.getState q := rfl

@[simp] theorem setMem_lastIdx (s : Redo) (m : Mem) (u : Nat) :
    ((s.setMem m).sauron u).lastIdx = (s.sauron u).lastIdx := rfl

@[simp] theorem setCurComb_g (s : Redo) (c : Nat) :
    (s.setCurComb c).g = s.g := rfl

@[simp] theorem setCurComb_mem (s : Redo) (c : Nat) :
    (s.setCurComb c).mem = s.mem := rfl

@[simp] theorem setCurComb_combs (s : Redo) (c : Nat) :
    (s.setCurComb c).combs = s.combs := rfl

@[simp] theorem setCurComb_ring (s : Redo) (c : Nat) :
    (s.setCurComb c).ring = s.ring := rfl

@[simp] theorem setCurComb_enqueuers (s : Redo) (c : Nat) :
    (s.setCurComb c).enqueuers = s.enqueuers := rfl

@[simp] theorem setCurComb_announce (s : Redo) (c : Nat) :
    (s.setCurComb c).announce = s.announce := rfl

@[simp] theorem setCurComb_esloco (s : Redo) (c : Nat) :
    (s.setCurComb c).esloco = s.esloco := rfl

@[simp] theorem setCurComb_tlocal (s : Redo) (c : Nat) :
    (s.setCurComb c).tlocal = s.tlocal := rfl

@[simp] theorem setCurComb_getState (s : Redo) (c : Nat) (q : Nat × Nat) :
    (s.setCurComb c).getState q = s.getState q := rfl

@[simp] theorem setCurComb_lastIdx (s : Redo) (c : Nat) (u : Nat) :
    ((s.setCurComb c).sauron u).lastIdx = (s.sauron u).lastIdx := rfl

@[simp] theorem setEnqueuer_g (s : Redo) (tid : Nat) (f : Prog) :
    (s.setEnqueuer tid f).g = s.g := rfl

@[simp] theorem setEnqueuer_per (s : Redo) (tid : Nat) (f : Prog) :
    (s.setEnqueuer tid f).per = s.per := rfl

@[simp] theorem setEnqueuer_mem (s : Redo) (tid : Nat) (f : Prog) :
    (s.setEnqueuer tid f).mem = s.mem := rfl

@[simp] theorem setEnqueuer_combs (s : Redo) (tid : Nat) (f : Prog) :
    (s.setEnqueuer tid f).combs = s.combs := rfl

@[simp] theorem setEnqueuer_ring (s : Redo) (tid : Nat) (f : Prog) :
    (s.setEnqueuer tid f).ring = s.ring := rfl

@[simp] theorem setEnqueuer_announce (s : Redo) (tid : Nat) (f : Prog) :
    (s.setEnqueuer tid f).announce = s.announce := rfl

@[simp] theorem setEnqueuer_esloco (s : Redo) (tid : Nat) (f : Prog) :
    (s.setEnqueuer tid f).esloco = s.esloco := rfl

@[simp] theorem setEnqueuer_tlocal (s : Redo) (tid : Nat) (f : Prog) :
    (s.setEnqueuer tid f).tlocal = s.tlocal := rfl

@[simp] theorem setEnqueuer_getState (s : Redo) (tid : Nat) (f : Prog) (q : Nat × Nat) :
    (s.setEnqueuer tid f).getState q = s.getState q := rfl

@[simp] theorem setEnqueuer_lastIdx (s : Redo) (tid : Nat) (f : Prog) (u : Nat) :
    ((s.setEnqueuer tid f).sauron u).lastIdx = (s.sauron u).lastIdx := rfl

@[simp] theorem setAnnounce_g (s : Redo) (tid : Nat) (b : Bool) :
    (s.setAnnounce tid b).g = s.g := rfl

@[simp] theorem setAnnounce_per (s : Redo) (tid : Nat) (b : Bool) :
    (s.setAnnounce tid b).per = s.per := rfl

@[simp] theorem setAnnounce_mem (s : Redo) (tid : Nat) (b : Bool) :
    (s.setAnnounce tid b).mem = s.mem := rfl

@[simp] theorem setAnnounce_combs (s : Redo) (tid : Nat) (b : Bool) :
    (s.setAnnounce tid b).combs = s.combs := rfl

@[simp] theorem setAnnounce_ring (s : Redo) (tid : Nat) (b : Bool) :
    (s.setAnnounce tid b).ring = s.ring := rfl

@[simp] theorem setAnnounce_enqueuers (s : Redo) (tid : Nat) (b : Bool) :
    (s.setAnnounce tid b).enqueuers = s.enqueuers := rfl

@[simp] theorem setAnnounce_esloco (s : Redo) (tid : Nat) (b : Bool) :
    (s.setAnnounce tid b).esloco = s.esloco := rfl

@[simp] theorem setAnnounce_tlocal (s : Redo) (tid : Nat) (b : Bool) :
    (s.setAnnounce tid b).tlocal = s.tlocal := rfl

@[simp] theorem setAnnounce_getState (s : Redo) (tid : Nat) (b : Bool) (q : Nat × Nat) :
    (s.setAnnounce tid b).getState q = s.getState q := rfl

@[simp] theorem setAnnounce_lastIdx (s : Redo) (tid : Nat) (b : Bool) (u : Nat) :
    ((s.setAnnounce tid b).sauron u).lastIdx = (s.sauron u).lastIdx := rfl

@[simp] theorem setLastIdx_g (s : Redo) (tid n : Nat) :
    (s.setLastIdx tid n).g = s.g := rfl

@[simp] theorem setLastIdx_per (s : Redo) (tid n : Nat) :
    (s.setLastIdx tid n).per = s.per := rfl

@[simp] theorem setLastIdx_mem (s : Redo) (tid n : Nat) :
    (s.setLastIdx tid n).mem = s.mem := rfl

@[simp] theorem setLastIdx_combs (s : Redo) (tid n : Nat) :
    (s.setLastIdx tid n).combs = s.combs := rfl

@[simp] theorem setLastIdx_ring (s : Redo) (tid n : Nat) :
    (s.setLastIdx tid n).ring = s.ring := rfl

@[simp] theorem setLastIdx_enqueuers (s : Redo) (tid n : Nat) :
    (s.setLastIdx tid n).enqueuers = s.enqueuers := rfl

@[simp] theorem setLastIdx_announce (s : Redo) (tid n : Nat) :
    (s.setLastIdx tid n).announce = s.announce := rfl

@[simp] theorem setLastIdx_esloco (s : Redo) (tid n : Nat) :
    (s.setLastIdx tid n).esloco = s.esloco := rfl

@[simp] theorem setLastIdx_tlocal (s : Redo) (tid n : Nat) :
    (s.setLastIdx tid n).tlocal = s.tlocal := rfl

@[simp] theorem setState_getState_eq (s : Redo) (p q : Nat × Nat) (st : State) :
    (s.setState p st).getState q = if q = p then st else s.getState q := by
  unfold Redo.getState Redo.setState
  by_cases h1 : q.1 = p.1
  · by_cases h2 : q.2 = p.2
    · have : q = p := Prod.ext h1 h2
      simp [h1, h2, this]
    · have : q ≠ p := fun h => h2 (by rw [h])
      simp [h1, h2, this]
  · have : q ≠ p := fun h => h1 (by rw [h])
    simp [h1, this]

@[simp] theorem setState_lastIdx (s : Redo) (p : Nat × Nat) (st : State) (t : Nat) :
    ((s.setState p st).sauron t).lastIdx = (s.sauron t).lastIdx := by
  unfold Redo.setState
  simp only
  split <;> rfl

@[simp] theorem setLastIdx_getState (s : Redo) (tid n : Nat) (q : Nat × Nat) :
    (s.setLastIdx tid n).getState q = s.getState q := by
  unfold Redo.getState Redo.setLastIdx
  simp only
  split <;> rfl

@[simp] theorem setLastIdx_lastIdx (s : Redo) (tid n t : Nat) :
    ((s.setLastIdx tid n).sauron t).lastIdx = if t = tid then n else (s.sauron t).lastIdx := by
  unfold Redo.setLastIdx
  simp only
  split <;> rfl

@[simp] theorem setLocal_tlocal (s : Redo) (tid : Nat) (v : VarLocal) (t : Nat) :
    (s.setLocal tid v).tlocal t = if t = tid then v else s.tlocal t := rfl

@[simp] theorem setComb_combs_eq (s : Redo) (i : Nat) (c : Combined) (k : Nat) :
    (s.setComb i c).combs k = if k = i then c else s.combs k := rfl

@[simp] theorem setHead_combs_eq (s : Redo) (i h k : Nat) :
    (s.setHead i h).combs k = if k = i then { (s.combs i) with head := h } else s.combs k := rfl

@[simp] theorem setRing_ring_eq (s : Redo) (i t k : Nat) :
    (s.setRing i t).ring k = if k = i then t else s.ring k := rfl

@[simp] theorem setMem_mem_eq (s : Redo) (m : Mem) : (s.setMem m).mem = m := rfl

@[simp] theorem setCurComb_curComb (s : Redo) (c : Nat) : (s.setCurComb c).per.curComb = c := rfl

@[simp] theorem setCurComb_id (s : Redo) (c : Nat) : (s.setCurComb c).per.id = s.per.id := rfl

@[simp] theorem setCurComb_objects (s : Redo) (c : Nat) :
    (s.setCurComb c).per.objects = s.per.objects := rfl

@[simp] theorem setEnqueuer_enqueuers_eq (s : Redo) (tid : Nat) (f : Prog) (t : Nat) :
    (s.setEnqueuer tid f).enqueuers t = if t = tid then some f else s.enqueuers t := rfl

@[simp] theorem setAnnounce_announce_eq (s : Redo) (tid : Nat) (b : Bool) (t : Nat) :
    (s.setAnnounce tid b).announce t = if t = tid then b else s.announce t := rfl

theorem setState_getState (s : Redo) (p : Nat × Nat) : s.setState p (s.getState p) = s := by
  unfold Redo.setState Redo.getState
  have h : (fun t => if t = p.1 then
      ({ (s.sauron t) with states := fun i => if i = p.2 then (s.sauron p.1).states p.2
          else (s.sauron t).states i } : States) else s.sauron t) = s.sauron := by
    funext t
    by_cases h : t = p.1
    · rw [h]
      simp only [if_true]
      have e : (fun i => if i = p.2 then (s.sauron p.1).states p.2 else (s.sauron p.1).states i)
          = (s.sauron p.1).states := by
        funext i
        by_cases h2 : i = p.2
        · rw [h2]; simp
        · simp [h2]
      rw [e]
    · simp [h]
  rw [h]

theorem setState_setState (s : Redo) (p : Nat × Nat) (a b : State) (m1 m2 : Mem) :
    (((s.setState p a).setMem m1).setState p b).setMem m2 = (s.setState p b).setMem m2 := by
  unfold Redo.setState Redo.setMem
  simp only
  congr 1
  funext t
  by_cases h : t = p.1
  · simp only [h, if_true]
    congr 1
    funext i
    by_cases h2 : i = p.2 <;> simp [h2]
  · simp [h]

theorem in_main_add (g : Globals) (a i : Nat) (h : ADDR_IS_IN_MAIN g a = true) (hal : a % 8 = 0)
    (h1 : g.g_main_addr % 8 = 0) (h2 : g.g_main_size % 8 = 0) (hi : i < 8) :
    ADDR_IS_IN_MAIN g (a + i) = true := by
  simp only [ADDR_IS_IN_MAIN, Globals.g_main_addr_end, Bool.and_eq_true, decide_eq_true_eq] at *
  omega

theorem pload_main (g : Globals) (offset : Nat) (m : Mem) (a : Nat)
    (h : ADDR_IS_IN_MAIN g a = true) : pload g offset m a = load64 m (a + offset) := by
  unfold pload
  by_cases ho : offset = 0
  · subst ho; simp
  · simp [ho, h]

theorem load64_congr2 (m1 m2 : Mem) (a b : Nat) (h : ∀ i, i < 8 → m1 (a + i) = m2 (b + i)) :
    load64 m1 a = load64 m2 b := by
  rw [load64_eq, load64_eq]
  have h0 := h 0 (by decide)
  simp only [Nat.add_zero] at h0
  rw [h0, h 1 (by decide), h 2 (by decide), h 3 (by decide), h 4 (by decide), h 5 (by decide),
    h 6 (by decide), h 7 (by decide)]


/-! ### Closures and the log -/

theorem pstore_logInv (g : Globals) (offset : Nat) (st : State) (m m0 : Mem) (a v : Nat)
    (hinv : LogInv g st offset m m0) (h : ADDR_IS_IN_MAIN g a = true) (hal : a % 8 = 0) :
    LogInv g (pstore g offset st m a v).1 offset (pstore g offset st m a v).2 m0 ∧
    (pstore g offset st m a v).2 = store64 m (a + offset) v ∧
    (pstore g offset st m a v).1.ticket = st.ticket ∧
    (pstore g offset st m a v).1.applied = st.applied ∧
    (pstore g offset st m a v).1.results = st.results ∧
    (pstore g offset st m a v).1.logSize = st.logSize := by
  obtain ⟨hwf, hmain, hrep, hundo⟩ := hinv
  have hu := pstore_undo_inv g offset st m a v hwf h
  have hr := pstore_replay_inv g offset st m m0 a v hwf h hal (fun k hk => (hmain k hk).2) hrep
  have hm := pstore_main g offset st m a v h
  obtain ⟨-, ht, ha, hres, hls, hcase⟩ := add_to_log_spec st a (load64 m (a + offset)) v hwf
  refine ⟨⟨hu.1, ?_, hr.2.2, hu.2.trans hundo⟩, ?_, ?_, ?_, ?_, ?_⟩
  · rw [hm]
    simp only
    rcases hcase with ⟨k, hk, hka, -, hsz, hent⟩ | ⟨-, hsz, hold, hnew⟩
    · intro k1 hk1
      rw [hsz] at hk1
      rw [hent k1]
      split
      · rename_i hkk; subst hkk; exact hmain k1 hk1
      · exact hmain k1 hk1
    · intro k1 hk1
      rw [hsz] at hk1
      by_cases hkk : k1 = st.lSize
      · subst hkk; rw [hnew]; exact ⟨h, hal⟩
      · rw [hold k1 (by omega)]; exact hmain k1 (by omega)
  · rw [hm]
  · rw [hm]; exact ht
  · rw [hm]; exact ha
  · rw [hm]; exact hres
  · rw [hm]; exact hls

/-- Running a closure inside a write transaction: `tlocal.st` points to the log `p` and
`tlocal.tl_cx_size` binds the thread to a replica that agrees, on the main region, with
the reference memory `V`.  The closure has the outcome it has on `V`; only the memory
and the log change; the replica agrees with the reference memory afterwards and no byte
outside the replica changes; the log invariant is kept. -/
theorem exec_spec (tid : Nat) (p : Nat × Nat) (g : Globals) (offset : Nat) (m0 : Mem)
    (hg1 : g.g_main_addr % 8 = 0) (hg2 : g.g_main_size % 8 = 0) (f : Prog) :
    ∀ (s : Redo) (V : Mem), s.g = g → (s.tlocal tid).st = some p →
      (s.tlocal tid).tl_cx_size = offset → f.InMain g →
      LogInv g (s.getState p) offset s.mem m0 →
      (∀ x, ADDR_IS_IN_MAIN g x = true → s.mem (x + offset) = V x) →
      ∃ st1 m1, exec tid f s = ((f.run V).1, (s.setState p st1).setMem m1) ∧
        LogInv g st1 offset m1 m0 ∧
        st1.ticket = (s.getState p).ticket ∧ st1.applied = (s.getState p).applied ∧
        st1.results = (s.getState p).results ∧ st1.logSize = (s.getState p).logSize ∧
        (∀ x, ADDR_IS_IN_MAIN g x = true → m1 (x + offset) = (f.run V).2 x) ∧
        (∀ y, (∀ x, ADDR_IS_IN_MAIN g x = true → y ≠ x + offset) → m1 y = s.mem y) := by
  induction f with
  | ret r =>
    intro s V hg hst hoff hf hinv hV
    refine ⟨s.getState p, s.mem, ?_, hinv, rfl, rfl, rfl, rfl, hV, fun _ _ => rfl⟩
    simp only [exec, Prog.run]
    rw [setState_getState]
    rfl
  | pload a k ih =>
    intro s V hg hst hoff hf hinv hV
    cases hf with
    | pload _ _ ha hal hk =>
      have hl : pload s.g (s.tlocal tid).tl_cx_size s.mem a = load64 V a := by
        rw [hg, hoff, pload_main g offset s.mem a ha]
        apply load64_congr2
        intro i hi
        have := hV (a + i) (in_main_add g a i ha hal hg1 hg2 hi)
        rw [← this]
        congr 1
        omega
      simp only [exec, Prog.run, hl]
      exact ih (load64 V a) s V hg hst hoff (hk _) hinv hV
  | pstore a v k ih =>
    intro s V hg hst hoff hf hinv hV
    cases hf with
    | pstore _ _ _ ha hal hk =>
      obtain ⟨hinv1, hm1, ht1, ha1, hr1, hl1⟩ :=
        pstore_logInv g offset (s.getState p) s.mem m0 a v hinv ha hal
      have hV1 : ∀ x, ADDR_IS_IN_MAIN g x = true →
          (pstore g offset (s.getState p) s.mem a v).2 (x + offset) = store64 V a v x := by
        intro x hx
        rw [hm1]
        unfold store64
        by_cases hc : a ≤ x ∧ x < a + 8
        · have c1 : a + offset ≤ x + offset ∧ x + offset < a + offset + 8 := by omega
          have e1 : x + offset - (a + offset) = x - a := by omega
          simp only [c1, hc, and_self, if_true, e1]
        · have c1 : ¬ (a + offset ≤ x + offset ∧ x + offset < a + offset + 8) := by omega
          simp only [c1, hc, if_false]
          exact hV x hx
      have := ih ((s.setState p (pstore g offset (s.getState p) s.mem a v).1).setMem
          (pstore g offset (s.getState p) s.mem a v).2) (store64 V a v)
        hg hst hoff hk (by simpa using hinv1) hV1
      obtain ⟨st1, m1, he, hi1, h1, h2, h3, h4, h5, h6⟩ := this
      refine ⟨st1, m1, ?_, hi1, ?_, ?_, ?_, ?_, ?_, ?_⟩
      · simp only [exec, Prog.run, hst, hg, hoff]
        rw [he, setState_setState]
      · simpa [ht1] using h1
      · simpa [ha1] using h2
      · simpa [hr1] using h3
      · simpa [hl1] using h4
      · exact h5
      · intro y hy
        rw [h6 y hy]
        simp only [setMem_mem_eq]
        rw [hm1]
        apply store64_other
        by_contra hc
        have hy1 := hy (y - offset) (by
          have : y - offset = a + (y - offset - a) := by omega
          rw [this]
          exact in_main_add g a _ ha hal hg1 hg2 (by omega))
        omega
  | raise e =>
    intro s V hg hst hoff hf hinv hV
    refine ⟨s.getState p, s.mem, ?_, hinv, rfl, rfl, rfl, rfl, hV, fun _ _ => rfl⟩
    simp only [exec, Prog.run]
    rw [setState_getState]
    rfl


/-! ### The combining loop -/

theorem combineLoop_skip (tid cComb : Nat) (newState : Nat × Nat) :
    ∀ n i a (s : Redo),
      (∀ k, i ≤ k → k < i + n → s.announce k = (s.getState newState).applied k) →
      combineLoop tid cComb newState n i a s = (none, a, s) := by
  intro n
  induction n with
  | zero => intro i a s _; rfl
  | succ n ih =>
    intro i a s h
    unfold combineLoop
    simp only [h i (Nat.le_refl _) (by omega), if_true]
    exact ih (i + 1) a s (fun k h1 h2 => h k (by omega) (by omega))

/-- The state after the combining loop has run the closure of `i`: its result and the
flipped `applied` flag are recorded in `newState`. -/
theorem combineLoop_single (tid cComb : Nat) (newState : Nat × Nat) (f : Prog) :
    ∀ n i a (s : Redo), i ≤ tid → tid < i + n →
      (∀ k, i ≤ k → k < i + n → k ≠ tid → s.announce k = (s.getState newState).applied k) →
      s.announce tid ≠ (s.getState newState).applied tid →
      cComb = s.per.curComb → s.enqueuers tid = some f →
      (∀ r s1, exec tid f s = (.value r, s1) →
        s1.announce = s.announce ∧
        (s1.getState newState).applied = (s.getState newState).applied) →
      combineLoop tid cComb newState n i a s =
        match exec tid f s with
        | (.value r, s1) =>
          (none, true, s1.setState newState
            { (s1.getState newState) with
                results := fun k => if k = tid then r else (s1.getState newState).results k,
                applied := fun k => if k = tid then !(s.getState newState).applied tid
                  else (s1.getState newState).applied k })
        | (o, s1) => (some o, true, s1) := by
  intro n
  induction n with
  | zero => intro i a s h1 h2; omega
  | succ n ih =>
    intro i a s h1 h2 hskip hpend hc henq hex
    unfold combineLoop
    by_cases hi : i = tid
    · subst hi
      have hc2 : ¬ (cComb ≠ s.per.curComb) := fun h => h hc
      simp only [hpend, if_false, hc2, henq]
      rcases hr : exec i f s with ⟨o, s1⟩
      cases o with
      | value r =>
        simp only
        obtain ⟨ha, hap⟩ := hex r s1 hr
        apply combineLoop_skip
        intro k hk1 hk2
        have hki : k ≠ i := by omega
        simp only [setState_announce, setState_getState_eq, if_true, hki, if_false]
        rw [ha, hap]
        exact hskip k (by omega) (by omega) hki
      | raised e => rfl
      | fault => rfl
    · have hsk := hskip i (Nat.le_refl _) (by omega) hi
      simp only [hsk, if_true]
      exact ih (i + 1) a s (by omega) (by omega)
        (fun k k1 k2 k3 => hskip k (by omega) (by omega) k3) hpend hc henq hex


/-! ### Locks and the scan for a free replica -/

theorem noReaders_of_all (l : StrongTryRIRWLock) (h : ∀ t, l.readers t = false) :
    l.noReaders = true := by
  unfold StrongTryRIRWLock.noReaders
  simp [List.all_eq_true, h]

theorem exclusiveTryLock_free (l : StrongTryRIRWLock) (tid : Nat) (h1 : l.writer = false)
    (h2 : l.readLock = false) (h3 : ∀ t, l.readers t = false) :
    l.exclusiveTryLock tid = (true, { l with writer := true }) := by
  unfold StrongTryRIRWLock.exclusiveTryLock
  simp [h1, h2, noReaders_of_all l h3]

theorem exclusiveTryLock_readLocked (l : StrongTryRIRWLock) (tid : Nat) (h2 : l.readLock = true) :
    l.exclusiveTryLock tid = (false, l) := by
  unfold StrongTryRIRWLock.exclusiveTryLock
  simp [h2]

theorem sharedTryLock_free (l : StrongTryRIRWLock) (tid : Nat) (h1 : l.writer = false) :
    l.sharedTryLock tid
      = (true, { l with readers := fun t => if t = tid then true else l.readers t }) := by
  unfold StrongTryRIRWLock.sharedTryLock
  simp [h1]

theorem exclusiveScan_hit (tid initCombSeq n i : Nat) (s : Redo)
    (hseq : ¬ sti2seq s.per.curComb ≥ initCombSeq + 2)
    (h1 : (s.combs i).rwLock.writer = false) (h2 : (s.combs i).rwLock.readLock = false)
    (h3 : ∀ t, (s.combs i).rwLock.readers t = false) :
    exclusiveScan tid initCombSeq (n + 1) i s
      = (some i, (s.setComb i { (s.combs i) with
            rwLock := { (s.combs i).rwLock with writer := true } }).setLocal tid
          { (s.tlocal tid) with tl_cx_size := i * s.g.g_main_size }) := by
  unfold exclusiveScan
  simp only [hseq, if_false, exclusiveTryLock_free _ tid h1 h2 h3]

theorem exclusiveScan_miss (tid initCombSeq n i : Nat) (s : Redo)
    (hseq : ¬ sti2seq s.per.curComb ≥ initCombSeq + 2)
    (h2 : (s.combs i).rwLock.readLock = true) :
    exclusiveScan tid initCombSeq (n + 1) i s = exclusiveScan tid initCombSeq n (i + 1) s := by
  conv_lhs => unfold exclusiveScan
  simp only [hseq, if_false, exclusiveTryLock_readLocked _ tid h2]

/-- With the current replica `c ≤ 1` read-locked and the other locks free, the scan of
`ns_write_transaction` takes the replica `1 - c`. -/
theorem exclusiveScan_other (tid initCombSeq : Nat) (s : Redo) (c : Nat) (hc : c ≤ 1)
    (hseq : ¬ sti2seq s.per.curComb ≥ initCombSeq + 2)
    (hl : ∀ i, (s.combs i).rwLock.writer = false ∧ (∀ t, (s.combs i).rwLock.readers t = false) ∧
      (s.combs i).rwLock.readLock = decide (i = c)) :
    exclusiveScan tid initCombSeq MAX_COMBINEDS 0 s
      = (some (1 - c), (s.setComb (1 - c) { (s.combs (1 - c)) with
            rwLock := { (s.combs (1 - c)).rwLock with writer := true } }).setLocal tid
          { (s.tlocal tid) with tl_cx_size := (1 - c) * s.g.g_main_size }) := by
  have e : MAX_COMBINEDS = 126 + 1 + 1 := rfl
  rw [e]
  rcases Nat.le_one_iff_eq_zero_or_eq_one.mp hc with h | h
  · subst h
    rw [exclusiveScan_miss tid initCombSeq _ 0 s hseq (by rw [(hl 0).2.2]; simp)]
    exact exclusiveScan_hit tid initCombSeq _ 1 s hseq (hl 1).1 (by rw [(hl 1).2.2]; simp)
      (hl 1).2.1
  · subst h
    exact exclusiveScan_hit tid initCombSeq _ 0 s hseq (hl 0).1 (by rw [(hl 0).2.2]; simp)
      (hl 0).2.1


/-! ### Catch-up -/

theorem apply_redologs_same_seq (s : Redo) (tid o n uninit hc ho : Nat)
    (hhc : sti2seq hc = n) (hA : sti2seq ho = n) :
    apply_redologs o n ho hc tid uninit s = (true, s.setHead o uninit) := by
  unfold apply_redologs
  simp only [hhc, hA, Nat.sub_self, redoLoop, ne_eq, not_true_eq_false, if_false]

theorem redoLoop_one (s : Redo) (tid o n uninit hc : Nat)
    (hcur : sti2seq s.per.curComb = n) (hhc : sti2seq hc = n)
    (hring : s.ring (n % RINGSIZE) = hc)
    (hticket : (s.getState (sti2tid hc, sti2idx hc)).ticket = hc) :
    redoLoop tid o n (0 + 1) n uninit s
      = (.finished, n + 1, hc, if (s.getState (sti2tid hc, sti2idx hc)).logSize > 0 then
            s.setMem (replay ((s.getState (sti2tid hc, sti2idx hc)).entries
              (s.getState (sti2tid hc, sti2idx hc)).logSize) (s.tlocal tid).tl_cx_size s.mem)
          else s) := by
  have hn : ¬ (n ≥ n + 2) := by omega
  simp only [redoLoop, hring, hhc, ne_eq, not_true_eq_false, if_false, hticket, and_false,
    copy_redolog_eq, Option.getD_some]
  by_cases hl : (s.getState (sti2tid hc, sti2idx hc)).logSize > 0
  · simp only [hl, if_true, setMem_per, hcur, hn, if_false]
  · simp only [hl, if_false, hcur, hn]

theorem apply_redologs_one_behind (s : Redo) (tid o n uninit hc ho : Nat)
    (hcur : sti2seq s.per.curComb = n)
    (hhc : sti2seq hc = n) (hB : sti2seq ho + 1 = n)
    (hring : s.ring (n % RINGSIZE) = hc)
    (hticket : (s.getState (sti2tid hc, sti2idx hc)).ticket = hc) :
    apply_redologs o n ho hc tid uninit s
      = (true, (if (s.getState (sti2tid hc, sti2idx hc)).logSize > 0 then
            s.setMem (replay ((s.getState (sti2tid hc, sti2idx hc)).entries
              (s.getState (sti2tid hc, sti2idx hc)).logSize) (s.tlocal tid).tl_cx_size s.mem)
          else s).setHead o hc) := by
  unfold apply_redologs
  have hcnt : sti2seq hc + 1 - (sti2seq ho + 1) = 0 + 1 := by omega
  simp only []
  rw [hcnt, hB, redoLoop_one s tid o n uninit hc hcur hhc hring hticket]
  simp only [hhc, ne_eq, not_true_eq_false, if_false]


/-! ### Preparing `newState` -/

@[simp] theorem prepareState_g (n t : Nat × Nat) (k : Nat) (s : Redo) :
    (prepareState n t k s).g = s.g := rfl
@[simp] theorem prepareState_per (n t : Nat × Nat) (k : Nat) (s : Redo) :
    (prepareState n t k s).per = s.per := rfl
@[simp] theorem prepareState_mem (n t : Nat × Nat) (k : Nat) (s : Redo) :
    (prepareState n t k s).mem = s.mem := rfl
@[simp] theorem prepareState_combs (n t : Nat × Nat) (k : Nat) (s : Redo) :
    (prepareState n t k s).combs = s.combs := rfl
@[simp] theorem prepareState_ring (n t : Nat × Nat) (k : Nat) (s : Redo) :
    (prepareState n t k s).ring = s.ring := rfl
@[simp] theorem prepareState_enqueuers (n t : Nat × Nat) (k : Nat) (s : Redo) :
    (prepareState n t k s).enqueuers = s.enqueuers := rfl
@[simp] theorem prepareState_announce (n t : Nat × Nat) (k : Nat) (s : Redo) :
    (prepareState n t k s).announce = s.announce := rfl
@[simp] theorem prepareState_esloco (n t : Nat × Nat) (k : Nat) (s : Redo) :
    (prepareState n t k s).esloco = s.esloco := rfl
@[simp] theorem prepareState_tlocal (n t : Nat × Nat) (k : Nat) (s : Redo) :
    (prepareState n t k s).tlocal = s.tlocal := rfl
@[simp] theorem prepareState_lastIdx (n t : Nat × Nat) (k : Nat) (s : Redo) (u : Nat) :
    ((prepareState n t k s).sauron u).lastIdx = (s.sauron u).lastIdx := by
  unfold prepareState
  simp

theorem prepareState_getState (n t : Nat × Nat) (k : Nat) (s : Redo) (h : t ≠ n)
    (q : Nat × Nat) :
    (prepareState n t k s).getState q
      = if q = n then
          { (s.getState n) with ticket := k, logTail := 0, lSize := 0,
                                applied := (s.getState t).applied,
                                results := (s.getState t).results, logSize := 0 }
        else s.getState q := by
  unfold prepareState
  simp only [setState_getState_eq, h, if_false, if_true]
  by_cases hq : q = n
  · simp [hq]
  · simp [hq]

/-! ### Replaying a log of the main region -/

theorem replay_outside (g : Globals) (es : List WriteSetEntry) (offset : Nat) (m : Mem) (y : Nat)
    (hg1 : g.g_main_addr % 8 = 0) (hg2 : g.g_main_size % 8 = 0)
    (hes : ∀ e ∈ es, ADDR_IS_IN_MAIN g e.addr = true ∧ e.addr % 8 = 0)
    (hy : ∀ x, ADDR_IS_IN_MAIN g x = true → y ≠ x + offset) :
    replay es offset m y = m y := by
  rw [replay_eq_writeAll]
  apply writeAll_outside
  intro w hw
  obtain ⟨e, he, rfl⟩ := List.mem_map.mp hw
  simp only
  by_contra hc
  obtain ⟨h1, h2⟩ := hes e he
  have := hy (y - offset) (by
    have : y - offset = e.addr + (y - offset - e.addr) := by omega
    rw [this]
    exact in_main_add g e.addr _ h1 h2 hg1 hg2 (by omega))
  omega

theorem entries_mem (st : State) (n : Nat) (e : WriteSetEntry) (h : e ∈ st.entries n) :
    ∃ k, k < n ∧ st.entryAt k = e := by
  unfold State.entries at h
  obtain ⟨k, hk, rfl⟩ := List.mem_map.mp h
  exact ⟨k, List.mem_range.mp hk, rfl⟩


/-! ### A write transaction from a quiescent state -/

theorem replay_nil (offset : Nat) (m : Mem) : replay [] offset m = m := rfl

theorem acquire_quiescent (s : Redo) (tid uninit : Nat) (hq : Quiescent s tid) (sa : Redo)
    (hper : sa.per = s.per) (hring : sa.ring = s.ring) (hmem : sa.mem = s.mem)
    (hhead : (sa.combs (1 - s.cur)).head = (s.combs (1 - s.cur)).head)
    (hT : sa.getState s.tailState = s.getState s.tailState)
    (hoff : (sa.tlocal tid).tl_cx_size = s.offsetOf (1 - s.cur)) :
    ∃ m5 hd, acquire tid uninit (sti2seq s.per.curComb) (s.combs s.cur).head (1 - s.cur) sa
        = (true, (sa.setMem m5).setHead (1 - s.cur) hd) ∧
      (∀ x, ADDR_IS_IN_MAIN s.g x = true → m5 (x + s.offsetOf (1 - s.cur)) = s.replica s.cur x) ∧
      (∀ y, (∀ x, ADDR_IS_IN_MAIN s.g x = true → y ≠ x + s.offsetOf (1 - s.cur)) →
        m5 y = s.mem y) := by
  unfold acquire
  simp only [hhead, hq.other_head_ne, if_false]
  rcases hq.catchup with ⟨hA, hrep⟩ | ⟨hB, htk, hrep⟩
  · refine ⟨s.mem, uninit, ?_, hrep, fun _ _ => rfl⟩
    rw [apply_redologs_same_seq sa tid _ _ uninit _ _ hq.head_seq hA, ← hmem]
    rfl
  · refine ⟨replay ((s.getState s.tailState).entries (s.getState s.tailState).logSize)
      (s.offsetOf (1 - s.cur)) s.mem, (s.combs s.cur).head, ?_, hrep, ?_⟩
    · rw [apply_redologs_one_behind sa tid _ _ uninit _ _ (by rw [hper]) hq.head_seq hB
        (by rw [hring]; exact hq.ring_cur) (by
          have := hT
          unfold Redo.tailState at this
          rw [this]; exact htk)]
      have hT2 : sa.getState (sti2tid (s.combs s.cur).head, sti2idx (s.combs s.cur).head)
          = s.getState s.tailState := hT
      rw [hT2, hoff, hmem]
      by_cases hl : (s.getState s.tailState).logSize > 0
      · simp only [hl, if_true]
      · have h0 : (s.getState s.tailState).logSize = 0 := by omega
        simp only [hl, if_false, h0, State.entries, List.range_zero, List.map_nil, replay_nil]
        rw [← hmem]
        rfl
    · intro y hy
      apply replay_outside s.g _ _ _ _ hq.layout_addr hq.layout_size _ hy
      intro e he
      obtain ⟨k, hk, rfl⟩ := entries_mem _ _ _ he
      exact hq.log_main k hk


@[simp] theorem announced_g (s : Redo) (tid : Nat) (f : Prog) : (announced s tid f).g = s.g := rfl
@[simp] theorem announced_per (s : Redo) (tid : Nat) (f : Prog) :
    (announced s tid f).per = s.per := rfl
@[simp] theorem announced_mem (s : Redo) (tid : Nat) (f : Prog) :
    (announced s tid f).mem = s.mem := rfl
@[simp] theorem announced_combs (s : Redo) (tid : Nat) (f : Prog) :
    (announced s tid f).combs = s.combs := rfl
@[simp] theorem announced_ring (s : Redo) (tid : Nat) (f : Prog) :
    (announced s tid f).ring = s.ring := rfl
@[simp] theorem announced_esloco (s : Redo) (tid : Nat) (f : Prog) :
    (announced s tid f).esloco = s.esloco := rfl
@[simp] theorem announced_sauron (s : Redo) (tid : Nat) (f : Prog) :
    (announced s tid f).sauron = s.sauron := rfl
@[simp] theorem announced_getState (s : Redo) (tid : Nat) (f : Prog) (q : Nat × Nat) :
    (announced s tid f).getState q = s.getState q := rfl
@[simp] theorem announced_enqueuers (s : Redo) (tid : Nat) (f : Prog) (t : Nat) :
    (announced s tid f).enqueuers t = if t = tid then some f else s.enqueuers t := rfl
@[simp] theorem announced_announce (s : Redo) (tid : Nat) (f : Prog) (t : Nat) :
    (announced s tid f).announce t = if t = tid then !s.announce tid else s.announce t := rfl
theorem announced_tlocal (s : Redo) (tid : Nat) (f : Prog) :
    (announced s tid f).tlocal tid
      = { (s.tlocal tid) with tl_nested_write_trans := (s.tlocal tid).tl_nested_write_trans + 1,
                              st := some (s.nextState tid) } := by
  simp [announced]

theorem tailState_ne (s : Redo) (tid : Nat) (hq : Quiescent s tid) :
    s.tailState ≠ s.nextState tid := hq.slot_ne

theorem writeAttempt_acquire (s : Redo) (tid uninit : Nat) (f : Prog) (hq : Quiescent s tid) :
    ∃ m5 hd,
      (∀ x, ADDR_IS_IN_MAIN s.g x = true → m5 (x + s.offsetOf (1 - s.cur)) = s.replica s.cur x) ∧
      (∀ y, (∀ x, ADDR_IS_IN_MAIN s.g x = true → y ≠ x + s.offsetOf (1 - s.cur)) →
        m5 y = s.mem y) ∧
      writeAttempt tid uninit (!s.announce tid) (sti2seq s.per.curComb) (s.nextState tid) none
          (announced s tid f)
        = combineAndPublish tid (!s.announce tid) s.per.curComb (s.combs s.cur).head
            (s.nextTicket tid) (s.nextState tid) s.tailState (1 - s.cur)
            (acquired s tid f m5 hd) := by
  have hn : ¬ (sti2seq s.per.curComb ≥ sti2seq s.per.curComb + 2) := by omega
  have hscan := exclusiveScan_other tid (sti2seq s.per.curComb)
    (prepareState (s.nextState tid) s.tailState (s.nextTicket tid) (announced s tid f)) s.cur
    hq.cur_le (by simp) (by simpa using hq.locks)
  obtain ⟨m5, hd, hacq, h1, h2⟩ := acquire_quiescent s tid uninit hq
    ((prepareState (s.nextState tid) s.tailState (s.nextTicket tid)
        (announced s tid f)).setComb (1 - s.cur)
        { ((prepareState (s.nextState tid) s.tailState (s.nextTicket tid)
            (announced s tid f)).combs (1 - s.cur)) with
          rwLock := { ((prepareState (s.nextState tid) s.tailState (s.nextTicket tid)
            (announced s tid f)).combs (1 - s.cur)).rwLock with writer := true } } |>.setLocal tid
        { ((prepareState (s.nextState tid) s.tailState (s.nextTicket tid)
            (announced s tid f)).tlocal tid) with
          tl_cx_size := (1 - s.cur) * (prepareState (s.nextState tid) s.tailState
            (s.nextTicket tid) (announced s tid f)).g.g_main_size })
    (by simp) (by simp) (by simp) (by simp)
    (by simp [prepareState_getState _ _ _ _ (tailState_ne s tid hq), tailState_ne s tid hq])
    (by simp [Redo.offsetOf])
  refine ⟨m5, hd, h1, h2, ?_⟩
  unfold writeAttempt
  simp only [announced_per, hn, if_false, ne_eq, not_true_eq_false, prepareState_per,
    prepareState_ring, announced_ring, announced_combs, announced_sauron]
  have hr : s.ring (sti2seq s.per.curComb % RINGSIZE) = (s.combs (sti2idx s.per.curComb)).head :=
    hq.ring_cur
  simp only [hr, not_true_eq_false, false_and, if_false]
  have e1 : (sti2tid (s.combs (sti2idx s.per.curComb)).head,
      sti2idx (s.combs (sti2idx s.per.curComb)).head) = s.tailState := rfl
  have e2 : makeSeqTidIdx (sti2seq s.per.curComb + 1) tid (s.sauron tid).lastIdx
      = s.nextTicket tid := rfl
  have e3 : (s.combs (sti2idx s.per.curComb)).head = (s.combs s.cur).head := rfl
  rw [e1, e2, hscan]
  simp only
  rw [e3, hacq]
  rfl


@[simp] theorem acquired_g (s : Redo) (tid : Nat) (f : Prog) (m5 : Mem) (hd : Nat) :
    (acquired s tid f m5 hd).g = s.g := by
  simp [acquired]
@[simp] theorem acquired_per (s : Redo) (tid : Nat) (f : Prog) (m5 : Mem) (hd : Nat) :
    (acquired s tid f m5 hd).per = s.per := by
  simp [acquired]
@[simp] theorem acquired_mem (s : Redo) (tid : Nat) (f : Prog) (m5 : Mem) (hd : Nat) :
    (acquired s tid f m5 hd).mem = m5 := by
  simp [acquired]
@[simp] theorem acquired_ring (s : Redo) (tid : Nat) (f : Prog) (m5 : Mem) (hd : Nat) :
    (acquired s tid f m5 hd).ring = s.ring := by
  simp [acquired]
@[simp] theorem acquired_esloco (s : Redo) (tid : Nat) (f : Prog) (m5 : Mem) (hd : Nat) :
    (acquired s tid f m5 hd).esloco = s.esloco := by
  simp [acquired]
@[simp] theorem acquired_enqueuers (s : Redo) (tid : Nat) (f : Prog) (m5 : Mem) (hd t : Nat) :
    (acquired s tid f m5 hd).enqueuers t = if t = tid then some f else s.enqueuers t := by
  simp [acquired]
@[simp] theorem acquired_announce (s : Redo) (tid : Nat) (f : Prog) (m5 : Mem) (hd t : Nat) :
    (acquired s tid f m5 hd).announce t = if t = tid then !s.announce tid else s.announce t := by
  simp [acquired]
@[simp] theorem acquired_lastIdx (s : Redo) (tid : Nat) (f : Prog) (m5 : Mem) (hd u : Nat) :
    ((acquired s tid f m5 hd).sauron u).lastIdx = (s.sauron u).lastIdx := by
  simp [acquired]
theorem acquired_combs (s : Redo) (tid : Nat) (f : Prog) (m5 : Mem) (hd k : Nat) :
    (acquired s tid f m5 hd).combs k
      = if k = 1 - s.cur then
          { head := hd, rwLock := { (s.combs (1 - s.cur)).rwLock with writer := true } }
        else s.combs k := by
  simp only [acquired, setHead_combs_eq, setMem_combs, setLocal_combs, setComb_combs_eq,
    prepareState_combs, announced_combs]
  split <;> simp
theorem acquired_tlocal (s : Redo) (tid : Nat) (f : Prog) (m5 : Mem) (hd : Nat) :
    (acquired s tid f m5 hd).tlocal tid
      = { st := some (s.nextState tid), tl_cx_size := s.offsetOf (1 - s.cur),
          tl_nested_write_trans := (s.tlocal tid).tl_nested_write_trans + 1,
          tl_nested_read_trans := (s.tlocal tid).tl_nested_read_trans } := by
  simp [acquired, announced_tlocal, Redo.offsetOf]
theorem acquired_tlocal_other (s : Redo) (tid : Nat) (f : Prog) (m5 : Mem) (hd t : Nat)
    (h : t ≠ tid) : (acquired s tid f m5 hd).tlocal t = s.tlocal t := by
  simp [acquired, announced, h]
theorem acquired_getState (s : Redo) (tid : Nat) (f : Prog) (m5 : Mem) (hd : Nat)
    (hq : Quiescent s tid) (q : Nat × Nat) :
    (acquired s tid f m5 hd).getState q
      = if q = s.nextState tid then
          { (s.getState (s.nextState tid)) with
              ticket := s.nextTicket tid, logTail := 0, lSize := 0,
              applied := (s.getState s.tailState).applied,
              results := (s.getState s.tailState).results, logSize := 0 }
        else s.getState q := by
  simp only [acquired, setHead_getState, setMem_getState, setLocal_getState, setComb_getState,
    prepareState_getState _ _ _ _ (tailState_ne s tid hq), announced_getState]

/-! ### The end of a successful attempt -/

@[simp] theorem finishCommit_g (tid lcomb seqltail newTicket : Nat) (s : Redo) :
    (finishCommit tid lcomb seqltail newTicket s).g = s.g := by
  unfold finishCommit; simp only []; split <;> simp
@[simp] theorem finishCommit_per (tid lcomb seqltail newTicket : Nat) (s : Redo) :
    (finishCommit tid lcomb seqltail newTicket s).per = s.per := by
  unfold finishCommit; simp only []; split <;> simp
@[simp] theorem finishCommit_mem (tid lcomb seqltail newTicket : Nat) (s : Redo) :
    (finishCommit tid lcomb seqltail newTicket s).mem = s.mem := by
  unfold finishCommit; simp only []; split <;> simp
@[simp] theorem finishCommit_esloco (tid lcomb seqltail newTicket : Nat) (s : Redo) :
    (finishCommit tid lcomb seqltail newTicket s).esloco = s.esloco := by
  unfold finishCommit; simp only []; split <;> simp
@[simp] theorem finishCommit_enqueuers (tid lcomb seqltail newTicket : Nat) (s : Redo) :
    (finishCommit tid lcomb seqltail newTicket s).enqueuers = s.enqueuers := by
  unfold finishCommit; simp only []; split <;> simp
@[simp] theorem finishCommit_announce (tid lcomb seqltail newTicket : Nat) (s : Redo) :
    (finishCommit tid lcomb seqltail newTicket s).announce = s.announce := by
  unfold finishCommit; simp only []; split <;> simp
@[simp] theorem finishCommit_getState (tid lcomb seqltail newTicket : Nat) (s : Redo)
    (q : Nat × Nat) :
    (finishCommit tid lcomb seqltail newTicket s).getState q = s.getState q := by
  unfold finishCommit; simp only []; split <;> simp
@[simp] theorem finishCommit_combs (tid lcomb seqltail newTicket : Nat) (s : Redo) (k : Nat) :
    (finishCommit tid lcomb seqltail newTicket s).combs k
      = if k = lcomb then { (s.combs lcomb) with rwLock := (s.combs lcomb).rwLock.setReadUnlock }
        else s.combs k := by
  unfold finishCommit; simp only []; split <;> simp
theorem finishCommit_ring (tid lcomb seqltail newTicket : Nat) (s : Redo) (k : Nat) :
    (finishCommit tid lcomb seqltail newTicket s).ring k
      = if sti2seq (s.ring ((seqltail + 1) % RINGSIZE)) < seqltail + 1 ∧
            k = (seqltail + 1) % RINGSIZE then newTicket
        else s.ring k := by
  unfold finishCommit
  simp only [setComb_ring]
  by_cases h : sti2seq (s.ring ((seqltail + 1) % RINGSIZE)) < seqltail + 1
  · simp only [h, if_true, true_and, setLocal_ring, setLastIdx_ring, setRing_ring_eq,
      setComb_ring]
  · simp only [h, if_false, false_and, setLocal_ring, setLastIdx_ring, setComb_ring]
theorem finishCommit_lastIdx (tid lcomb seqltail newTicket : Nat) (s : Redo) (u : Nat) :
    ((finishCommit tid lcomb seqltail newTicket s).sauron u).lastIdx
      = if u = tid then
          (if (s.sauron tid).lastIdx + 1 = STATESSIZE then 0 else (s.sauron tid).lastIdx + 1)
        else (s.sauron u).lastIdx := by
  unfold finishCommit
  simp only []
  split <;> simp
theorem finishCommit_tlocal (tid lcomb seqltail newTicket : Nat) (s : Redo) (u : Nat) :
    (finishCommit tid lcomb seqltail newTicket s).tlocal u
      = if u = tid then
          { (s.tlocal tid) with
              tl_nested_write_trans := (s.tlocal tid).tl_nested_write_trans - 1,
              tl_cx_size := 0, st := none }
        else s.tlocal u := by
  unfold finishCommit
  simp only []
  split <;> simp


/-! ### The state after the closure and the committed state -/

theorem recorded_getState (s : Redo) (tid : Nat) (f : Prog) (m5 : Mem) (hd : Nat) (st1 : State)
    (m1 : Mem) (r : Nat) (hq : Quiescent s tid) (q : Nat × Nat) :
    (recorded s tid f m5 hd st1 m1 r).getState q
      = if q = s.nextState tid then
          { st1 with
              results := fun k => if k = tid then r else st1.results k,
              applied := fun k => if k = tid then !(s.getState s.tailState).applied tid
                else st1.applied k }
        else s.getState q := by
  unfold recorded executed
  simp only [setState_getState_eq, setMem_getState, if_true,
    acquired_getState s tid f m5 hd hq]
  by_cases h : q = s.nextState tid
  · simp [h]
  · simp [h]

theorem committed_getState (s : Redo) (tid : Nat) (f : Prog) (m5 : Mem) (hd : Nat) (st1 : State)
    (m1 : Mem) (r : Nat) (hq : Quiescent s tid) (q : Nat × Nat) :
    (committed s tid f m5 hd st1 m1 r).getState q
      = if q = s.nextState tid then
          { st1 with
              results := fun k => if k = tid then r else st1.results k,
              applied := fun k => if k = tid then !(s.getState s.tailState).applied tid
                else st1.applied k,
              logSize := st1.lSize }
        else s.getState q := by
  unfold committed
  simp only [finishCommit_getState, setCurComb_getState, setComb_getState, setHead_getState,
    setState_getState_eq, recorded_getState s tid f m5 hd st1 m1 r hq, if_true]
  by_cases h : q = s.nextState tid
  · simp [h]
  · simp [h]

theorem recorded_simple (s : Redo) (tid : Nat) (f : Prog) (m5 : Mem) (hd : Nat) (st1 : State)
    (m1 : Mem) (r : Nat) :
    (recorded s tid f m5 hd st1 m1 r).g = s.g ∧
    (recorded s tid f m5 hd st1 m1 r).per = s.per ∧
    (recorded s tid f m5 hd st1 m1 r).mem = m1 ∧
    (recorded s tid f m5 hd st1 m1 r).ring = s.ring ∧
    (recorded s tid f m5 hd st1 m1 r).esloco = s.esloco ∧
    (∀ t, (recorded s tid f m5 hd st1 m1 r).enqueuers t
      = if t = tid then some f else s.enqueuers t) ∧
    (∀ t, (recorded s tid f m5 hd st1 m1 r).announce t
      = if t = tid then !s.announce tid else s.announce t) ∧
    (∀ u, ((recorded s tid f m5 hd st1 m1 r).sauron u).lastIdx = (s.sauron u).lastIdx) ∧
    (∀ k, (recorded s tid f m5 hd st1 m1 r).combs k = (acquired s tid f m5 hd).combs k) ∧
    (∀ u, (recorded s tid f m5 hd st1 m1 r).tlocal u = (acquired s tid f m5 hd).tlocal u) := by
  unfold recorded executed
  simp

theorem committed_simple (s : Redo) (tid : Nat) (f : Prog) (m5 : Mem) (hd : Nat) (st1 : State)
    (m1 : Mem) (r : Nat) :
    (committed s tid f m5 hd st1 m1 r).g = s.g ∧
    (committed s tid f m5 hd st1 m1 r).per.curComb
      = makeSeqTidIdx (sti2seq s.per.curComb + 1) tid (1 - s.cur) ∧
    (committed s tid f m5 hd st1 m1 r).per.id = s.per.id ∧
    (committed s tid f m5 hd st1 m1 r).per.objects = s.per.objects ∧
    (committed s tid f m5 hd st1 m1 r).mem = m1 ∧
    (committed s tid f m5 hd st1 m1 r).esloco = s.esloco ∧
    (∀ t, (committed s tid f m5 hd st1 m1 r).enqueuers t
      = if t = tid then some f else s.enqueuers t) ∧
    (∀ t, (committed s tid f m5 hd st1 m1 r).announce t
      = if t = tid then !s.announce tid else s.announce t) := by
  obtain ⟨h1, h2, h3, h4, h5, h6, h7, h8, h9, h10⟩ := recorded_simple s tid f m5 hd st1 m1 r
  unfold committed
  simp only [finishCommit_g, finishCommit_per, finishCommit_mem, finishCommit_esloco,
    finishCommit_enqueuers, finishCommit_announce, setCurComb_g, setCurComb_curComb,
    setCurComb_id, setCurComb_objects, setCurComb_mem, setCurComb_esloco, setCurComb_enqueuers,
    setCurComb_announce, setComb_g, setComb_per, setComb_mem, setComb_esloco,
    setComb_enqueuers, setComb_announce, setHead_g, setHead_per, setHead_mem, setHead_esloco,
    setHead_enqueuers, setHead_announce, setState_g, setState_per, setState_mem,
    setState_esloco, setState_enqueuers, setState_announce, h1, h2, h3, h5, h6, h7]
  simp


theorem publish_recorded (s : Redo) (tid : Nat) (f : Prog) (m5 : Mem) (hd : Nat) (st1 : State)
    (m1 : Mem) (r : Nat) (hq : Quiescent s tid) :
    publish tid s.per.curComb (s.combs s.cur).head (s.nextTicket tid) (s.nextState tid)
        (1 - s.cur) (recorded s tid f m5 hd st1 m1 r)
      = (.ret (.value r), some (1 - s.cur), committed s tid f m5 hd st1 m1 r) := by
  have hper := (recorded_simple s tid f m5 hd st1 m1 r).2.1
  have hres : ((committed s tid f m5 hd st1 m1 r).getState (s.nextState tid)).results tid = r := by
    rw [committed_getState s tid f m5 hd st1 m1 r hq]
    simp
  unfold publish
  simp only [setComb_per, setHead_per, setState_per, hper, if_true]
  have e : finishCommit tid (sti2idx s.per.curComb) (sti2seq s.per.curComb) (s.nextTicket tid)
      (((((recorded s tid f m5 hd st1 m1 r).setState (s.nextState tid)
        { ((recorded s tid f m5 hd st1 m1 r).getState (s.nextState tid)) with
          logSize := ((recorded s tid f m5 hd st1 m1 r).getState (s.nextState tid)).lSize }).setHead
        (1 - s.cur) (s.nextTicket tid)).setComb (1 - s.cur)
        { ((((recorded s tid f m5 hd st1 m1 r).setState (s.nextState tid)
          { ((recorded s tid f m5 hd st1 m1 r).getState (s.nextState tid)) with
            logSize := ((recorded s tid f m5 hd st1 m1 r).getState (s.nextState tid)).lSize }).setHead
          (1 - s.cur) (s.nextTicket tid)).combs (1 - s.cur)) with
          rwLock := ((((recorded s tid f m5 hd st1 m1 r).setState (s.nextState tid)
            { ((recorded s tid f m5 hd st1 m1 r).getState (s.nextState tid)) with
              logSize := ((recorded s tid f m5 hd st1 m1 r).getState
                (s.nextState tid)).lSize }).setHead
            (1 - s.cur) (s.nextTicket tid)).combs (1 - s.cur)).rwLock.downgrade }).setCurComb
        (makeSeqTidIdx (sti2seq s.per.curComb + 1) tid (1 - s.cur)))
      = committed s tid f m5 hd st1 m1 r := rfl
  rw [e, hres]


/-- The second half of an attempt of `ns_write_transaction` from a quiescent state:
the closure of `tid` runs on the acquired replica as it runs on the current replica;
if it returns, the new replica is published, and if it throws the function is left. -/
theorem combineAndPublish_quiescent (s : Redo) (tid : Nat) (f : Prog) (m5 : Mem) (hd : Nat)
    (hq : Quiescent s tid) (hf : f.InMain s.g)
    (h5 : ∀ x, ADDR_IS_IN_MAIN s.g x = true →
      m5 (x + s.offsetOf (1 - s.cur)) = s.replica s.cur x) :
    ∃ st1 m1,
      LogInv s.g st1 (s.offsetOf (1 - s.cur)) m1 m5 ∧
      st1.ticket = s.nextTicket tid ∧ st1.applied = (s.getState s.tailState).applied ∧
      st1.results = (s.getState s.tailState).results ∧ st1.logSize = 0 ∧
      (∀ x, ADDR_IS_IN_MAIN s.g x = true →
        m1 (x + s.offsetOf (1 - s.cur)) = (f.run (s.replica s.cur)).2 x) ∧
      (∀ y, (∀ x, ADDR_IS_IN_MAIN s.g x = true → y ≠ x + s.offsetOf (1 - s.cur)) →
        m1 y = m5 y) ∧
      (∀ r, (f.run (s.replica s.cur)).1 = .value r →
        combineAndPublish tid (!s.announce tid) s.per.curComb (s.combs s.cur).head
          (s.nextTicket tid) (s.nextState tid) s.tailState (1 - s.cur) (acquired s tid f m5 hd)
        = (.ret (.value r), some (1 - s.cur), committed s tid f m5 hd st1 m1 r)) ∧
      (∀ out, (f.run (s.replica s.cur)).1 = out → (∀ r, out ≠ .value r) →
        combineAndPublish tid (!s.announce tid) s.per.curComb (s.combs s.cur).head
          (s.nextTicket tid) (s.nextState tid) s.tailState (1 - s.cur) (acquired s tid f m5 hd)
        = (.unwind out, some (1 - s.cur), executed s tid f m5 hd st1 m1)) := by
  have hN : (acquired s tid f m5 hd).getState (s.nextState tid)
      = { (s.getState (s.nextState tid)) with
              ticket := s.nextTicket tid, logTail := 0, lSize := 0,
              applied := (s.getState s.tailState).applied,
              results := (s.getState s.tailState).results, logSize := 0 } := by
    rw [acquired_getState s tid f m5 hd hq]; simp
  have hT : (acquired s tid f m5 hd).getState s.tailState = s.getState s.tailState := by
    rw [acquired_getState s tid f m5 hd hq]; simp [tailState_ne s tid hq]
  have hli : LogInv s.g ((acquired s tid f m5 hd).getState (s.nextState tid))
      (s.offsetOf (1 - s.cur)) (acquired s tid f m5 hd).mem m5 := by
    rw [hN, acquired_mem]
    refine ⟨logWF_of_empty _ rfl rfl (hq.nodes_pos _), ?_, rfl, rfl⟩
    intro k hk
    exact absurd hk (Nat.not_lt_zero k)
  obtain ⟨st1, m1, hex, hinv1, ht1, ha1, hr1, hl1, hv1, ho1⟩ :=
    exec_spec tid (s.nextState tid) s.g (s.offsetOf (1 - s.cur)) m5 hq.layout_addr hq.layout_size
      f (acquired s tid f m5 hd) (s.replica s.cur) (acquired_g s tid f m5 hd)
      (by rw [acquired_tlocal]) (by rw [acquired_tlocal]) hf hli
      (by rw [acquired_mem]; exact h5)
  rw [hN] at ht1 ha1 hr1 hl1
  simp only at ht1 ha1 hr1 hl1
  rw [acquired_mem] at ho1
  refine ⟨st1, m1, hinv1, ht1, ha1, hr1, hl1, hv1, ho1, ?_, ?_⟩
  all_goals
    have hpend : s.announce tid = (s.getState s.tailState).applied tid :=
      hq.no_pending tid hq.tid_lt
    have c1 : ¬ ((!s.announce tid) = (s.getState s.tailState).applied tid) := by
      rw [← hpend]; cases s.announce tid <;> simp
    have hcl := combineLoop_single tid s.per.curComb (s.nextState tid) f MAX_THREADS 0 false
      (acquired s tid f m5 hd) (Nat.zero_le _) (by simpa using hq.tid_lt)
      (by
        intro k _ hk hkt
        rw [hN]
        simp only [acquired_announce, hkt, if_false]
        exact hq.no_pending k (by simpa using hk))
      (by
        rw [hN]
        simp only [acquired_announce, if_true]
        exact c1)
      (by rw [acquired_per]) (by simp)
      (by
        intro r s1 hr
        rw [hex] at hr
        have hs1 : s1 = ((acquired s tid f m5 hd).setState (s.nextState tid) st1).setMem m1 :=
          (Prod.mk.inj hr).2.symm
        subst hs1
        refine ⟨rfl, ?_⟩
        simp only [setMem_getState, setState_getState_eq, if_true]
        rw [hN]
        exact ha1)
    rw [hex] at hcl
  · intro r hr
    rw [hr] at hcl
    simp only at hcl
    change combineLoop tid s.per.curComb (s.nextState tid) MAX_THREADS 0 false
        (acquired s tid f m5 hd) = (none, true, recorded s tid f m5 hd st1 m1 r) at hcl
    unfold combineAndPublish
    simp only [hT, c1, if_false, acquired_per, ne_eq, not_true_eq_false, hcl,
      (recorded_simple s tid f m5 hd st1 m1 r).2.1]
    exact publish_recorded s tid f m5 hd st1 m1 r hq
  · intro out hout hnv
    rw [hout] at hcl
    unfold combineAndPublish
    simp only [hT, c1, if_false, acquired_per, ne_eq, not_true_eq_false, hcl]
    cases out with
    | value r => exact absurd rfl (hnv r)
    | raised e => rfl
    | fault => rfl


/-! ### The whole write transaction -/

theorem writeLoop_first (tid uninit : Nat) (b : Bool) (n : Nat) (p : Nat × Nat) (s : Redo)
    (c : Ctl) (o : Option Nat) (s1 : Redo) (hc : c ≠ .cont)
    (h : writeAttempt tid uninit b n p none s = (c, o, s1)) :
    writeLoop tid uninit b n p 2 none s = (c, o, s1) := by
  have e : (2 : Nat) = 1 + 1 := rfl
  rw [e]
  unfold writeLoop
  rw [h]
  cases c with
  | cont => exact absurd rfl hc
  | ret x => rfl
  | brk => rfl
  | unwind x => rfl

/-- A write transaction from a quiescent state.  There are a memory `m5` (after the
catch-up of the replica `1 - cur`), a log `st1` and a memory `m1` (after the closure) such
that: `m5` differs from the memory before only inside the replica `1 - cur`, which now
equals the current replica on the main region; `m1` differs from `m5` only inside that
replica, which holds what the closure computes on the current replica; the log
invariant holds; and the transaction returns the closure's value in the state
`committed`, or leaves with the closure's exception in the state `executed`. -/
theorem ns_write_transaction_quiescent (s : Redo) (tid uninit : Nat) (f : Prog)
    (hq : Quiescent s tid) (hf : f.InMain s.g) :
    ∃ m5 hd st1 m1,
      (∀ x, ADDR_IS_IN_MAIN s.g x = true → m5 (x + s.offsetOf (1 - s.cur)) = s.replica s.cur x) ∧
      (∀ y, (∀ x, ADDR_IS_IN_MAIN s.g x = true → y ≠ x + s.offsetOf (1 - s.cur)) →
        m5 y = s.mem y) ∧
      LogInv s.g st1 (s.offsetOf (1 - s.cur)) m1 m5 ∧
      st1.ticket = s.nextTicket tid ∧ st1.applied = (s.getState s.tailState).applied ∧
      st1.results = (s.getState s.tailState).results ∧ st1.logSize = 0 ∧
      (∀ x, ADDR_IS_IN_MAIN s.g x = true →
        m1 (x + s.offsetOf (1 - s.cur)) = (f.run (s.replica s.cur)).2 x) ∧
      (∀ y, (∀ x, ADDR_IS_IN_MAIN s.g x = true → y ≠ x + s.offsetOf (1 - s.cur)) →
        m1 y = m5 y) ∧
      (∀ r, (f.run (s.replica s.cur)).1 = .value r →
        ns_write_transaction tid f uninit s = (.value r, committed s tid f m5 hd st1 m1 r)) ∧
      (∀ out, (f.run (s.replica s.cur)).1 = out → (∀ r, out ≠ .value r) →
        ns_write_transaction tid f uninit s = (out, executed s tid f m5 hd st1 m1)) := by
  obtain ⟨m5, hd, h51, h52, hwa⟩ := writeAttempt_acquire s tid uninit f hq
  obtain ⟨st1, m1, hinv, ht, ha, hr, hl, hv, ho, hval, hexc⟩ :=
    combineAndPublish_quiescent s tid f m5 hd hq hf h51
  refine ⟨m5, hd, st1, m1, h51, h52, hinv, ht, ha, hr, hl, hv, ho, ?_, ?_⟩
  · intro r hrun
    have hw := writeLoop_first tid uninit (!s.announce tid) (sti2seq s.per.curComb)
      (s.nextState tid) (announced s tid f) _ _ _ (by simp) (hwa.trans (hval r hrun))
    unfold ns_write_transaction
    have hnw : ¬ ((s.tlocal tid).tl_nested_write_trans > 0) := by rw [hq.nested_write]; simp
    simp only [hnw, if_false, announced_announce, if_true, announced_per, hw]
  · intro out hrun hnv
    have hw := writeLoop_first tid uninit (!s.announce tid) (sti2seq s.per.curComb)
      (s.nextState tid) (announced s tid f) _ _ _ (by simp) (hwa.trans (hexc out hrun hnv))
    unfold ns_write_transaction
    have hnw : ¬ ((s.tlocal tid).tl_nested_write_trans > 0) := by rw [hq.nested_write]; simp
    simp only [hnw, if_false, announced_announce, if_true, announced_per, hw]



/-- Right after `createFile` has constructed the header over a zeroed file, the engine
is quiescent for every thread. -/
theorem quiescent_createFileStart (g : Globals) (tid : Nat) (h1 : g.g_main_addr % 8 = 0)
    (h2 : g.g_main_size % 8 = 0) (h3 : 0 < g.g_main_size) (ht : tid < MAX_THREADS) :
    Quiescent (createFileStart g zeroMem) tid := by
  have hper : (createFileStart g zeroMem).per.curComb = 0 := rfl
  have hz : sti2seq 0 = 0 := by decide
  have hz2 : sti2tid 0 = 0 := by decide
  have hz3 : sti2idx 0 = 0 := by decide
  have hcur : (createFileStart g zeroMem).cur = 0 := by unfold Redo.cur; rw [hper]; exact hz3
  have hcombs : ∀ i, ((createFileStart g zeroMem).combs i).head = 0 := by
    intro i
    simp only [createFileStart, setCurReadLock, mapped, Redo.setComb]
    split <;> rfl
  have hst : ∀ p, (createFileStart g zeroMem).getState p = {} := fun _ => rfl
  have hne : (0 : Nat) ≠ makeSeqTidIdx 0 1 0 := by decide
  refine
    { layout_addr := h1, layout_size := h2, layout_pos := h3, tid_lt := ht,
      cur_le := by rw [hcur]; exact Nat.zero_le _,
      seq_lt := by rw [hper, hz]; simp [SEQ_BITS],
      locks := ?_, head_seq := by rw [hcombs, hper],
      head_ne := by rw [hcombs]; exact hne,
      ring_cur := by rw [hcombs]; rfl,
      ring_le := fun j => by rw [hper]; exact Nat.le_refl _,
      no_pending := fun i _ => by rw [hst]; rfl,
      slot_ne := ?_, lastIdx_lt := by simp [createFileStart, setCurReadLock, mapped, STATESSIZE],
      nodes_pos := fun k => by rw [hst]; exact Nat.one_pos,
      other_head_ne := by rw [hcombs]; exact hne,
      log_main := ?_, catchup := ?_, nested_write := rfl, nested_read := rfl }
  · intro i
    rw [hcur]
    simp only [createFileStart, setCurReadLock, mapped, Redo.setComb, hz3]
    by_cases hi : i = 0
    · subst hi
      simp [StrongTryRIRWLock.setReadLock]
    · simp [hi]
  · rw [hcombs, hz2, hz3]
    intro h
    have := congrArg Prod.snd h
    simp [createFileStart, setCurReadLock, mapped] at this
  · intro k hk
    rw [hst] at hk
    exact absurd hk (Nat.not_lt_zero _)
  · left
    refine ⟨by rw [hcombs, hper], fun x _ => rfl⟩


theorem incrProg_inMain : incrProg.InMain smallGlobals :=
  .pload _ _ (by decide) (by decide) fun v => .pstore _ _ _ (by decide) (by decide) (.ret _)

/-- X4. `Redo::ns_write_transaction`, single thread, from a quiescent state (as after
`createFile` and after every transaction run from there): when thread `tid` is in no
transaction and no request of another thread is pending, a
write transaction whose closure `f` returns `r` on the current replica returns `r`, the
header's `curComb` then designates the other replica with the next sequence number, and
that replica holds, on the whole main region, the bytes of the previously current
replica with the stores of `f` applied. -/
theorem X4_write_transaction_quiescent (s : Redo) (tid uninit : Nat) (f : Prog) (r : Nat)
    (hq : Quiescent s tid) (hf : f.InMain s.g)
    (hr : (f.run (s.replica s.cur)).1 = .value r) :
    (ns_write_transaction tid f uninit s).1 = .value r ∧
    (ns_write_transaction tid f uninit s).2.cur = 1 - s.cur ∧
    sti2seq (ns_write_transaction tid f uninit s).2.per.curComb = sti2seq s.per.curComb + 1 ∧
    ∀ x, ADDR_IS_IN_MAIN s.g x = true →
      (ns_write_transaction tid f uninit s).2.replica (ns_write_transaction tid f uninit s).2.cur x
        = (f.run (s.replica s.cur)).2 x := by
  obtain ⟨m5, hd, st1, m1, -, -, -, -, -, -, -, hv, -, hval, -⟩ :=
    ns_write_transaction_quiescent s tid uninit f hq hf
  rw [hval r hr]
  obtain ⟨hg, hc, -, -, hm, -⟩ := committed_simple s tid f m5 hd st1 m1 r
  have h1 : sti2seq s.per.curComb + 1 < 2 ^ SEQ_BITS := hq.seq_lt
  have h2 : tid < 2 ^ TID_BITS := lt_of_lt_of_le hq.tid_lt (by decide)
  have h3 : 1 - s.cur < 2 ^ IDX_BITS := lt_of_le_of_lt (Nat.sub_le _ _) (by decide)
  have hcur : (committed s tid f m5 hd st1 m1 r).cur = 1 - s.cur := by
    unfold Redo.cur
    rw [hc, sti2idx_make _ _ _ h1 h2 h3]
    rfl
  refine ⟨rfl, hcur, ?_, ?_⟩
  · show sti2seq (committed s tid f m5 hd st1 m1 r).per.curComb = _
    rw [hc, sti2seq_make _ _ _ h1 h2 h3]
  · intro x hx
    show (committed s tid f m5 hd st1 m1 r).replica (committed s tid f m5 hd st1 m1 r).cur x = _
    rw [hcur]
    unfold Redo.replica Redo.offsetOf
    rw [hm, hg]
    exact hv x hx

theorem X4_write_transaction_quiescent_witness :
    (ns_write_transaction 0 incrProg 0 (createFileStart smallGlobals zeroMem)).1 = .value 1 ∧
    (ns_write_transaction 0 incrProg 0 (createFileStart smallGlobals zeroMem)).2.cur
      = 1 - (createFileStart smallGlobals zeroMem).cur ∧
    sti2seq (ns_write_transaction 0 incrProg 0 (createFileStart smallGlobals zeroMem)).2.per.curComb
      = sti2seq (createFileStart smallGlobals zeroMem).per.curComb + 1 ∧
    ∀ x, ADDR_IS_IN_MAIN (createFileStart smallGlobals zeroMem).g x = true →
      (ns_write_transaction 0 incrProg 0 (createFileStart smallGlobals zeroMem)).2.replica
        (ns_write_transaction 0 incrProg 0 (createFileStart smallGlobals zeroMem)).2.cur x
        = (incrProg.run ((createFileStart smallGlobals zeroMem).replica
            (createFileStart smallGlobals zeroMem).cur)).2 x :=
  X4_write_transaction_quiescent (createFileStart smallGlobals zeroMem) 0 0 incrProg 1
    (quiescent_createFileStart smallGlobals 0 (by decide) (by decide) (by decide) (by decide))
    incrProg_inMain (by decide)


/-! ### Read transactions -/

/-- A closure that makes no store leaves the engine as it is and computes what the
reference semantics computes on the replica the thread is bound to. -/
theorem exec_readonly (tid : Nat) (g : Globals) (hg1 : g.g_main_addr % 8 = 0)
    (hg2 : g.g_main_size % 8 = 0) (f : Prog) (hro : f.ReadOnly) (hf : f.InMain g)
    (s : Redo) (V : Mem) (hg : s.g = g)
    (hV : ∀ x, ADDR_IS_IN_MAIN g x = true → s.mem (x + (s.tlocal tid).tl_cx_size) = V x) :
    exec tid f s = ((f.run V).1, s) ∧ (f.run V).2 = V := by
  induction hro with
  | ret r => exact ⟨rfl, rfl⟩
  | raise e => exact ⟨rfl, rfl⟩
  | pload a k _ ih =>
    cases hf with
    | pload _ _ ha hal hk =>
      have hl : pload s.g (s.tlocal tid).tl_cx_size s.mem a = load64 V a := by
        rw [hg, pload_main g _ s.mem a ha]
        apply load64_congr2
        intro i hi
        have := hV (a + i) (in_main_add g a i ha hal hg1 hg2 hi)
        rw [← this]
        congr 1
        omega
      simp only [exec, Prog.run, hl]
      exact ih _ (hk _)

theorem readLoop_hit (tid : Nat) (f : Prog) (n : Nat) (s : Redo)
    (hw : (s.combs (sti2idx s.per.curComb)).rwLock.writer = false)
    (hsq : sti2seq (s.combs (sti2idx s.per.curComb)).head = sti2seq s.per.curComb) :
    readLoop tid f (n + 1) 0 s =
      match exec tid f (reading s tid) with
      | (.value ret, s4) => (.ret (.value ret), readDone s4 tid (sti2idx s.per.curComb))
      | (o, s4) => (.unwind o, s4) := by
  have hne : (0 : Nat) ≠ MAX_READ_TRIES := by decide
  have hlock := sharedTryLock_free (s.combs (sti2idx s.per.curComb)).rwLock tid hw
  unfold readLoop
  simp only [hne, if_false]
  rw [hlock]
  simp only [setComb_per, setComb_combs_eq, hsq, and_self, if_true]
  unfold reading readDone
  simp only [hlock, setComb_g, setComb_tlocal]

theorem ns_read_transaction_quiescent (s : Redo) (tid : Nat) (f : Prog) (hq : Quiescent s tid)
    (hro : f.ReadOnly) (hf : f.InMain s.g) :
    (ns_read_transaction tid f s).1 = (f.run (s.replica s.cur)).1 ∧
    (ns_read_transaction tid f s).2.per = s.per ∧
    (ns_read_transaction tid f s).2.mem = s.mem ∧
    (ns_read_transaction tid f s).2.g = s.g := by
  have hnr : ¬ ((s.tlocal tid).tl_nested_read_trans > 0) := by rw [hq.nested_read]; simp
  obtain ⟨hw, -, -⟩ := hq.locks s.cur
  have e : (MAX_READ_TRIES + 2 : Nat) = (MAX_READ_TRIES + 1) + 1 := rfl
  unfold ns_read_transaction
  simp only [hnr, if_false]
  rw [e, readLoop_hit tid f _ _ (by simpa using hw) (by simpa using hq.head_seq)]
  obtain ⟨hx, -⟩ := exec_readonly tid s.g hq.layout_addr hq.layout_size f hro hf
    (reading (s.setLocal tid { (s.tlocal tid) with
        tl_nested_read_trans := (s.tlocal tid).tl_nested_read_trans + 1 }) tid)
    (s.replica s.cur) (by simp [reading]) (by
      intro x _
      simp [reading, Redo.replica, Redo.offsetOf, Redo.cur])
  rw [hx]
  cases hrun : (f.run (s.replica s.cur)).1 with
  | value r => simp [readDone, reading]
  | raised e => simp [reading]
  | fault => simp [reading]


theorem getProg_inMain : getProg.InMain smallGlobals :=
  .pload _ _ (by decide) (by decide) fun _ => .ret _

theorem getProg_readOnly : getProg.ReadOnly := .pload _ _ fun _ => .ret _

/-- X5. `Redo::ns_read_transaction`, single thread with no concurrent writer: from a
quiescent state, a read transaction whose closure `f` only loads 64-bit cells of the main
region returns what `f` computes with its loads bound to the replica that the header
designates as current, and it changes neither the header nor any byte of the mapped
region. -/
theorem X5_read_transaction_quiescent (s : Redo) (tid : Nat) (f : Prog) (hq : Quiescent s tid)
    (hro : f.ReadOnly) (hf : f.InMain s.g) :
    (ns_read_transaction tid f s).1 = (f.run (s.replica s.cur)).1 ∧
    (ns_read_transaction tid f s).2.per.curComb = s.per.curComb ∧
    ∀ y, (ns_read_transaction tid f s).2.mem y = s.mem y := by
  obtain ⟨h1, h2, h3, -⟩ := ns_read_transaction_quiescent s tid f hq hro hf
  exact ⟨h1, by rw [h2], fun y => by rw [h3]⟩

theorem X5_read_transaction_quiescent_witness :
    (ns_read_transaction 0 getProg (createFileStart smallGlobals zeroMem)).1
      = (getProg.run ((createFileStart smallGlobals zeroMem).replica
          (createFileStart smallGlobals zeroMem).cur)).1 ∧
    (ns_read_transaction 0 getProg (createFileStart smallGlobals zeroMem)).2.per.curComb
      = (createFileStart smallGlobals zeroMem).per.curComb ∧
    ∀ y, (ns_read_transaction 0 getProg (createFileStart smallGlobals zeroMem)).2.mem y
      = (createFileStart smallGlobals zeroMem).mem y :=
  X5_read_transaction_quiescent (createFileStart smallGlobals zeroMem) 0 getProg
    (quiescent_createFileStart smallGlobals 0 (by decide) (by decide) (by decide) (by decide))
    getProg_readOnly getProg_inMain



/-! ### A closure that throws -/

theorem exec_per (tid : Nat) (f : Prog) : ∀ s : Redo, (exec tid f s).2.per = s.per := by
  induction f with
  | ret r => intro s; rfl
  | raise e => intro s; rfl
  | pload a k ih => intro s; simp only [exec]; exact ih _ _
  | pstore a v k ih =>
    intro s
    simp only [exec]
    split
    · rw [ih]; simp
    · split
      · rfl
      · rw [ih]; simp

/-- A write transaction started while the nesting counter is positive only runs its
closure. -/
theorem ns_write_transaction_nested (tid : Nat) (f : Prog) (uninit : Nat) (s : Redo)
    (h : 0 < (s.tlocal tid).tl_nested_write_trans) :
    ns_write_transaction tid f uninit s = exec tid f s := by
  unfold ns_write_transaction
  simp [h]

/-- The two replicas `cur` and `1 - cur` do not overlap. -/
theorem replica_disjoint (g : Globals) (c x x1 : Nat) (hc : c ≤ 1)
    (hx : ADDR_IS_IN_MAIN g x = true) (hx1 : ADDR_IS_IN_MAIN g x1 = true) :
    x + c * g.g_main_size ≠ x1 + (1 - c) * g.g_main_size := by
  simp only [ADDR_IS_IN_MAIN, Globals.g_main_addr_end, Bool.and_eq_true, decide_eq_true_eq] at hx hx1
  interval_cases c
  · simp only [Nat.zero_mul, Nat.sub_zero, Nat.one_mul]; omega
  · simp only [Nat.sub_self, Nat.zero_mul, Nat.one_mul]; omega


theorem storeThenRaise_inMain (g : Globals) (a v e : Nat) (h1 : ADDR_IS_IN_MAIN g a = true)
    (h2 : a % 8 = 0) : (storeThenRaise a v e).InMain g :=
  .pstore _ _ _ h1 h2 (.raise _)

/-- C4, the behaviour of the code.  A file is created, three increments of a counter
are committed (the current replica holds 3 and a further increment would return 4), the
file is closed and opened again with a valid magic number.  The first write transaction
after the re-open runs its closure on the other replica as it was left, without copy or
replay: it returns 3 and the replica it publishes holds 3, so the third increment
committed before the close is missing from the published state. -/
theorem C4_reopen_loses_commit :
    currentCounter threeIncrements = 3 ∧
    (ns_write_transaction 0 (counterIncr counterAddr) 0 threeIncrements).1 = .value 4 ∧
    reopened.per.id = MAGIC_ID ∧ reopened.per.curComb = threeIncrements.per.curComb ∧
    currentCounter reopened = 3 ∧
    (ns_write_transaction 0 (counterIncr counterAddr) 0 reopened).1 = .value 3 ∧
    currentCounter (ns_write_transaction 0 (counterIncr counterAddr) 0 reopened).2 = 3 := by
  decide!

/-- C1, the behaviour of the code.  The file of `threeIncrements` is closed and opened
again.  Thread 0 is then in no transaction and no request of any thread is pending, and
the current replica holds 3, so the incrementing closure returns 4 on it and stores 4.
The write transaction that thread 0 runs with this closure returns 3, and the replica
that `curComb` designates afterwards holds 3: the closure ran on the other replica as
the earlier run had left it, which `apply_redologs` neither copied nor caught up.  The
result is the same whatever the uninitialised `ringTicket` holds (0 or
`makeSeqTidIdx(5, 0, 0)`). -/
theorem C1_stale_replica_after_reopen :
    (reopened.tlocal 0).tl_nested_write_trans = 0 ∧
    (reopened.tlocal 0).tl_nested_read_trans = 0 ∧
    (List.range MAX_THREADS).all (fun i =>
      reopened.announce i == (reopened.getState reopened.tailState).applied i) = true ∧
    ((counterIncr counterAddr).run (reopened.replica reopened.cur)).1 = .value 4 ∧
    load64 ((counterIncr counterAddr).run (reopened.replica reopened.cur)).2 counterAddr = 4 ∧
    (ns_write_transaction 0 (counterIncr counterAddr) 0 reopened).1 = .value 3 ∧
    (ns_write_transaction 0 (counterIncr counterAddr) (makeSeqTidIdx 5 0 0) reopened).1
      = .value 3 ∧
    load64 ((ns_write_transaction 0 (counterIncr counterAddr) (makeSeqTidIdx 5 0 0) reopened).2.replica
      (ns_write_transaction 0 (counterIncr counterAddr) (makeSeqTidIdx 5 0 0) reopened).2.cur)
      counterAddr = 3 := by
  decide!

/-- C2, the behaviour of the code.  The file of `threeIncrements` is closed and opened
again; no writer runs.  The current replica holds 3, which is what the closure that
returns the counter yields when its loads are bound to it.  The read transaction of
thread 0 with this closure returns 0: the head of the current replica has the sequence
0 and `curComb` the sequence 4, so no iteration of the loop runs the closure, the
closure is enqueued as if it was a mutation (`announce[0]` is flipped) and the function
returns `results[0]` of the `State` of the head, which nobody has written.  A second
read transaction returns 0 as well. -/
theorem C2_read_after_reopen :
    (reopened.tlocal 0).tl_nested_write_trans = 0 ∧
    (reopened.tlocal 0).tl_nested_read_trans = 0 ∧
    sti2seq reopened.per.curComb = 4 ∧ sti2seq (reopened.combs reopened.cur).head = 0 ∧
    ((readCell counterAddr).run (reopened.replica reopened.cur)).1 = .value 3 ∧
    (ns_read_transaction 0 (readCell counterAddr) reopened).1 = .value 0 ∧
    reopened.announce 0 = false ∧
    (ns_read_transaction 0 (readCell counterAddr) reopened).2.announce 0 = true ∧
    (ns_read_transaction 0 (readCell counterAddr)
      (ns_read_transaction 0 (readCell counterAddr) reopened).2).1 = .value 0 := by
  decide!

/-- C10, as stated, fails.  After three committed increments, a write transaction whose
closure stores 77 in the counter and throws leaves with the exception, but the store is
still in the replica the thread had acquired (which held 2 before), that replica is
still locked exclusively, the nesting counter is 1 and the replica binding
`tl_cx_size` is still set; the next increment by the same thread returns 78 and the
header's `curComb` does not move, so it does not commit. -/
theorem C10_no_rollback_counterexample :
    afterRaise.1 = .raised 5 ∧
    load64 (threeIncrements.replica (1 - threeIncrements.cur)) counterAddr = 2 ∧
    load64 (afterRaise.2.replica (1 - threeIncrements.cur)) counterAddr = 77 ∧
    (afterRaise.2.combs (1 - threeIncrements.cur)).rwLock.writer = true ∧
    (afterRaise.2.tlocal 0).tl_nested_write_trans = 1 ∧
    (afterRaise.2.tlocal 0).tl_cx_size = 4096 ∧
    (ns_write_transaction 0 (counterIncr counterAddr) 0 afterRaise.2).1 = .value 78 ∧
    (ns_write_transaction 0 (counterIncr counterAddr) 0 afterRaise.2).2.per.curComb
      = threeIncrements.per.curComb := by
  decide!

/-- C10, amended.  From a quiescent state, when the closure `f` of a write transaction
throws `e` after some stores, the exception reaches the caller with nothing rolled back
or released: the header and the bytes of the current replica are unchanged, the
replica `1 - cur` that the thread acquired holds the stores of `f` and is still locked
exclusively, the nesting counter is 1 and the replica binding is still set; every later
write transaction of the thread only runs its closure as a nested transaction and
leaves the header as it is. -/
theorem C10_closure_failure (s : Redo) (tid uninit : Nat) (f : Prog) (e : Nat)
    (hq : Quiescent s tid) (hf : f.InMain s.g)
    (he : (f.run (s.replica s.cur)).1 = .raised e) :
    ∃ s1, ns_write_transaction tid f uninit s = (.raised e, s1) ∧
      s1.per = s.per ∧
      (∀ x, ADDR_IS_IN_MAIN s.g x = true → s1.replica s.cur x = s.replica s.cur x) ∧
      (∀ x, ADDR_IS_IN_MAIN s.g x = true →
        s1.replica (1 - s.cur) x = (f.run (s.replica s.cur)).2 x) ∧
      (s1.combs (1 - s.cur)).rwLock.writer = true ∧
      (s1.tlocal tid).tl_nested_write_trans = 1 ∧
      (s1.tlocal tid).tl_cx_size = s.offsetOf (1 - s.cur) ∧
      ∀ f2 u2, ns_write_transaction tid f2 u2 s1 = exec tid f2 s1 ∧
        (ns_write_transaction tid f2 u2 s1).2.per = s.per := by
  obtain ⟨m5, hd, st1, m1, -, h52, -, -, -, -, -, hv, ho, -, hexc⟩ :=
    ns_write_transaction_quiescent s tid uninit f hq hf
  have hrun := hexc (.raised e) he (fun r h => by cases h)
  have hg : (executed s tid f m5 hd st1 m1).g = s.g := by simp [executed]
  have hper : (executed s tid f m5 hd st1 m1).per = s.per := by simp [executed]
  have hmem : (executed s tid f m5 hd st1 m1).mem = m1 := by simp [executed]
  have htl : (executed s tid f m5 hd st1 m1).tlocal tid
      = (acquired s tid f m5 hd).tlocal tid := by simp [executed]
  have hcb : (executed s tid f m5 hd st1 m1).combs (1 - s.cur)
      = (acquired s tid f m5 hd).combs (1 - s.cur) := by simp [executed]
  have hn : ((executed s tid f m5 hd st1 m1).tlocal tid).tl_nested_write_trans = 1 := by
    rw [htl, acquired_tlocal, hq.nested_write]
  refine ⟨executed s tid f m5 hd st1 m1, hrun, hper, ?_, ?_, ?_, hn, ?_, ?_⟩
  · intro x hx
    unfold Redo.replica Redo.offsetOf
    rw [hmem, hg]
    have hd1 : ∀ x1, ADDR_IS_IN_MAIN s.g x1 = true →
        x + s.cur * s.g.g_main_size ≠ x1 + s.offsetOf (1 - s.cur) := fun x1 hx1 =>
      replica_disjoint s.g s.cur x x1 hq.cur_le hx hx1
    rw [ho _ hd1, h52 _ hd1]
  · intro x hx
    unfold Redo.replica
    rw [hmem]
    have : (executed s tid f m5 hd st1 m1).offsetOf (1 - s.cur) = s.offsetOf (1 - s.cur) := by
      unfold Redo.offsetOf; rw [hg]
    rw [this]
    exact hv x hx
  · rw [hcb, acquired_combs]
    simp
  · rw [htl, acquired_tlocal]
  · intro f2 u2
    have h1 := ns_write_transaction_nested tid f2 u2 (executed s tid f m5 hd st1 m1)
      (by rw [hn]; exact Nat.one_pos)
    exact ⟨h1, by rw [h1, exec_per, hper]⟩

theorem C10_closure_failure_witness :
    ∃ s1, ns_write_transaction 0 (storeThenRaise 1024 77 5) 0
        (createFileStart smallGlobals zeroMem) = (.raised 5, s1) ∧
      s1.per = (createFileStart smallGlobals zeroMem).per ∧
      (∀ x, ADDR_IS_IN_MAIN (createFileStart smallGlobals zeroMem).g x = true →
        s1.replica (createFileStart smallGlobals zeroMem).cur x
          = (createFileStart smallGlobals zeroMem).replica
              (createFileStart smallGlobals zeroMem).cur x) ∧
      (∀ x, ADDR_IS_IN_MAIN (createFileStart smallGlobals zeroMem).g x = true →
        s1.replica (1 - (createFileStart smallGlobals zeroMem).cur) x
          = ((storeThenRaise 1024 77 5).run ((createFileStart smallGlobals zeroMem).replica
              (createFileStart smallGlobals zeroMem).cur)).2 x) ∧
      (s1.combs (1 - (createFileStart smallGlobals zeroMem).cur)).rwLock.writer = true ∧
      (s1.tlocal 0).tl_nested_write_trans = 1 ∧
      (s1.tlocal 0).tl_cx_size
        = (createFileStart smallGlobals zeroMem).offsetOf
            (1 - (createFileStart smallGlobals zeroMem).cur) ∧
      ∀ f2 u2, ns_write_transaction 0 f2 u2 s1 = exec 0 f2 s1 ∧
        (ns_write_transaction 0 f2 u2 s1).2.per = (createFileStart smallGlobals zeroMem).per :=
  C10_closure_failure (createFileStart smallGlobals zeroMem) 0 0 (storeThenRaise 1024 77 5) 5
    (quiescent_createFileStart smallGlobals 0 (by decide) (by decide) (by decide) (by decide))
    (storeThenRaise_inMain smallGlobals 1024 77 5 (by decide) (by decide)) (by decide)


/-! ### The committed state is quiescent again -/

theorem committed_cur (s : Redo) (tid : Nat) (f : Prog) (m5 : Mem) (hd : Nat) (st1 : State)
    (m1 : Mem) (r : Nat) (hq : Quiescent s tid) :
    (committed s tid f m5 hd st1 m1 r).cur = 1 - s.cur ∧
    sti2seq (committed s tid f m5 hd st1 m1 r).per.curComb = sti2seq s.per.curComb + 1 := by
  obtain ⟨-, hc, -⟩ := committed_simple s tid f m5 hd st1 m1 r
  have h1 : sti2seq s.per.curComb + 1 < 2 ^ SEQ_BITS := hq.seq_lt
  have h2 : tid < 2 ^ TID_BITS := lt_of_lt_of_le hq.tid_lt (by decide)
  have h3 : 1 - s.cur < 2 ^ IDX_BITS := lt_of_le_of_lt (Nat.sub_le _ _) (by decide)
  unfold Redo.cur
  rw [hc, sti2idx_make _ _ _ h1 h2 h3, sti2seq_make _ _ _ h1 h2 h3]
  exact ⟨rfl, rfl⟩

theorem committed_combs (s : Redo) (tid : Nat) (f : Prog) (m5 : Mem) (hd : Nat) (st1 : State)
    (m1 : Mem) (r : Nat) (hq : Quiescent s tid) (k : Nat) :
    (committed s tid f m5 hd st1 m1 r).combs k
      = if k = 1 - s.cur then
          { head := s.nextTicket tid,
            rwLock := { (s.combs (1 - s.cur)).rwLock with writer := false, readLock := true } }
        else if k = s.cur then
          { (s.combs s.cur) with rwLock := (s.combs s.cur).rwLock.setReadUnlock }
        else s.combs k := by
  have hne : s.cur ≠ 1 - s.cur := by have := hq.cur_le; omega
  have hrc := (recorded_simple s tid f m5 hd st1 m1 r).2.2.2.2.2.2.2.2.1
  have hcur : sti2idx s.per.curComb = s.cur := rfl
  unfold committed
  simp only [finishCommit_combs, setCurComb_combs, setComb_combs_eq, setHead_combs_eq,
    setState_combs, hrc, acquired_combs, hcur]
  by_cases h1 : k = 1 - s.cur
  · subst h1
    have : ¬ (1 - s.cur = s.cur) := fun h => hne h.symm
    simp [this, StrongTryRIRWLock.downgrade]
  · by_cases h2 : k = s.cur
    · subst h2
      simp [h1, hne]
    · simp [h1, h2]

theorem committed_ring (s : Redo) (tid : Nat) (f : Prog) (m5 : Mem) (hd : Nat) (st1 : State)
    (m1 : Mem) (r : Nat) (hq : Quiescent s tid) (k : Nat) :
    (committed s tid f m5 hd st1 m1 r).ring k
      = if k = (sti2seq s.per.curComb + 1) % RINGSIZE then s.nextTicket tid else s.ring k := by
  have hr := (recorded_simple s tid f m5 hd st1 m1 r).2.2.2.1
  unfold committed
  rw [finishCommit_ring]
  simp only [setCurComb_ring, setComb_ring, setHead_ring, setState_ring, hr]
  have hlt : sti2seq (s.ring ((sti2seq s.per.curComb + 1) % RINGSIZE)) < sti2seq s.per.curComb + 1 :=
    Nat.lt_succ_of_le (hq.ring_le _)
  simp only [hlt, true_and]

theorem committed_lastIdx (s : Redo) (tid : Nat) (f : Prog) (m5 : Mem) (hd : Nat) (st1 : State)
    (m1 : Mem) (r : Nat) :
    ((committed s tid f m5 hd st1 m1 r).sauron tid).lastIdx
      = if (s.sauron tid).lastIdx + 1 = STATESSIZE then 0 else (s.sauron tid).lastIdx + 1 := by
  have hl := (recorded_simple s tid f m5 hd st1 m1 r).2.2.2.2.2.2.2.1
  unfold committed
  rw [finishCommit_lastIdx]
  simp only [if_true, setCurComb_lastIdx, setComb_lastIdx, setHead_lastIdx, setState_lastIdx, hl]

theorem committed_tlocal (s : Redo) (tid : Nat) (f : Prog) (m5 : Mem) (hd : Nat) (st1 : State)
    (m1 : Mem) (r : Nat) :
    (committed s tid f m5 hd st1 m1 r).tlocal tid
      = { st := none, tl_cx_size := 0,
          tl_nested_write_trans := (s.tlocal tid).tl_nested_write_trans + 1 - 1,
          tl_nested_read_trans := (s.tlocal tid).tl_nested_read_trans } := by
  have ht := (recorded_simple s tid f m5 hd st1 m1 r).2.2.2.2.2.2.2.2.2
  unfold committed
  rw [finishCommit_tlocal]
  simp only [if_true, setCurComb_tlocal, setComb_tlocal, setHead_tlocal, setState_tlocal, ht,
    acquired_tlocal]

/-- The state in which a write transaction of a single thread returns is quiescent
again: the replica that was current is now one transaction behind and the log of the
transaction brings it up to date. -/
theorem committed_quiescent (s : Redo) (tid : Nat) (f : Prog) (m5 : Mem) (hd : Nat) (st1 : State)
    (m1 : Mem) (r : Nat) (hq : Quiescent s tid)
    (hseq : sti2seq s.per.curComb + 2 < 2 ^ SEQ_BITS)
    (h51 : ∀ x, ADDR_IS_IN_MAIN s.g x = true → m5 (x + s.offsetOf (1 - s.cur)) = s.replica s.cur x)
    (h52 : ∀ y, (∀ x, ADDR_IS_IN_MAIN s.g x = true → y ≠ x + s.offsetOf (1 - s.cur)) →
      m5 y = s.mem y)
    (hinv : LogInv s.g st1 (s.offsetOf (1 - s.cur)) m1 m5)
    (ht : st1.ticket = s.nextTicket tid)
    (ha : st1.applied = (s.getState s.tailState).applied)
    (ho : ∀ y, (∀ x, ADDR_IS_IN_MAIN s.g x = true → y ≠ x + s.offsetOf (1 - s.cur)) →
      m1 y = m5 y) :
    Quiescent (committed s tid f m5 hd st1 m1 r) tid := by
  obtain ⟨hg, hcc, -, -, hm, -, -, han⟩ := committed_simple s tid f m5 hd st1 m1 r
  obtain ⟨hcur, hsq⟩ := committed_cur s tid f m5 hd st1 m1 r hq
  have hne : s.cur ≠ 1 - s.cur := by have := hq.cur_le; omega
  have hne2 : 1 - s.cur ≠ s.cur := fun h => hne h.symm
  have h11 : 1 - (1 - s.cur) = s.cur := by have := hq.cur_le; omega
  have b1 : sti2seq s.per.curComb + 1 < 2 ^ SEQ_BITS := hq.seq_lt
  have b2 : tid < 2 ^ TID_BITS := lt_of_lt_of_le hq.tid_lt (by decide)
  have b3 : (s.sauron tid).lastIdx < 2 ^ IDX_BITS := lt_of_lt_of_le hq.lastIdx_lt (by decide)
  have hts : sti2seq (s.nextTicket tid) = sti2seq s.per.curComb + 1 := sti2seq_make _ _ _ b1 b2 b3
  have htt : sti2tid (s.nextTicket tid) = tid := sti2tid_make _ _ _ b1 b2 b3
  have hti : sti2idx (s.nextTicket tid) = (s.sauron tid).lastIdx := sti2idx_make _ _ _ b1 b2 b3
  have hhead : ((committed s tid f m5 hd st1 m1 r).combs (1 - s.cur)).head = s.nextTicket tid := by
    rw [committed_combs s tid f m5 hd st1 m1 r hq]; simp
  have hhead2 : ((committed s tid f m5 hd st1 m1 r).combs s.cur).head = (s.combs s.cur).head := by
    rw [committed_combs s tid f m5 hd st1 m1 r hq]; simp [hne]
  have htail : (sti2tid (s.nextTicket tid), sti2idx (s.nextTicket tid)) = s.nextState tid := by
    rw [htt, hti]; rfl
  have hst : (committed s tid f m5 hd st1 m1 r).getState (s.nextState tid)
      = { st1 with
          results := fun k => if k = tid then r else st1.results k,
          applied := fun k => if k = tid then !(s.getState s.tailState).applied tid
            else st1.applied k,
          logSize := st1.lSize } := by
    rw [committed_getState s tid f m5 hd st1 m1 r hq]; simp
  obtain ⟨hwf, hmain, hrep, -⟩ := hinv
  refine
    { layout_addr := by rw [hg]; exact hq.layout_addr,
      layout_size := by rw [hg]; exact hq.layout_size,
      layout_pos := by rw [hg]; exact hq.layout_pos,
      tid_lt := hq.tid_lt,
      cur_le := by rw [hcur]; exact Nat.sub_le _ _,
      seq_lt := by rw [hsq]; exact hseq,
      locks := ?_, head_seq := by rw [hcur, hhead, hts, hsq],
      head_ne := ?_, ring_cur := ?_, ring_le := ?_, no_pending := ?_, slot_ne := ?_,
      lastIdx_lt := ?_, nodes_pos := ?_, other_head_ne := ?_, log_main := ?_, catchup := ?_,
      nested_write := ?_, nested_read := ?_ }
  · intro i
    rw [hcur, committed_combs s tid f m5 hd st1 m1 r hq]
    by_cases h1 : i = 1 - s.cur
    · subst h1
      simp only [if_true, decide_True]
      refine ⟨?_, ?_, ?_⟩ <;> first | trivial | rfl | exact (hq.locks _).2.1
    · by_cases h2 : i = s.cur
      · subst h2
        simp only [h1, if_false, if_true, decide_False, StrongTryRIRWLock.setReadUnlock]
        refine ⟨?_, ?_, ?_⟩ <;>
          first | trivial | rfl | exact (hq.locks _).2.1 | exact (hq.locks _).1
      · simp only [h1, h2, if_false, decide_False]
        refine ⟨(hq.locks _).1, (hq.locks _).2.1, ?_⟩
        rw [(hq.locks i).2.2]
        simp [h2]
  · rw [hcur, hhead]
    intro h
    have := congrArg sti2seq h
    rw [hts, sti2seq_make 0 1 0 (by decide) (by decide) (by decide)] at this
    omega
  · rw [hsq, hcur, hhead, committed_ring s tid f m5 hd st1 m1 r hq]
    simp
  · intro j
    rw [hsq, committed_ring s tid f m5 hd st1 m1 r hq]
    split
    · rw [hts]
    · exact Nat.le_succ_of_le (hq.ring_le j)
  · intro i hi
    rw [hcur, hhead, htail, hst, han]
    simp only
    by_cases h : i = tid
    · subst h
      simp only [if_true]
      rw [hq.no_pending i hi]
      rfl
    · simp only [h, if_false]
      rw [ha]
      exact hq.no_pending i hi
  · rw [hcur, hhead, htail, committed_lastIdx]
    intro h
    have := congrArg Prod.snd h
    simp only [Redo.nextState] at this
    have hl := hq.lastIdx_lt
    simp only [STATESSIZE] at *
    split at this <;> omega
  · rw [committed_lastIdx]
    have hl := hq.lastIdx_lt
    simp only [STATESSIZE] at *
    split <;> omega
  · intro k
    rw [committed_getState s tid f m5 hd st1 m1 r hq]
    by_cases h : (tid, k) = s.nextState tid
    · simp only [h, if_true]
      exact Nat.lt_of_le_of_lt (Nat.zero_le _) hwf.2
    · simp only [h, if_false]
      exact hq.nodes_pos k
  · rw [hcur, h11, hhead2]
    exact hq.head_ne
  · intro k hk
    rw [hcur, hhead, htail, hst] at hk ⊢
    simp only at hk
    rw [hg]
    exact hmain k hk
  · right
    rw [hcur, h11, hhead, hhead2, htail, hst, hsq]
    refine ⟨by rw [hq.head_seq], ht, ?_⟩
    intro x hx
    rw [hg] at hx
    simp only
    have he : State.entries { st1 with
          results := fun k => if k = tid then r else st1.results k,
          applied := fun k => if k = tid then !(s.getState s.tailState).applied tid
            else st1.applied k,
          logSize := st1.lSize } st1.lSize = st1.entries st1.lSize := rfl
    rw [he]
    have hoff1 : (committed s tid f m5 hd st1 m1 r).offsetOf s.cur = s.offsetOf s.cur := by
      unfold Redo.offsetOf; rw [hg]
    have hoff2 : (committed s tid f m5 hd st1 m1 r).offsetOf (1 - s.cur)
        = s.offsetOf (1 - s.cur) := by
      unfold Redo.offsetOf; rw [hg]
    unfold Redo.replica
    rw [hoff1, hoff2, hm]
    have key := replay_view (st1.entries st1.lSize) (fun x => ADDR_IS_IN_MAIN s.g x = true)
      (s.offsetOf (1 - s.cur)) (s.offsetOf s.cur) m5 m1 (by
        intro y hy
        have hd1 : ∀ x1, ADDR_IS_IN_MAIN s.g x1 = true →
            y + s.offsetOf s.cur ≠ x1 + s.offsetOf (1 - s.cur) := fun x1 hx1 =>
          replica_disjoint s.g s.cur y x1 hq.cur_le hy hx1
        rw [ho _ hd1, h52 _ hd1, h51 y hy]
        rfl) x hx
    rw [key, hrep]
  · rw [committed_tlocal, hq.nested_write]
  · rw [committed_tlocal, hq.nested_read]

/-- A write transaction whose closure returns leaves the engine quiescent. -/
theorem ns_write_transaction_preserves (s : Redo) (tid uninit : Nat) (f : Prog) (r : Nat)
    (hq : Quiescent s tid) (hf : f.InMain s.g) (hr : (f.run (s.replica s.cur)).1 = .value r)
    (hseq : sti2seq s.per.curComb + 2 < 2 ^ SEQ_BITS) :
    Quiescent (ns_write_transaction tid f uninit s).2 tid ∧
    (ns_write_transaction tid f uninit s).2.g = s.g := by
  obtain ⟨m5, hd, st1, m1, h51, h52, hinv, ht, ha, -, -, -, ho, hval, -⟩ :=
    ns_write_transaction_quiescent s tid uninit f hq hf
  rw [hval r hr]
  exact ⟨committed_quiescent s tid f m5 hd st1 m1 r hq hseq h51 h52 hinv ht ha ho,
    (committed_simple s tid f m5 hd st1 m1 r).1⟩

/-- A read transaction whose closure only loads and returns leaves the engine
quiescent. -/
theorem ns_read_transaction_preserves (s : Redo) (tid : Nat) (f : Prog) (r : Nat)
    (hq : Quiescent s tid) (hro : f.ReadOnly) (hf : f.InMain s.g)
    (hr : (f.run (s.replica s.cur)).1 = .value r) :
    Quiescent (ns_read_transaction tid f s).2 tid ∧ (ns_read_transaction tid f s).2.g = s.g := by
  have hnr : ¬ ((s.tlocal tid).tl_nested_read_trans > 0) := by rw [hq.nested_read]; simp
  obtain ⟨hw, -, -⟩ := hq.locks s.cur
  have e : (MAX_READ_TRIES + 2 : Nat) = (MAX_READ_TRIES + 1) + 1 := rfl
  obtain ⟨hx, -⟩ := exec_readonly tid s.g hq.layout_addr hq.layout_size f hro hf
    (reading (s.setLocal tid { (s.tlocal tid) with
        tl_nested_read_trans := (s.tlocal tid).tl_nested_read_trans + 1 }) tid)
    (s.replica s.cur) (by simp [reading]) (by
      intro x _
      simp [reading, Redo.replica, Redo.offsetOf, Redo.cur])
  have hres : ns_read_transaction tid f s = (.value r,
      readDone (reading (s.setLocal tid { (s.tlocal tid) with
        tl_nested_read_trans := (s.tlocal tid).tl_nested_read_trans + 1 }) tid) tid s.cur) := by
    unfold ns_read_transaction
    simp only [hnr, if_false]
    rw [e, readLoop_hit tid f _ _ (by simpa using hw) (by simpa using hq.head_seq), hx, hr]
    rfl
  rw [hres]
  have hcomb : ∀ i, ((readDone (reading (s.setLocal tid { (s.tlocal tid) with
        tl_nested_read_trans := (s.tlocal tid).tl_nested_read_trans + 1 }) tid) tid
        s.cur).combs i).head = (s.combs i).head ∧
      ((readDone (reading (s.setLocal tid { (s.tlocal tid) with
        tl_nested_read_trans := (s.tlocal tid).tl_nested_read_trans + 1 }) tid) tid
        s.cur).combs i).rwLock.writer = (s.combs i).rwLock.writer ∧
      ((readDone (reading (s.setLocal tid { (s.tlocal tid) with
        tl_nested_read_trans := (s.tlocal tid).tl_nested_read_trans + 1 }) tid) tid
        s.cur).combs i).rwLock.readLock = (s.combs i).rwLock.readLock ∧
      ∀ t, ((readDone (reading (s.setLocal tid { (s.tlocal tid) with
        tl_nested_read_trans := (s.tlocal tid).tl_nested_read_trans + 1 }) tid) tid
        s.cur).combs i).rwLock.readers t = false := by
    intro i
    have hc : sti2idx s.per.curComb = s.cur := rfl
    simp only [readDone, reading, setLocal_combs, setComb_combs_eq, setLocal_per, hc,
      sharedTryLock_free _ tid hw, StrongTryRIRWLock.sharedUnlock]
    by_cases hi : i = s.cur
    · subst hi
      simp only [if_true]
      refine ⟨trivial, trivial, trivial, fun t => ?_⟩
      by_cases ht : t = tid
      · simp [ht]
      · simp [ht, (hq.locks _).2.1 t]
    · simp only [hi, if_false]
      exact ⟨trivial, trivial, trivial, (hq.locks i).2.1⟩
  have hsame : (readDone (reading (s.setLocal tid { (s.tlocal tid) with
        tl_nested_read_trans := (s.tlocal tid).tl_nested_read_trans + 1 }) tid) tid s.cur).g = s.g ∧
      (readDone (reading (s.setLocal tid { (s.tlocal tid) with
        tl_nested_read_trans := (s.tlocal tid).tl_nested_read_trans + 1 }) tid) tid s.cur).per
        = s.per ∧
      (readDone (reading (s.setLocal tid { (s.tlocal tid) with
        tl_nested_read_trans := (s.tlocal tid).tl_nested_read_trans + 1 }) tid) tid s.cur).mem
        = s.mem ∧
      (readDone (reading (s.setLocal tid { (s.tlocal tid) with
        tl_nested_read_trans := (s.tlocal tid).tl_nested_read_trans + 1 }) tid) tid s.cur).ring
        = s.ring ∧
      (readDone (reading (s.setLocal tid { (s.tlocal tid) with
        tl_nested_read_trans := (s.tlocal tid).tl_nested_read_trans + 1 }) tid) tid s.cur).announce
        = s.announce ∧
      (readDone (reading (s.setLocal tid { (s.tlocal tid) with
        tl_nested_read_trans := (s.tlocal tid).tl_nested_read_trans + 1 }) tid) tid s.cur).sauron
        = s.sauron ∧
      ((readDone (reading (s.setLocal tid { (s.tlocal tid) with
        tl_nested_read_trans := (s.tlocal tid).tl_nested_read_trans + 1 }) tid) tid s.cur).tlocal
        tid).tl_nested_write_trans = (s.tlocal tid).tl_nested_write_trans ∧
      ((readDone (reading (s.setLocal tid { (s.tlocal tid) with
        tl_nested_read_trans := (s.tlocal tid).tl_nested_read_trans + 1 }) tid) tid s.cur).tlocal
        tid).tl_nested_read_trans = (s.tlocal tid).tl_nested_read_trans := by
    simp [readDone, reading, Redo.setLocal, Redo.setComb]
  obtain ⟨hg, hper, hmem, hring, hann, hsau, hnw, hnrd⟩ := hsame
  generalize readDone (reading (s.setLocal tid { (s.tlocal tid) with
        tl_nested_read_trans := (s.tlocal tid).tl_nested_read_trans + 1 }) tid) tid s.cur = s2
    at hcomb hg hper hmem hring hann hsau hnw hnrd ⊢
  have hcur : s2.cur = s.cur := by unfold Redo.cur; rw [hper]
  have hgs : ∀ q, s2.getState q = s.getState q := fun q => by unfold Redo.getState; rw [hsau]
  have hrp : ∀ i, s2.replica i = s.replica i := fun i => by
    unfold Redo.replica Redo.offsetOf; rw [hmem, hg]
  have hoff : ∀ i, s2.offsetOf i = s.offsetOf i := fun i => by unfold Redo.offsetOf; rw [hg]
  refine ⟨?_, hg⟩
  refine
    { layout_addr := by rw [hg]; exact hq.layout_addr,
      layout_size := by rw [hg]; exact hq.layout_size,
      layout_pos := by rw [hg]; exact hq.layout_pos,
      tid_lt := hq.tid_lt,
      cur_le := by rw [hcur]; exact hq.cur_le,
      seq_lt := by rw [hper]; exact hq.seq_lt,
      locks := fun i => by
        rw [hcur, (hcomb i).2.1, (hcomb i).2.2.1]
        exact ⟨(hq.locks i).1, (hcomb i).2.2.2, (hq.locks i).2.2⟩,
      head_seq := by rw [hcur, (hcomb _).1, hper]; exact hq.head_seq,
      head_ne := by rw [hcur, (hcomb _).1]; exact hq.head_ne,
      ring_cur := by rw [hcur, (hcomb _).1, hper, hring]; exact hq.ring_cur,
      ring_le := fun j => by rw [hper, hring]; exact hq.ring_le j,
      no_pending := fun i hi => by rw [hcur, (hcomb _).1, hann, hgs]; exact hq.no_pending i hi,
      slot_ne := by rw [hcur, (hcomb _).1, hsau]; exact hq.slot_ne,
      lastIdx_lt := by rw [hsau]; exact hq.lastIdx_lt,
      nodes_pos := fun k => by rw [hgs]; exact hq.nodes_pos k,
      other_head_ne := by rw [hcur, (hcomb _).1]; exact hq.other_head_ne,
      log_main := fun k hk => by
        rw [hcur, (hcomb _).1, hgs] at hk
        rw [hcur, (hcomb _).1, hgs, hg]
        exact hq.log_main k hk,
      catchup := by
        rw [hcur, (hcomb _).1, (hcomb _).1, hper, hgs, hg, hrp, hrp, hoff, hmem]
        exact hq.catchup,
      nested_write := by rw [hnw]; exact hq.nested_write,
      nested_read := by rw [hnrd]; exact hq.nested_read }

/-- Every state that a single thread reaches from a newly created file is quiescent. -/
theorem reached_quiescent (g : Globals) (tid : Nat) (h1 : g.g_main_addr % 8 = 0)
    (h2 : g.g_main_size % 8 = 0) (h3 : 0 < g.g_main_size) (ht : tid < MAX_THREADS) (s : Redo)
    (h : Reached g tid s) : Quiescent s tid ∧ s.g = g := by
  induction h with
  | start => exact ⟨quiescent_createFileStart g tid h1 h2 h3 ht, rfl⟩
  | write s f uninit r _ hf hr hseq ih =>
    obtain ⟨hq, hg⟩ := ih
    obtain ⟨hq1, hg1⟩ := ns_write_transaction_preserves s tid uninit f r hq (by rw [hg]; exact hf)
      hr hseq
    exact ⟨hq1, by rw [hg1, hg]⟩
  | read s f r _ hf hro hr ih =>
    obtain ⟨hq, hg⟩ := ih
    obtain ⟨hq1, hg1⟩ := ns_read_transaction_preserves s tid f r hq hro (by rw [hg]; exact hf) hr
    exact ⟨hq1, by rw [hg1, hg]⟩

/-- X1. `Redo::ns_write_transaction` along a single-threaded run: in every state that a
thread reaches from a newly created file by write transactions whose closures return
and by read transactions, a write transaction whose closure `f` returns `r` on the
current replica returns `r`, and the replica that the header's `curComb` designates
afterwards holds the bytes of the previously current replica with the stores of `f`
applied. -/
theorem X1_write_transaction_reached (g : Globals) (tid uninit : Nat) (s : Redo) (f : Prog)
    (r : Nat) (h1 : g.g_main_addr % 8 = 0) (h2 : g.g_main_size % 8 = 0) (h3 : 0 < g.g_main_size)
    (ht : tid < MAX_THREADS) (h : Reached g tid s) (hf : f.InMain g)
    (hr : (f.run (s.replica s.cur)).1 = .value r) :
    (ns_write_transaction tid f uninit s).1 = .value r ∧
    ∀ x, ADDR_IS_IN_MAIN g x = true →
      (ns_write_transaction tid f uninit s).2.replica (ns_write_transaction tid f uninit s).2.cur x
        = (f.run (s.replica s.cur)).2 x := by
  obtain ⟨hq, hg⟩ := reached_quiescent g tid h1 h2 h3 ht s h
  obtain ⟨m5, hd, st1, m1, -, -, -, -, -, -, -, hv, -, hval, -⟩ :=
    ns_write_transaction_quiescent s tid uninit f hq (by rw [hg]; exact hf)
  rw [hval r hr]
  obtain ⟨hgc, -, -, -, hm, -⟩ := committed_simple s tid f m5 hd st1 m1 r
  obtain ⟨hcur, -⟩ := committed_cur s tid f m5 hd st1 m1 r hq
  refine ⟨rfl, ?_⟩
  intro x hx
  show (committed s tid f m5 hd st1 m1 r).replica (committed s tid f m5 hd st1 m1 r).cur x = _
  rw [hcur]
  unfold Redo.replica Redo.offsetOf
  rw [hm, hgc]
  exact hv x (by rw [hg]; exact hx)

theorem X1_write_transaction_reached_witness :
    (ns_write_transaction 0 incrProg 0
      (ns_write_transaction 0 incrProg 0 (createFileStart smallGlobals zeroMem)).2).1 = .value 2 ∧
    ∀ x, ADDR_IS_IN_MAIN smallGlobals x = true →
      (ns_write_transaction 0 incrProg 0
        (ns_write_transaction 0 incrProg 0 (createFileStart smallGlobals zeroMem)).2).2.replica
        (ns_write_transaction 0 incrProg 0
          (ns_write_transaction 0 incrProg 0 (createFileStart smallGlobals zeroMem)).2).2.cur x
        = (incrProg.run ((ns_write_transaction 0 incrProg 0
            (createFileStart smallGlobals zeroMem)).2.replica
            (ns_write_transaction 0 incrProg 0 (createFileStart smallGlobals zeroMem)).2.cur)).2 x :=
  X1_write_transaction_reached smallGlobals 0 0
    (ns_write_transaction 0 incrProg 0 (createFileStart smallGlobals zeroMem)).2 incrProg 2
    (by decide) (by decide) (by decide) (by decide)
    (.write _ incrProg 0 1 .start incrProg_inMain (by decide!) (by decide))
    incrProg_inMain (by decide!)


/-! ## RedoOpt: lemmas and theorems -/

namespace Opt

/-! ### Accessors of the engine state -/

@[simp] theorem opt_setState_g (s : RedoOpt) (p : Nat × Nat) (st : State) :
    (s.setState p st).g = s.g := rfl

@[simp] theorem opt_setState_per (s : RedoOpt) (p : Nat × Nat) (st : State) :
    (s.setState p st).per = s.per := rfl

@[simp] theorem opt_setState_mem (s : RedoOpt) (p : Nat × Nat) (st : State) :
    (s.setState p st).mem = s.mem := rfl

@[simp] theorem opt_setState_combs (s : RedoOpt) (p : Nat × Nat) (st : State) :
    (s.setState p st).combs = s.combs := rfl

@[simp] theorem opt_setState_ring (s : RedoOpt) (p : Nat × Nat) (st : State) :
    (s.setState p st).ring = s.ring := rfl

@[simp] theorem opt_setState_enqueuers (s : RedoOpt) (p : Nat × Nat) (st : State) :
    (s.setState p st).enqueuers = s.enqueuers := rfl

@[simp] theorem opt_setState_announce (s : RedoOpt) (p : Nat × Nat) (st : State) :
    (s.setState p st).announce = s.announce := rfl

@[simp] theorem opt_setState_esloco (s : RedoOpt) (p : Nat × Nat) (st : State) :
    (s.setState p st).esloco = s.esloco := rfl

@[simp] theorem opt_setState_tlocal (s : RedoOpt) (p : Nat × Nat) (st : State) :
    (s.setState p st).tlocal = s.tlocal := rfl

@[simp] theorem opt_setLocal_g (s : RedoOpt) (tid : Nat) (v : VarLocal) :
    (s.setLocal tid v).g = s.g := rfl

@[simp] theorem opt_setLocal_per (s : RedoOpt) (tid : Nat) (v : VarLocal) :
    (s.setLocal tid v).per = s.per := rfl

@[simp] theorem opt_setLocal_mem (s : RedoOpt) (tid : Nat) (v : VarLocal) :
    (s.setLocal tid v).mem = s.mem := rfl

@[simp] theorem opt_setLocal_combs (s : RedoOpt) (tid : Nat) (v : VarLocal) :
    (s.setLocal tid v).combs = s.combs := rfl

@[simp] theorem opt_setLocal_ring (s : RedoOpt) (tid : Nat) (v : VarLocal) :
    (s.setLocal tid v).ring = s.ring := rfl

@[simp] theorem opt_setLocal_enqueuers (s : RedoOpt) (tid : Nat) (v : VarLocal) :
    (s.setLocal tid v).enqueuers = s.enqueuers := rfl

@[simp] theorem opt_setLocal_announce (s : RedoOpt) (tid : Nat) (v : VarLocal) :
    (s.setLocal tid v).announce = s.announce := rfl

@[simp] theorem opt_setLocal_esloco (s : RedoOpt) (tid : Nat) (v : VarLocal) :
    (s.setLocal tid v).esloco = s.esloco := rfl

@[simp] theorem opt_setLocal_getState (s : RedoOpt) (tid : Nat) (v : VarLocal) (q : Nat × Nat) :
    (s.setLocal tid v).getState q = s.getState q := rfl

@[simp] theorem opt_setLocal_lastIdx (s : RedoOpt) (tid : Nat) (v : VarLocal) (u : Nat) :
    ((s.setLocal tid v).sauron u).lastIdx = (s.sauron u).lastIdx := rfl

@[simp] theorem opt_setComb_g (s : RedoOpt) (i : Nat) (c : Combined) :
    (s.setComb i c).g = s.g := rfl

@[simp] theorem opt_setComb_per (s : RedoOpt) (i : Nat) (c : Combined) :
    (s.setComb i c).per = s.per := rfl

@[simp] theorem opt_setComb_mem (s : RedoOpt) (i : Nat) (c : Combined) :
    (s.setComb i c).mem = s.mem := rfl

@[simp] theorem opt_setComb_ring (s : RedoOpt) (i : Nat) (c : Combined) :
    (s.setComb i c).ring = s.ring := rfl

@[simp] theorem opt_setComb_enqueuers (s : RedoOpt) (i : Nat) (c : Combined) :
    (s.setComb i c).enqueuers = s.enqueuers := rfl

@[simp] theorem opt_setComb_announce (s : RedoOpt) (i : Nat) (c : Combined) :
    (s.setComb i c).announce = s.announce := rfl

@[simp] theorem opt_setComb_esloco (s : RedoOpt) (i : Nat) (c : Combined) :
    (s.setComb i c).esloco = s.esloco := rfl

@[simp] theorem opt_setComb_tlocal (s : RedoOpt) (i : Nat) (c : Combined) :
    (s.setComb i c).tlocal = s.tlocal := rfl

@[simp] theorem opt_setComb_getState (s : RedoOpt) (i : Nat) (c : Combined) (q : Nat × Nat) :
    (s.setComb i c).getState q = s.getState q := rfl

@[simp] theorem opt_setComb_lastIdx (s : RedoOpt) (i : Nat) (c : Combined) (u : Nat) :
    ((s.setComb i c).sauron u).lastIdx = (s.sauron u).lastIdx := rfl

@[simp] theorem opt_setHead_g (s : RedoOpt) (i h : Nat) :
    (s.setHead i h).g = s.g := rfl

@[simp] theorem opt_setHead_per (s : RedoOpt) (i h : Nat) :
    (s.setHead i h).per = s.per := rfl

@[simp] theorem opt_setHead_mem (s : RedoOpt) (i h : Nat) :
    (s.setHead i h).mem = s.mem := rfl

@[simp] theorem opt_setHead_ring (s : RedoOpt) (i h : Nat) :
    (s.setHead i h).ring = s.ring := rfl

@[simp] theorem opt_setHead_enqueuers (s : RedoOpt) (i h : Nat) :
    (s.setHead i h).enqueuers = s.enqueuers := rfl

@[simp] theorem opt_setHead_announce (s : RedoOpt) (i h : Nat) :
    (s.setHead i h).announce = s.announce := rfl

@[simp] theorem opt_setHead_esloco (s : RedoOpt) (i h : Nat) :
    (s.setHead i h).esloco = s.esloco := rfl

@[simp] theorem opt_setHead_tlocal (s : RedoOpt) (i h : Nat) :
    (s.setHead i h).tlocal = s.tlocal := rfl

@[simp] theorem opt_setHead_getState (s : RedoOpt) (i h : Nat) (q : Nat × Nat) :
    (s.setHead i h).getState q = s.getState q := rfl

@[simp] theorem opt_setHead_lastIdx (s : RedoOpt) (i h : Nat) (u : Nat) :
    ((s.setHead i h).sauron u).lastIdx = (s.sauron u).lastIdx := rfl

@[simp] theorem opt_setRing_g (s : RedoOpt) (i t : Nat) :
    (s.setRing i t).g = s.g := rfl

@[simp] theorem opt_setRing_per (s : RedoOpt) (i t : Nat) :
    (s.setRing i t).per = s.per := rfl

@[simp] theorem opt_setRing_mem (s : RedoOpt) (i t : Nat) :
    (s.setRing i t).mem = s.mem := rfl

@[simp] theorem opt_setRing_combs (s : RedoOpt) (i t : Nat) :
    (s.setRing i t).combs = s.combs := rfl

@[simp] theorem opt_setRing_enqueuers (s : RedoOpt) (i t : Nat) :
    (s.setRing i t).enqueuers = s.enqueuers := rfl

@[simp] theorem opt_setRing_announce (s : RedoOpt) (i t : Nat) :
    (s.setRing i t).announce = s.announce := rfl

@[simp] theorem opt_setRing_esloco (s : RedoOpt) (i t : Nat) :
    (s.setRing i t).esloco = s.esloco := rfl

@[simp] theorem opt_setRing_tlocal (s : RedoOpt) (i t : Nat) :
    (s.setRing i t).tlocal = s.tlocal := rfl

@[simp] theorem opt_setRing_getState (s : RedoOpt) (i t : Nat) (q : Nat × Nat) :
    (s.setRing i t).getState q = s.getState q := rfl

@[simp] theorem opt_setRing_lastIdx (s : RedoOpt) (i t : Nat) (u : Nat) :
    ((s.setRing i t).sauron u).lastIdx = (s.sauron u).lastIdx := rfl

@[simp] theorem opt_setMem_g (s : RedoOpt) (m : Mem) :
    (s.setMem m).g = s.g := rfl

@[simp] theorem opt_setMem_per (s : RedoOpt) (m : Mem) :
    (s.setMem m).per = s.per := rfl

@[simp] theorem opt_setMem_combs (s : RedoOpt) (m : Mem) :
    (s.setMem m).combs = s.combs := rfl

@[simp] theorem opt_setMem_ring (s : RedoOpt) (m : Mem) :
    (s.setMem m).ring = s.ring := rfl

@[simp] theorem opt_setMem_enqueuers (s : RedoOpt) (m : Mem) :
    (s.setMem m).enqueuers = s.enqueuers := rfl

@[simp] theorem opt_setMem_announce (s : RedoOpt) (m : Mem) :
    (s.setMem m).announce = s.announce := rfl

@[simp] theorem opt_setMem_esloco (s : RedoOpt) (m : Mem) :
    (s.setMem m).esloco = s.esloco := rfl

@[simp] theorem opt_setMem_tlocal (s : RedoOpt) (m : Mem) :
    (s.setMem m).tlocal = s.tlocal := rfl

@[simp] theorem opt_setMem_getState (s : RedoOpt) (m : Mem) (q : Nat × Nat) :
    (s.setMem m).getState q = s.getState q := rfl

@[simp] theorem opt_setMem_lastIdx (s : RedoOpt) (m : Mem) (u : Nat) :
    ((s.setMem m).sauron u).lastIdx = (s.sauron u).lastIdx := rfl

@[simp] theorem opt_setCurComb_g (s : RedoOpt) (c : Nat) :
    (s.setCurComb c).g = s.g := rfl

@[simp] theorem opt_setCurComb_mem (s : RedoOpt) (c : Nat) :
    (s.setCurComb c).mem = s.mem := rfl

@[simp] theorem opt_setCurComb_combs (s : RedoOpt) (c : Nat) :
    (s.setCurComb c).combs = s.combs := rfl

@[simp] theorem opt_setCurComb_ring (s : RedoOpt) (c : Nat) :
    (s.setCurComb c).ring = s.ring := rfl

@[simp] theorem opt_setCurComb_enqueuers (s : RedoOpt) (c : Nat) :
    (s.setCurComb c).enqueuers = s.enqueuers := rfl

@[simp] theorem opt_setCurComb_announce (s : RedoOpt) (c : Nat) :
    (s.setCurComb c).announce = s.announce := rfl

@[simp] theorem opt_setCurComb_esloco (s : RedoOpt) (c : Nat) :
    (s.setCurComb c).esloco = s.esloco := rfl

@[simp] theorem opt_setCurComb_tlocal (s : RedoOpt) (c : Nat) :
    (s.setCurComb c).tlocal = s.tlocal := rfl

@[simp] theorem opt_setCurComb_getState (s : RedoOpt) (c : Nat) (q : Nat × Nat) :
    (s.setCurComb c).getState q = s.getState q := rfl

@[simp] theorem opt_setCurComb_lastIdx (s : RedoOpt) (c : Nat) (u : Nat) :
    ((s.setCurComb c).sauron u).lastIdx = (s.sauron u).lastIdx := rfl

@[simp] theorem opt_setEnqueuer_g (s : RedoOpt) (tid : Nat) (f : Prog) :
    (s.setEnqueuer tid f).g = s.g := rfl

@[simp] theorem opt_setEnqueuer_per (s : RedoOpt) (tid : Nat) (f : Prog) :
    (s.setEnqueuer tid f).per = s.per := rfl

@[simp] theorem opt_setEnqueuer_mem (s : RedoOpt) (tid : Nat) (f : Prog) :
    (s.setEnqueuer tid f).mem = s.mem := rfl

@[simp] theorem opt_setEnqueuer_combs (s : RedoOpt) (tid : Nat) (f : Prog) :
    (s.setEnqueuer tid f).combs = s.combs := rfl

@[simp] theorem opt_setEnqueuer_ring (s : RedoOpt) (tid : Nat) (f : Prog) :
    (s.setEnqueuer tid f).ring = s.ring := rfl

@[simp] theorem opt_setEnqueuer_announce (s : RedoOpt) (tid : Nat) (f : Prog) :
    (s.setEnqueuer tid f).announce = s.announce := rfl

@[simp] theorem opt_setEnqueuer_esloco (s : RedoOpt) (tid : Nat) (f : Prog) :
    (s.setEnqueuer tid f).esloco = s.esloco := rfl

@[simp] theorem opt_setEnqueuer_tlocal (s : RedoOpt) (tid : Nat) (f : Prog) :
    (s.setEnqueuer tid f).tlocal = s.tlocal := rfl

@[simp] theorem opt_setEnqueuer_getState (s : RedoOpt) (tid : Nat) (f : Prog) (q : Nat × Nat) :
    (s.setEnqueuer tid f).getState q = s.getState q := rfl

@[simp] theorem opt_setEnqueuer_lastIdx (s : RedoOpt) (tid : Nat) (f : Prog) (u : Nat) :
    ((s.setEnqueuer tid f).sauron u).lastIdx = (s.sauron u).lastIdx := rfl

@[simp] theorem opt_setAnnounce_g (s : RedoOpt) (tid : Nat) (b : Bool) :
    (s.setAnnounce tid b).g = s.g := rfl

@[simp] theorem opt_setAnnounce_per (s : RedoOpt) (tid : Nat) (b : Bool) :
    (s.setAnnounce tid b).per = s.per := rfl

@[simp] theorem opt_setAnnounce_mem (s : RedoOpt) (tid : Nat) (b : Bool) :
    (s.setAnnounce tid b).mem = s.mem := rfl

@[simp] theorem opt_setAnnounce_combs (s : RedoOpt) (tid : Nat) (b : Bool) :
    (s.setAnnounce tid b).combs = s.combs := rfl

@[simp] theorem opt_setAnnounce_ring (s : RedoOpt) (tid : Nat) (b : Bool) :
    (s.setAnnounce tid b).ring = s.ring := rfl

@[simp] theorem opt_setAnnounce_enqueuers (s : RedoOpt) (tid : Nat) (b : Bool) :
    (s.setAnnounce tid b).enqueuers = s.enqueuers := rfl

@[simp] theorem opt_setAnnounce_esloco (s : RedoOpt) (tid : Nat) (b : Bool) :
    (s.setAnnounce tid b).esloco = s.esloco := rfl

@[simp] theorem opt_setAnnounce_tlocal (s : RedoOpt) (tid : Nat) (b : Bool) :
    (s.setAnnounce tid b).tlocal = s.tlocal := rfl

@[simp] theorem opt_setAnnounce_getState (s : RedoOpt) (tid : Nat) (b : Bool) (q : Nat × Nat) :
    (s.setAnnounce tid b).getState q = s.getState q := rfl

@[simp] theorem opt_setAnnounce_lastIdx (s : RedoOpt) (tid : Nat) (b : Bool) (u : Nat) :
    ((s.setAnnounce tid b).sauron u).lastIdx = (s.sauron u).lastIdx := rfl

@[simp] theorem opt_setLastIdx_g (s : RedoOpt) (tid n : Nat) :
    (s.setLastIdx tid n).g = s.g := rfl

@[simp] theorem opt_setLastIdx_per (s : RedoOpt) (tid n : Nat) :
    (s.setLastIdx tid n).per = s.per := rfl

@[simp] theorem opt_setLastIdx_mem (s : RedoOpt) (tid n : Nat) :
    (s.setLastIdx tid n).mem = s.mem := rfl

@[simp] theorem opt_setLastIdx_combs (s : RedoOpt) (tid n : Nat) :
    (s.setLastIdx tid n).combs = s.combs := rfl

@[simp] theorem opt_setLastIdx_ring (s : RedoOpt) (tid n : Nat) :
    (s.setLastIdx tid n).ring = s.ring := rfl

@[simp] theorem opt_setLastIdx_enqueuers (s : RedoOpt) (tid n : Nat) :
    (s.setLastIdx tid n).enqueuers = s.enqueuers := rfl

@[simp] theorem opt_setLastIdx_announce (s : RedoOpt) (tid n : Nat) :
    (s.setLastIdx tid n).announce = s.announce := rfl

@[simp] theorem opt_setLastIdx_esloco (s : RedoOpt) (tid n : Nat) :
    (s.setLastIdx tid n).esloco = s.esloco := rfl

@[simp] theorem opt_setLastIdx_tlocal (s : RedoOpt) (tid n : Nat) :
    (s.setLastIdx tid n).tlocal = s.tlocal := rfl

@[simp] theorem opt_setState_getState_eq (s : RedoOpt) (p q : Nat × Nat) (st : State) :
    (s.setState p st).getState q = if q = p then st else s.getState q := by
  unfold RedoOpt.getState RedoOpt.setState
  by_cases h1 : q.1 = p.1
  · by_cases h2 : q.2 = p.2
    · have : q = p := Prod.ext h1 h2
      simp [h1, h2, this]
    · have : q ≠ p := fun h => h2 (by rw [h])
      simp [h1, h2, this]
  · have : q ≠ p := fun h => h1 (by rw [h])
    simp [h1, this]

@[simp] theorem opt_setState_lastIdx (s : RedoOpt) (p : Nat × Nat) (st : State) (t : Nat) :
    ((s.setState p st).sauron t).lastIdx = (s.sauron t).lastIdx := by
  unfold RedoOpt.setState
  simp only
  split <;> rfl

@[simp] theorem opt_setLastIdx_getState (s : RedoOpt) (tid n : Nat) (q : Nat × Nat) :
    (s.setLastIdx tid n).getState q = s.getState q := by
  unfold RedoOpt.getState RedoOpt.setLastIdx
  simp only
  split <;> rfl

@[simp] theorem opt_setLastIdx_lastIdx (s : RedoOpt) (tid n t : Nat) :
    ((s.setLastIdx tid n).sauron t).lastIdx = if t = tid then n else (s.sauron t).lastIdx := by
  unfold RedoOpt.setLastIdx
  simp only
  split <;> rfl

@[simp] theorem opt_setLocal_tlocal (s : RedoOpt) (tid : Nat) (v : VarLocal) (t : Nat) :
    (s.setLocal tid v).tlocal t = if t = tid then v else s.tlocal t := rfl

@[simp] theorem opt_setComb_combs_eq (s : RedoOpt) (i : Nat) (c : Combined) (k : Nat) :
    (s.setComb i c).combs k = if k = i then c else s.combs k := rfl

@[simp] theorem opt_setHead_combs_eq (s : RedoOpt) (i h k : Nat) :
    (s.setHead i h).combs k = if k = i then { (s.combs i) with head := h } else s.combs k := rfl

@[simp] theorem opt_setRing_ring_eq (s : RedoOpt) (i t k : Nat) :
    (s.setRing i t).ring k = if k = i then t else s.ring k := rfl

@[simp] theorem opt_setMem_mem_eq (s : RedoOpt) (m : Mem) : (s.setMem m).mem = m := rfl

@[simp] theorem opt_setCurComb_curComb (s : RedoOpt) (c : Nat) : (s.setCurComb c).per.curComb = c := rfl

@[simp] theorem opt_setCurComb_id (s : RedoOpt) (c : Nat) : (s.setCurComb c).per.id = s.per.id := rfl

@[simp] theorem opt_setCurComb_objects (s : RedoOpt) (c : Nat) :
    (s.setCurComb c).per.objects = s.per.objects := rfl

@[simp] theorem opt_setEnqueuer_enqueuers_eq (s : RedoOpt) (tid : Nat) (f : Prog) (t : Nat) :
    (s.setEnqueuer tid f).enqueuers t = if t = tid then some f else s.enqueuers t := rfl

@[simp] theorem opt_setAnnounce_announce_eq (s : RedoOpt) (tid : Nat) (b : Bool) (t : Nat) :
    (s.setAnnounce tid b).announce t = if t = tid then b else s.announce t := rfl

theorem opt_setState_getState (s : RedoOpt) (p : Nat × Nat) : s.setState p (s.getState p) = s := by
  unfold RedoOpt.setState RedoOpt.getState
  have h : (fun t => if t = p.1 then
      ({ (s.sauron t) with states := fun i => if i = p.2 then (s.sauron p.1).states p.2
          else (s.sauron t).states i } : States) else s.sauron t) = s.sauron := by
    funext t
    by_cases h : t = p.1
    · rw [h]
      simp only [if_true]
      have e : (fun i => if i = p.2 then (s.sauron p.1).states p.2 else (s.sauron p.1).states i)
          = (s.sauron p.1).states := by
        funext i
        by_cases h2 : i = p.2
        · rw [h2]; simp
        · simp [h2]
      rw [e]
    · simp [h]
  rw [h]

theorem opt_setState_setState (s : RedoOpt) (p : Nat × Nat) (a b : State) (m1 m2 : Mem) :
    (((s.setState p a).setMem m1).setState p b).setMem m2 = (s.setState p b).setMem m2 := by
  unfold RedoOpt.setState RedoOpt.setMem
  simp only
  congr 1
  funext t
  by_cases h : t = p.1
  · simp only [h, if_true]
    congr 1
    funext i
    by_cases h2 : i = p.2 <;> simp [h2]
  · simp [h]

/-! ### Tickets -/

theorem opt_makeSeqTidIdx_eq (seq tid idx : Nat) (h1 : seq < 2 ^ SEQ_BITS)
    (h2 : tid < 2 ^ TID_BITS) (h3 : idx < 2 ^ IDX_BITS) :
    makeSeqTidIdx seq tid idx = 2 ^ 24 * seq + 2 ^ 16 * tid + idx := by
  unfold makeSeqTidIdx
  simp only [SEQ_BITS, TID_BITS, IDX_BITS] at *
  rw [Nat.shiftLeft_eq, Nat.shiftLeft_eq]
  have e1 : seq * 2 ^ (8 + 16) = 2 ^ 24 * seq := by ring
  have e2 : tid * 2 ^ 16 = 2 ^ 16 * tid := by ring
  rw [e1, e2, ← Nat.mul_add_lt_is_or (by omega) seq]
  have e3 : 2 ^ 24 * seq + 2 ^ 16 * tid = 2 ^ 16 * (2 ^ 8 * seq + tid) := by ring
  rw [e3, ← Nat.mul_add_lt_is_or h3, ← e3]
  apply Nat.mod_eq_of_lt
  omega

theorem opt_sti2seq_make (seq tid idx : Nat) (h1 : seq < 2 ^ SEQ_BITS) (h2 : tid < 2 ^ TID_BITS)
    (h3 : idx < 2 ^ IDX_BITS) : sti2seq (makeSeqTidIdx seq tid idx) = seq := by
  rw [opt_makeSeqTidIdx_eq seq tid idx h1 h2 h3]
  unfold sti2seq
  simp only [SEQ_BITS, TID_BITS, IDX_BITS] at *
  rw [Nat.shiftRight_eq_div_pow]
  omega

theorem opt_sti2tid_make (seq tid idx : Nat) (h1 : seq < 2 ^ SEQ_BITS) (h2 : tid < 2 ^ TID_BITS)
    (h3 : idx < 2 ^ IDX_BITS) : sti2tid (makeSeqTidIdx seq tid idx) = tid := by
  rw [opt_makeSeqTidIdx_eq seq tid idx h1 h2 h3]
  unfold sti2tid
  simp only [SEQ_BITS, TID_BITS, IDX_BITS] at *
  rw [Nat.shiftRight_eq_div_pow, Nat.shiftLeft_eq, Nat.one_mul, Nat.and_pow_two_sub_one_eq_mod]
  omega

theorem opt_sti2idx_make (seq tid idx : Nat) (h1 : seq < 2 ^ SEQ_BITS) (h2 : tid < 2 ^ TID_BITS)
    (h3 : idx < 2 ^ IDX_BITS) : sti2idx (makeSeqTidIdx seq tid idx) = idx := by
  rw [opt_makeSeqTidIdx_eq seq tid idx h1 h2 h3]
  unfold sti2idx
  simp only [SEQ_BITS, TID_BITS, IDX_BITS] at *
  rw [Nat.shiftLeft_eq, Nat.one_mul, Nat.and_pow_two_sub_one_eq_mod]
  omega

/-! ### Copying a replica -/

theorem copied_memcpy (m0 m : Mem) (D S N k w : Nat) (hdis : S + N ≤ D ∨ D + N ≤ S)
    (h : CopiedUpTo m0 m D S k) (hk : k + w ≤ N) :
    CopiedUpTo m0 (memcpy m (D + k) (S + k) w) D S (k + w) := by
  obtain ⟨h1, h2⟩ := h
  constructor
  · intro i hi
    unfold memcpy
    by_cases hik : i < k
    · have : ¬ (D + k ≤ D + i ∧ D + i < D + k + w) := by omega
      simp only [this, if_false]
      exact h1 i hik
    · have : D + k ≤ D + i ∧ D + i < D + k + w := by omega
      simp only [this, and_self, if_true]
      have e : D + i - (D + k) + (S + k) = S + i := by omega
      rw [e]
      exact h2 (S + i) (by omega)
  · intro y hy
    unfold memcpy
    have : ¬ (D + k ≤ y ∧ y < D + k + w) := by omega
    simp only [this, if_false]
    exact h2 y (by omega)

theorem copied_ntmemcpyLoop (m0 : Mem) (D S N : Nat) (hdis : S + N ≤ D ∨ D + N ≤ S) :
    ∀ n k m, CopiedUpTo m0 m D S k → k + 8 * n ≤ N →
      CopiedUpTo m0 (ntmemcpyLoop n (D + k) (S + k) m) D S (k + 8 * n) := by
  intro n
  induction n with
  | zero => intro k m h _; exact h
  | succ n ih =>
    intro k m h hk
    unfold ntmemcpyLoop ntstore
    have h1 := copied_memcpy m0 m D S N k 8 hdis h (by omega)
    have h2 := ih (k + 8) _ h1 (by omega)
    have e : k + 8 + 8 * n = k + 8 * (n + 1) := by ring
    rw [e] at h2
    rw [Nat.add_assoc, Nat.add_assoc]
    exact h2

theorem copied_quadntmemcpyLoop (m0 : Mem) (D S N : Nat) (hdis : S + N ≤ D ∨ D + N ≤ S) :
    ∀ n k m, CopiedUpTo m0 m D S k → k + 64 * n ≤ N →
      CopiedUpTo m0 (quadntmemcpyLoop n (D + k) (S + k) m) D S (k + 64 * n) := by
  intro n
  induction n with
  | zero => intro k m h _; exact h
  | succ n ih =>
    intro k m h hk
    unfold quadntmemcpyLoop quadntstore
    have h1 := copied_memcpy m0 m D S N k 64 hdis h (by omega)
    have h2 := ih (k + 64) _ h1 (by omega)
    have e : k + 64 + 64 * n = k + 64 * (n + 1) := by ring
    rw [e] at h2
    rw [Nat.add_assoc, Nat.add_assoc]
    exact h2

/-- A chunk that `memcmp` finds equal is already copied. -/
theorem copied_of_not_differ (m0 m : Mem) (D S N k w : Nat) (hdis : S + N ≤ D ∨ D + N ≤ S)
    (h : CopiedUpTo m0 m D S k) (hk : k + w ≤ N) (hd : differ m (D + k) (S + k) w = false) :
    CopiedUpTo m0 m D S (k + w) := by
  obtain ⟨h1, h2⟩ := h
  refine ⟨?_, fun y hy => h2 y (by omega)⟩
  intro i hi
  by_cases hik : i < k
  · exact h1 i hik
  · unfold differ at hd
    rw [List.any_eq_false] at hd
    have := hd (i - k) (List.mem_range.mpr (by omega))
    simp only [ne_eq, decide_not, Bool.not_eq_true', decide_eq_false_iff_not, not_not] at this
    have e1 : D + k + (i - k) = D + i := by omega
    have e2 : S + k + (i - k) = S + i := by omega
    rw [e1, e2] at this
    rw [this]
    exact h2 (S + i) (by omega)

theorem copied_alignLoop (m0 : Mem) (D S N : Nat) (hdis : S + N ≤ D ∨ D + N ≤ S)
    (hN : N < 2 ^ 64) :
    ∀ n k m, CopiedUpTo m0 m D S k → k ≤ N → (N - k) % 8 = 0 →
      ∃ k1 m1, alignLoop n (D + k) (S + k) (N - k) m = (m1, D + k1, S + k1, N - k1) ∧
        CopiedUpTo m0 m1 D S k1 ∧ k1 ≤ N ∧ (N - k1) % 8 = 0 := by
  intro n
  induction n with
  | zero => intro k m h hk h8; exact ⟨k, m, rfl, h, hk, h8⟩
  | succ n ih =>
    intro k m h hk h8
    unfold alignLoop
    by_cases hs : N - k > 0
    · by_cases ha : (S + k) % 64 = 0
      · simp only [hs, if_true, ha]
        exact ⟨k, m, rfl, h, hk, h8⟩
      · simp only [hs, if_true, ha, if_false]
        have h1 := copied_memcpy m0 m D S N k 8 hdis h (by omega)
        obtain ⟨k1, m1, e, hc, hk1, h81⟩ := ih (k + 8) _ h1 (by omega) (by omega)
        refine ⟨k1, m1, ?_, hc, hk1, h81⟩
        have e2 : (N - k + 2 ^ 64 - 8) % 2 ^ 64 = N - (k + 8) := by
          have : N - k + 2 ^ 64 - 8 = (N - (k + 8)) + 2 ^ 64 := by omega
          rw [this, Nat.add_mod_right]
          exact Nat.mod_eq_of_lt (by omega)
        rw [e2, Nat.add_assoc, Nat.add_assoc]
        exact e
    · simp only [hs, if_false]
      exact ⟨k, m, rfl, h, hk, h8⟩

theorem copied_chunkLoop (s : RedoOpt) (initComb : Nat) (hcur : s.per.curComb = initComb)
    (m0 : Mem) (D S N : Nat) (hdis : S + N ≤ D ∨ D + N ≤ S) :
    ∀ fuel k m, CopiedUpTo m0 m D S k → k ≤ N → (N - k) % 8 = 0 →
      (N - k) / (16 * 1024) < fuel →
      ∃ m1, chunkLoop s initComb (16 * 1024) fuel (D + k) (S + k) (N - k) m = some (true, m1) ∧
        CopiedUpTo m0 m1 D S N := by
  intro fuel
  induction fuel with
  | zero => intro k m h hk h8 hf; omega
  | succ fuel ih =>
    intro k m h hk h8 hf
    unfold chunkLoop
    by_cases hs : N - k > 0
    · simp only [hs, if_true]
      by_cases hc : 16 * 1024 > N - k
      · simp only [hc, if_true]
        refine ⟨_, rfl, ?_⟩
        unfold ntmemcpy
        have hw : (N - k + 7) / 8 * 8 = N - k := by omega
        have h1 := copied_ntmemcpyLoop m0 D S N hdis ((N - k + 7) / 8) k m h (by omega)
        have e : k + 8 * ((N - k + 7) / 8) = N := by omega
        rw [e] at h1
        exact h1
      · simp only [hc, if_false]
        have hne : ¬ (s.per.curComb ≠ initComb) := fun h => h hcur
        simp only [hne, if_false]
        have hstep : CopiedUpTo m0
            (if differ m (D + k) (S + k) (16 * 1024) = true then
              quadntmemcpy m (D + k) (S + k) (16 * 1024) else m) D S (k + 16 * 1024) := by
          by_cases hd : differ m (D + k) (S + k) (16 * 1024) = true
          · simp only [hd, if_true]
            unfold quadntmemcpy
            have h1 := copied_quadntmemcpyLoop m0 D S N hdis ((16 * 1024 + 63) / 64) k m h
              (by omega)
            have e : k + 64 * ((16 * 1024 + 63) / 64) = k + 16 * 1024 := by norm_num
            rw [e] at h1
            exact h1
          · simp only [hd]
            exact copied_of_not_differ m0 m D S N k (16 * 1024) hdis h (by omega)
              (by simpa using hd)
        obtain ⟨m1, e, hc1⟩ := ih (k + 16 * 1024) _ hstep (by omega) (by omega) (by omega)
        refine ⟨m1, ?_, hc1⟩
        have e3 : N - k - 16 * 1024 = N - (k + 16 * 1024) := by omega
        rw [e3, Nat.add_assoc, Nat.add_assoc]
        exact e
    · simp only [hs, if_false]
      refine ⟨m, rfl, ?_⟩
      have : k = N := by omega
      rw [← this]
      exact h

theorem root_mod8 (s : RedoOpt) (i : Nat) (h1 : s.g.g_main_addr % 8 = 0)
    (h2 : s.g.g_main_size % 8 = 0) : s.root i % 8 = 0 := by
  unfold RedoOpt.root
  rw [Nat.add_mod, Nat.mul_mod, h1, h2]
  simp

theorem getUsedSize_lt (s : RedoOpt) (cx : Nat) : getUsedSize s cx < 2 ^ 64 := by
  unfold getUsedSize
  split
  · decide
  · exact Nat.mod_lt _ (by decide)

theorem root_disjoint (s : RedoOpt) (c o N : Nat) (hco : c ≠ o) (hN : N ≤ s.g.g_main_size) :
    s.root c + N ≤ s.root o ∨ s.root o + N ≤ s.root c := by
  unfold RedoOpt.root
  rcases Nat.lt_or_gt_of_ne hco with h | h
  · left
    have := Nat.mul_le_mul_right s.g.g_main_size (Nat.succ_le_of_lt h)
    rw [Nat.succ_mul] at this
    omega
  · right
    have := Nat.mul_le_mul_right s.g.g_main_size (Nat.succ_le_of_lt h)
    rw [Nat.succ_mul] at this
    omega

/-- With `per->curComb` unchanged, `copyFromTo` copies the used bytes of replica `c` to
replica `o` and returns `true`. -/
theorem copyFromTo_copies (s : RedoOpt) (c o initComb : Nat) (hcur : s.per.curComb = initComb)
    (h1 : s.g.g_main_addr % 8 = 0) (h2 : s.g.g_main_size % 8 = 0) (hco : c ≠ o)
    (hu8 : getUsedSize s (c * s.g.g_main_size) % 8 = 0)
    (hule : getUsedSize s (c * s.g.g_main_size) ≤ s.g.g_main_size) :
    ∃ m1, copyFromTo s (s.root c) (s.root o) c initComb = some (true, s.setMem m1) ∧
      CopiedUpTo s.mem m1 (s.root o) (s.root c) (getUsedSize s (c * s.g.g_main_size)) := by
  have hdis := root_disjoint s c o _ hco hule
  have h0 : CopiedUpTo s.mem s.mem (s.root o) (s.root c) 0 :=
    ⟨fun i hi => absurd hi (Nat.not_lt_zero _), fun _ _ => rfl⟩
  obtain ⟨k1, m1, e1, hc1, hk1, h81⟩ := copied_alignLoop s.mem (s.root o) (s.root c) _ hdis
    (getUsedSize_lt s _) 8 0 s.mem h0 (Nat.zero_le _) (by simpa using hu8)
  obtain ⟨m2, e2, hc2⟩ := copied_chunkLoop s initComb hcur s.mem (s.root o) (s.root c) _ hdis
    ((getUsedSize s (c * s.g.g_main_size) - k1) / (16 * 1024) + 1) k1 m1 hc1 hk1 h81
    (Nat.lt_succ_self _)
  refine ⟨m2, ?_, hc2⟩
  unfold copyFromTo
  have hna : ¬ (s.root c % 8 ≠ 0 ∨ getUsedSize s (c * s.g.g_main_size) % 8 ≠ 0) := by
    rw [root_mod8 s c h1 h2, hu8]; simp
  simp only [hna, if_false]
  simp only [Nat.add_zero, Nat.sub_zero] at e1
  rw [e1]
  simp only
  rw [e2]
  have hne : ¬ (s.per.curComb ≠ initComb) := fun h => h hcur
  simp only [hne, if_false]

/-! ### Closures -/

theorem opt_in_main_in_region (g : Globals) (a : Nat) (h : ADDR_IS_IN_MAIN g a = true) :
    ADDR_IS_IN_REGION g a = true := by
  simp only [ADDR_IS_IN_MAIN, ADDR_IS_IN_REGION, Globals.g_main_addr_end, g_region_end,
    MAX_COMBINEDS, MAX_THREADS, Bool.and_eq_true, decide_eq_true_eq] at *
  omega

/-- On a cell of the main region `pstore` writes the value at the cell's address in the
bound replica, whatever the log holds. -/
theorem opt_pstore_mem (g : Globals) (offset : Nat) (st : State) (m : Mem) (a v : Nat)
    (h : ADDR_IS_IN_MAIN g a = true) :
    (pstore g offset st m a v).2 = store64 m (a + offset) v := by
  unfold pstore
  by_cases ho : offset = 0
  · subst ho
    simp only [ne_eq, not_true_eq_false, false_and, if_false, opt_in_main_in_region g a h,
      if_true, Nat.add_zero]
    by_cases hv : load64 m a = v
    · simp only [hv, not_true_eq_false, if_false]
      rw [← hv, store64_load64_same]
    · simp only [hv, not_false_eq_true, if_true]
  · simp only [ne_eq, ho, not_false_eq_true, h, and_self, if_true]
    by_cases hv : load64 m (a + offset) = v
    · simp only [hv, not_true_eq_false, if_false]
      rw [← hv, store64_load64_same]
    · simp only [hv, not_false_eq_true, if_true]

theorem opt_pstore_state (g : Globals) (offset : Nat) (st : State) (m : Mem) (a v : Nat) :
    (pstore g offset st m a v).1.ticket = st.ticket ∧
    (pstore g offset st m a v).1.applied = st.applied ∧
    (pstore g offset st m a v).1.results = st.results ∧
    (pstore g offset st m a v).1.logSize = st.logSize := by
  have key : ∀ b o n, (addAddrIfAbsent st b o n).2.ticket = st.ticket ∧
      (addAddrIfAbsent st b o n).2.applied = st.applied ∧
      (addAddrIfAbsent st b o n).2.results = st.results ∧
      (addAddrIfAbsent st b o n).2.logSize = st.logSize := by
    intro b o n
    unfold addAddrIfAbsent
    simp only
    split
    · exact ⟨rfl, rfl, rfl, rfl⟩
    · split
      · split
        · exact ⟨rfl, rfl, rfl, rfl⟩
        · split <;> exact ⟨rfl, rfl, rfl, rfl⟩
      · split <;> exact ⟨rfl, rfl, rfl, rfl⟩
  unfold pstore
  simp only
  split
  · split
    · exact key _ _ _
    · exact ⟨rfl, rfl, rfl, rfl⟩
  · split
    · split
      · exact key _ _ _
      · exact ⟨rfl, rfl, rfl, rfl⟩
    · exact ⟨rfl, rfl, rfl, rfl⟩

/-- Running a closure on the replica at `offset` follows the reference semantics on
every memory `V` that the replica agrees with on `U`, where the closure loads only from
`U` and from cells it has stored: the outcome is that of the reference run, the replica
agrees with the reference memory on `U` afterwards, no byte outside the replica
changes, and of the `State` only the log changes. -/
theorem opt_exec_agree (tid : Nat) (p : Nat × Nat) (g : Globals) (offset : Nat)
    (hg1 : g.g_main_addr % 8 = 0) (hg2 : g.g_main_size % 8 = 0) (f : Prog) :
    ∀ (U : Nat → Prop) (s : RedoOpt) (V : Mem), s.g = g → (s.tlocal tid).st = some p →
      (s.tlocal tid).tl_cx_size = offset → f.InMain g → ReadsIn U f →
      (∀ x, U x → s.mem (x + offset) = V x) →
      ∃ st1 m1, exec tid f s = ((f.run V).1, (s.setState p st1).setMem m1) ∧
        st1.ticket = (s.getState p).ticket ∧ st1.applied = (s.getState p).applied ∧
        st1.results = (s.getState p).results ∧ st1.logSize = (s.getState p).logSize ∧
        (∀ x, U x → m1 (x + offset) = (f.run V).2 x) ∧
        (∀ y, (∀ x, ADDR_IS_IN_MAIN g x = true → y ≠ x + offset) → m1 y = s.mem y) := by
  induction f with
  | ret r =>
    intro U s V hg hst hoff hf hr hV
    refine ⟨s.getState p, s.mem, ?_, rfl, rfl, rfl, rfl, hV, fun _ _ => rfl⟩
    simp only [exec, Prog.run]
    rw [opt_setState_getState]
    rfl
  | raise e =>
    intro U s V hg hst hoff hf hr hV
    refine ⟨s.getState p, s.mem, ?_, rfl, rfl, rfl, rfl, hV, fun _ _ => rfl⟩
    simp only [exec, Prog.run]
    rw [opt_setState_getState]
    rfl
  | pload a k ih =>
    intro U s V hg hst hoff hf hr hV
    cases hf with
    | pload _ _ ha hal hk =>
      cases hr with
      | pload _ _ _ hu hrk =>
        have hl : RedoDB.pload s.g (s.tlocal tid).tl_cx_size s.mem a = load64 V a := by
          rw [hg, hoff, pload_main g offset s.mem a ha]
          apply load64_congr2
          intro i hi
          have := hV (a + i) (hu i hi)
          rw [← this]
          congr 1
          omega
        simp only [exec, Prog.run, hl]
        exact ih (load64 V a) U s V hg hst hoff (hk _) (hrk _) hV
  | pstore a v k ih =>
    intro U s V hg hst hoff hf hr hV
    cases hf with
    | pstore _ _ _ ha hal hk =>
      cases hr with
      | pstore _ _ _ _ hrk =>
        have hm1 := opt_pstore_mem g offset (s.getState p) s.mem a v ha
        obtain ⟨ht1, ha1, hr1, hl1⟩ := opt_pstore_state g offset (s.getState p) s.mem a v
        have hV1 : ∀ x, (U x ∨ (a ≤ x ∧ x < a + 8)) →
            (pstore g offset (s.getState p) s.mem a v).2 (x + offset) = store64 V a v x := by
          intro x hx
          rw [hm1]
          unfold store64
          by_cases hc : a ≤ x ∧ x < a + 8
          · have c1 : a + offset ≤ x + offset ∧ x + offset < a + offset + 8 := by omega
            have e1 : x + offset - (a + offset) = x - a := by omega
            simp only [c1, hc, and_self, if_true, e1]
          · have c1 : ¬ (a + offset ≤ x + offset ∧ x + offset < a + offset + 8) := by omega
            simp only [c1, hc, if_false]
            rcases hx with hx | hx
            · exact hV x hx
            · exact absurd hx hc
        have := ih (fun x => U x ∨ (a ≤ x ∧ x < a + 8))
          ((s.setState p (pstore g offset (s.getState p) s.mem a v).1).setMem
            (pstore g offset (s.getState p) s.mem a v).2) (store64 V a v)
          hg hst hoff hk hrk hV1
        obtain ⟨st1, m1, he, h1, h2, h3, h4, h5, h6⟩ := this
        refine ⟨st1, m1, ?_, ?_, ?_, ?_, ?_, ?_, ?_⟩
        · simp only [exec, Prog.run, hst, hg, hoff]
          rw [he, opt_setState_setState]
        · simpa [ht1] using h1
        · simpa [ha1] using h2
        · simpa [hr1] using h3
        · simpa [hl1] using h4
        · intro x hx
          exact h5 x (Or.inl hx)
        · intro y hy
          rw [h6 y hy]
          simp only [opt_setMem_mem_eq]
          rw [hm1]
          apply store64_other
          by_contra hc
          have hy1 := hy (y - offset) (by
            have : y - offset = a + (y - offset - a) := by omega
            rw [this]
            exact in_main_add g a _ ha hal hg1 hg2 (by omega))
          omega

/-! ### The combining loop -/

theorem opt_combineLoop_skip (tid cComb : Nat) (newState : Nat × Nat) :
    ∀ n i a (s : RedoOpt),
      (∀ k, i ≤ k → k < i + n → s.announce k = (s.getState newState).applied k) →
      combineLoop tid cComb newState n i a s = (none, a, s) := by
  intro n
  induction n with
  | zero => intro i a s _; rfl
  | succ n ih =>
    intro i a s h
    unfold combineLoop
    simp only [h i (Nat.le_refl _) (by omega), if_true]
    exact ih (i + 1) a s (fun k h1 h2 => h k (by omega) (by omega))

/-- The state after the combining loop has run the closure of `i`: its result and the
flipped `applied` flag are recorded in `newState`. -/
theorem opt_combineLoop_single (tid cComb : Nat) (newState : Nat × Nat) (f : Prog) :
    ∀ n i a (s : RedoOpt), i ≤ tid → tid < i + n →
      (∀ k, i ≤ k → k < i + n → k ≠ tid → s.announce k = (s.getState newState).applied k) →
      s.announce tid ≠ (s.getState newState).applied tid →
      cComb = s.per.curComb → s.enqueuers tid = some f →
      (∀ r s1, exec tid f s = (.value r, s1) →
        s1.announce = s.announce ∧
        (s1.getState newState).applied = (s.getState newState).applied) →
      combineLoop tid cComb newState n i a s =
        match exec tid f s with
        | (.value r, s1) =>
          (none, true, s1.setState newState
            { (s1.getState newState) with
                results := fun k => if k = tid then r else (s1.getState newState).results k,
                applied := fun k => if k = tid then !(s.getState newState).applied tid
                  else (s1.getState newState).applied k })
        | (o, s1) => (some o, true, s1) := by
  intro n
  induction n with
  | zero => intro i a s h1 h2; omega
  | succ n ih =>
    intro i a s h1 h2 hskip hpend hc henq hex
    unfold combineLoop
    by_cases hi : i = tid
    · subst hi
      have hc2 : ¬ (cComb ≠ s.per.curComb) := fun h => h hc
      simp only [hpend, if_false, hc2, henq]
      rcases hr : exec i f s with ⟨o, s1⟩
      cases o with
      | value r =>
        simp only
        obtain ⟨ha, hap⟩ := hex r s1 hr
        apply opt_combineLoop_skip
        intro k hk1 hk2
        have hki : k ≠ i := by omega
        simp only [opt_setState_announce, opt_setState_getState_eq, if_true, hki, if_false]
        rw [ha, hap]
        exact hskip k (by omega) (by omega) hki
      | raised e => rfl
      | fault => rfl
    · have hsk := hskip i (Nat.le_refl _) (by omega) hi
      simp only [hsk, if_true]
      exact ih (i + 1) a s (by omega) (by omega)
        (fun k k1 k2 k3 => hskip k (by omega) (by omega) k3) hpend hc henq hex



/-! ### Preparing `newState` -/

@[simp] theorem opt_prepareState_g (n t : Nat × Nat) (k : Nat) (s : RedoOpt) :
    (prepareState n t k s).g = s.g := rfl
@[simp] theorem opt_prepareState_per (n t : Nat × Nat) (k : Nat) (s : RedoOpt) :
    (prepareState n t k s).per = s.per := rfl
@[simp] theorem opt_prepareState_mem (n t : Nat × Nat) (k : Nat) (s : RedoOpt) :
    (prepareState n t k s).mem = s.mem := rfl
@[simp] theorem opt_prepareState_combs (n t : Nat × Nat) (k : Nat) (s : RedoOpt) :
    (prepareState n t k s).combs = s.combs := rfl
@[simp] theorem opt_prepareState_ring (n t : Nat × Nat) (k : Nat) (s : RedoOpt) :
    (prepareState n t k s).ring = s.ring := rfl
@[simp] theorem opt_prepareState_enqueuers (n t : Nat × Nat) (k : Nat) (s : RedoOpt) :
    (prepareState n t k s).enqueuers = s.enqueuers := rfl
@[simp] theorem opt_prepareState_announce (n t : Nat × Nat) (k : Nat) (s : RedoOpt) :
    (prepareState n t k s).announce = s.announce := rfl
@[simp] theorem opt_prepareState_esloco (n t : Nat × Nat) (k : Nat) (s : RedoOpt) :
    (prepareState n t k s).esloco = s.esloco := rfl
@[simp] theorem opt_prepareState_tlocal (n t : Nat × Nat) (k : Nat) (s : RedoOpt) :
    (prepareState n t k s).tlocal = s.tlocal := rfl
@[simp] theorem opt_prepareState_lastIdx (n t : Nat × Nat) (k : Nat) (s : RedoOpt) (u : Nat) :
    ((prepareState n t k s).sauron u).lastIdx = (s.sauron u).lastIdx := by
  unfold prepareState
  simp

theorem opt_prepareState_getState (n t : Nat × Nat) (k : Nat) (s : RedoOpt) (h : t ≠ n)
    (q : Nat × Nat) :
    (prepareState n t k s).getState q
      = if q = n then
          { (s.getState n) with ticket := k, logTail := 0, lSize := 0,
                                applied := (s.getState t).applied,
                                results := (s.getState t).results, logSize := 0 }
        else s.getState q := by
  unfold prepareState
  simp only [opt_setState_getState_eq, h, if_false, if_true]
  by_cases hq : q = n
  · simp [hq]
  · simp [hq]


/-! ### The end of a successful attempt -/

@[simp] theorem opt_finishCommit_g (tid lcomb seqltail newTicket : Nat) (s : RedoOpt) :
    (finishCommit tid lcomb seqltail newTicket s).g = s.g := by
  unfold finishCommit; simp only []; split <;> simp
@[simp] theorem opt_finishCommit_per (tid lcomb seqltail newTicket : Nat) (s : RedoOpt) :
    (finishCommit tid lcomb seqltail newTicket s).per = s.per := by
  unfold finishCommit; simp only []; split <;> simp
@[simp] theorem opt_finishCommit_mem (tid lcomb seqltail newTicket : Nat) (s : RedoOpt) :
    (finishCommit tid lcomb seqltail newTicket s).mem = s.mem := by
  unfold finishCommit; simp only []; split <;> simp
@[simp] theorem opt_finishCommit_esloco (tid lcomb seqltail newTicket : Nat) (s : RedoOpt) :
    (finishCommit tid lcomb seqltail newTicket s).esloco = s.esloco := by
  unfold finishCommit; simp only []; split <;> simp
@[simp] theorem opt_finishCommit_enqueuers (tid lcomb seqltail newTicket : Nat) (s : RedoOpt) :
    (finishCommit tid lcomb seqltail newTicket s).enqueuers = s.enqueuers := by
  unfold finishCommit; simp only []; split <;> simp
@[simp] theorem opt_finishCommit_announce (tid lcomb seqltail newTicket : Nat) (s : RedoOpt) :
    (finishCommit tid lcomb seqltail newTicket s).announce = s.announce := by
  unfold finishCommit; simp only []; split <;> simp
@[simp] theorem opt_finishCommit_getState (tid lcomb seqltail newTicket : Nat) (s : RedoOpt)
    (q : Nat × Nat) :
    (finishCommit tid lcomb seqltail newTicket s).getState q = s.getState q := by
  unfold finishCommit; simp only []; split <;> simp
@[simp] theorem opt_finishCommit_combs (tid lcomb seqltail newTicket : Nat) (s : RedoOpt) (k : Nat) :
    (finishCommit tid lcomb seqltail newTicket s).combs k
      = if k = lcomb then { (s.combs lcomb) with rwLock := (s.combs lcomb).rwLock.setReadUnlock }
        else s.combs k := by
  unfold finishCommit; simp only []; split <;> simp
theorem opt_finishCommit_ring (tid lcomb seqltail newTicket : Nat) (s : RedoOpt) (k : Nat) :
    (finishCommit tid lcomb seqltail newTicket s).ring k
      = if sti2seq (s.ring ((seqltail + 1) % RINGSIZE)) < seqltail + 1 ∧
            k = (seqltail + 1) % RINGSIZE then newTicket
        else s.ring k := by
  unfold finishCommit
  simp only [opt_setComb_ring]
  by_cases h : sti2seq (s.ring ((seqltail + 1) % RINGSIZE)) < seqltail + 1
  · simp only [h, if_true, true_and, opt_setLocal_ring, opt_setLastIdx_ring, opt_setRing_ring_eq,
      opt_setComb_ring]
  · simp only [h, if_false, false_and, opt_setLocal_ring, opt_setLastIdx_ring, opt_setComb_ring]
theorem opt_finishCommit_lastIdx (tid lcomb seqltail newTicket : Nat) (s : RedoOpt) (u : Nat) :
    ((finishCommit tid lcomb seqltail newTicket s).sauron u).lastIdx
      = if u = tid then
          (if (s.sauron tid).lastIdx + 1 = STATESSIZE then 0 else (s.sauron tid).lastIdx + 1)
        else (s.sauron u).lastIdx := by
  unfold finishCommit
  simp only []
  split <;> simp
theorem opt_finishCommit_tlocal (tid lcomb seqltail newTicket : Nat) (s : RedoOpt) (u : Nat) :
    (finishCommit tid lcomb seqltail newTicket s).tlocal u
      = if u = tid then
          { (s.tlocal tid) with
              tl_nested_write_trans := (s.tlocal tid).tl_nested_write_trans - 1,
              tl_cx_size := 0, st := none }
        else s.tlocal u := by
  unfold finishCommit
  simp only []
  split <;> simp

/-! ### The scan for a free replica -/

theorem scanCombs_hit (tid cComb n i : Nat) (s : RedoOpt) (hc : cComb = s.per.curComb)
    (h1 : (s.combs i).rwLock.writer = false) (h2 : (s.combs i).rwLock.readLock = false)
    (h3 : ∀ t, (s.combs i).rwLock.readers t = false) :
    scanCombs tid cComb (n + 1) i s
      = some (some i, s.setComb i { (s.combs i) with
          rwLock := { (s.combs i).rwLock with writer := true } }) := by
  unfold scanCombs
  have hn : ¬ (cComb ≠ s.per.curComb) := fun h => h hc
  simp only [hn, if_false, exclusiveTryLock_free _ tid h1 h2 h3]

theorem scanCombs_miss (tid cComb n i : Nat) (s : RedoOpt) (hc : cComb = s.per.curComb)
    (h2 : (s.combs i).rwLock.readLock = true) :
    scanCombs tid cComb (n + 1) i s = scanCombs tid cComb n (i + 1) s := by
  conv_lhs => unfold scanCombs
  have hn : ¬ (cComb ≠ s.per.curComb) := fun h => h hc
  simp only [hn, if_false, exclusiveTryLock_readLocked _ tid h2]

/-- With the current replica `c` read-locked and the other locks free, `getNewComb`
locks the replica `other c`. -/
theorem getNewComb_other (tid cComb : Nat) (s : RedoOpt) (c : Nat) (hc : cComb = s.per.curComb)
    (hl : ∀ i, (s.combs i).rwLock.writer = false ∧ (∀ t, (s.combs i).rwLock.readers t = false) ∧
      (s.combs i).rwLock.readLock = decide (i = c)) :
    getNewComb tid cComb s
      = some (some (other c), s.setComb (other c) { (s.combs (other c)) with
          rwLock := { (s.combs (other c)).rwLock with writer := true } }) := by
  unfold getNewComb
  have e1 : MAX_THREADS + 2 - MAX_COMBS = 40 + 1 := rfl
  have e2 : MAX_COMBS = 1 + 1 := rfl
  rw [e1, e2]
  unfold getNewCombLoop
  by_cases h : c = 0
  · subst h
    rw [scanCombs_miss tid cComb _ 0 s hc (by rw [(hl 0).2.2]; simp)]
    rw [show (0 : Nat) + 1 = 1 from rfl,
      scanCombs_hit tid cComb 0 1 s hc (hl 1).1 (by rw [(hl 1).2.2]; simp) (hl 1).2.1]
    rfl
  · rw [scanCombs_hit tid cComb _ 0 s hc (hl 0).1
      (by rw [(hl 0).2.2]; simp; exact fun h2 => h h2.symm) (hl 0).2.1]
    simp [other, h]

theorem other_ne (c : Nat) : other c ≠ c := by
  unfold other
  split <;> omega

theorem other_lt (c : Nat) : other c < 2 := by
  unfold other
  split <;> omega

/-! ### `flushCopy` and `makeCopy` with nothing else running -/

theorem flushCopyLoop_stable (s : RedoOpt) (tid initCombSeq : Nat) :
    ∀ fuel size flushSize, 0 < flushSize → size / flushSize < fuel →
      flushCopyLoop s tid initCombSeq fuel size flushSize s.per.curComb = some true := by
  intro fuel
  induction fuel with
  | zero => intro size flushSize _ h; exact absurd h (Nat.not_lt_zero _)
  | succ fuel ih =>
    intro size flushSize hpos hf
    unfold flushCopyLoop
    by_cases hs : size > 0
    · simp only [hs, if_true, ne_eq, not_true_eq_false, if_false]
      by_cases hc : flushSize > size
      · simp only [hc, if_true, Nat.sub_self]
        cases fuel with
        | zero => rfl
        | succ n => unfold flushCopyLoop; simp
      · simp only [hc, if_false]
        apply ih _ _ hpos
        have h1 : size / flushSize = (size - flushSize) / flushSize + 1 := by
          rw [← Nat.sub_add_cancel (Nat.le_of_not_gt hc), Nat.add_div_right _ hpos,
            Nat.add_sub_cancel]
        omega
    · simp only [hs, if_false]

theorem flushCopy_stable (s : RedoOpt) (tid usedSize : Nat) : flushCopy s tid usedSize = some true := by
  unfold flushCopy
  exact flushCopyLoop_stable s tid _ _ _ _ (by decide) (Nat.lt_succ_self _)

/-! ### A write transaction on a recovered engine -/

@[simp] theorem opt_announced_g (s : RedoOpt) (tid : Nat) (f : Prog) :
    (announced s tid f).g = s.g := rfl
@[simp] theorem opt_announced_per (s : RedoOpt) (tid : Nat) (f : Prog) :
    (announced s tid f).per = s.per := rfl
@[simp] theorem opt_announced_mem (s : RedoOpt) (tid : Nat) (f : Prog) :
    (announced s tid f).mem = s.mem := rfl
@[simp] theorem opt_announced_combs (s : RedoOpt) (tid : Nat) (f : Prog) :
    (announced s tid f).combs = s.combs := rfl
@[simp] theorem opt_announced_ring (s : RedoOpt) (tid : Nat) (f : Prog) :
    (announced s tid f).ring = s.ring := rfl
@[simp] theorem opt_announced_esloco (s : RedoOpt) (tid : Nat) (f : Prog) :
    (announced s tid f).esloco = s.esloco := rfl
@[simp] theorem opt_announced_sauron (s : RedoOpt) (tid : Nat) (f : Prog) :
    (announced s tid f).sauron = s.sauron := rfl
@[simp] theorem opt_announced_getState (s : RedoOpt) (tid : Nat) (f : Prog) (q : Nat × Nat) :
    (announced s tid f).getState q = s.getState q := rfl
@[simp] theorem opt_announced_enqueuers (s : RedoOpt) (tid : Nat) (f : Prog) (t : Nat) :
    (announced s tid f).enqueuers t = if t = tid then some f else s.enqueuers t := rfl
@[simp] theorem opt_announced_announce (s : RedoOpt) (tid : Nat) (f : Prog) (t : Nat) :
    (announced s tid f).announce t = if t = tid then !s.announce tid else s.announce t := rfl
theorem opt_announced_tlocal (s : RedoOpt) (tid : Nat) (f : Prog) :
    (announced s tid f).tlocal tid
      = { (s.tlocal tid) with tl_nested_write_trans := (s.tlocal tid).tl_nested_write_trans + 1,
                              st := some (s.nextState tid) } := by
  simp [announced]

theorem opt_tailState_ne (s : RedoOpt) (tid : Nat) (hq : Recovered s tid) :
    s.tailState ≠ s.nextState tid := hq.slot_ne

theorem getUsedSize_congr (s1 s2 : RedoOpt) (cx : Nat) (hg : s1.g = s2.g) (hm : s1.mem = s2.mem)
    (he : s1.esloco = s2.esloco) : getUsedSize s1 cx = getUsedSize s2 cx := by
  unfold getUsedSize
  rw [hg, hm, he]

/-- On a recovered engine `makeCopy` copies the used bytes of the current replica into
the replica `other cur` and gives it the head of the current replica. -/
theorem makeCopy_recovered (s : RedoOpt) (tid : Nat) (hq : Recovered s tid) (sa : RedoOpt)
    (hg : sa.g = s.g) (hper : sa.per = s.per) (hmem : sa.mem = s.mem)
    (hes : sa.esloco = s.esloco)
    (hhead : (sa.combs s.cur).head = (s.combs s.cur).head)
    (hT : (sa.getState s.tailState).applied tid = (s.getState s.tailState).applied tid)
    (han : sa.announce tid = !s.announce tid) :
    ∃ m5, makeCopy (other s.cur) tid sa
        = some (true, (((sa.setHead (other s.cur) (makeSeqTidIdx 0 1 0)).setMem m5).setHead
            (other s.cur) (s.combs s.cur).head)) ∧
      CopiedUpTo s.mem m5 (s.root (other s.cur)) (s.root s.cur) s.used := by
  have hne : s.cur ≠ other s.cur := fun h => other_ne s.cur h.symm
  obtain ⟨m5, hcp, hc⟩ := copyFromTo_copies (sa.setHead (other s.cur) (makeSeqTidIdx 0 1 0))
    s.cur (other s.cur) sa.per.curComb (by simp) (by simpa [hg] using hq.layout_addr)
    (by simpa [hg] using hq.layout_size) hne
    (by
      rw [getUsedSize_congr _ s _ (by simp [hg]) (by simp [hmem]) (by simp [RedoOpt.setHead,
        RedoOpt.setComb, hes])]
      simpa [hg] using hq.used_mod)
    (by
      rw [getUsedSize_congr _ s _ (by simp [hg]) (by simp [hmem]) (by simp [RedoOpt.setHead,
        RedoOpt.setComb, hes])]
      simpa [hg] using hq.used_le)
  refine ⟨m5, ?_, ?_⟩
  · unfold makeCopy
    have e2 : (2 : Nat) = 1 + 1 := rfl
    rw [e2]
    unfold makeCopyLoop
    have hi : sti2idx sa.per.curComb = s.cur := by rw [hper]; rfl
    have hh : ((sa.setHead (other s.cur) (makeSeqTidIdx 0 1 0)).combs s.cur).head
        = (s.combs s.cur).head := by
      simp only [opt_setHead_combs_eq, hne, if_false, hhead]
    simp only [opt_setHead_per, ne_eq, not_true_eq_false, if_false, hi, hh, opt_setHead_getState,
      opt_setHead_announce]
    have hT2 : (sa.getState (sti2tid (s.combs s.cur).head, sti2idx (s.combs s.cur).head)).applied tid
        = (s.getState s.tailState).applied tid := hT
    have hnp : ¬ (sa.announce tid = (sa.getState (sti2tid (s.combs s.cur).head,
        sti2idx (s.combs s.cur).head)).applied tid) := by
      rw [hT2, han, ← hq.no_pending tid hq.tid_lt]
      cases s.announce tid <;> simp
    simp only [hnp, if_false]
    have hr1 : (sa.setHead (other s.cur) (makeSeqTidIdx 0 1 0)).root s.cur = s.root s.cur := by
      simp [RedoOpt.root, hg]
    have hr2 : (sa.setHead (other s.cur) (makeSeqTidIdx 0 1 0)).root (other s.cur)
        = s.root (other s.cur) := by
      simp [RedoOpt.root, hg]
    rw [hr1, hr2] at hcp
    simp only [RedoOpt.root, opt_setHead_g, hg] at hcp ⊢
    rw [hcp]
  · have e1 : (sa.setHead (other s.cur) (makeSeqTidIdx 0 1 0)).mem = s.mem := by simp [hmem]
    have e2 : (sa.setHead (other s.cur) (makeSeqTidIdx 0 1 0)).root (other s.cur)
        = s.root (other s.cur) := by simp [RedoOpt.root, hg]
    have e3 : (sa.setHead (other s.cur) (makeSeqTidIdx 0 1 0)).root s.cur = s.root s.cur := by
      simp [RedoOpt.root, hg]
    have e4 : getUsedSize (sa.setHead (other s.cur) (makeSeqTidIdx 0 1 0))
        (s.cur * (sa.setHead (other s.cur) (makeSeqTidIdx 0 1 0)).g.g_main_size) = s.used := by
      unfold RedoOpt.used
      rw [getUsedSize_congr _ s _ (by simp [hg]) (by simp [hmem]) (by simp [RedoOpt.setHead,
        RedoOpt.setComb, hes])]
      simp [hg]
    rw [e1, e2, e3, e4] at hc
    exact hc

@[simp] theorem locked_g (s : RedoOpt) (tid : Nat) (f : Prog) : (locked s tid f).g = s.g := by
  simp [locked]
@[simp] theorem locked_per (s : RedoOpt) (tid : Nat) (f : Prog) : (locked s tid f).per = s.per := by
  simp [locked]
@[simp] theorem locked_mem (s : RedoOpt) (tid : Nat) (f : Prog) : (locked s tid f).mem = s.mem := by
  simp [locked]
@[simp] theorem locked_ring (s : RedoOpt) (tid : Nat) (f : Prog) :
    (locked s tid f).ring = s.ring := by
  simp [locked]
@[simp] theorem locked_esloco (s : RedoOpt) (tid : Nat) (f : Prog) :
    (locked s tid f).esloco = s.esloco := by
  simp [locked]
@[simp] theorem locked_enqueuers (s : RedoOpt) (tid : Nat) (f : Prog) (t : Nat) :
    (locked s tid f).enqueuers t = if t = tid then some f else s.enqueuers t := by
  simp [locked]
@[simp] theorem locked_announce (s : RedoOpt) (tid : Nat) (f : Prog) (t : Nat) :
    (locked s tid f).announce t = if t = tid then !s.announce tid else s.announce t := by
  simp [locked]
@[simp] theorem locked_lastIdx (s : RedoOpt) (tid : Nat) (f : Prog) (u : Nat) :
    ((locked s tid f).sauron u).lastIdx = (s.sauron u).lastIdx := by
  simp [locked]
theorem locked_combs (s : RedoOpt) (tid : Nat) (f : Prog) (k : Nat) :
    (locked s tid f).combs k
      = if k = other s.cur then
          { (s.combs (other s.cur)) with
            rwLock := { (s.combs (other s.cur)).rwLock with writer := true } }
        else s.combs k := by
  simp only [locked, opt_setLocal_combs, opt_setComb_combs_eq, opt_prepareState_combs,
    opt_announced_combs]
theorem locked_tlocal (s : RedoOpt) (tid : Nat) (f : Prog) :
    (locked s tid f).tlocal tid
      = { st := some (s.nextState tid), tl_cx_size := s.offsetOf (other s.cur),
          tl_nested_write_trans := (s.tlocal tid).tl_nested_write_trans + 1,
          tl_nested_read_trans := (s.tlocal tid).tl_nested_read_trans } := by
  simp [locked, opt_announced_tlocal, RedoOpt.offsetOf]
theorem locked_getState (s : RedoOpt) (tid : Nat) (f : Prog) (hq : Recovered s tid)
    (q : Nat × Nat) :
    (locked s tid f).getState q
      = if q = s.nextState tid then
          { (s.getState (s.nextState tid)) with
              ticket := s.nextTicket tid, logTail := 0, lSize := 0,
              applied := (s.getState s.tailState).applied,
              results := (s.getState s.tailState).results, logSize := 0 }
        else s.getState q := by
  simp only [locked, opt_setLocal_getState, opt_setComb_getState,
    opt_prepareState_getState _ _ _ _ (opt_tailState_ne s tid hq), opt_announced_getState]

@[simp] theorem copied_g (s : RedoOpt) (tid : Nat) (f : Prog) (m5 : Mem) :
    (copied s tid f m5).g = s.g := by
  simp [copied]
@[simp] theorem copied_per (s : RedoOpt) (tid : Nat) (f : Prog) (m5 : Mem) :
    (copied s tid f m5).per = s.per := by
  simp [copied]
@[simp] theorem copied_mem (s : RedoOpt) (tid : Nat) (f : Prog) (m5 : Mem) :
    (copied s tid f m5).mem = m5 := by
  simp [copied]
@[simp] theorem copied_esloco (s : RedoOpt) (tid : Nat) (f : Prog) (m5 : Mem) :
    (copied s tid f m5).esloco = s.esloco := by
  simp [copied]
@[simp] theorem copied_enqueuers (s : RedoOpt) (tid : Nat) (f : Prog) (m5 : Mem) (t : Nat) :
    (copied s tid f m5).enqueuers t = if t = tid then some f else s.enqueuers t := by
  simp [copied]
@[simp] theorem copied_announce (s : RedoOpt) (tid : Nat) (f : Prog) (m5 : Mem) (t : Nat) :
    (copied s tid f m5).announce t = if t = tid then !s.announce tid else s.announce t := by
  simp [copied]
theorem copied_combs (s : RedoOpt) (tid : Nat) (f : Prog) (m5 : Mem) (k : Nat) :
    (copied s tid f m5).combs k
      = if k = other s.cur then
          { head := (s.combs s.cur).head,
            rwLock := { (s.combs (other s.cur)).rwLock with writer := true } }
        else s.combs k := by
  simp only [copied, opt_setHead_combs_eq, opt_setMem_combs, locked_combs]
  split <;> simp
theorem copied_tlocal (s : RedoOpt) (tid : Nat) (f : Prog) (m5 : Mem) :
    (copied s tid f m5).tlocal tid
      = { st := some (s.nextState tid), tl_cx_size := s.offsetOf (other s.cur),
          tl_nested_write_trans := (s.tlocal tid).tl_nested_write_trans + 1,
          tl_nested_read_trans := (s.tlocal tid).tl_nested_read_trans } := by
  simp [copied, locked_tlocal]
theorem copied_getState (s : RedoOpt) (tid : Nat) (f : Prog) (m5 : Mem) (hq : Recovered s tid)
    (q : Nat × Nat) :
    (copied s tid f m5).getState q
      = if q = s.nextState tid then
          { (s.getState (s.nextState tid)) with
              ticket := s.nextTicket tid, logTail := 0, lSize := 0,
              applied := (s.getState s.tailState).applied,
              results := (s.getState s.tailState).results, logSize := 0 }
        else s.getState q := by
  simp only [copied, opt_setHead_getState, opt_setMem_getState, locked_getState s tid f hq]

/-- The first half of an attempt of `ns_write_transaction` on a recovered engine: the
request is open, `newState` is prepared and `getNewComb` locks the replica
`other cur`. -/
theorem writeAttempt_locked (s : RedoOpt) (tid uninit : Nat) (copy : Bool) (f : Prog)
    (hq : Recovered s tid) :
    writeAttempt tid uninit (!s.announce tid) (sti2seq s.per.curComb) (s.nextState tid) copy none
        (announced s tid f)
      = combineAndPublish tid uninit (sti2seq s.per.curComb) s.per.curComb (s.combs s.cur).head
          (s.nextTicket tid) (s.nextState tid) (other s.cur) copy (locked s tid f) := by
  have hn : ¬ (sti2seq s.per.curComb ≥ sti2seq s.per.curComb + 2) := by omega
  have hpend : s.announce tid = (s.getState s.tailState).applied tid :=
    hq.no_pending tid hq.tid_lt
  have c1 : ¬ ((!s.announce tid) = (s.getState s.tailState).applied tid) := by
    rw [← hpend]; cases s.announce tid <;> simp
  have hscan := getNewComb_other tid s.per.curComb
    (prepareState (s.nextState tid) s.tailState (s.nextTicket tid) (announced s tid f)) s.cur
    (by simp) (by simpa using hq.locks)
  unfold writeAttempt
  simp only [opt_announced_per, hn, if_false, ne_eq, not_true_eq_false, opt_prepareState_per,
    opt_prepareState_ring, opt_announced_ring, opt_announced_combs, opt_announced_sauron,
    opt_announced_getState]
  have hr : s.ring (sti2seq s.per.curComb % RINGSIZE) = (s.combs (sti2idx s.per.curComb)).head :=
    hq.ring_cur
  have e1 : (sti2tid (s.combs (sti2idx s.per.curComb)).head,
      sti2idx (s.combs (sti2idx s.per.curComb)).head) = s.tailState := rfl
  have e2 : makeSeqTidIdx (sti2seq s.per.curComb + 1) tid (s.sauron tid).lastIdx
      = s.nextTicket tid := rfl
  have e3 : (s.combs (sti2idx s.per.curComb)).head = (s.combs s.cur).head := rfl
  simp only [hr, not_true_eq_false, false_and, if_false, e1, c1, e2, hscan]
  rw [e3]
  rfl

/-! ### The state after the closure and the committed state -/

theorem opt_recorded_getState (s : RedoOpt) (tid : Nat) (f : Prog) (m5 : Mem) (st1 : State)
    (m1 : Mem) (r : Nat) (hq : Recovered s tid) (q : Nat × Nat) :
    (recorded s tid f m5 st1 m1 r).getState q
      = if q = s.nextState tid then
          { st1 with
              results := fun k => if k = tid then r else st1.results k,
              applied := fun k => if k = tid then !(s.getState s.tailState).applied tid
                else st1.applied k }
        else s.getState q := by
  unfold recorded executed
  simp only [opt_setState_getState_eq, opt_setMem_getState, if_true,
    copied_getState s tid f m5 hq]
  by_cases h : q = s.nextState tid
  · simp [h]
  · simp [h]

theorem opt_committed_getState (s : RedoOpt) (tid : Nat) (f : Prog) (m5 : Mem) (st1 : State)
    (m1 : Mem) (r : Nat) (hq : Recovered s tid) (q : Nat × Nat) :
    (committed s tid f m5 st1 m1 r).getState q
      = if q = s.nextState tid then
          { st1 with
              results := fun k => if k = tid then r else st1.results k,
              applied := fun k => if k = tid then !(s.getState s.tailState).applied tid
                else st1.applied k,
              logSize := st1.lSize }
        else s.getState q := by
  unfold committed
  simp only [opt_finishCommit_getState, opt_setCurComb_getState, opt_setComb_getState,
    opt_setHead_getState, opt_setState_getState_eq, opt_recorded_getState s tid f m5 st1 m1 r hq,
    if_true]
  by_cases h : q = s.nextState tid
  · simp [h]
  · simp [h]

theorem opt_recorded_simple (s : RedoOpt) (tid : Nat) (f : Prog) (m5 : Mem) (st1 : State)
    (m1 : Mem) (r : Nat) :
    (recorded s tid f m5 st1 m1 r).g = s.g ∧
    (recorded s tid f m5 st1 m1 r).per = s.per ∧
    (recorded s tid f m5 st1 m1 r).mem = m1 ∧
    (recorded s tid f m5 st1 m1 r).esloco = s.esloco ∧
    (∀ t, (recorded s tid f m5 st1 m1 r).announce t
      = if t = tid then !s.announce tid else s.announce t) ∧
    (∀ k, (recorded s tid f m5 st1 m1 r).combs k = (copied s tid f m5).combs k) ∧
    (∀ u, (recorded s tid f m5 st1 m1 r).tlocal u = (copied s tid f m5).tlocal u) := by
  unfold recorded executed
  simp

theorem opt_committed_simple (s : RedoOpt) (tid : Nat) (f : Prog) (m5 : Mem) (st1 : State)
    (m1 : Mem) (r : Nat) :
    (committed s tid f m5 st1 m1 r).g = s.g ∧
    (committed s tid f m5 st1 m1 r).per.curComb
      = makeSeqTidIdx (sti2seq s.per.curComb + 1) tid (other s.cur) ∧
    (committed s tid f m5 st1 m1 r).per.id = s.per.id ∧
    (committed s tid f m5 st1 m1 r).per.objects = s.per.objects ∧
    (committed s tid f m5 st1 m1 r).mem = m1 := by
  obtain ⟨h1, h2, h3, h4, h5, h6, h7⟩ := opt_recorded_simple s tid f m5 st1 m1 r
  unfold committed
  simp only [opt_finishCommit_g, opt_finishCommit_per, opt_finishCommit_mem, opt_setCurComb_g,
    opt_setCurComb_curComb, opt_setCurComb_id, opt_setCurComb_objects, opt_setCurComb_mem,
    opt_setComb_g, opt_setComb_per, opt_setComb_mem, opt_setHead_g, opt_setHead_per,
    opt_setHead_mem, opt_setState_g, opt_setState_per, opt_setState_mem, h1, h2, h3]
  simp

theorem opt_publish_recorded (s : RedoOpt) (tid : Nat) (copy : Bool) (f : Prog) (m5 : Mem)
    (st1 : State) (m1 : Mem) (r : Nat) (hq : Recovered s tid) :
    publish tid s.per.curComb (s.combs s.cur).head (s.nextTicket tid) (s.nextState tid)
        (other s.cur) copy (recorded s tid f m5 st1 m1 r)
      = some (.ret (.value r), some (other s.cur), committed s tid f m5 st1 m1 r) := by
  have hper := (opt_recorded_simple s tid f m5 st1 m1 r).2.1
  have hres : ((committed s tid f m5 st1 m1 r).getState (s.nextState tid)).results tid = r := by
    rw [opt_committed_getState s tid f m5 st1 m1 r hq]
    simp
  have hfl : (if copy = true then flushCopy (recorded s tid f m5 st1 m1 r) tid
      (getUsedSize (recorded s tid f m5 st1 m1 r)
        ((recorded s tid f m5 st1 m1 r).tlocal tid).tl_cx_size) else some true) = some true := by
    cases copy
    · rfl
    · simp only [if_true]
      exact flushCopy_stable _ _ _
  unfold publish
  simp only [hper, ne_eq, not_true_eq_false, if_false, hfl, opt_setComb_per, opt_setHead_per,
    opt_setState_per, if_true]
  have e : finishCommit tid (sti2idx s.per.curComb) (sti2seq s.per.curComb) (s.nextTicket tid)
      (((((recorded s tid f m5 st1 m1 r).setState (s.nextState tid)
        { ((recorded s tid f m5 st1 m1 r).getState (s.nextState tid)) with
          logSize := ((recorded s tid f m5 st1 m1 r).getState (s.nextState tid)).lSize }).setHead
        (other s.cur) (s.nextTicket tid)).setComb (other s.cur)
        { ((((recorded s tid f m5 st1 m1 r).setState (s.nextState tid)
          { ((recorded s tid f m5 st1 m1 r).getState (s.nextState tid)) with
            logSize := ((recorded s tid f m5 st1 m1 r).getState (s.nextState tid)).lSize }).setHead
          (other s.cur) (s.nextTicket tid)).combs (other s.cur)) with
          rwLock := ((((recorded s tid f m5 st1 m1 r).setState (s.nextState tid)
            { ((recorded s tid f m5 st1 m1 r).getState (s.nextState tid)) with
              logSize := ((recorded s tid f m5 st1 m1 r).getState
                (s.nextState tid)).lSize }).setHead
            (other s.cur) (s.nextTicket tid)).combs (other s.cur)).rwLock.downgrade }).setCurComb
        (makeSeqTidIdx (sti2seq s.per.curComb + 1) tid (other s.cur)))
      = committed s tid f m5 st1 m1 r := rfl
  rw [e, hres]

/-- The bytes that `makeCopy` leaves in the replica `other cur` agree with the current
replica on its used bytes. -/
theorem copied_agrees (s : RedoOpt) (m5 : Mem)
    (hc : CopiedUpTo s.mem m5 (s.root (other s.cur)) (s.root s.cur) s.used) :
    ∀ x, s.InUsed x → m5 (x + s.offsetOf (other s.cur)) = s.replica s.cur x := by
  intro x hx
  obtain ⟨h1, h2⟩ := hx
  have := hc.1 (x - s.g.g_main_addr) (by omega)
  unfold RedoOpt.root at this
  unfold RedoOpt.replica RedoOpt.offsetOf
  have e1 : s.g.g_main_addr + other s.cur * s.g.g_main_size + (x - s.g.g_main_addr)
      = x + other s.cur * s.g.g_main_size := by omega
  have e2 : s.g.g_main_addr + s.cur * s.g.g_main_size + (x - s.g.g_main_addr)
      = x + s.cur * s.g.g_main_size := by omega
  rw [e1, e2] at this
  exact this

/-- An attempt of `ns_write_transaction` on a recovered engine from the acquisition of
the replica on: `makeCopy` copies the used bytes of the current replica, the closure of
`tid` runs on the copy as it runs on the current replica; if it returns, the new
replica is published, and if it throws the function is left. -/
theorem combineAndPublish_recovered (s : RedoOpt) (tid uninit : Nat) (copy : Bool) (f : Prog)
    (hq : Recovered s tid) (hf : f.InMain s.g) (hr : ReadsIn s.InUsed f) :
    ∃ m5 st1 m1,
      CopiedUpTo s.mem m5 (s.root (other s.cur)) (s.root s.cur) s.used ∧
      (∀ x, s.InUsed x → m1 (x + s.offsetOf (other s.cur)) = (f.run (s.replica s.cur)).2 x) ∧
      (∀ y, (∀ x, ADDR_IS_IN_MAIN s.g x = true → y ≠ x + s.offsetOf (other s.cur)) →
        m1 y = m5 y) ∧
      (∀ r, (f.run (s.replica s.cur)).1 = .value r →
        combineAndPublish tid uninit (sti2seq s.per.curComb) s.per.curComb (s.combs s.cur).head
          (s.nextTicket tid) (s.nextState tid) (other s.cur) copy (locked s tid f)
        = some (.ret (.value r), some (other s.cur), committed s tid f m5 st1 m1 r)) ∧
      (∀ out, (f.run (s.replica s.cur)).1 = out → (∀ r, out ≠ .value r) →
        combineAndPublish tid uninit (sti2seq s.per.curComb) s.per.curComb (s.combs s.cur).head
          (s.nextTicket tid) (s.nextState tid) (other s.cur) copy (locked s tid f)
        = some (.unwind out, some (other s.cur), executed s tid f m5 st1 m1)) := by
  have hTn := opt_tailState_ne s tid hq
  obtain ⟨m5, hmc, hcop⟩ := makeCopy_recovered s tid hq (locked s tid f) (by simp) (by simp)
    (by simp) (by simp)
    (by
      have hne : ¬ (s.cur = other s.cur) := fun h => other_ne s.cur h.symm
      rw [locked_combs]; simp only [hne, if_false])
    (by rw [locked_getState s tid f hq]; simp [hTn])
    (by simp)
  have hacq : acquire tid uninit (sti2seq s.per.curComb) (s.combs s.cur).head (other s.cur)
      (locked s tid f) = some (true, copied s tid f m5) := by
    unfold acquire
    have hh : ((locked s tid f).combs (other s.cur)).head = makeSeqTidIdx 0 1 0 := by
      rw [locked_combs]; simp [hq.other_head]
    simp only [hh, if_true]
    exact hmc
  have hN : (copied s tid f m5).getState (s.nextState tid)
      = { (s.getState (s.nextState tid)) with
              ticket := s.nextTicket tid, logTail := 0, lSize := 0,
              applied := (s.getState s.tailState).applied,
              results := (s.getState s.tailState).results, logSize := 0 } := by
    rw [copied_getState s tid f m5 hq]; simp
  obtain ⟨st1, m1, hex, ht1, ha1, hr1, hl1, hv1, ho1⟩ :=
    opt_exec_agree tid (s.nextState tid) s.g (s.offsetOf (other s.cur)) hq.layout_addr
      hq.layout_size f s.InUsed (copied s tid f m5) (s.replica s.cur) (copied_g s tid f m5)
      (by rw [copied_tlocal]) (by rw [copied_tlocal]) hf hr
      (by rw [copied_mem]; exact copied_agrees s m5 hcop)
  rw [hN] at ha1
  simp only at ha1
  rw [copied_mem] at ho1
  refine ⟨m5, st1, m1, hcop, hv1, ho1, ?_, ?_⟩
  all_goals
    have hpend : s.announce tid = (s.getState s.tailState).applied tid :=
      hq.no_pending tid hq.tid_lt
    have c1 : ¬ ((!s.announce tid) = (s.getState s.tailState).applied tid) := by
      rw [← hpend]; cases s.announce tid <;> simp
    have hcl := opt_combineLoop_single tid s.per.curComb (s.nextState tid) f MAX_THREADS 0 false
      (copied s tid f m5) (Nat.zero_le _) (by simpa using hq.tid_lt)
      (by
        intro k _ hk hkt
        rw [hN]
        simp only [copied_announce, hkt, if_false]
        exact hq.no_pending k (by simpa using hk))
      (by
        rw [hN]
        simp only [copied_announce, if_true]
        exact c1)
      (by rw [copied_per]) (by simp)
      (by
        intro r s1 hr
        rw [hex] at hr
        have hs1 : s1 = ((copied s tid f m5).setState (s.nextState tid) st1).setMem m1 :=
          (Prod.mk.inj hr).2.symm
        subst hs1
        refine ⟨rfl, ?_⟩
        simp only [opt_setMem_getState, opt_setState_getState_eq, if_true]
        rw [hN]
        exact ha1)
    rw [hex] at hcl
  · intro r hr
    rw [hr] at hcl
    simp only at hcl
    change combineLoop tid s.per.curComb (s.nextState tid) MAX_THREADS 0 false
        (copied s tid f m5) = (none, true, recorded s tid f m5 st1 m1 r) at hcl
    unfold combineAndPublish
    simp only [hacq, copied_per, ne_eq, not_true_eq_false, if_false, hcl]
    exact opt_publish_recorded s tid copy f m5 st1 m1 r hq
  · intro out hout hnv
    rw [hout] at hcl
    unfold combineAndPublish
    simp only [hacq, copied_per, ne_eq, not_true_eq_false, if_false, hcl]
    cases out with
    | value r => exact absurd rfl (hnv r)
    | raised e => rfl
    | fault => rfl

/-! ### The whole write transaction -/

theorem opt_writeLoop_first (tid uninit : Nat) (b : Bool) (n : Nat) (p : Nat × Nat) (copy : Bool)
    (s : RedoOpt) (c : Ctl) (o : Option Nat) (s1 : RedoOpt) (hc : c ≠ .cont)
    (h : writeAttempt tid uninit b n p copy none s = some (c, o, s1)) :
    writeLoop tid uninit b n p copy 2 none s = some (c, o, s1) := by
  have e : (2 : Nat) = 1 + 1 := rfl
  rw [e]
  unfold writeLoop
  rw [h]
  cases c with
  | cont => exact absurd rfl hc
  | ret x => rfl
  | brk => rfl
  | unwind x => rfl

/-- A write transaction on a recovered engine.  There are a memory `m5` (after
`makeCopy`) and a memory `m1` (after the closure) such that: `m5` is the memory before
with the used bytes of the current replica copied into the replica `other cur`; the
used bytes of that replica hold in `m1` what the closure computes on the current
replica, and `m1` differs from `m5` only inside that replica; the transaction returns
the closure's value and `per->curComb` designates the replica `other cur` with the next
sequence number. -/
theorem ns_write_transaction_recovered (s : RedoOpt) (tid uninit : Nat) (copy : Bool) (f : Prog)
    (r : Nat) (hq : Recovered s tid) (hf : f.InMain s.g) (hr : ReadsIn s.InUsed f)
    (hv : (f.run (s.replica s.cur)).1 = .value r) :
    ∃ m5 m1 s1,
      CopiedUpTo s.mem m5 (s.root (other s.cur)) (s.root s.cur) s.used ∧
      (∀ x, s.InUsed x → m1 (x + s.offsetOf (other s.cur)) = (f.run (s.replica s.cur)).2 x) ∧
      (∀ y, (∀ x, ADDR_IS_IN_MAIN s.g x = true → y ≠ x + s.offsetOf (other s.cur)) →
        m1 y = m5 y) ∧
      ns_write_transaction tid f uninit copy s = some (.value r, s1) ∧
      s1.g = s.g ∧ s1.mem = m1 ∧
      s1.per.curComb = makeSeqTidIdx (sti2seq s.per.curComb + 1) tid (other s.cur) ∧
      s1.per.id = s.per.id ∧ s1.per.objects = s.per.objects := by
  obtain ⟨m5, st1, m1, hcop, hv1, ho1, hval, -⟩ :=
    combineAndPublish_recovered s tid uninit copy f hq hf hr
  obtain ⟨c1, c2, c3, c4, c5⟩ := opt_committed_simple s tid f m5 st1 m1 r
  refine ⟨m5, m1, committed s tid f m5 st1 m1 r, hcop, hv1, ho1, ?_, c1, c5, c2, c3, c4⟩
  have hw := opt_writeLoop_first tid uninit (!s.announce tid) (sti2seq s.per.curComb)
    (s.nextState tid) copy (announced s tid f) _ _ _ (by simp)
    ((writeAttempt_locked s tid uninit copy f hq).trans (hval r hv))
  unfold ns_write_transaction
  have hnw : ¬ ((s.tlocal tid).tl_nested_write_trans > 0) := by rw [hq.nested_write]; simp
  simp only [hnw, if_false, opt_announced_announce, if_true, opt_announced_per, hw]

/-! ### Re-opening a file -/

/-- The engine that the constructor of `RedoOpt` leaves over a file with a valid magic
number. -/
theorem reopen_valid (g : Globals) (tid uninit : Nat) (copy : Bool) (per : PersistentHeader)
    (mem : Mem) (hid : per.id = MAGIC_ID) :
    reopen g tid uninit copy per mem = some
      { (((resetHeads (sti2idx per.curComb) (mapped g per mem)).setComb (sti2idx per.curComb)
          { ((resetHeads (sti2idx per.curComb) (mapped g per mem)).combs (sti2idx per.curComb)) with
            rwLock := ((resetHeads (sti2idx per.curComb) (mapped g per mem)).combs
              (sti2idx per.curComb)).rwLock.setReadLock }).setCurComb
          (makeSeqTidIdx 0 0 (sti2idx per.curComb))) with
        esloco := { poolAddr := g.g_main_addr, poolSize := g.g_main_size } } := by
  unfold reopen
  simp only [hid, ne_eq, not_true_eq_false, if_false, Option.map_some']
  rfl

/-- The constructor of `RedoOpt` over a file with a valid magic number leaves a
recovered engine: the file is unchanged and its current replica stays current. -/
theorem reopen_recovered (g : Globals) (tid uninit : Nat) (copy : Bool) (per : PersistentHeader)
    (mem : Mem) (hid : per.id = MAGIC_ID) (h1 : g.g_main_addr % 8 = 0)
    (h2 : g.g_main_size % 8 = 0) (htid : tid < MAX_THREADS)
    (hc : sti2idx per.curComb < MAX_COMBINEDS)
    (hu8 : usedBytes g mem (sti2idx per.curComb) % 8 = 0)
    (hule : usedBytes g mem (sti2idx per.curComb) ≤ g.g_main_size) :
    ∃ s0, reopen g tid uninit copy per mem = some s0 ∧ Recovered s0 tid ∧ s0.g = g ∧
      s0.mem = mem ∧ s0.cur = sti2idx per.curComb ∧ s0.per.id = MAGIC_ID ∧
      s0.used = usedBytes g mem (sti2idx per.curComb) := by
  have hc16 : sti2idx per.curComb < 2 ^ IDX_BITS := lt_trans hc (by decide)
  have hcm := opt_sti2idx_make 0 0 (sti2idx per.curComb) (by decide) (by decide) hc16
  have hsm := opt_sti2seq_make 0 0 (sti2idx per.curComb) (by decide) (by decide) hc16
  have hz1 : sti2seq 0 = 0 := by decide
  have hz2 : sti2tid 0 = 0 := by decide
  have hz3 : sti2idx 0 = 0 := by decide
  have hone : makeSeqTidIdx 0 1 0 ≠ 0 := by decide
  refine ⟨_, reopen_valid g tid uninit copy per mem hid, ?_, rfl, rfl, hcm, hid, ?_⟩
  · have hoc : other (sti2idx per.curComb) ≠ sti2idx per.curComb := other_ne _
    have hol : other (sti2idx per.curComb) < MAX_COMBINEDS :=
      lt_trans (other_lt _) (by decide)
    refine
      { layout_addr := h1, layout_size := h2, tid_lt := htid,
        cur_lt := by unfold RedoOpt.cur; simp only [RedoOpt.setCurComb]; rw [hcm]; exact hc,
        seq_lt := by simp only [RedoOpt.setCurComb]; rw [hsm]; decide,
        locks := ?_, head_seq := ?_, ring_cur := ?_, no_pending := ?_, slot_ne := ?_,
        lastIdx_lt := by simp [RedoOpt.setCurComb, RedoOpt.setComb, resetHeads, mapped, STATESSIZE],
        other_head := ?_, used_mod := ?_, used_le := ?_, nested_write := rfl }
    · intro i
      unfold RedoOpt.cur
      simp only [RedoOpt.setCurComb, RedoOpt.setComb, resetHeads, mapped]
      rw [hcm]
      by_cases hi : i = sti2idx per.curComb
      · simp [hi, StrongTryRIRWLock.setReadLock]
      · simp only [hi, if_false, decide_False]
        split <;> exact ⟨rfl, fun _ => rfl, rfl⟩
    · unfold RedoOpt.cur
      simp only [RedoOpt.setCurComb, RedoOpt.setComb, resetHeads, mapped]
      rw [hcm, hsm]
      simp [hc, hz1]
    · unfold RedoOpt.cur
      simp only [RedoOpt.setCurComb, RedoOpt.setComb, resetHeads, mapped, hcm]
      simp [hc]
    · intro i _
      unfold RedoOpt.tailState RedoOpt.cur
      simp only [RedoOpt.setCurComb, RedoOpt.setComb, resetHeads, mapped]
      rw [hcm]
      simp [hc, hz2, hz3, RedoOpt.getState]
    · unfold RedoOpt.tailState RedoOpt.cur
      simp only [RedoOpt.setCurComb, RedoOpt.setComb, resetHeads, mapped]
      rw [hcm]
      simp only [if_true, hc, ne_eq, not_true_eq_false, if_false, hz2, hz3]
      intro h
      have := congrArg Prod.snd h
      simp at this
    · unfold RedoOpt.cur
      simp only [RedoOpt.setCurComb, RedoOpt.setComb, resetHeads, mapped]
      rw [hcm]
      simp [hoc, hol]
    · show getUsedSize _ _ % 8 = 0
      unfold RedoOpt.cur
      simp only [RedoOpt.setCurComb]
      rw [hcm]
      exact hu8
    · show getUsedSize _ _ ≤ _
      unfold RedoOpt.cur
      simp only [RedoOpt.setCurComb]
      rw [hcm]
      exact hule
  · show getUsedSize _ _ = _
    unfold RedoOpt.cur
    simp only [RedoOpt.setCurComb]
    rw [hcm]
    rfl

theorem counterIncr_inMain (g : Globals) (a : Nat) (h1 : ADDR_IS_IN_MAIN g a = true)
    (h2 : a % 8 = 0) : (counterIncr a).InMain g :=
  .pload _ _ h1 h2 fun _ => .pstore _ _ _ h1 h2 (.ret _)

theorem counterIncr_readsIn (U : Nat → Prop) (a : Nat) (h : ∀ i, i < 8 → U (a + i)) :
    ReadsIn U (counterIncr a) :=
  .pload _ _ _ h fun _ => .pstore _ _ _ _ (.ret _ _)

/-- X7. `RedoOpt`, re-open and first transaction.  For every file whose header magic
is valid, whose current replica is one of the replicas and has a used size that is a
multiple of 8 and no larger than a replica, with current
replica `c` and `u` used bytes in it: re-opening the file keeps its bytes and its
current replica, and the first write transaction after the re-open, for a closure `f`
on 64-bit cells of the main region that loads only from the used bytes or from cells it
has stored, returns what `f` returns on replica `c` as it was at close and publishes,
as the new current replica, a replica whose used bytes are those of replica `c` at close
with the stores of `f` applied. -/
theorem X7_reopen_first_transaction (g : Globals) (per : PersistentHeader) (mem : Mem)
    (tid uninit uninit2 : Nat) (copy copy2 : Bool) (f : Prog) (r : Nat)
    (hid : per.id = MAGIC_ID) (h1 : g.g_main_addr % 8 = 0) (h2 : g.g_main_size % 8 = 0)
    (htid : tid < MAX_THREADS) (hc : sti2idx per.curComb < MAX_COMBINEDS)
    (hu8 : usedBytes g mem (sti2idx per.curComb) % 8 = 0)
    (hule : usedBytes g mem (sti2idx per.curComb) ≤ g.g_main_size)
    (hf : f.InMain g)
    (hr : ReadsIn (fun x => g.g_main_addr ≤ x ∧
      x < g.g_main_addr + usedBytes g mem (sti2idx per.curComb)) f)
    (hv : (f.run (fun x => mem (x + sti2idx per.curComb * g.g_main_size))).1 = .value r) :
    ∃ s0 s1, reopen g tid uninit copy per mem = some s0 ∧ s0.mem = mem ∧
      s0.cur = sti2idx per.curComb ∧
      ns_write_transaction tid f uninit2 copy2 s0 = some (.value r, s1) ∧
      s1.cur = other (sti2idx per.curComb) ∧ s1.per.id = MAGIC_ID ∧
      ∀ x, g.g_main_addr ≤ x → x < g.g_main_addr + usedBytes g mem (sti2idx per.curComb) →
        s1.replica s1.cur x
          = (f.run (fun x => mem (x + sti2idx per.curComb * g.g_main_size))).2 x := by
  obtain ⟨s0, hre, hq, hg, hm, hcur, hid0, hused⟩ :=
    reopen_recovered g tid uninit copy per mem hid h1 h2 htid hc hu8 hule
  have hU : s0.InUsed = fun x => g.g_main_addr ≤ x ∧
      x < g.g_main_addr + usedBytes g mem (sti2idx per.curComb) := by
    funext x
    unfold RedoOpt.InUsed
    rw [hg, hused]
  have hV : s0.replica s0.cur = fun x => mem (x + sti2idx per.curComb * g.g_main_size) := by
    funext x
    unfold RedoOpt.replica RedoOpt.offsetOf
    rw [hm, hcur, hg]
  obtain ⟨m5, m1, s1, -, hv1, -, hrun, hg1, hm1, hcc, hid1, -⟩ :=
    ns_write_transaction_recovered s0 tid uninit2 copy2 f r hq (by rw [hg]; exact hf)
      (by rw [hU]; exact hr) (by rw [hV]; exact hv)
  have hcur1 : s1.cur = other (sti2idx per.curComb) := by
    unfold RedoOpt.cur
    rw [hcc, opt_sti2idx_make _ _ _ hq.seq_lt (lt_trans hq.tid_lt (by decide))
      (lt_trans (other_lt _) (by decide)), ← hcur]
  refine ⟨s0, s1, hre, hm, hcur, hrun, hcur1, by rw [hid1, hid0], ?_⟩
  intro x hx1 hx2
  have := hv1 x (by rw [hU]; exact ⟨hx1, hx2⟩)
  rw [hV] at this
  rw [← this, hcur1]
  unfold RedoOpt.replica RedoOpt.offsetOf
  rw [hm1, hg1, hcur]

theorem X7_reopen_first_transaction_witness :
    ∃ s0 s1, reopen smallGlobals 0 0 false closedHeader closedMem = some s0 ∧
      s0.mem = closedMem ∧ s0.cur = sti2idx closedHeader.curComb ∧
      ns_write_transaction 0 (counterIncr counterAddr) 0 false s0 = some (.value 4, s1) ∧
      s1.cur = other (sti2idx closedHeader.curComb) ∧ s1.per.id = MAGIC_ID ∧
      ∀ x, smallGlobals.g_main_addr ≤ x →
        x < smallGlobals.g_main_addr
          + usedBytes smallGlobals closedMem (sti2idx closedHeader.curComb) →
        s1.replica s1.cur x
          = ((counterIncr counterAddr).run
              (fun x => closedMem (x + sti2idx closedHeader.curComb
                * smallGlobals.g_main_size))).2 x :=
  X7_reopen_first_transaction smallGlobals closedHeader closedMem 0 0 0 false false
    (counterIncr counterAddr) 4 (by decide!) (by decide) (by decide) (by decide) (by decide!)
    (by decide!) (by decide!)
    (counterIncr_inMain smallGlobals counterAddr (by decide) (by decide))
    (counterIncr_readsIn _ counterAddr (by
      have hu : usedBytes smallGlobals closedMem (sti2idx closedHeader.curComb) = 896 := by
        decide!
      intro i hi
      rw [hu]
      simp only [smallGlobals, counterAddr]
      omega))
    (by decide!)

/-! ### The round trip of `RedoOpt`: transactions of one thread on a new file -/

/-! ### The redo log of `RedoOpt`: bucket chains -/

theorem findInBucket_none (nd : WriteSetNode) (a fuel : Nat) :
    findInBucket nd a fuel none = none := by
  cases fuel <;> rfl

/-- The walk along a bucket chain finds the last entry at or before `be` that holds the
address `a`, when the entry `be` has the hash of `a`. -/
theorem findInBucket_spec (nd : WriteSetNode) (a c : Nat) (hn : ∀ k, k < c → NextOK nd k) :
    ∀ fuel be, be < c → be < fuel → hashAddress (nd.log be).addr = hashAddress a →
      (∀ k, findInBucket nd a fuel (some be) = some k →
        k ≤ be ∧ (nd.log k).addr = a ∧ ∀ i, k < i → i ≤ be → (nd.log i).addr ≠ a) ∧
      (findInBucket nd a fuel (some be) = none → ∀ i, i ≤ be → (nd.log i).addr ≠ a) := by
  intro fuel
  induction fuel with
  | zero => intro be _ h; exact absurd h (Nat.not_lt_zero _)
  | succ fuel ih =>
    intro be hbc hbf hh
    unfold findInBucket
    by_cases ha : (nd.log be).addr = a
    · simp only [ha, if_true]
      refine ⟨?_, fun h => by cases h⟩
      intro k hk
      have : be = k := Option.some.inj hk
      subst this
      exact ⟨Nat.le_refl _, ha, fun i h1 h2 => by omega⟩
    · simp only [ha, if_false]
      obtain ⟨hs, hnone⟩ := hn be hbc
      cases hnx : (nd.log be).next with
      | none =>
        rw [findInBucket_none]
        refine ⟨(fun k hk => by cases hk), ?_⟩
        intro _ i hi
        by_cases hib : i = be
        · rw [hib]; exact ha
        · intro hc
          have := hnone hnx i (by omega)
          rw [hc, hh] at this
          exact this rfl
      | some j =>
        obtain ⟨hj, hjh, hbetween⟩ := hs j hnx
        obtain ⟨ih1, ih2⟩ := ih j (by omega) (by omega) (by rw [hjh, hh])
        have hrest : ∀ i, j < i → i ≤ be → (nd.log i).addr ≠ a := by
          intro i h1 h2
          by_cases hib : i = be
          · rw [hib]; exact ha
          · intro hc
            have := hbetween i h1 (by omega)
            rw [hc, hh] at this
            exact this rfl
        refine ⟨?_, ?_⟩
        · intro k hk
          obtain ⟨k1, k2, k3⟩ := ih1 k hk
          refine ⟨by omega, k2, ?_⟩
          intro i h1 h2
          by_cases hij : i ≤ j
          · exact k3 i h1 hij
          · exact hrest i (by omega) h2
        · intro hk i hi
          by_cases hij : i ≤ j
          · exact ih2 hk i hij
          · exact hrest i (by omega) hi

/-- No entry of the node holds `a` when the bucket of its hash does not point to one of
the node's entries with that hash. -/
theorem node_no_hit (nd : WriteSetNode) (a c : Nat) (hok : NodeOK nd c)
    (h : hashAddress (nd.log (nd.buckets (hashAddress a))).addr ≠ hashAddress a ∨
      ¬ nd.buckets (hashAddress a) < c) :
    ∀ i, i < c → (nd.log i).addr ≠ a := by
  intro i hi hc
  obtain ⟨-, h2, h3⟩ := hok.bucket_cur i hi
  rw [hc] at h2 h3
  rcases h with h | h
  · exact h h3
  · exact h h2

/-- The search of one node: the walk from the bucket of the hash of `a` finds the last
entry of the node that holds `a`. -/
theorem node_hit (nd : WriteSetNode) (a c : Nat) (hok : NodeOK nd c)
    (h1 : hashAddress (nd.log (nd.buckets (hashAddress a))).addr = hashAddress a)
    (h2 : nd.buckets (hashAddress a) < c) :
    (∀ k, findInBucket nd a MAXLOGSIZE (some (nd.buckets (hashAddress a))) = some k →
      k < c ∧ (nd.log k).addr = a ∧ ∀ i, k < i → i < c → (nd.log i).addr ≠ a) ∧
    (findInBucket nd a MAXLOGSIZE (some (nd.buckets (hashAddress a))) = none →
      ∀ i, i < c → (nd.log i).addr ≠ a) := by
  obtain ⟨s1, s2⟩ := findInBucket_spec nd a c hok.next_ok MAXLOGSIZE (nd.buckets (hashAddress a))
    h2 (hok.bucket_lt _) h1
  have hafter : ∀ i, nd.buckets (hashAddress a) < i → i < c → (nd.log i).addr ≠ a := by
    intro i hi1 hi2 hc2
    obtain ⟨b1, -, -⟩ := hok.bucket_cur i hi2
    rw [hc2] at b1
    omega
  refine ⟨?_, ?_⟩
  · intro k hk
    obtain ⟨k1, k2, k3⟩ := s1 k hk
    refine ⟨by omega, k2, ?_⟩
    intro i hi1 hi2
    by_cases hib : i ≤ nd.buckets (hashAddress a)
    · exact k3 i hi1 hib
    · exact hafter i (by omega) hi2
  · intro hk i hi
    by_cases hib : i ≤ nd.buckets (hashAddress a)
    · exact s2 hk i hib
    · exact hafter i (by omega) hi

/-! ### Positions in the chain -/

theorem nodeCount_le (L n : Nat) : nodeCount L n ≤ MAXLOGSIZE := Nat.min_le_left _ _

theorem pos_in_node (L n p : Nat) (h1 : MAXLOGSIZE * n ≤ p) (h2 : p < MAXLOGSIZE * (n + 1))
    (h3 : p < L) : p / MAXLOGSIZE = n ∧ p % MAXLOGSIZE < nodeCount L n := by
  unfold nodeCount
  simp only [MAXLOGSIZE] at *
  omega

theorem node_pos (L n k : Nat) (h : k < nodeCount L n) :
    (MAXLOGSIZE * n + k) / MAXLOGSIZE = n ∧ (MAXLOGSIZE * n + k) % MAXLOGSIZE = k ∧
    MAXLOGSIZE * n + k < L := by
  unfold nodeCount at h
  simp only [MAXLOGSIZE] at *
  omega

/-! ### The search loops of `addAddrIfAbsent` -/

theorem lastAt_of_node (st : State) (L a n k : Nat) (hk : k < nodeCount L n)
    (ha : ((st.nodes n).log k).addr = a)
    (hin : ∀ i, k < i → i < nodeCount L n → ((st.nodes n).log i).addr ≠ a)
    (hafter : ∀ p, MAXLOGSIZE * (n + 1) ≤ p → p < L → (st.entryAt p).addr ≠ a) :
    LastAt st L a n k := by
  refine ⟨hk, ha, ?_⟩
  intro p hp1 hp2
  by_cases hp : MAXLOGSIZE * (n + 1) ≤ p
  · exact hafter p hp hp2
  · obtain ⟨e1, e2⟩ := pos_in_node L n p (by omega) (by omega) hp2
    unfold State.entryAt
    rw [e1]
    apply hin _ _ e2
    simp only [MAXLOGSIZE] at *
    omega

theorem after_of_node (st : State) (L a n : Nat)
    (hin : ∀ i, i < nodeCount L n → ((st.nodes n).log i).addr ≠ a)
    (hafter : ∀ p, MAXLOGSIZE * (n + 1) ≤ p → p < L → (st.entryAt p).addr ≠ a) :
    ∀ p, MAXLOGSIZE * n ≤ p → p < L → (st.entryAt p).addr ≠ a := by
  intro p hp1 hp2
  by_cases hp : MAXLOGSIZE * (n + 1) ≤ p
  · exact hafter p hp hp2
  · obtain ⟨e1, e2⟩ := pos_in_node L n p hp1 (by omega) hp2
    unfold State.entryAt
    rw [e1]
    exact hin _ e2

theorem searchPart_spec (st : State) (a L : Nat)
    (hok : ∀ n, NodeOK (st.nodes n) (nodeCount L n)) :
    ∀ fuel i node, node + i = L / MAXLOGSIZE → fuel ≤ node + 1 →
      (∀ p, MAXLOGSIZE * (node + 1) ≤ p → p < L → (st.entryAt p).addr ≠ a) →
      ∀ n k, searchPart st a (hashAddress a) L fuel i node = some (n, k) → LastAt st L a n k := by
  intro fuel
  induction fuel with
  | zero => intro i node _ _ _ n k h; cases h
  | succ fuel ih =>
    intro i node hni hf hafter n k
    have hrec : (∀ j, j < nodeCount L node → ((st.nodes node).log j).addr ≠ a) →
        searchPart st a (hashAddress a) L fuel (i + 1) (node - 1) = some (n, k) →
        LastAt st L a n k := by
      intro hin hs
      cases fuel with
      | zero => cases hs
      | succ f =>
        have hn1 : 1 ≤ node := by omega
        refine ih (i + 1) (node - 1) (by omega) (by omega) ?_ n k hs
        have e : node - 1 + 1 = node := by omega
        rw [e]
        exact after_of_node st L a node hin hafter
    unfold searchPart
    by_cases hi16 : i = 16
    · simp only [hi16, if_true]
      intro h; cases h
    · simp only [hi16, if_false]
      by_cases hh : hashAddress ((st.nodes node).log ((st.nodes node).buckets (hashAddress a))).addr
          ≠ hashAddress a
      · rw [if_pos hh]
        exact hrec (node_no_hit _ a _ (hok node) (Or.inl hh))
      · rw [if_neg hh]
        have hh2 := not_not.mp hh
        by_cases hcond : i ≠ 0 ∨ (i = 0 ∧ (st.nodes node).buckets (hashAddress a) < L % MAXLOGSIZE)
        · simp only [hcond, if_true]
          have hbc : (st.nodes node).buckets (hashAddress a) < nodeCount L node := by
            have hb := (hok node).bucket_lt (hashAddress a)
            unfold nodeCount
            simp only [MAXLOGSIZE] at *
            rcases hcond with h | ⟨h1, h2⟩
            · omega
            · omega
          obtain ⟨s1, s2⟩ := node_hit _ a _ (hok node) hh2 hbc
          cases hfind : findInBucket (st.nodes node) a MAXLOGSIZE
              (some ((st.nodes node).buckets (hashAddress a))) with
          | some k1 =>
            simp only
            intro h
            have e := Option.some.inj h
            have en : node = n := congrArg Prod.fst e
            have ek : k1 = k := congrArg Prod.snd e
            subst en; subst ek
            obtain ⟨t1, t2, t3⟩ := s1 k1 hfind
            exact lastAt_of_node st L a node k1 t1 t2 t3 hafter
          | none =>
            simp only
            exact hrec (s2 hfind)
        · simp only [hcond, if_false]
          apply hrec
          apply node_no_hit _ a _ (hok node)
          right
          unfold nodeCount
          simp only [MAXLOGSIZE] at *
          omega

theorem searchFull_spec (st : State) (a L : Nat)
    (hok : ∀ n, NodeOK (st.nodes n) (nodeCount L n)) (hL : L % MAXLOGSIZE = 0) :
    ∀ fuel i node, node + 1 + i = L / MAXLOGSIZE → fuel ≤ node + 1 →
      (∀ p, MAXLOGSIZE * (node + 1) ≤ p → p < L → (st.entryAt p).addr ≠ a) →
      ∀ n k, searchFull st a (hashAddress a) fuel i node = some (n, k) → LastAt st L a n k := by
  intro fuel
  induction fuel with
  | zero => intro i node _ _ _ n k h; cases h
  | succ fuel ih =>
    intro i node hni hf hafter n k
    have hrec : (∀ j, j < nodeCount L node → ((st.nodes node).log j).addr ≠ a) →
        searchFull st a (hashAddress a) fuel (i + 1) (node - 1) = some (n, k) →
        LastAt st L a n k := by
      intro hin hs
      cases fuel with
      | zero => cases hs
      | succ f =>
        have hn1 : 1 ≤ node := by omega
        refine ih (i + 1) (node - 1) (by omega) (by omega) ?_ n k hs
        have e : node - 1 + 1 = node := by omega
        rw [e]
        exact after_of_node st L a node hin hafter
    unfold searchFull
    by_cases hi16 : i = 16
    · simp only [hi16, if_true]
      intro h; cases h
    · simp only [hi16, if_false]
      by_cases hh : hashAddress ((st.nodes node).log ((st.nodes node).buckets (hashAddress a))).addr
          = hashAddress a
      · simp only [hh, if_true]
        have hbc : (st.nodes node).buckets (hashAddress a) < nodeCount L node := by
          have hb := (hok node).bucket_lt (hashAddress a)
          unfold nodeCount
          simp only [MAXLOGSIZE] at *
          omega
        obtain ⟨s1, s2⟩ := node_hit _ a _ (hok node) hh hbc
        cases hfind : findInBucket (st.nodes node) a MAXLOGSIZE
            (some ((st.nodes node).buckets (hashAddress a))) with
        | some k1 =>
          simp only
          intro h
          have e := Option.some.inj h
          have en : node = n := congrArg Prod.fst e
          have ek : k1 = k := congrArg Prod.snd e
          subst en; subst ek
          obtain ⟨t1, t2, t3⟩ := s1 k1 hfind
          exact lastAt_of_node st L a node k1 t1 t2 t3 hafter
        | none =>
          simp only
          exact hrec (s2 hfind)
      · simp only [hh, if_false]
        exact hrec (node_no_hit _ a _ (hok node) (Or.inl hh))

/-! ### Replaying the log -/

theorem replayed_congr (st st1 : State) (offset : Nat) (m : Mem) :
    ∀ n, (∀ p, p < n → st1.entryAt p = st.entryAt p) →
      st1.replayed offset n m = st.replayed offset n m := by
  intro n
  induction n with
  | zero => intro _; rfl
  | succ n ih =>
    intro h
    unfold State.replayed
    rw [ih (fun p hp => h p (by omega)), h n (by omega)]

/-- Changing the value of the last entry that holds `a` changes the replayed memory as a
store to `a` does. -/
theorem replayed_update (st st1 : State) (offset a v p : Nat) (m0 : Mem)
    (hsame : ∀ q, q ≠ p → st1.entryAt q = st.entryAt q)
    (haddr1 : (st1.entryAt p).addr = a) (haddr : (st.entryAt p).addr = a)
    (hval : (st1.entryAt p).val = v) (hal : a % 8 = 0) :
    ∀ n, p < n → (∀ q, p < q → q < n → (st.entryAt q).addr ≠ a ∧ (st.entryAt q).addr % 8 = 0) →
      st1.replayed offset n m0 = store64 (st.replayed offset n m0) (a + offset) v := by
  intro n
  induction n with
  | zero => intro h; exact absurd h (Nat.not_lt_zero _)
  | succ n ih =>
    intro hp hq
    by_cases hpn : p = n
    · subst hpn
      unfold State.replayed
      rw [replayed_congr st st1 offset m0 p (fun q hq1 => hsame q (by omega)), haddr1, hval, haddr,
        store64_store64_same]
    · unfold State.replayed
      rw [ih (by omega) (fun q h1 h2 => hq q h1 (by omega)), hsame n (fun h => hpn h.symm)]
      obtain ⟨hne, hal2⟩ := hq n (by omega) (by omega)
      apply store64_comm
      omega

theorem replayed_outside (g : Globals) (st : State) (offset : Nat) (m0 : Mem)
    (hg1 : g.g_main_addr % 8 = 0) (hg2 : g.g_main_size % 8 = 0) :
    ∀ n, (∀ p, p < n → ADDR_IS_IN_MAIN g (st.entryAt p).addr = true ∧ (st.entryAt p).addr % 8 = 0) →
      ∀ y, (∀ x, ADDR_IS_IN_MAIN g x = true → y ≠ x + offset) →
        st.replayed offset n m0 y = m0 y := by
  intro n
  induction n with
  | zero => intro _ y _; rfl
  | succ n ih =>
    intro h y hy
    unfold State.replayed
    obtain ⟨h1, h2⟩ := h n (by omega)
    rw [store64_other, ih (fun p hp => h p (by omega)) y hy]
    by_contra hc
    have hy1 := hy (y - offset) (by
      have : y - offset = (st.entryAt n).addr + (y - offset - (st.entryAt n).addr) := by omega
      rw [this]
      exact in_main_add g _ _ h1 h2 hg1 hg2 (by omega))
    omega

/-- Replaying the same log at two offsets, on memories whose replicas at these offsets
agree, gives replicas that agree. -/
theorem replayed_view (g : Globals) (st : State) (o1 o2 : Nat) (m1 m2 : Mem)
    (_hg1 : g.g_main_addr % 8 = 0) (_hg2 : g.g_main_size % 8 = 0)
    (h : ∀ x, ADDR_IS_IN_MAIN g x = true → m1 (x + o1) = m2 (x + o2)) :
    ∀ n, (∀ p, p < n → ADDR_IS_IN_MAIN g (st.entryAt p).addr = true ∧ (st.entryAt p).addr % 8 = 0) →
      ∀ x, ADDR_IS_IN_MAIN g x = true →
        st.replayed o1 n m1 (x + o1) = st.replayed o2 n m2 (x + o2) := by
  intro n
  induction n with
  | zero => intro _ x hx; exact h x hx
  | succ n ih =>
    intro hm x hx
    unfold State.replayed
    have ih1 := ih (fun p hp => hm p (by omega)) x hx
    unfold store64
    by_cases hc : (st.entryAt n).addr ≤ x ∧ x < (st.entryAt n).addr + 8
    · have c1 : (st.entryAt n).addr + o1 ≤ x + o1 ∧ x + o1 < (st.entryAt n).addr + o1 + 8 := by
        omega
      have c2 : (st.entryAt n).addr + o2 ≤ x + o2 ∧ x + o2 < (st.entryAt n).addr + o2 + 8 := by
        omega
      have e1 : x + o1 - ((st.entryAt n).addr + o1) = x - (st.entryAt n).addr := by omega
      have e2 : x + o2 - ((st.entryAt n).addr + o2) = x - (st.entryAt n).addr := by omega
      simp only [c1, c2, and_self, if_true, e1, e2]
    · have c1 : ¬ ((st.entryAt n).addr + o1 ≤ x + o1 ∧ x + o1 < (st.entryAt n).addr + o1 + 8) := by
        omega
      have c2 : ¬ ((st.entryAt n).addr + o2 ≤ x + o2 ∧ x + o2 < (st.entryAt n).addr + o2 + 8) := by
        omega
      simp only [c1, c2, if_false]
      exact ih1

/-! ### `addAddrIfAbsent` -/

theorem NodeOK_congr (nd nd1 : WriteSetNode) (c : Nat) (hb : ∀ h, nd1.buckets h = nd.buckets h)
    (ha : ∀ k, (nd1.log k).addr = (nd.log k).addr)
    (hn : ∀ k, (nd1.log k).next = (nd.log k).next) (hok : NodeOK nd c) : NodeOK nd1 c := by
  refine ⟨?_, ?_, ?_⟩
  · intro h
    rw [hb]
    exact hok.bucket_lt h
  · intro k hk
    have := hok.bucket_cur k hk
    simp only [hb, ha]
    exact this
  · intro k hk
    have := hok.next_ok k hk
    unfold NextOK at *
    simp only [ha, hn]
    exact this

theorem setVal_nodes (st : State) (n k v n1 : Nat) :
    (st.setVal n k v).nodes n1
      = if n1 = n then
          { (st.nodes n) with
            log := fun j => if j = k then { ((st.nodes n).log k) with val := v }
              else (st.nodes n).log j }
        else st.nodes n1 := rfl

theorem setVal_entryAt (st : State) (n k v q : Nat) :
    (st.setVal n k v).entryAt q
      = if q / MAXLOGSIZE = n ∧ q % MAXLOGSIZE = k then { (st.entryAt q) with val := v }
        else st.entryAt q := by
  unfold State.entryAt
  rw [setVal_nodes]
  by_cases h1 : q / MAXLOGSIZE = n
  · by_cases h2 : q % MAXLOGSIZE = k
    · simp only [h1, h2, if_true, and_self]
    · simp only [h1, h2, if_true, if_false, and_false]
  · simp only [h1, if_false, false_and]

/-- The log after the value of the last entry that holds `a` has been replaced. -/
theorem setVal_rel (g : Globals) (st : State) (offset : Nat) (m0 m : Mem) (a v n k : Nat)
    (hrel : LogRel g st offset m0 m) (hal : a % 8 = 0) (hlast : LastAt st st.lSize a n k) :
    LogRel g (st.setVal n k v) offset m0 (store64 m (a + offset) v) := by
  obtain ⟨hk, hka, hafter⟩ := hlast
  obtain ⟨e1, e2, e3⟩ := node_pos st.lSize n k hk
  have hentry : ∀ q, (st.setVal n k v).entryAt q
      = if q = MAXLOGSIZE * n + k then { (st.entryAt q) with val := v } else st.entryAt q := by
    intro q
    rw [setVal_entryAt]
    by_cases hq : q = MAXLOGSIZE * n + k
    · subst hq
      simp only [e1, e2, and_self, if_true]
    · have : ¬ (q / MAXLOGSIZE = n ∧ q % MAXLOGSIZE = k) := by
        intro ⟨h1, h2⟩
        apply hq
        have := Nat.div_add_mod q MAXLOGSIZE
        rw [h1, h2] at this
        exact this.symm
      simp only [this, hq, if_false]
  have hpa : (st.entryAt (MAXLOGSIZE * n + k)).addr = a := by
    unfold State.entryAt
    rw [e1, e2]
    exact hka
  refine ⟨⟨hrel.ok.tail_eq, hrel.ok.nodes_gt, ?_⟩, ?_, ?_⟩
  · intro n1
    show NodeOK ((st.setVal n k v).nodes n1) (nodeCount st.lSize n1)
    rw [setVal_nodes]
    by_cases hn : n1 = n
    · subst hn
      simp only [if_true]
      refine NodeOK_congr (st.nodes n1) _ _ (fun _ => rfl) ?_ ?_ (hrel.ok.node_ok n1)
      · intro j
        by_cases hj : j = k
        · simp only [hj, if_true]
        · simp only [hj, if_false]
      · intro j
        by_cases hj : j = k
        · simp only [hj, if_true]
        · simp only [hj, if_false]
    · simp only [hn, if_false]
      exact hrel.ok.node_ok n1
  · intro p hp
    have hp1 : p < st.lSize := hp
    rw [hentry]
    by_cases hq : p = MAXLOGSIZE * n + k
    · simp only [hq, if_true]
      rw [← hq]
      exact hrel.main p hp1
    · simp only [hq, if_false]
      exact hrel.main p hp1
  · show (st.setVal n k v).replayed offset st.lSize m0 = _
    rw [replayed_update st (st.setVal n k v) offset a v (MAXLOGSIZE * n + k) m0
      (fun q hq => by rw [hentry]; simp only [hq, if_false])
      (by rw [hentry]; simp only [if_true]; exact hpa) hpa
      (by rw [hentry]; simp only [if_true]) hal st.lSize e3
      (fun q h1 h2 => ⟨hafter q h1 h2, (hrel.main q h2).2⟩), hrel.rep]

theorem appendEntry_nodes (st : State) (T L a old v h n1 : Nat) :
    (appendEntry st T L a old v h).nodes n1
      = if n1 = T then
          addAddress (st.nodes T) L a old v h
            (if (st.nodes T).buckets h < L % MAXLOGSIZE ∧
                hashAddress ((st.nodes T).log ((st.nodes T).buckets h)).addr = h
              then some ((st.nodes T).buckets h) else none)
        else st.nodes n1 := rfl

/-- The node that receives a new entry is well formed for one entry more. -/
theorem appended_ok (nd : WriteSetNode) (e a old v : Nat) (hok : NodeOK nd e)
    (he : e < MAXLOGSIZE) :
    NodeOK
      { log := fun k => if k = e then
            { addr := a, oldval := old, val := v,
              next := if nd.buckets (hashAddress a) < e ∧
                  hashAddress (nd.log (nd.buckets (hashAddress a))).addr = hashAddress a
                then some (nd.buckets (hashAddress a)) else none }
          else nd.log k,
        buckets := fun h => if h = hashAddress a then e else nd.buckets h } (e + 1) := by
  refine ⟨?_, ?_, ?_⟩
  · intro h
    show (if h = hashAddress a then e else nd.buckets h) < MAXLOGSIZE
    split
    · exact he
    · exact hok.bucket_lt h
  · intro k hk
    dsimp only
    by_cases hke : k = e
    · subst hke
      simp only [if_true]
      exact ⟨Nat.le_refl _, Nat.lt_succ_self _, trivial⟩
    · have hk1 : k < e := by omega
      obtain ⟨b1, b2, b3⟩ := hok.bucket_cur k hk1
      simp only [hke, if_false]
      by_cases hh : hashAddress (nd.log k).addr = hashAddress a
      · simp only [hh, if_true]
        exact ⟨by omega, by omega, trivial⟩
      · simp only [hh, if_false]
        have hbe : nd.buckets (hashAddress (nd.log k).addr) ≠ e := by omega
        simp only [hbe, if_false]
        exact ⟨b1, by omega, b3⟩
  · intro k hk
    unfold NextOK
    dsimp only
    by_cases hke : k = e
    · subst hke
      simp only [if_true]
      by_cases hc : nd.buckets (hashAddress a) < k ∧
          hashAddress (nd.log (nd.buckets (hashAddress a))).addr = hashAddress a
      · simp only [hc, and_self, if_true]
        refine ⟨?_, fun h => by cases h⟩
        intro j hj
        have hjb : nd.buckets (hashAddress a) = j := Option.some.inj hj
        subst hjb
        have hne : nd.buckets (hashAddress a) ≠ k := by omega
        simp only [hne, if_false]
        refine ⟨hc.1, hc.2, ?_⟩
        intro i hi1 hi2
        have hik : i ≠ k := by omega
        simp only [hik, if_false]
        intro hh
        obtain ⟨b1, -, -⟩ := hok.bucket_cur i hi2
        rw [hh] at b1
        omega
      · simp only [hc, if_false]
        refine ⟨(fun j hj => by cases hj), ?_⟩
        intro _ i hi
        have hik : i ≠ k := by omega
        simp only [hik, if_false]
        intro hh
        obtain ⟨-, b2, b3⟩ := hok.bucket_cur i hi
        rw [hh] at b2 b3
        exact hc ⟨b2, b3⟩
    · have hk1 : k < e := by omega
      obtain ⟨n1, n2⟩ := hok.next_ok k hk1
      simp only [hke, if_false]
      refine ⟨?_, ?_⟩
      · intro j hj
        obtain ⟨c1, c2, c3⟩ := n1 j hj
        have hje : j ≠ e := by omega
        simp only [hje, if_false]
        refine ⟨c1, c2, ?_⟩
        intro i hi1 hi2
        have hie : i ≠ e := by omega
        simp only [hie, if_false]
        exact c3 i hi1 hi2
      · intro hj i hi
        have hie : i ≠ e := by omega
        simp only [hie, if_false]
        exact n2 hj i hi

theorem nodeCount_at (L : Nat) : nodeCount L (L / MAXLOGSIZE) = L % MAXLOGSIZE := by
  unfold nodeCount
  simp only [MAXLOGSIZE]
  omega

theorem nodeCount_succ_at (L : Nat) :
    nodeCount (L + 1) (L / MAXLOGSIZE) = L % MAXLOGSIZE + 1 := by
  unfold nodeCount
  simp only [MAXLOGSIZE]
  omega

theorem nodeCount_succ_ne (L n : Nat) (h : n ≠ L / MAXLOGSIZE) :
    nodeCount (L + 1) n = nodeCount L n := by
  unfold nodeCount
  simp only [MAXLOGSIZE] at *
  omega

/-- The log after a new entry for `a` has been appended to node `L / MAXLOGSIZE`. -/
theorem appendEntry_rel (g : Globals) (st : State) (offset : Nat) (m0 m : Mem) (L a old v : Nat)
    (hnodes : ∀ n, NodeOK (st.nodes n) (nodeCount L n))
    (hmain : ∀ p, p < L →
      ADDR_IS_IN_MAIN g (st.entryAt p).addr = true ∧ (st.entryAt p).addr % 8 = 0)
    (hrep : st.replayed offset L m0 = m)
    (htail : st.logTail = L / MAXLOGSIZE) (hnum : st.logTail < st.numNodes)
    (ha : ADDR_IS_IN_MAIN g a = true) (hal : a % 8 = 0) :
    LogRel g (appendEntry st (L / MAXLOGSIZE) L a old v (hashAddress a)) offset m0
      (store64 m (a + offset) v) := by
  have hL : (appendEntry st (L / MAXLOGSIZE) L a old v (hashAddress a)).lSize = L + 1 := rfl
  have hentry : ∀ q, q ≠ L →
      (appendEntry st (L / MAXLOGSIZE) L a old v (hashAddress a)).entryAt q = st.entryAt q := by
    intro q hq
    unfold State.entryAt
    rw [appendEntry_nodes]
    by_cases hn : q / MAXLOGSIZE = L / MAXLOGSIZE
    · simp only [hn, if_true]
      have hk : q % MAXLOGSIZE ≠ L % MAXLOGSIZE := by
        intro hk
        apply hq
        rw [← Nat.div_add_mod q MAXLOGSIZE, ← Nat.div_add_mod L MAXLOGSIZE, hn, hk]
      show (if q % MAXLOGSIZE = L % MAXLOGSIZE then _ else _) = _
      simp only [hk, if_false]
    · simp only [hn, if_false]
  have hnew : (appendEntry st (L / MAXLOGSIZE) L a old v (hashAddress a)).entryAt L
      = { addr := a, oldval := old, val := v,
          next := if (st.nodes (L / MAXLOGSIZE)).buckets (hashAddress a) < L % MAXLOGSIZE ∧
              hashAddress ((st.nodes (L / MAXLOGSIZE)).log
                ((st.nodes (L / MAXLOGSIZE)).buckets (hashAddress a))).addr = hashAddress a
            then some ((st.nodes (L / MAXLOGSIZE)).buckets (hashAddress a)) else none } := by
    unfold State.entryAt
    rw [appendEntry_nodes]
    simp only [if_true]
    show (if L % MAXLOGSIZE = L % MAXLOGSIZE then _ else _) = _
    simp only [if_true]
  refine ⟨⟨?_, ?_, ?_⟩, ?_, ?_⟩
  · show st.logTail = (L + 1 - 1) / MAXLOGSIZE
    rw [htail]; rfl
  · exact hnum
  · intro n
    rw [hL, appendEntry_nodes]
    by_cases hn : n = L / MAXLOGSIZE
    · subst hn
      simp only [if_true]
      rw [nodeCount_succ_at]
      have := hnodes (L / MAXLOGSIZE)
      rw [nodeCount_at] at this
      exact appended_ok _ _ a old v this (Nat.mod_lt _ (by decide))
    · simp only [hn, if_false]
      rw [nodeCount_succ_ne L n hn]
      exact hnodes n
  · intro p hp
    rw [hL] at hp
    by_cases hpL : p = L
    · subst hpL
      rw [hnew]
      exact ⟨ha, hal⟩
    · rw [hentry p hpL]
      exact hmain p (by omega)
  · rw [hL]
    unfold State.replayed
    rw [replayed_congr st _ offset m0 L (fun p hp => hentry p (by omega)), hrep, hnew]

/-- The log after `addAddrIfAbsent` records one more store, to the aligned cell `a` of
the main region. -/
theorem addAddrIfAbsent_rel (g : Globals) (st : State) (offset : Nat) (m0 m : Mem) (a old v : Nat)
    (hrel : LogRel g st offset m0 m) (ha : ADDR_IS_IN_MAIN g a = true) (hal : a % 8 = 0) :
    LogRel g (addAddrIfAbsent st a old v).2 offset m0 (store64 m (a + offset) v) := by
  unfold addAddrIfAbsent
  dsimp only
  by_cases h0 : st.lSize = 0
  · simp only [h0, if_true]
    have ht : st.logTail = 0 := by rw [hrel.ok.tail_eq, h0]; rfl
    have hn := hrel.ok.node_ok
    rw [h0] at hn
    have := appendEntry_rel g st offset m0 m 0 a old v hn
      (fun p hp => absurd hp (Nat.not_lt_zero _))
      (by have := hrel.rep; rw [h0] at this; exact this)
      (by rw [ht]; rfl) hrel.ok.nodes_gt ha hal
    rw [ht]
    exact this
  · simp only [h0, if_false]
    by_cases hm : st.lSize % MAXLOGSIZE = 0
    · simp only [hm, if_true]
      have htl : st.logTail + 1 = st.lSize / MAXLOGSIZE := by
        rw [hrel.ok.tail_eq]
        simp only [MAXLOGSIZE] at *
        omega
      cases hs : searchFull st a (hashAddress a) (st.lSize / MAXLOGSIZE) 0 st.logTail with
      | some nk =>
        obtain ⟨n, k⟩ := nk
        simp only
        have := searchFull_spec st a st.lSize hrel.ok.node_ok hm (st.lSize / MAXLOGSIZE) 0
          st.logTail (by omega) (by omega)
          (fun p h1 h2 => by
            exfalso
            simp only [MAXLOGSIZE] at *
            omega) n k hs
        exact setVal_rel g st offset m0 m a v n k hrel hal this
      | none =>
        simp only
        rw [htl]
        by_cases hnn : st.lSize / MAXLOGSIZE < st.numNodes
        · simp only [hnn, if_true]
          exact appendEntry_rel g { st with logTail := st.lSize / MAXLOGSIZE } offset m0 m
            st.lSize a old v hrel.ok.node_ok hrel.main
            ((replayed_congr st { st with logTail := st.lSize / MAXLOGSIZE } offset m0 st.lSize
              (fun _ _ => rfl)).trans hrel.rep)
            rfl hnn ha hal
        · simp only [hnn, if_false]
          have hnode : ∀ n1, ({ (st.setNode (st.lSize / MAXLOGSIZE) {}) with
              numNodes := st.logTail + 2, logTail := st.lSize / MAXLOGSIZE } : State).nodes n1
              = if n1 = st.lSize / MAXLOGSIZE then {} else st.nodes n1 := fun _ => rfl
          refine appendEntry_rel g _ offset m0 m st.lSize a old v ?_ ?_ ?_ rfl
            (by show st.lSize / MAXLOGSIZE < st.logTail + 2; omega) ha hal
          · intro n1
            rw [hnode]
            by_cases h1 : n1 = st.lSize / MAXLOGSIZE
            · simp only [h1, if_true]
              have hc : nodeCount st.lSize (st.lSize / MAXLOGSIZE) = 0 := by
                rw [nodeCount_at]; exact hm
              rw [hc]
              exact ⟨fun _ => (by decide : MAXLOGSIZE - 1 < MAXLOGSIZE), fun k hk => absurd hk (Nat.not_lt_zero _),
                fun k hk => absurd hk (Nat.not_lt_zero _)⟩
            · simp only [h1, if_false]
              exact hrel.ok.node_ok n1
          · intro p hp
            have : State.entryAt ({ (st.setNode (st.lSize / MAXLOGSIZE) {}) with
                numNodes := st.logTail + 2, logTail := st.lSize / MAXLOGSIZE } : State) p
                = st.entryAt p := by
              unfold State.entryAt
              rw [hnode]
              have hne : p / MAXLOGSIZE ≠ st.lSize / MAXLOGSIZE := by
                simp only [MAXLOGSIZE] at *
                omega
              simp only [hne, if_false]
            rw [this]
            exact hrel.main p hp
          · rw [replayed_congr st _ offset m0 st.lSize, hrel.rep]
            intro p hp
            unfold State.entryAt
            rw [hnode]
            have hne : p / MAXLOGSIZE ≠ st.lSize / MAXLOGSIZE := by
              simp only [MAXLOGSIZE] at *
              omega
            simp only [hne, if_false]
    · simp only [hm, if_false]
      have htl : st.logTail = st.lSize / MAXLOGSIZE := by
        rw [hrel.ok.tail_eq]
        simp only [MAXLOGSIZE] at *
        omega
      cases hs : searchPart st a (hashAddress a) st.lSize (st.lSize / MAXLOGSIZE + 1) 0
          st.logTail with
      | some nk =>
        obtain ⟨n, k⟩ := nk
        simp only
        have := searchPart_spec st a st.lSize hrel.ok.node_ok (st.lSize / MAXLOGSIZE + 1) 0
          st.logTail (by omega) (by omega)
          (fun p h1 h2 => by
            exfalso
            simp only [MAXLOGSIZE] at *
            omega) n k hs
        exact setVal_rel g st offset m0 m a v n k hrel hal this
      | none =>
        simp only
        rw [htl]
        exact appendEntry_rel g st offset m0 m st.lSize a old v hrel.ok.node_ok hrel.main
          hrel.rep htl hrel.ok.nodes_gt ha hal

/-! ### `copy_redolog` replays the log -/

theorem entryAt_in_node (st : State) (nd i : Nat) (hi : i < MAXLOGSIZE) :
    st.entryAt (MAXLOGSIZE * nd + i) = (st.nodes nd).log i := by
  unfold State.entryAt
  have e1 : (MAXLOGSIZE * nd + i) / MAXLOGSIZE = nd := by
    simp only [MAXLOGSIZE] at *; omega
  have e2 : (MAXLOGSIZE * nd + i) % MAXLOGSIZE = i := by
    simp only [MAXLOGSIZE] at *; omega
  rw [e1, e2]

theorem redoNode_replayed (g : Globals) (st : State) (offset nd : Nat) (m0 : Mem) :
    ∀ n i, i + n ≤ MAXLOGSIZE →
      (∀ p, p < MAXLOGSIZE * nd + i + n → ADDR_IS_IN_MAIN g (st.entryAt p).addr = true) →
      redoNode g (st.nodes nd) offset n i (st.replayed offset (MAXLOGSIZE * nd + i) m0)
        = (false, st.replayed offset (MAXLOGSIZE * nd + i + n) m0) := by
  intro n
  induction n with
  | zero => intro i _ _; rfl
  | succ n ih =>
    intro i hi hm
    unfold redoNode
    have he := entryAt_in_node st nd i (by omega)
    have hmain := hm (MAXLOGSIZE * nd + i) (by omega)
    rw [he] at hmain
    simp only [hmain, if_true]
    have hstep : store64 (st.replayed offset (MAXLOGSIZE * nd + i) m0)
        (((st.nodes nd).log i).addr + offset) ((st.nodes nd).log i).val
        = st.replayed offset (MAXLOGSIZE * nd + (i + 1)) m0 := by
      have : MAXLOGSIZE * nd + (i + 1) = (MAXLOGSIZE * nd + i) + 1 := by omega
      rw [this]
      conv_rhs => unfold State.replayed
      rw [he]
    rw [hstep, ih (i + 1) (by omega) (fun p hp => hm p (by omega))]
    have : MAXLOGSIZE * nd + (i + 1) + n = MAXLOGSIZE * nd + i + (n + 1) := by omega
    rw [this]

theorem redoChain_replayed (g : Globals) (st : State) (R offset : Nat) (m0 : Mem)
    (hnum : (R - 1) / MAXLOGSIZE < st.numNodes)
    (hm : ∀ p, p < R → ADDR_IS_IN_MAIN g (st.entryAt p).addr = true) :
    ∀ fuel node, MAXLOGSIZE * node < R → R ≤ MAXLOGSIZE * (node + fuel) →
      redoChain g st R offset fuel node (MAXLOGSIZE * node)
          (st.replayed offset (MAXLOGSIZE * node) m0)
        = some (st.replayed offset R m0) := by
  intro fuel
  induction fuel with
  | zero => intro node h1 h2; exfalso; simp only [MAXLOGSIZE] at *; omega
  | succ fuel ih =>
    intro node h1 h2
    unfold redoChain
    by_cases hlast : R - MAXLOGSIZE * node < MAXLOGSIZE
    · simp only [hlast, if_true]
      have hlen : MAXLOGSIZE * node + R % MAXLOGSIZE = R := by
        simp only [MAXLOGSIZE] at *; omega
      have hle : 0 + R % MAXLOGSIZE ≤ MAXLOGSIZE := by
        simp only [MAXLOGSIZE] at *; omega
      have := redoNode_replayed g st offset node m0 (R % MAXLOGSIZE) 0 hle
        (fun p hp => hm p (by omega))
      simp only [Nat.add_zero] at this
      rw [this]
      simp only [hlen, ge_iff_le, le_refl, if_true]
    · simp only [hlast, if_false]
      have := redoNode_replayed g st offset node m0 MAXLOGSIZE 0 (by omega)
        (fun p hp => hm p (by simp only [MAXLOGSIZE] at *; omega))
      simp only [Nat.add_zero] at this
      rw [this]
      simp only
      by_cases hend : MAXLOGSIZE * node + MAXLOGSIZE ≥ R
      · simp only [hend, if_true]
        have : MAXLOGSIZE * node + MAXLOGSIZE = R := by omega
        rw [this]
      · simp only [hend, if_false]
        have hn : node + 1 < st.numNodes := by
          simp only [MAXLOGSIZE] at *; omega
        simp only [hn, if_true]
        have e : MAXLOGSIZE * node + MAXLOGSIZE = MAXLOGSIZE * (node + 1) := by
          simp only [MAXLOGSIZE]; omega
        rw [e]
        exact ih (node + 1) (by omega) (by simp only [MAXLOGSIZE] at *; omega)

/-- The method `copy_redolog` writes the entries of a well-formed log in their order. -/
theorem copy_redolog_replayed (g : Globals) (st : State) (R offset : Nat) (m0 : Mem)
    (hR : 0 < R) (hnum : (R - 1) / MAXLOGSIZE < st.numNodes)
    (hm : ∀ p, p < R → ADDR_IS_IN_MAIN g (st.entryAt p).addr = true) :
    copy_redolog g st R offset m0 = some (st.replayed offset R m0) := by
  unfold copy_redolog
  have := redoChain_replayed g st R offset m0 hnum hm (R + 1) 0 (by omega)
    (by simp only [MAXLOGSIZE]; omega)
  simpa using this

/-! ### Closures that log their stores -/

theorem opt_pstore_rel (g : Globals) (offset : Nat) (st : State) (m m0 : Mem) (a v : Nat)
    (hrel : LogRel g st offset m0 m) (h : ADDR_IS_IN_MAIN g a = true) (hal : a % 8 = 0) :
    LogRel g (pstore g offset st m a v).1 offset m0 (pstore g offset st m a v).2 := by
  unfold pstore
  by_cases ho : offset = 0
  · subst ho
    simp only [ne_eq, not_true_eq_false, false_and, if_false, opt_in_main_in_region g a h,
      if_true, Nat.sub_zero]
    by_cases hv : load64 m a = v
    · simp only [hv, not_true_eq_false, if_false]
      exact hrel
    · simp only [hv, not_false_eq_true, if_true]
      have := addAddrIfAbsent_rel g st 0 m0 m a (load64 m a) v hrel h hal
      simpa using this
  · simp only [ne_eq, ho, not_false_eq_true, h, and_self, if_true]
    by_cases hv : load64 m (a + offset) = v
    · simp only [hv, not_true_eq_false, if_false]
      exact hrel
    · simp only [hv, not_false_eq_true, if_true]
      exact addAddrIfAbsent_rel g st offset m0 m a (load64 m (a + offset)) v hrel h hal

/-- Running a closure on the replica at `offset`, which agrees with the memory `V` on the
main region: the outcome is that of the reference run on `V`, the replica agrees with
the reference memory afterwards, no byte outside the replica changes, and the log
records the stores. -/
theorem opt_exec_logged (tid : Nat) (p : Nat × Nat) (g : Globals) (offset bound : Nat)
    (hg1 : g.g_main_addr % 8 = 0) (hg2 : g.g_main_size % 8 = 0) (m0 : Mem) (f : Prog) :
    ∀ (s : RedoOpt) (V : Mem), s.g = g → (s.tlocal tid).st = some p →
      (s.tlocal tid).tl_cx_size = offset → Prog.cellsIn g bound f V = true →
      (∀ x, ADDR_IS_IN_MAIN g x = true → s.mem (x + offset) = V x) →
      LogRel g (s.getState p) offset m0 s.mem →
      ∃ st1 m1, exec tid f s = ((f.run V).1, (s.setState p st1).setMem m1) ∧
        st1.ticket = (s.getState p).ticket ∧ st1.applied = (s.getState p).applied ∧
        st1.results = (s.getState p).results ∧ st1.logSize = (s.getState p).logSize ∧
        (∀ x, ADDR_IS_IN_MAIN g x = true → m1 (x + offset) = (f.run V).2 x) ∧
        (∀ y, (∀ x, ADDR_IS_IN_MAIN g x = true → y ≠ x + offset) → m1 y = s.mem y) ∧
        LogRel g st1 offset m0 m1 := by
  induction f with
  | ret r =>
    intro s V hg hst hoff hf hV hrel
    refine ⟨s.getState p, s.mem, ?_, rfl, rfl, rfl, rfl, hV, fun _ _ => rfl, hrel⟩
    simp only [exec, Prog.run]
    rw [opt_setState_getState]
    rfl
  | raise e =>
    intro s V hg hst hoff hf hV hrel
    refine ⟨s.getState p, s.mem, ?_, rfl, rfl, rfl, rfl, hV, fun _ _ => rfl, hrel⟩
    simp only [exec, Prog.run]
    rw [opt_setState_getState]
    rfl
  | pload a k ih =>
    intro s V hg hst hoff hf hV hrel
    simp only [Prog.cellsIn, Bool.and_eq_true, decide_eq_true_eq] at hf
    obtain ⟨⟨ha, hal⟩, hk⟩ := hf
    have hl : RedoDB.pload s.g (s.tlocal tid).tl_cx_size s.mem a = load64 V a := by
      rw [hg, hoff, pload_main g offset s.mem a ha]
      apply load64_congr2
      intro i hi
      have := hV (a + i) (in_main_add g a i ha hal hg1 hg2 hi)
      rw [← this]
      congr 1
      omega
    simp only [exec, Prog.run, hl]
    exact ih (load64 V a) s V hg hst hoff hk hV hrel
  | pstore a v k ih =>
    intro s V hg hst hoff hf hV hrel
    simp only [Prog.cellsIn, Bool.and_eq_true, decide_eq_true_eq] at hf
    obtain ⟨⟨⟨ha, hal⟩, -⟩, hk⟩ := hf
    have hm1 := opt_pstore_mem g offset (s.getState p) s.mem a v ha
    obtain ⟨ht1, ha1, hr1, hl1⟩ := opt_pstore_state g offset (s.getState p) s.mem a v
    have hrel1 := opt_pstore_rel g offset (s.getState p) s.mem m0 a v hrel ha hal
    have hV1 : ∀ x, ADDR_IS_IN_MAIN g x = true →
        (pstore g offset (s.getState p) s.mem a v).2 (x + offset) = store64 V a v x := by
      intro x hx
      rw [hm1]
      unfold store64
      by_cases hc : a ≤ x ∧ x < a + 8
      · have c1 : a + offset ≤ x + offset ∧ x + offset < a + offset + 8 := by omega
        have e1 : x + offset - (a + offset) = x - a := by omega
        simp only [c1, hc, and_self, if_true, e1]
      · have c1 : ¬ (a + offset ≤ x + offset ∧ x + offset < a + offset + 8) := by omega
        simp only [c1, hc, if_false]
        exact hV x hx
    have := ih ((s.setState p (pstore g offset (s.getState p) s.mem a v).1).setMem
        (pstore g offset (s.getState p) s.mem a v).2) (store64 V a v)
      hg hst hoff hk hV1 (by
        simp only [opt_setMem_getState, opt_setState_getState_eq, if_true, opt_setMem_mem_eq]
        exact hrel1)
    obtain ⟨st1, m1, he, h1, h2, h3, h4, h5, h6, h7⟩ := this
    refine ⟨st1, m1, ?_, ?_, ?_, ?_, ?_, h5, ?_, h7⟩
    · simp only [exec, Prog.run, hst, hg, hoff]
      rw [he, opt_setState_setState]
    · simpa [ht1] using h1
    · simpa [ha1] using h2
    · simpa [hr1] using h3
    · simpa [hl1] using h4
    · intro y hy
      rw [h6 y hy]
      simp only [opt_setMem_mem_eq]
      rw [hm1]
      apply store64_other
      by_contra hc
      have hy1 := hy (y - offset) (by
        have : y - offset = a + (y - offset - a) := by omega
        rw [this]
        exact in_main_add g a _ ha hal hg1 hg2 (by omega))
      omega

/-- A closure changes no byte at or after the bound of its stores. -/
theorem cellsIn_unchanged (g : Globals) (bound : Nat) (f : Prog) :
    ∀ V, Prog.cellsIn g bound f V = true → ∀ x, bound ≤ x → (f.run V).2 x = V x := by
  induction f with
  | ret r => intro V _ x _; rfl
  | raise e => intro V _ x _; rfl
  | pload a k ih =>
    intro V hf x hx
    simp only [Prog.cellsIn, Bool.and_eq_true, decide_eq_true_eq] at hf
    simp only [Prog.run]
    exact ih (load64 V a) V hf.2 x hx
  | pstore a v k ih =>
    intro V hf x hx
    simp only [Prog.cellsIn, Bool.and_eq_true, decide_eq_true_eq] at hf
    simp only [Prog.run]
    rw [ih (store64 V a v) hf.2 x hx]
    apply store64_other
    omega

/-! ### A write transaction of a thread that runs alone -/

theorem locked_getState_of_ne (s : RedoOpt) (tid : Nat) (f : Prog)
    (hne : s.tailState ≠ s.nextState tid) (q : Nat × Nat) :
    (locked s tid f).getState q
      = if q = s.nextState tid then
          { (s.getState (s.nextState tid)) with
              ticket := s.nextTicket tid, logTail := 0, lSize := 0,
              applied := (s.getState s.tailState).applied,
              results := (s.getState s.tailState).results, logSize := 0 }
        else s.getState q := by
  simp only [locked, opt_setLocal_getState, opt_setComb_getState,
    opt_prepareState_getState _ _ _ _ hne, opt_announced_getState]

@[simp] theorem acquiredAt_g (s : RedoOpt) (tid : Nat) (f : Prog) (m5 : Mem) (h5 : Nat) :
    (acquiredAt s tid f m5 h5).g = s.g := by
  simp [acquiredAt]
@[simp] theorem acquiredAt_per (s : RedoOpt) (tid : Nat) (f : Prog) (m5 : Mem) (h5 : Nat) :
    (acquiredAt s tid f m5 h5).per = s.per := by
  simp [acquiredAt]
@[simp] theorem acquiredAt_mem (s : RedoOpt) (tid : Nat) (f : Prog) (m5 : Mem) (h5 : Nat) :
    (acquiredAt s tid f m5 h5).mem = m5 := by
  simp [acquiredAt]
@[simp] theorem acquiredAt_esloco (s : RedoOpt) (tid : Nat) (f : Prog) (m5 : Mem) (h5 : Nat) :
    (acquiredAt s tid f m5 h5).esloco = s.esloco := by
  simp [acquiredAt]
@[simp] theorem acquiredAt_ring (s : RedoOpt) (tid : Nat) (f : Prog) (m5 : Mem) (h5 : Nat) :
    (acquiredAt s tid f m5 h5).ring = s.ring := by
  simp [acquiredAt]
@[simp] theorem acquiredAt_enqueuers (s : RedoOpt) (tid : Nat) (f : Prog) (m5 : Mem) (h5 : Nat)
    (t : Nat) :
    (acquiredAt s tid f m5 h5).enqueuers t = if t = tid then some f else s.enqueuers t := by
  simp [acquiredAt]
@[simp] theorem acquiredAt_announce (s : RedoOpt) (tid : Nat) (f : Prog) (m5 : Mem) (h5 : Nat)
    (t : Nat) :
    (acquiredAt s tid f m5 h5).announce t = if t = tid then !s.announce tid else s.announce t := by
  simp [acquiredAt]
@[simp] theorem acquiredAt_lastIdx (s : RedoOpt) (tid : Nat) (f : Prog) (m5 : Mem) (h5 : Nat)
    (u : Nat) :
    ((acquiredAt s tid f m5 h5).sauron u).lastIdx = (s.sauron u).lastIdx := by
  simp [acquiredAt]
theorem acquiredAt_combs (s : RedoOpt) (tid : Nat) (f : Prog) (m5 : Mem) (h5 : Nat) (k : Nat) :
    (acquiredAt s tid f m5 h5).combs k
      = if k = other s.cur then
          { head := h5, rwLock := { (s.combs (other s.cur)).rwLock with writer := true } }
        else s.combs k := by
  simp only [acquiredAt, opt_setHead_combs_eq, opt_setMem_combs, locked_combs]
  split <;> simp
theorem acquiredAt_tlocal (s : RedoOpt) (tid : Nat) (f : Prog) (m5 : Mem) (h5 : Nat) :
    (acquiredAt s tid f m5 h5).tlocal tid
      = { st := some (s.nextState tid), tl_cx_size := s.offsetOf (other s.cur),
          tl_nested_write_trans := (s.tlocal tid).tl_nested_write_trans + 1,
          tl_nested_read_trans := (s.tlocal tid).tl_nested_read_trans } := by
  simp [acquiredAt, locked_tlocal]
theorem acquiredAt_getState (s : RedoOpt) (tid : Nat) (f : Prog) (m5 : Mem) (h5 : Nat)
    (hne : s.tailState ≠ s.nextState tid) (q : Nat × Nat) :
    (acquiredAt s tid f m5 h5).getState q
      = if q = s.nextState tid then
          { (s.getState (s.nextState tid)) with
              ticket := s.nextTicket tid, logTail := 0, lSize := 0,
              applied := (s.getState s.tailState).applied,
              results := (s.getState s.tailState).results, logSize := 0 }
        else s.getState q := by
  simp only [acquiredAt, opt_setHead_getState, opt_setMem_getState,
    locked_getState_of_ne s tid f hne]

/-- The first half of an attempt of `ns_write_transaction` of a thread that runs alone:
the request is open, `newState` is prepared and `getNewComb` locks the replica
`other cur`. -/
theorem writeAttempt_idle (s : RedoOpt) (tid uninit : Nat) (copy : Bool) (f : Prog)
    (hq : Idle s tid) :
    writeAttempt tid uninit (!s.announce tid) (sti2seq s.per.curComb) (s.nextState tid) copy none
        (announced s tid f)
      = combineAndPublish tid uninit (sti2seq s.per.curComb) s.per.curComb (s.combs s.cur).head
          (s.nextTicket tid) (s.nextState tid) (other s.cur) copy (locked s tid f) := by
  have hn : ¬ (sti2seq s.per.curComb ≥ sti2seq s.per.curComb + 2) := by omega
  have hpend : s.announce tid = (s.getState s.tailState).applied tid :=
    hq.no_pending tid hq.tid_lt
  have c1 : ¬ ((!s.announce tid) = (s.getState s.tailState).applied tid) := by
    rw [← hpend]; cases s.announce tid <;> simp
  have hscan := getNewComb_other tid s.per.curComb
    (prepareState (s.nextState tid) s.tailState (s.nextTicket tid) (announced s tid f)) s.cur
    (by simp) (by simpa using hq.locks)
  unfold writeAttempt
  simp only [opt_announced_per, hn, if_false, ne_eq, not_true_eq_false, opt_prepareState_per,
    opt_prepareState_ring, opt_announced_ring, opt_announced_combs, opt_announced_sauron,
    opt_announced_getState]
  have hr : s.ring (sti2seq s.per.curComb % RINGSIZE) = (s.combs (sti2idx s.per.curComb)).head :=
    hq.ring_cur
  have e1 : (sti2tid (s.combs (sti2idx s.per.curComb)).head,
      sti2idx (s.combs (sti2idx s.per.curComb)).head) = s.tailState := rfl
  have e2 : makeSeqTidIdx (sti2seq s.per.curComb + 1) tid (s.sauron tid).lastIdx
      = s.nextTicket tid := rfl
  have e3 : (s.combs (sti2idx s.per.curComb)).head = (s.combs s.cur).head := rfl
  simp only [hr, not_true_eq_false, false_and, if_false, e1, c1, e2, hscan]
  rw [e3]
  rfl

theorem finished_getState (s : RedoOpt) (tid : Nat) (f : Prog) (m5 : Mem) (h5 : Nat) (st1 : State)
    (m1 : Mem) (r : Nat) (hne : s.tailState ≠ s.nextState tid) (q : Nat × Nat) :
    (finished s tid f m5 h5 st1 m1 r).getState q
      = if q = s.nextState tid then
          { st1 with
              results := fun k => if k = tid then r else st1.results k,
              applied := fun k => if k = tid then !(s.getState s.tailState).applied tid
                else st1.applied k,
              logSize := st1.lSize }
        else s.getState q := by
  unfold finished
  simp only [opt_finishCommit_getState, opt_setCurComb_getState, opt_setComb_getState,
    opt_setHead_getState, opt_setState_getState_eq, opt_setMem_getState, if_true,
    acquiredAt_getState s tid f m5 h5 hne]
  by_cases h : q = s.nextState tid
  · simp [h]
  · simp [h]

theorem finished_simple (s : RedoOpt) (tid : Nat) (f : Prog) (m5 : Mem) (h5 : Nat) (st1 : State)
    (m1 : Mem) (r : Nat) :
    (finished s tid f m5 h5 st1 m1 r).g = s.g ∧
    (finished s tid f m5 h5 st1 m1 r).per.curComb
      = makeSeqTidIdx (sti2seq s.per.curComb + 1) tid (other s.cur) ∧
    (finished s tid f m5 h5 st1 m1 r).per.id = s.per.id ∧
    (finished s tid f m5 h5 st1 m1 r).per.objects = s.per.objects ∧
    (finished s tid f m5 h5 st1 m1 r).mem = m1 ∧
    (finished s tid f m5 h5 st1 m1 r).esloco = s.esloco ∧
    (∀ t, (finished s tid f m5 h5 st1 m1 r).announce t
      = if t = tid then !s.announce tid else s.announce t) := by
  unfold finished
  simp

/-- An attempt of `ns_write_transaction` of a thread that runs alone, from the point at
which the replica `other cur` is up to date (it holds on the main region the bytes of
`M`): the closure of `tid` runs on it as it runs on `M`, its stores are logged, and the
replica is published. -/
theorem combineAndPublish_idle (s : RedoOpt) (tid uninit : Nat) (copy : Bool) (f : Prog)
    (r bound : Nat) (M : Mem) (hq : Idle s tid) (m5 : Mem) (h5 : Nat)
    (hacq : acquire tid uninit (sti2seq s.per.curComb) (s.combs s.cur).head (other s.cur)
      (locked s tid f) = some (true, acquiredAt s tid f m5 h5))
    (h51 : ∀ x, ADDR_IS_IN_MAIN s.g x = true → m5 (x + s.offsetOf (other s.cur)) = M x)
    (hf : Prog.cellsIn s.g bound f M = true) (hv : (f.run M).1 = .value r) :
    ∃ st1 m1,
      combineAndPublish tid uninit (sti2seq s.per.curComb) s.per.curComb (s.combs s.cur).head
          (s.nextTicket tid) (s.nextState tid) (other s.cur) copy (locked s tid f)
        = some (.ret (.value r), some (other s.cur), finished s tid f m5 h5 st1 m1 r) ∧
      st1.applied = (s.getState s.tailState).applied ∧
      (∀ x, ADDR_IS_IN_MAIN s.g x = true → m1 (x + s.offsetOf (other s.cur)) = (f.run M).2 x) ∧
      (∀ y, (∀ x, ADDR_IS_IN_MAIN s.g x = true → y ≠ x + s.offsetOf (other s.cur)) →
        m1 y = m5 y) ∧
      LogRel s.g st1 (s.offsetOf (other s.cur)) m5 m1 := by
  have hTn : s.tailState ≠ s.nextState tid := hq.slot_ne
  have hN : (acquiredAt s tid f m5 h5).getState (s.nextState tid)
      = { (s.getState (s.nextState tid)) with
              ticket := s.nextTicket tid, logTail := 0, lSize := 0,
              applied := (s.getState s.tailState).applied,
              results := (s.getState s.tailState).results, logSize := 0 } := by
    rw [acquiredAt_getState s tid f m5 h5 hTn]; simp
  have hrel0 : LogRel s.g ((acquiredAt s tid f m5 h5).getState (s.nextState tid))
      (s.offsetOf (other s.cur)) m5 (acquiredAt s tid f m5 h5).mem := by
    rw [hN, acquiredAt_mem]
    refine ⟨⟨(by show (0 : Nat) = (0 - 1) / MAXLOGSIZE; decide), hq.nodes_pos _, ?_⟩,
      fun p hp => absurd hp (Nat.not_lt_zero _), rfl⟩
    intro n
    exact ⟨hq.buckets_lt _ n, fun k hk => absurd hk (by simp [nodeCount]),
      fun k hk => absurd hk (by simp [nodeCount])⟩
  obtain ⟨st1, m1, hex, ht1, ha1, hr1, hl1, hv1, ho1, hrel1⟩ :=
    opt_exec_logged tid (s.nextState tid) s.g (s.offsetOf (other s.cur)) bound hq.layout_addr
      hq.layout_size m5 f (acquiredAt s tid f m5 h5) M (acquiredAt_g s tid f m5 h5)
      (by rw [acquiredAt_tlocal]) (by rw [acquiredAt_tlocal]) hf
      (by rw [acquiredAt_mem]; exact h51) hrel0
  rw [hN] at ha1
  simp only at ha1
  rw [acquiredAt_mem] at ho1
  refine ⟨st1, m1, ?_, ha1, hv1, ho1, hrel1⟩
  have hpend : s.announce tid = (s.getState s.tailState).applied tid :=
    hq.no_pending tid hq.tid_lt
  have c1 : ¬ ((!s.announce tid) = (s.getState s.tailState).applied tid) := by
    rw [← hpend]; cases s.announce tid <;> simp
  have hcl := opt_combineLoop_single tid s.per.curComb (s.nextState tid) f MAX_THREADS 0 false
    (acquiredAt s tid f m5 h5) (Nat.zero_le _) (by simpa using hq.tid_lt)
    (by
      intro k _ hk hkt
      rw [hN]
      simp only [acquiredAt_announce, hkt, if_false]
      exact hq.no_pending k (by simpa using hk))
    (by
      rw [hN]
      simp only [acquiredAt_announce, if_true]
      exact c1)
    (by rw [acquiredAt_per]) (by simp)
    (by
      intro r s1 hr
      rw [hex] at hr
      have hs1 : s1 = ((acquiredAt s tid f m5 h5).setState (s.nextState tid) st1).setMem m1 :=
        (Prod.mk.inj hr).2.symm
      subst hs1
      refine ⟨rfl, ?_⟩
      simp only [opt_setMem_getState, opt_setState_getState_eq, if_true]
      rw [hN]
      exact ha1)
  rw [hex, hv] at hcl
  simp only at hcl
  unfold combineAndPublish
  simp only [hacq, acquiredAt_per, ne_eq, not_true_eq_false, if_false, hcl]
  have hfl : ∀ X : RedoOpt, (if copy = true then flushCopy X tid
      (getUsedSize X (X.tlocal tid).tl_cx_size) else some true) = some true := by
    intro X
    cases copy
    · rfl
    · simp only [if_true]
      exact flushCopy_stable _ _ _
  unfold publish
  simp only [opt_setState_per, opt_setMem_per, acquiredAt_per, ne_eq, not_true_eq_false,
    if_false, hfl, opt_setComb_per, opt_setHead_per, if_true]
  have hres : ((finished s tid f m5 h5 st1 m1 r).getState (s.nextState tid)).results tid = r := by
    rw [finished_getState s tid f m5 h5 st1 m1 r hTn]
    simp
  have hfin : ∀ X, X = finished s tid f m5 h5 st1 m1 r →
      (some (Ctl.ret (.value ((X.getState (s.nextState tid)).results tid)), some (other s.cur), X)
        : Option (Ctl × Option Nat × RedoOpt))
      = some (.ret (.value r), some (other s.cur), finished s tid f m5 h5 st1 m1 r) := by
    intro X hX
    rw [hX, hres]
  exact hfin _ rfl

/-- A write transaction of a thread that runs alone, given that the acquisition of the
replica `other cur` brings it up to date. -/
theorem ns_write_transaction_idle (s : RedoOpt) (tid uninit : Nat) (copy : Bool) (f : Prog)
    (r bound : Nat) (M : Mem) (hq : Idle s tid) (m5 : Mem) (h5 : Nat)
    (hacq : acquire tid uninit (sti2seq s.per.curComb) (s.combs s.cur).head (other s.cur)
      (locked s tid f) = some (true, acquiredAt s tid f m5 h5))
    (h51 : ∀ x, ADDR_IS_IN_MAIN s.g x = true → m5 (x + s.offsetOf (other s.cur)) = M x)
    (hf : Prog.cellsIn s.g bound f M = true) (hv : (f.run M).1 = .value r) :
    ∃ st1 m1,
      ns_write_transaction tid f uninit copy s
        = some (.value r, finished s tid f m5 h5 st1 m1 r) ∧
      st1.applied = (s.getState s.tailState).applied ∧
      (∀ x, ADDR_IS_IN_MAIN s.g x = true → m1 (x + s.offsetOf (other s.cur)) = (f.run M).2 x) ∧
      (∀ y, (∀ x, ADDR_IS_IN_MAIN s.g x = true → y ≠ x + s.offsetOf (other s.cur)) →
        m1 y = m5 y) ∧
      LogRel s.g st1 (s.offsetOf (other s.cur)) m5 m1 := by
  obtain ⟨st1, m1, hcp, h1, h2, h3, h4⟩ :=
    combineAndPublish_idle s tid uninit copy f r bound M hq m5 h5 hacq h51 hf hv
  refine ⟨st1, m1, ?_, h1, h2, h3, h4⟩
  have hw := opt_writeLoop_first tid uninit (!s.announce tid) (sti2seq s.per.curComb)
    (s.nextState tid) copy (announced s tid f) _ _ _ (by simp)
    ((writeAttempt_idle s tid uninit copy f hq).trans hcp)
  unfold ns_write_transaction
  have hnw : ¬ ((s.tlocal tid).tl_nested_write_trans > 0) := by rw [hq.nested_write]; simp
  simp only [hnw, if_false, opt_announced_announce, if_true, opt_announced_per, hw]

/-! ### The acquisition of the replica -/

theorem other_lt_combs (c : Nat) : other c < MAX_COMBINEDS := lt_trans (other_lt c) (by decide)

/-- Bytes of different replicas are different bytes. -/
theorem opt_replica_disjoint (g : Globals) (c o x y : Nat) (hco : c ≠ o)
    (hx : ADDR_IS_IN_MAIN g x = true) (hy : ADDR_IS_IN_MAIN g y = true) :
    x + c * g.g_main_size ≠ y + o * g.g_main_size := by
  simp only [ADDR_IS_IN_MAIN, Globals.g_main_addr_end, Bool.and_eq_true, decide_eq_true_eq] at hx hy
  rcases Nat.lt_or_gt_of_ne hco with h | h
  · have := Nat.mul_le_mul_right g.g_main_size (Nat.succ_le_of_lt h)
    rw [Nat.succ_mul] at this
    omega
  · have := Nat.mul_le_mul_right g.g_main_size (Nat.succ_le_of_lt h)
    rw [Nat.succ_mul] at this
    omega

theorem setHead_setMem_setHead (s : RedoOpt) (o h1 h2 : Nat) (m : Mem) :
    ((s.setHead o h1).setMem m).setHead o h2 = (s.setMem m).setHead o h2 := by
  unfold RedoOpt.setHead RedoOpt.setComb RedoOpt.setMem
  simp only
  congr 1
  funext k
  by_cases hk : k = o
  · simp [hk]
  · simp [hk]

/-- With the heads at the same sequence number `apply_redologs` replays nothing. -/
theorem acquire_fresh (s : RedoOpt) (tid uninit : Nat) (f : Prog) (hF : Fresh s tid) :
    acquire tid uninit (sti2seq s.per.curComb) (s.combs s.cur).head (other s.cur) (locked s tid f)
      = some (true, acquiredAt s tid f s.mem uninit) := by
  unfold acquire
  have hh : ((locked s tid f).combs (other s.cur)).head = (s.combs (other s.cur)).head := by
    rw [locked_combs]; simp
  simp only [hh, hF.head_ne, if_false]
  unfold apply_redologs
  have hc : sti2seq (s.combs s.cur).head + 1 - (sti2seq (s.combs (other s.cur)).head + 1) = 0 := by
    rw [hF.head_seq, hF.idle.head_seq]; omega
  dsimp only
  rw [hc]
  unfold redoLoop
  simp only [hF.head_seq, hF.idle.head_seq, ne_eq, not_true_eq_false, if_false]
  have e : (locked s tid f).setMem s.mem = locked s tid f := by
    rw [← locked_mem s tid f]
    rfl
  unfold acquiredAt
  rw [e]

/-- An idle engine whose replica `other cur` is marked as needing a copy is a recovered
engine. -/
theorem recovered_of_idle (s : RedoOpt) (tid : Nat) (hI : Idle s tid) (hu8 : s.used % 8 = 0)
    (hule : s.used ≤ s.g.g_main_size) :
    Recovered (s.setHead (other s.cur) (makeSeqTidIdx 0 1 0)) tid := by
  have hne : s.cur ≠ other s.cur := fun h => other_ne s.cur h.symm
  have hcomb : ((s.setHead (other s.cur) (makeSeqTidIdx 0 1 0)).combs s.cur) = s.combs s.cur := by
    simp only [opt_setHead_combs_eq, hne, if_false]
  have hlock : ∀ i, ((s.setHead (other s.cur) (makeSeqTidIdx 0 1 0)).combs i).rwLock
      = (s.combs i).rwLock := by
    intro i
    simp only [opt_setHead_combs_eq]
    split
    · rename_i h; rw [h]
    · rfl
  refine
    { layout_addr := hI.layout_addr, layout_size := hI.layout_size, tid_lt := hI.tid_lt,
      cur_lt := lt_trans hI.cur_lt (by decide), seq_lt := hI.seq_lt,
      locks := fun i => by rw [hlock]; exact hI.locks i,
      head_seq := ?_, ring_cur := ?_, no_pending := ?_, slot_ne := ?_,
      lastIdx_lt := hI.lastIdx_lt, other_head := ?_, used_mod := hu8, used_le := hule,
      nested_write := hI.nested_write }
  · show sti2seq ((s.setHead (other s.cur) (makeSeqTidIdx 0 1 0)).combs s.cur).head = _
    rw [hcomb]; exact hI.head_seq
  · show s.ring _ = ((s.setHead (other s.cur) (makeSeqTidIdx 0 1 0)).combs s.cur).head
    rw [hcomb]; exact hI.ring_cur
  · intro i hi
    show s.announce i = (s.getState (sti2tid
      ((s.setHead (other s.cur) (makeSeqTidIdx 0 1 0)).combs s.cur).head, sti2idx
      ((s.setHead (other s.cur) (makeSeqTidIdx 0 1 0)).combs s.cur).head)).applied i
    rw [hcomb]; exact hI.no_pending i hi
  · show (sti2tid ((s.setHead (other s.cur) (makeSeqTidIdx 0 1 0)).combs s.cur).head, sti2idx
      ((s.setHead (other s.cur) (makeSeqTidIdx 0 1 0)).combs s.cur).head) ≠ _
    rw [hcomb]; exact hI.slot_ne
  · show ((s.setHead (other s.cur) (makeSeqTidIdx 0 1 0)).combs (other s.cur)).head = _
    simp

/-- The copy of the used bytes of the current replica brings the replica `other cur` up
to date when the two agree beyond the used bytes. -/
theorem makeCopy_idle (s : RedoOpt) (tid : Nat) (f : Prog) (hI : Idle s tid)
    (hu8 : s.used % 8 = 0) (hule : s.used ≤ s.g.g_main_size)
    (hb : ∀ x, ADDR_IS_IN_MAIN s.g x = true → s.g.g_main_addr + s.used ≤ x →
      s.replica (other s.cur) x = s.replica s.cur x) :
    ∃ m5, makeCopy (other s.cur) tid (locked s tid f)
        = some (true, acquiredAt s tid f m5 (s.combs s.cur).head) ∧
      (∀ x, ADDR_IS_IN_MAIN s.g x = true →
        m5 (x + s.offsetOf (other s.cur)) = s.replica s.cur x) ∧
      (∀ y, (∀ x, ADDR_IS_IN_MAIN s.g x = true → y ≠ x + s.offsetOf (other s.cur)) →
        m5 y = s.mem y) := by
  have hne : s.cur ≠ other s.cur := fun h => other_ne s.cur h.symm
  have hq := recovered_of_idle s tid hI hu8 hule
  have hTn : s.tailState ≠ s.nextState tid := hI.slot_ne
  have hcomb : ((s.setHead (other s.cur) (makeSeqTidIdx 0 1 0)).combs s.cur) = s.combs s.cur := by
    simp only [opt_setHead_combs_eq, hne, if_false]
  obtain ⟨m5, hmc, hcop⟩ := makeCopy_recovered (s.setHead (other s.cur) (makeSeqTidIdx 0 1 0)) tid
    hq (locked s tid f) (by simp) (by simp) (by simp) (by simp)
    (by
      show ((locked s tid f).combs s.cur).head
        = ((s.setHead (other s.cur) (makeSeqTidIdx 0 1 0)).combs s.cur).head
      rw [hcomb, locked_combs]; simp only [hne, if_false])
    (by
      show ((locked s tid f).getState (sti2tid
          ((s.setHead (other s.cur) (makeSeqTidIdx 0 1 0)).combs s.cur).head, sti2idx
          ((s.setHead (other s.cur) (makeSeqTidIdx 0 1 0)).combs s.cur).head)).applied tid
        = (s.getState (sti2tid
          ((s.setHead (other s.cur) (makeSeqTidIdx 0 1 0)).combs s.cur).head, sti2idx
          ((s.setHead (other s.cur) (makeSeqTidIdx 0 1 0)).combs s.cur).head)).applied tid
      rw [hcomb]
      show ((locked s tid f).getState s.tailState).applied tid = _
      rw [locked_getState_of_ne s tid f hTn]; simp [hTn]; rfl)
    (by simp)
  have hmc2 : makeCopy (other s.cur) tid (locked s tid f)
      = some (true, ((((locked s tid f).setHead (other s.cur) (makeSeqTidIdx 0 1 0)).setMem
          m5).setHead (other s.cur)
          ((s.setHead (other s.cur) (makeSeqTidIdx 0 1 0)).combs s.cur).head)) := hmc
  have hcop2 : CopiedUpTo s.mem m5 (s.root (other s.cur)) (s.root s.cur) s.used := hcop
  rw [hcomb, setHead_setMem_setHead] at hmc2
  refine ⟨m5, hmc2, ?_, ?_⟩
  · intro x hx
    by_cases hxu : x < s.g.g_main_addr + s.used
    · have hx1 : s.g.g_main_addr ≤ x := by
        simp only [ADDR_IS_IN_MAIN, Bool.and_eq_true, decide_eq_true_eq] at hx
        exact hx.1
      exact copied_agrees s m5 hcop2 x ⟨hx1, hxu⟩
    · have := hcop2.2 (x + s.offsetOf (other s.cur)) (Or.inr (by
        unfold RedoOpt.root RedoOpt.offsetOf
        omega))
      rw [this]
      exact hb x hx (by omega)
  · intro y hy
    apply hcop2.2
    by_contra hc
    have hy1 := hy (y - s.offsetOf (other s.cur)) (by
      simp only [ADDR_IS_IN_MAIN, Globals.g_main_addr_end, Bool.and_eq_true, decide_eq_true_eq]
      unfold RedoOpt.root RedoOpt.offsetOf at *
      omega)
    unfold RedoOpt.root RedoOpt.offsetOf at *
    omega

/-- The acquisition of the replica `other cur` on a settled engine brings it up to date,
by a copy of the used bytes or by the replay of the last log. -/
theorem acquire_settled (s : RedoOpt) (tid uninit : Nat) (f : Prog) (hS : Settled s tid) :
    ∃ m5 h5, acquire tid uninit (sti2seq s.per.curComb) (s.combs s.cur).head (other s.cur)
        (locked s tid f) = some (true, acquiredAt s tid f m5 h5) ∧
      (∀ x, ADDR_IS_IN_MAIN s.g x = true →
        m5 (x + s.offsetOf (other s.cur)) = s.replica s.cur x) ∧
      (∀ y, (∀ x, ADDR_IS_IN_MAIN s.g x = true → y ≠ x + s.offsetOf (other s.cur)) →
        m5 y = s.mem y) := by
  have hI := hS.idle
  have hTn : s.tailState ≠ s.nextState tid := hI.slot_ne
  obtain ⟨mc, hmc, hc1, hc2⟩ := makeCopy_idle s tid f hI hS.used_mod hS.used_le hS.beyond
  have hh : ((locked s tid f).combs (other s.cur)).head = (s.combs (other s.cur)).head := by
    rw [locked_combs]; simp
  unfold acquire
  rw [hh]
  rcases hS.behind with hsent | hB
  · simp only [hsent, if_true]
    exact ⟨mc, _, hmc, hc1, hc2⟩
  · simp only [hB.head_ne, if_false]
    unfold apply_redologs
    dsimp only
    have hcnt : sti2seq (s.combs s.cur).head + 1 - (sti2seq (s.combs (other s.cur)).head + 1)
        = 0 + 1 := by
      have := hB.head_seq
      rw [hI.head_seq]
      omega
    have hstart : sti2seq (s.combs (other s.cur)).head + 1 = sti2seq s.per.curComb := hB.head_seq
    rw [hcnt, hstart]
    unfold redoLoop
    have hring : (locked s tid f).ring (sti2seq s.per.curComb % RINGSIZE) = (s.combs s.cur).head := by
      rw [locked_ring]; exact hI.ring_cur
    have hst : (locked s tid f).getState (sti2tid (s.combs s.cur).head, sti2idx (s.combs s.cur).head)
        = s.getState s.tailState := by
      show (locked s tid f).getState s.tailState = _
      rw [locked_getState_of_ne s tid f hTn]
      simp [hTn]
    have hseq : ¬ (sti2seq s.per.curComb ≠ sti2seq (s.combs s.cur).head) := by
      rw [hI.head_seq]; simp
    simp only [hring, hseq, if_false, hst]
    by_cases ht : (s.combs s.cur).head ≠ (s.getState s.tailState).ticket
    · rw [if_pos ht]
      have hne : sti2seq s.per.curComb ≠ sti2seq (s.combs s.cur).head + 1 := by
        rw [hI.head_seq]; omega
      simp only [hne, ne_eq, not_false_eq_true, if_true]
      exact ⟨mc, _, hmc, hc1, hc2⟩
    · rw [if_neg ht]
      by_cases hthr : (s.getState s.tailState).logSize
          > getUsedSize (locked s tid f) ((locked s tid f).tlocal tid).tl_cx_size / (8 * 10)
      · simp only [hthr, if_true]
        have hne : sti2seq s.per.curComb ≠ sti2seq (s.combs s.cur).head + 1 := by
          rw [hI.head_seq]; omega
        simp only [hne, ne_eq, not_false_eq_true, if_true]
        exact ⟨mc, _, hmc, hc1, hc2⟩
      · simp only [hthr, if_false]
        have hnum : ((s.getState s.tailState).logSize - 1) / MAXLOGSIZE
            < (s.getState s.tailState).numNodes := by
          rw [hB.size_eq, ← hB.ok.tail_eq]
          exact hB.ok.nodes_gt
        have hoff : ((locked s tid f).tlocal tid).tl_cx_size = s.offsetOf (other s.cur) := by
          rw [locked_tlocal]
        have hfin : ∀ X : RedoOpt, X.per = s.per →
            (if sti2seq X.per.curComb ≥ sti2seq s.per.curComb + 2 then
                (some (RedoExit.returnedNull, sti2seq s.per.curComb, (s.combs s.cur).head,
                  X.setHead (other s.cur) (s.combs s.cur).head)
                  : Option (RedoExit × Nat × Nat × RedoOpt))
              else redoLoop tid (other s.cur) (sti2seq s.per.curComb) 0
                (sti2seq s.per.curComb + 1) (s.combs s.cur).head X)
            = some (.finished, sti2seq s.per.curComb + 1, (s.combs s.cur).head, X) := by
          intro X hX
          have : ¬ (sti2seq X.per.curComb ≥ sti2seq s.per.curComb + 2) := by rw [hX]; omega
          simp only [this, if_false]
          rfl
        have hlast : ¬ (sti2seq s.per.curComb + 1 ≠ sti2seq (s.combs s.cur).head + 1) := by
          rw [hI.head_seq]; simp
        by_cases hpos : (s.getState s.tailState).logSize > 0
        · simp only [hpos, if_true, locked_g, locked_mem, hoff]
          rw [copy_redolog_replayed s.g (s.getState s.tailState) _ (s.offsetOf (other s.cur)) s.mem
            hpos hnum (fun p hp => (hB.main p (by rw [← hB.size_eq]; exact hp)).1)]
          simp only [Option.map_some']
          rw [hfin _ (by simp)]
          simp only [hlast, if_false]
          refine ⟨_, _, rfl, ?_, ?_⟩
          · intro x hx
            rw [hB.size_eq]
            exact hB.catchup x hx
          · intro y hy
            rw [hB.size_eq]
            exact replayed_outside s.g _ _ s.mem hI.layout_addr hI.layout_size _ hB.main y hy
        · simp only [hpos, if_false]
          rw [hfin _ (by simp)]
          simp only [hlast, if_false]
          have e : (locked s tid f).setMem s.mem = locked s tid f := by
            rw [← locked_mem s tid f]
            rfl
          refine ⟨s.mem, (s.combs s.cur).head, ?_, ?_, fun _ _ => rfl⟩
          · unfold acquiredAt
            rw [e]
          · intro x hx
            have h0 : (s.getState s.tailState).lSize = 0 := by
              rw [← hB.size_eq]; omega
            have := hB.catchup x hx
            rw [h0] at this
            exact this

/-! ### The state after a transaction -/

theorem other_other (c : Nat) (h : c < 2) : other (other c) = c := by
  unfold other
  by_cases h0 : c = 0
  · simp [h0]
  · have : c = 1 := by omega
    simp [this]

theorem finished_cur (s : RedoOpt) (tid : Nat) (f : Prog) (m5 : Mem) (h5 : Nat) (st1 : State)
    (m1 : Mem) (r : Nat) (hq : Idle s tid) :
    (finished s tid f m5 h5 st1 m1 r).cur = other s.cur ∧
    sti2seq (finished s tid f m5 h5 st1 m1 r).per.curComb = sti2seq s.per.curComb + 1 := by
  obtain ⟨-, hc, -⟩ := finished_simple s tid f m5 h5 st1 m1 r
  have h1 : sti2seq s.per.curComb + 1 < 2 ^ SEQ_BITS := hq.seq_lt
  have h2 : tid < 2 ^ TID_BITS := lt_of_lt_of_le hq.tid_lt (by decide)
  have h3 : other s.cur < 2 ^ IDX_BITS := lt_trans (other_lt _) (by decide)
  unfold RedoOpt.cur
  rw [hc, opt_sti2idx_make _ _ _ h1 h2 h3, opt_sti2seq_make _ _ _ h1 h2 h3]
  exact ⟨rfl, rfl⟩

theorem finished_combs (s : RedoOpt) (tid : Nat) (f : Prog) (m5 : Mem) (h5 : Nat) (st1 : State)
    (m1 : Mem) (r : Nat) (k : Nat) :
    (finished s tid f m5 h5 st1 m1 r).combs k
      = if k = other s.cur then
          { head := s.nextTicket tid,
            rwLock := { (s.combs (other s.cur)).rwLock with writer := false, readLock := true } }
        else if k = s.cur then
          { (s.combs s.cur) with rwLock := (s.combs s.cur).rwLock.setReadUnlock }
        else s.combs k := by
  have hne : s.cur ≠ other s.cur := fun h => other_ne s.cur h.symm
  have hcur : sti2idx s.per.curComb = s.cur := rfl
  unfold finished
  simp only [opt_finishCommit_combs, opt_setCurComb_combs, opt_setComb_combs_eq,
    opt_setHead_combs_eq, opt_setState_combs, opt_setMem_combs, acquiredAt_combs, hcur]
  by_cases h1 : k = other s.cur
  · subst h1
    have : ¬ (other s.cur = s.cur) := fun h => hne h.symm
    simp [this, StrongTryRIRWLock.downgrade]
  · by_cases h2 : k = s.cur
    · subst h2
      simp [h1, hne]
    · simp [h1, h2]

theorem finished_ring (s : RedoOpt) (tid : Nat) (f : Prog) (m5 : Mem) (h5 : Nat) (st1 : State)
    (m1 : Mem) (r : Nat) (hq : Idle s tid) (k : Nat) :
    (finished s tid f m5 h5 st1 m1 r).ring k
      = if k = (sti2seq s.per.curComb + 1) % RINGSIZE then s.nextTicket tid else s.ring k := by
  unfold finished
  rw [opt_finishCommit_ring]
  simp only [opt_setCurComb_ring, opt_setComb_ring, opt_setHead_ring, opt_setState_ring,
    opt_setMem_ring, acquiredAt_ring]
  have hlt : sti2seq (s.ring ((sti2seq s.per.curComb + 1) % RINGSIZE)) < sti2seq s.per.curComb + 1 :=
    Nat.lt_succ_of_le (hq.ring_le _)
  simp only [hlt, true_and]

theorem finished_lastIdx (s : RedoOpt) (tid : Nat) (f : Prog) (m5 : Mem) (h5 : Nat) (st1 : State)
    (m1 : Mem) (r : Nat) :
    ((finished s tid f m5 h5 st1 m1 r).sauron tid).lastIdx
      = if (s.sauron tid).lastIdx + 1 = STATESSIZE then 0 else (s.sauron tid).lastIdx + 1 := by
  unfold finished
  rw [opt_finishCommit_lastIdx]
  simp only [if_true, opt_setCurComb_lastIdx, opt_setComb_lastIdx, opt_setHead_lastIdx,
    opt_setState_lastIdx, opt_setMem_lastIdx, acquiredAt_lastIdx]

theorem finished_tlocal (s : RedoOpt) (tid : Nat) (f : Prog) (m5 : Mem) (h5 : Nat) (st1 : State)
    (m1 : Mem) (r : Nat) :
    ((finished s tid f m5 h5 st1 m1 r).tlocal tid).tl_nested_write_trans
      = (s.tlocal tid).tl_nested_write_trans + 1 - 1 := by
  unfold finished
  rw [opt_finishCommit_tlocal]
  simp only [if_true, opt_setCurComb_tlocal, opt_setComb_tlocal, opt_setHead_tlocal,
    opt_setState_tlocal, opt_setMem_tlocal, acquiredAt_tlocal]

/-- The used size of the current replica is what `EsLoco::getUsedSize` computes on its
bytes. -/
theorem used_eq (s : RedoOpt) (c : Nat) (hp : s.esloco.poolAddr = s.g.g_main_addr)
    (h3 : 0 < s.g.g_main_size) :
    getUsedSize s (c * s.g.g_main_size) = EsLoco_getUsedSize s.g.g_main_addr (s.replica c) := by
  unfold getUsedSize EsLoco_getUsedSize
  rw [hp]
  have hmain : ADDR_IS_IN_MAIN s.g s.g.g_main_addr = true := by
    simp only [ADDR_IS_IN_MAIN, Globals.g_main_addr_end, Bool.and_eq_true, decide_eq_true_eq]
    omega
  rw [pload_main s.g _ s.mem _ hmain]
  have : load64 s.mem (s.g.g_main_addr + c * s.g.g_main_size)
      = load64 (s.replica c) s.g.g_main_addr := by
    apply load64_congr2
    intro i _
    unfold RedoOpt.replica RedoOpt.offsetOf
    congr 1
    omega
  rw [this]

theorem getUsedSize_main (g : Globals) (V M : Mem) (h1 : g.g_main_addr % 8 = 0)
    (h2 : g.g_main_size % 8 = 0) (h3 : 0 < g.g_main_size)
    (h : ∀ x, ADDR_IS_IN_MAIN g x = true → V x = M x) :
    EsLoco_getUsedSize g.g_main_addr V = EsLoco_getUsedSize g.g_main_addr M := by
  unfold EsLoco_getUsedSize
  have hmain : ADDR_IS_IN_MAIN g g.g_main_addr = true := by
    simp only [ADDR_IS_IN_MAIN, Globals.g_main_addr_end, Bool.and_eq_true, decide_eq_true_eq]
    omega
  have : load64 V g.g_main_addr = load64 M g.g_main_addr := by
    apply load64_congr
    intro i hi
    exact h _ (in_main_add g _ i hmain h1 h1 h2 hi)
  rw [this]

/-- The state in which a write transaction of a thread that runs alone returns is idle
again. -/
theorem finished_idle (s : RedoOpt) (tid : Nat) (f : Prog) (m5 : Mem) (h5 : Nat) (st1 : State)
    (m1 : Mem) (r : Nat) (hq : Idle s tid)
    (hseq : sti2seq s.per.curComb + 2 < 2 ^ SEQ_BITS)
    (hok : LogOK st1)
    (ha : st1.applied = (s.getState s.tailState).applied) :
    Idle (finished s tid f m5 h5 st1 m1 r) tid := by
  obtain ⟨hg, hcc, -, -, hm, hes, han⟩ := finished_simple s tid f m5 h5 st1 m1 r
  obtain ⟨hcur, hsq⟩ := finished_cur s tid f m5 h5 st1 m1 r hq
  have hne : s.cur ≠ other s.cur := fun h => other_ne s.cur h.symm
  have hne2 : other s.cur ≠ s.cur := other_ne s.cur
  have hTn : s.tailState ≠ s.nextState tid := hq.slot_ne
  have b1 : sti2seq s.per.curComb + 1 < 2 ^ SEQ_BITS := hq.seq_lt
  have b2 : tid < 2 ^ TID_BITS := lt_of_lt_of_le hq.tid_lt (by decide)
  have b3 : (s.sauron tid).lastIdx < 2 ^ IDX_BITS := lt_of_lt_of_le hq.lastIdx_lt (by decide)
  have hts : sti2seq (s.nextTicket tid) = sti2seq s.per.curComb + 1 :=
    opt_sti2seq_make _ _ _ b1 b2 b3
  have htt : sti2tid (s.nextTicket tid) = tid := opt_sti2tid_make _ _ _ b1 b2 b3
  have hti : sti2idx (s.nextTicket tid) = (s.sauron tid).lastIdx := opt_sti2idx_make _ _ _ b1 b2 b3
  have hhead : ((finished s tid f m5 h5 st1 m1 r).combs (other s.cur)).head = s.nextTicket tid := by
    rw [finished_combs]; simp
  have htail : (finished s tid f m5 h5 st1 m1 r).tailState = s.nextState tid := by
    unfold RedoOpt.tailState
    rw [hcur, hhead, htt, hti]
    rfl
  have hst : (finished s tid f m5 h5 st1 m1 r).getState (s.nextState tid)
      = { st1 with
          results := fun k => if k = tid then r else st1.results k,
          applied := fun k => if k = tid then !(s.getState s.tailState).applied tid
            else st1.applied k,
          logSize := st1.lSize } := by
    rw [finished_getState s tid f m5 h5 st1 m1 r hTn]; simp
  refine
    { layout_addr := by rw [hg]; exact hq.layout_addr,
      layout_size := by rw [hg]; exact hq.layout_size,
      layout_pos := by rw [hg]; exact hq.layout_pos,
      tid_lt := hq.tid_lt,
      cur_lt := by rw [hcur]; exact other_lt _,
      seq_lt := by rw [hsq]; exact hseq,
      locks := ?_, head_seq := by rw [hcur, hhead, hts, hsq],
      head_ne := ?_, ring_cur := ?_, ring_le := ?_, no_pending := ?_, slot_ne := ?_,
      lastIdx_lt := ?_, nested_write := ?_, buckets_lt := ?_, nodes_pos := ?_,
      pool := by rw [hes, hg]; exact hq.pool }
  · intro i
    rw [hcur, finished_combs]
    by_cases h1 : i = other s.cur
    · subst h1
      simp only [if_true, decide_True]
      refine ⟨?_, ?_, ?_⟩ <;> first | trivial | rfl | exact (hq.locks _).2.1
    · by_cases h2 : i = s.cur
      · subst h2
        simp only [h1, if_false, if_true, decide_False, StrongTryRIRWLock.setReadUnlock]
        refine ⟨?_, ?_, ?_⟩ <;>
          first | trivial | rfl | exact (hq.locks _).2.1 | exact (hq.locks _).1
      · simp only [h1, h2, if_false, decide_False]
        refine ⟨(hq.locks _).1, (hq.locks _).2.1, ?_⟩
        rw [(hq.locks i).2.2]
        simp [h2]
  · rw [hcur, hhead]
    intro h
    have := congrArg sti2seq h
    rw [hts, opt_sti2seq_make 0 1 0 (by decide) (by decide) (by decide)] at this
    omega
  · rw [hsq, hcur, hhead, finished_ring s tid f m5 h5 st1 m1 r hq]
    simp
  · intro j
    rw [hsq, finished_ring s tid f m5 h5 st1 m1 r hq]
    split
    · rw [hts]
    · exact Nat.le_succ_of_le (hq.ring_le j)
  · intro i hi
    rw [htail, hst, han]
    simp only
    by_cases h : i = tid
    · subst h
      simp only [if_true]
      rw [hq.no_pending i hi]
    · simp only [h, if_false]
      rw [ha]
      exact hq.no_pending i hi
  · rw [htail, finished_lastIdx]
    intro h
    have := congrArg Prod.snd h
    simp only [RedoOpt.nextState] at this
    have hl := hq.lastIdx_lt
    simp only [STATESSIZE] at *
    split at this <;> omega
  · rw [finished_lastIdx]
    have hl := hq.lastIdx_lt
    simp only [STATESSIZE] at *
    split <;> omega
  · rw [finished_tlocal, hq.nested_write]
  · intro q n h
    rw [finished_getState s tid f m5 h5 st1 m1 r hTn]
    by_cases hqp : q = s.nextState tid
    · simp only [hqp, if_true]
      exact (hok.node_ok n).bucket_lt h
    · simp only [hqp, if_false]
      exact hq.buckets_lt q n h
  · intro q
    rw [finished_getState s tid f m5 h5 st1 m1 r hTn]
    by_cases hqp : q = s.nextState tid
    · simp only [hqp, if_true]
      exact Nat.lt_of_le_of_lt (Nat.zero_le _) hok.nodes_gt
    · simp only [hqp, if_false]
      exact hq.nodes_pos q

/-- The state in which a write transaction of a thread that runs alone returns is
settled: the replica that was current is one transaction behind, and the current replica
holds on the main region what the closure computes on `M`. -/
theorem finished_settled (s : RedoOpt) (tid : Nat) (f : Prog) (m5 : Mem) (h5 : Nat) (st1 : State)
    (m1 : Mem) (r : Nat) (M : Mem) (hq : Idle s tid)
    (hseq : sti2seq s.per.curComb + 2 < 2 ^ SEQ_BITS)
    (hM : ∀ x, ADDR_IS_IN_MAIN s.g x = true → s.replica s.cur x = M x)
    (h51 : ∀ x, ADDR_IS_IN_MAIN s.g x = true → m5 (x + s.offsetOf (other s.cur)) = M x)
    (h52 : ∀ y, (∀ x, ADDR_IS_IN_MAIN s.g x = true → y ≠ x + s.offsetOf (other s.cur)) →
      m5 y = s.mem y)
    (hv1 : ∀ x, ADDR_IS_IN_MAIN s.g x = true →
      m1 (x + s.offsetOf (other s.cur)) = (f.run M).2 x)
    (ho1 : ∀ y, (∀ x, ADDR_IS_IN_MAIN s.g x = true → y ≠ x + s.offsetOf (other s.cur)) →
      m1 y = m5 y)
    (hrel : LogRel s.g st1 (s.offsetOf (other s.cur)) m5 m1)
    (ha : st1.applied = (s.getState s.tailState).applied)
    (hcells : Prog.cellsIn s.g
      (s.g.g_main_addr + EsLoco_getUsedSize s.g.g_main_addr (f.run M).2) f M = true)
    (hu8 : EsLoco_getUsedSize s.g.g_main_addr (f.run M).2 % 8 = 0)
    (hule : EsLoco_getUsedSize s.g.g_main_addr (f.run M).2 ≤ s.g.g_main_size) :
    Settled (finished s tid f m5 h5 st1 m1 r) tid ∧
    (∀ x, ADDR_IS_IN_MAIN s.g x = true →
      (finished s tid f m5 h5 st1 m1 r).replica (finished s tid f m5 h5 st1 m1 r).cur x
        = (f.run M).2 x) := by
  have hI := finished_idle s tid f m5 h5 st1 m1 r hq hseq hrel.ok ha
  obtain ⟨hg, hcc, -, -, hm, hes, han⟩ := finished_simple s tid f m5 h5 st1 m1 r
  obtain ⟨hcur, hsq⟩ := finished_cur s tid f m5 h5 st1 m1 r hq
  have hne : s.cur ≠ other s.cur := fun h => other_ne s.cur h.symm
  have hoo : other (other s.cur) = s.cur := other_other s.cur hq.cur_lt
  have hTn : s.tailState ≠ s.nextState tid := hq.slot_ne
  have b1 : sti2seq s.per.curComb + 1 < 2 ^ SEQ_BITS := hq.seq_lt
  have b2 : tid < 2 ^ TID_BITS := lt_of_lt_of_le hq.tid_lt (by decide)
  have b3 : (s.sauron tid).lastIdx < 2 ^ IDX_BITS := lt_of_lt_of_le hq.lastIdx_lt (by decide)
  have htt : sti2tid (s.nextTicket tid) = tid := opt_sti2tid_make _ _ _ b1 b2 b3
  have hti : sti2idx (s.nextTicket tid) = (s.sauron tid).lastIdx := opt_sti2idx_make _ _ _ b1 b2 b3
  have hhead : ((finished s tid f m5 h5 st1 m1 r).combs (other s.cur)).head = s.nextTicket tid := by
    rw [finished_combs]; simp
  have hhead2 : ((finished s tid f m5 h5 st1 m1 r).combs s.cur).head = (s.combs s.cur).head := by
    rw [finished_combs]; simp [hne]
  have htail : (finished s tid f m5 h5 st1 m1 r).tailState = s.nextState tid := by
    unfold RedoOpt.tailState
    rw [hcur, hhead, htt, hti]
    rfl
  have hst : (finished s tid f m5 h5 st1 m1 r).getState (s.nextState tid)
      = { st1 with
          results := fun k => if k = tid then r else st1.results k,
          applied := fun k => if k = tid then !(s.getState s.tailState).applied tid
            else st1.applied k,
          logSize := st1.lSize } := by
    rw [finished_getState s tid f m5 h5 st1 m1 r hTn]; simp
  -- the bytes of the two replicas
  have hnew : ∀ x, ADDR_IS_IN_MAIN s.g x = true →
      (finished s tid f m5 h5 st1 m1 r).replica (other s.cur) x = (f.run M).2 x := by
    intro x hx
    unfold RedoOpt.replica RedoOpt.offsetOf
    rw [hm, hg]
    exact hv1 x hx
  have hold0 : ∀ x, ADDR_IS_IN_MAIN s.g x = true → m1 (x + s.offsetOf s.cur) = M x := by
    intro x hx
    have hd : ∀ x1, ADDR_IS_IN_MAIN s.g x1 = true →
        x + s.offsetOf s.cur ≠ x1 + s.offsetOf (other s.cur) := fun x1 hx1 =>
      opt_replica_disjoint s.g s.cur (other s.cur) x x1 hne hx hx1
    rw [ho1 _ hd, h52 _ hd]
    exact hM x hx
  have hold : ∀ x, ADDR_IS_IN_MAIN s.g x = true →
      (finished s tid f m5 h5 st1 m1 r).replica s.cur x = M x := by
    intro x hx
    unfold RedoOpt.replica RedoOpt.offsetOf
    rw [hm, hg]
    exact hold0 x hx
  have hused : (finished s tid f m5 h5 st1 m1 r).used
      = EsLoco_getUsedSize s.g.g_main_addr (f.run M).2 := by
    unfold RedoOpt.used
    rw [used_eq _ _ hI.pool hI.layout_pos, hg, hcur]
    exact getUsedSize_main s.g _ _ hq.layout_addr hq.layout_size hq.layout_pos hnew
  refine ⟨⟨hI, by rw [hused]; exact hu8, by rw [hused, hg]; exact hule, ?_, Or.inr ?_⟩, ?_⟩
  · intro x hx hxu
    rw [hg] at hx
    rw [hcur, hoo, hold x hx, hnew x hx]
    rw [hused, hg] at hxu
    exact (cellsIn_unchanged s.g _ f M hcells x hxu).symm
  · refine ⟨?_, ?_, ?_, ?_, ?_, ?_⟩
    · rw [hcur, hoo, hhead2]
      exact hq.head_ne
    · rw [hcur, hoo, hhead2, hsq, hq.head_seq]
    · rw [htail, hst]
    · rw [htail, hst]
      exact ⟨hrel.ok.tail_eq, hrel.ok.nodes_gt, hrel.ok.node_ok⟩
    · intro p hp
      rw [htail, hst] at hp ⊢
      rw [hg]
      exact hrel.main p hp
    · intro x hx
      rw [hg] at hx
      rw [htail, hst, hcur, hoo, hnew x hx]
      have hoff : (finished s tid f m5 h5 st1 m1 r).offsetOf s.cur = s.offsetOf s.cur := by
        unfold RedoOpt.offsetOf; rw [hg]
      rw [hoff, hm]
      show State.replayed _ (s.offsetOf s.cur) st1.lSize m1 (x + s.offsetOf s.cur) = _
      rw [replayed_congr st1 { st1 with
          results := fun k => if k = tid then r else st1.results k,
          applied := fun k => if k = tid then !(s.getState s.tailState).applied tid
            else st1.applied k,
          logSize := st1.lSize } (s.offsetOf s.cur) m1 st1.lSize (fun _ _ => rfl)]
      have key := replayed_view s.g st1 (s.offsetOf s.cur) (s.offsetOf (other s.cur)) m1 m5
        hq.layout_addr hq.layout_size
        (fun y hy => by rw [hold0 y hy, h51 y hy]) st1.lSize hrel.main x hx
      rw [key, hrel.rep]
      exact hv1 x hx
  · intro x hx
    rw [hcur]
    exact hnew x hx

/-! ### Sequences of transactions -/

theorem admissible_cons (g : Globals) (f : Prog) (rest : List Prog) (m : Mem)
    (h : admissible g (f :: rest) m = true) :
    (∃ r, (f.run m).1 = .value r) ∧
    EsLoco_getUsedSize g.g_main_addr (f.run m).2 % 8 = 0 ∧
    EsLoco_getUsedSize g.g_main_addr (f.run m).2 ≤ g.g_main_size ∧
    Prog.cellsIn g (g.g_main_addr + EsLoco_getUsedSize g.g_main_addr (f.run m).2) f m = true ∧
    admissible g rest (f.run m).2 = true := by
  simp only [admissible, Bool.and_eq_true, decide_eq_true_eq] at h
  obtain ⟨⟨⟨⟨hv, h1⟩, h2⟩, h3⟩, h4⟩ := h
  refine ⟨?_, h1, h2, h3, h4⟩
  cases hr : (f.run m).1 with
  | value r => exact ⟨r, rfl⟩
  | raised e => rw [hr] at hv; cases hv
  | fault => rw [hr] at hv; cases hv

theorem applyAll_append (fs gs : List Prog) : ∀ m, applyAll (fs ++ gs) m = applyAll gs (applyAll fs m) := by
  induction fs with
  | nil => intro m; rfl
  | cons f rest ih => intro m; exact ih _

/-- A closure run on two memories that agree on the main region computes the same. -/
theorem run_agree (g : Globals) (bound : Nat) (h1 : g.g_main_addr % 8 = 0)
    (h2 : g.g_main_size % 8 = 0) (f : Prog) :
    ∀ V M, (∀ x, ADDR_IS_IN_MAIN g x = true → V x = M x) → Prog.cellsIn g bound f M = true →
      (f.run V).1 = (f.run M).1 ∧ ∀ x, ADDR_IS_IN_MAIN g x = true → (f.run V).2 x = (f.run M).2 x := by
  induction f with
  | ret r => intro V M h _; exact ⟨rfl, h⟩
  | raise e => intro V M h _; exact ⟨rfl, h⟩
  | pload a k ih =>
    intro V M h hf
    simp only [Prog.cellsIn, Bool.and_eq_true, decide_eq_true_eq] at hf
    obtain ⟨⟨ha, hal⟩, hk⟩ := hf
    have hl : load64 V a = load64 M a := by
      apply load64_congr
      intro i hi
      exact h _ (in_main_add g a i ha hal h1 h2 hi)
    simp only [Prog.run, hl]
    exact ih (load64 M a) V M h hk
  | pstore a v k ih =>
    intro V M h hf
    simp only [Prog.cellsIn, Bool.and_eq_true, decide_eq_true_eq] at hf
    simp only [Prog.run]
    apply ih (store64 V a v) (store64 M a v) _ hf.2
    intro x hx
    unfold store64
    split
    · rfl
    · exact h x hx

/-- A write transaction of a thread that runs alone, from the engine over a new file or
from a settled engine whose current replica holds `M` on the main region: it returns
what the closure returns on `M`, leaves a settled engine, and the new current replica
holds what the closure computes on `M`. -/
theorem tx_step (s : RedoOpt) (tid uninit : Nat) (copy : Bool) (f : Prog) (r : Nat) (M : Mem)
    (hR : Fresh s tid ∨ Settled s tid)
    (hseq : sti2seq s.per.curComb + 2 < 2 ^ SEQ_BITS)
    (hM : ∀ x, ADDR_IS_IN_MAIN s.g x = true → s.replica s.cur x = M x)
    (hv : (f.run M).1 = .value r)
    (hu8 : EsLoco_getUsedSize s.g.g_main_addr (f.run M).2 % 8 = 0)
    (hule : EsLoco_getUsedSize s.g.g_main_addr (f.run M).2 ≤ s.g.g_main_size)
    (hcells : Prog.cellsIn s.g
      (s.g.g_main_addr + EsLoco_getUsedSize s.g.g_main_addr (f.run M).2) f M = true) :
    ∃ s1, ns_write_transaction tid f uninit copy s = some (.value r, s1) ∧ Settled s1 tid ∧
      s1.g = s.g ∧ s1.per.id = s.per.id ∧
      sti2seq s1.per.curComb = sti2seq s.per.curComb + 1 ∧
      ∀ x, ADDR_IS_IN_MAIN s.g x = true → s1.replica s1.cur x = (f.run M).2 x := by
  have hI : Idle s tid := by
    rcases hR with h | h
    · exact h.idle
    · exact h.idle
  have hacq : ∃ m5 h5, acquire tid uninit (sti2seq s.per.curComb) (s.combs s.cur).head
        (other s.cur) (locked s tid f) = some (true, acquiredAt s tid f m5 h5) ∧
      (∀ x, ADDR_IS_IN_MAIN s.g x = true →
        m5 (x + s.offsetOf (other s.cur)) = s.replica s.cur x) ∧
      (∀ y, (∀ x, ADDR_IS_IN_MAIN s.g x = true → y ≠ x + s.offsetOf (other s.cur)) →
        m5 y = s.mem y) := by
    rcases hR with h | h
    · exact ⟨s.mem, uninit, acquire_fresh s tid uninit f h, h.same, fun _ _ => rfl⟩
    · exact acquire_settled s tid uninit f h
  obtain ⟨m5, h5, ha, h51, h52⟩ := hacq
  have h51M : ∀ x, ADDR_IS_IN_MAIN s.g x = true → m5 (x + s.offsetOf (other s.cur)) = M x :=
    fun x hx => (h51 x hx).trans (hM x hx)
  obtain ⟨st1, m1, hrun, hap, hv1, ho1, hrel⟩ :=
    ns_write_transaction_idle s tid uninit copy f r _ M hI m5 h5 ha h51M hcells hv
  obtain ⟨hS, hrep⟩ := finished_settled s tid f m5 h5 st1 m1 r M hI hseq hM h51M h52 hv1 ho1 hrel
    hap hcells hu8 hule
  obtain ⟨hg, -, hid, -⟩ := finished_simple s tid f m5 h5 st1 m1 r
  exact ⟨_, hrun, hS, hg, hid, (finished_cur s tid f m5 h5 st1 m1 r hI).2, hrep⟩

/-- Right after `createFile` has constructed the header over a zeroed file, the engine
is the one over a new file. -/
theorem fresh_createFileStart (g : Globals) (tid : Nat) (h1 : g.g_main_addr % 8 = 0)
    (h2 : g.g_main_size % 8 = 0) (h3 : 0 < g.g_main_size) (ht : tid < MAX_THREADS) :
    Fresh (createFileStart g zeroMem) tid := by
  have hper : (createFileStart g zeroMem).per.curComb = 0 := rfl
  have hz : sti2seq 0 = 0 := by decide
  have hz2 : sti2tid 0 = 0 := by decide
  have hz3 : sti2idx 0 = 0 := by decide
  have hcur : (createFileStart g zeroMem).cur = 0 := by unfold RedoOpt.cur; rw [hper]; exact hz3
  have hcombs : ∀ i, ((createFileStart g zeroMem).combs i).head = 0 := by
    intro i
    simp only [createFileStart, mapped, RedoOpt.setComb]
    split <;> rfl
  have hst : ∀ p, (createFileStart g zeroMem).getState p = {} := fun _ => rfl
  have hne : (0 : Nat) ≠ makeSeqTidIdx 0 1 0 := by decide
  refine ⟨
    { layout_addr := h1, layout_size := h2, layout_pos := h3, tid_lt := ht,
      cur_lt := by rw [hcur]; decide,
      seq_lt := by rw [hper, hz]; simp [SEQ_BITS],
      locks := ?_, head_seq := by rw [hcombs, hper],
      head_ne := by rw [hcombs]; exact hne,
      ring_cur := by rw [hcombs]; rfl,
      ring_le := fun j => by rw [hper]; exact Nat.le_refl _,
      no_pending := fun i _ => by rw [hst]; rfl,
      slot_ne := ?_, lastIdx_lt := by simp [createFileStart, mapped, RedoOpt.setComb, STATESSIZE],
      nested_write := rfl,
      buckets_lt := fun q n h => by
        rw [hst]; exact (by decide : MAXLOGSIZE - 1 < MAXLOGSIZE),
      nodes_pos := fun k => by rw [hst]; exact Nat.one_pos,
      pool := rfl }, by rw [hcombs]; exact hne, by rw [hcombs, hper], fun _ _ => rfl⟩
  · intro i
    rw [hcur]
    simp only [createFileStart, mapped, RedoOpt.setComb, hz3]
    by_cases hi : i = 0
    · subst hi
      simp [StrongTryRIRWLock.setReadLock]
    · simp [hi]
  · unfold RedoOpt.tailState
    rw [hcombs, hz2, hz3]
    intro h
    have := congrArg Prod.snd h
    simp [createFileStart, mapped, RedoOpt.setComb] at this

/-- The fields `objects` and `id` of the header play no part in the transactions. -/
theorem settled_setId (s : RedoOpt) (tid o i : Nat) (hS : Settled s tid) :
    Settled { s with per := { s.per with objects := o, id := i } } tid :=
  { idle :=
      { layout_addr := hS.idle.layout_addr, layout_size := hS.idle.layout_size,
        layout_pos := hS.idle.layout_pos, tid_lt := hS.idle.tid_lt, cur_lt := hS.idle.cur_lt,
        seq_lt := hS.idle.seq_lt, locks := hS.idle.locks, head_seq := hS.idle.head_seq,
        head_ne := hS.idle.head_ne, ring_cur := hS.idle.ring_cur, ring_le := hS.idle.ring_le,
        no_pending := hS.idle.no_pending, slot_ne := hS.idle.slot_ne,
        lastIdx_lt := hS.idle.lastIdx_lt, nested_write := hS.idle.nested_write,
        buckets_lt := hS.idle.buckets_lt, nodes_pos := hS.idle.nodes_pos, pool := hS.idle.pool },
    used_mod := hS.used_mod, used_le := hS.used_le, beyond := hS.beyond,
    behind := hS.behind.imp id (fun hB =>
      { head_ne := hB.head_ne, head_seq := hB.head_seq, size_eq := hB.size_eq, ok := hB.ok,
        main := hB.main, catchup := hB.catchup }) }

/-- The method `createFile` over a zeroed file leaves a settled engine whose current
replica holds what the bootstrap closure computes. -/
theorem createFile_settled (g : Globals) (tid uninit : Nat) (copy : Bool)
    (h1 : g.g_main_addr % 8 = 0) (h2 : g.g_main_size % 8 = 0) (h3 : 0 < g.g_main_size)
    (ht : tid < MAX_THREADS) (rest : List Prog)
    (hadm : admissible g (bootstrapProg g :: rest) zeroMem = true) :
    ∃ sc, createFile g tid uninit copy zeroMem = some sc ∧ Settled sc tid ∧ sc.g = g ∧
      sc.per.id = MAGIC_ID ∧ sti2seq sc.per.curComb = 1 ∧
      (∀ x, ADDR_IS_IN_MAIN g x = true →
        sc.replica sc.cur x = ((bootstrapProg g).run zeroMem).2 x) ∧
      admissible g rest ((bootstrapProg g).run zeroMem).2 = true := by
  obtain ⟨⟨r, hv⟩, hu8, hule, hcells, hrest⟩ := admissible_cons g _ rest zeroMem hadm
  have hF := fresh_createFileStart g tid h1 h2 h3 ht
  obtain ⟨s1, hrun, hS, hg, -, hsq, hrep⟩ := tx_step (createFileStart g zeroMem) tid uninit copy
    (bootstrapProg g) r zeroMem (Or.inl hF) (by show sti2seq 0 + 2 < 2 ^ SEQ_BITS; decide)
    (fun _ _ => rfl) hv hu8 hule hcells
  refine ⟨{ s1 with per := { s1.per with objects := r, id := MAGIC_ID } }, ?_,
    settled_setId s1 tid r MAGIC_ID hS, hg, rfl,
    hsq.trans (by show sti2seq 0 + 1 = 1; decide), hrep, hrest⟩
  unfold createFile
  rw [hrun]

/-- Closing a settled engine and opening its file again gives a settled engine with the
same bytes and the same current replica, the other replica marked as needing a copy. -/
theorem reopen_settled (s : RedoOpt) (tid uninit : Nat) (copy : Bool) (hS : Settled s tid)
    (hid : s.per.id = MAGIC_ID) :
    ∃ s1, closeAndReopen tid uninit copy s = some s1 ∧ Settled s1 tid ∧ s1.g = s.g ∧
      s1.mem = s.mem ∧ s1.cur = s.cur ∧ s1.per.id = MAGIC_ID ∧ sti2seq s1.per.curComb = 0 := by
  have hI := hS.idle
  have hc : sti2idx s.per.curComb < MAX_COMBINEDS := lt_trans hI.cur_lt (by decide)
  have hc16 : sti2idx s.per.curComb < 2 ^ IDX_BITS := lt_trans hc (by decide)
  have hcm := opt_sti2idx_make 0 0 (sti2idx s.per.curComb) (by decide) (by decide) hc16
  have hsm := opt_sti2seq_make 0 0 (sti2idx s.per.curComb) (by decide) (by decide) hc16
  have hub : usedBytes s.g s.mem (sti2idx s.per.curComb) = s.used := by
    unfold usedBytes RedoOpt.used getUsedSize
    simp only [hI.pool]
    rfl
  obtain ⟨s1, hre, hq, hg, hm, hcur, hid1, hused⟩ :=
    reopen_recovered s.g tid uninit copy s.per s.mem hid hI.layout_addr hI.layout_size hI.tid_lt hc
      (by rw [hub]; exact hS.used_mod) (by rw [hub]; exact hS.used_le)
  have hval := reopen_valid s.g tid uninit copy s.per s.mem hid
  rw [hre] at hval
  have hs1 := Option.some.inj hval
  have hsq : sti2seq s1.per.curComb = 0 := by rw [hs1]; exact hsm
  have hring : ∀ j, s1.ring j = 0 := by intro j; rw [hs1]; rfl
  have hstate : ∀ q, s1.getState q = {} := by intro q; rw [hs1]; rfl
  have hpool : s1.esloco.poolAddr = s1.g.g_main_addr := by rw [hs1]; rfl
  have hhead : (s1.combs s1.cur).head = 0 := by
    have h1 := hq.head_seq
    have h2 := hq.ring_cur
    rw [hring] at h2
    exact h2.symm
  have hcur2 : s1.cur = s.cur := hcur
  refine ⟨s1, hre, ?_, hg, hm, hcur, hid1, hsq⟩
  have hrepl : ∀ i, s1.replica i = s.replica i := by
    intro i
    unfold RedoOpt.replica RedoOpt.offsetOf
    rw [hg, hm]
  refine
    { idle :=
        { layout_addr := hq.layout_addr, layout_size := hq.layout_size,
          layout_pos := by rw [hg]; exact hI.layout_pos,
          tid_lt := hq.tid_lt, cur_lt := by rw [hcur2]; exact hI.cur_lt,
          seq_lt := hq.seq_lt, locks := hq.locks, head_seq := hq.head_seq,
          head_ne := by rw [hhead]; decide,
          ring_cur := hq.ring_cur,
          ring_le := fun j => by rw [hring, hsq]; decide,
          no_pending := hq.no_pending, slot_ne := hq.slot_ne, lastIdx_lt := hq.lastIdx_lt,
          nested_write := hq.nested_write,
          buckets_lt := fun q n h => by
            rw [hstate]; exact (by decide : MAXLOGSIZE - 1 < MAXLOGSIZE),
          nodes_pos := fun q => by rw [hstate]; exact Nat.one_pos,
          pool := hpool },
      used_mod := hq.used_mod, used_le := hq.used_le,
      beyond := ?_, behind := Or.inl hq.other_head }
  intro x hx hxu
  rw [hrepl, hrepl, hcur2]
  rw [hg] at hx
  rw [hused, hub, hg] at hxu
  exact hS.beyond x hx hxu

/-- A sequence of write transactions on a settled engine whose current replica holds `M`
on the main region: every transaction commits, the engine stays settled, and the current
replica then holds what the closures, applied in order, compute from `M`. -/
theorem runAll_settled (g : Globals) (tid : Nat) (rest : List Prog) :
    ∀ (txs : List (Prog × Nat × Bool)) (s : RedoOpt) (M : Mem), Settled s tid → s.g = g →
      (∀ x, ADDR_IS_IN_MAIN g x = true → s.replica s.cur x = M x) →
      sti2seq s.per.curComb + txs.length + 2 ≤ 2 ^ SEQ_BITS →
      admissible g (txs.map Prod.fst ++ rest) M = true →
      ∃ s1, runAll tid txs s = some s1 ∧ Settled s1 tid ∧ s1.g = g ∧ s1.per.id = s.per.id ∧
        (∀ x, ADDR_IS_IN_MAIN g x = true →
          s1.replica s1.cur x = applyAll (txs.map Prod.fst) M x) ∧
        admissible g rest (applyAll (txs.map Prod.fst) M) = true := by
  intro txs
  induction txs with
  | nil =>
    intro s M hS hg hM _ hadm
    exact ⟨s, rfl, hS, hg, rfl, hM, hadm⟩
  | cons t txs ih =>
    intro s M hS hg hM hlen hadm
    simp only [List.map_cons, List.cons_append] at hadm
    obtain ⟨⟨r, hv⟩, hu8, hule, hcells, hrest⟩ := admissible_cons g _ _ M hadm
    simp only [List.length_cons] at hlen
    obtain ⟨s1, hrun, hS1, hg1, hid1, hsq1, hrep1⟩ := tx_step s tid t.2.1 t.2.2 t.1 r M (Or.inr hS)
      (by omega) (by rw [hg]; exact hM) hv (by rw [hg]; exact hu8) (by rw [hg]; exact hule)
      (by rw [hg]; exact hcells)
    obtain ⟨s2, hrun2, hS2, hg2, hid2, hrep2, hadm2⟩ := ih s1 (t.1.run M).2 hS1 (by rw [hg1, hg])
      (by rw [← hg]; exact hrep1) (by rw [hsq1]; omega) hrest
    refine ⟨s2, ?_, hS2, hg2, by rw [hid2, hid1], hrep2, hadm2⟩
    unfold runAll
    rw [hrun]
    exact hrun2

end Opt

/-! ## The storage cell and the tickets -/

/-- C15. The tickets of `Redo` (44/8/12 bits) and of `RedoOpt` (40/8/16 bits): for
components within their bit ranges, `sti2seq`, `sti2tid` and `sti2idx` of
`makeSeqTidIdx(seq, tid, idx)` give back `seq`, `tid` and `idx`; a ticket with a smaller
`seq` is the smaller integer, whatever the other components are; and thread ids below
`MAX_THREADS`, slot indices below `STATESSIZE` and replica indices below `MAX_COMBINEDS`
are within the ranges of their fields. -/
theorem C15_ticket_round_trip :
    (∀ seq tid idx, seq < 2 ^ SEQ_BITS → tid < 2 ^ TID_BITS → idx < 2 ^ IDX_BITS →
      sti2seq (makeSeqTidIdx seq tid idx) = seq ∧ sti2tid (makeSeqTidIdx seq tid idx) = tid ∧
      sti2idx (makeSeqTidIdx seq tid idx) = idx) ∧
    (∀ seq tid idx seq2 tid2 idx2, seq2 < 2 ^ SEQ_BITS → tid < 2 ^ TID_BITS →
      idx < 2 ^ IDX_BITS → tid2 < 2 ^ TID_BITS → idx2 < 2 ^ IDX_BITS → seq < seq2 →
      makeSeqTidIdx seq tid idx < makeSeqTidIdx seq2 tid2 idx2) ∧
    (MAX_THREADS ≤ 2 ^ TID_BITS ∧ STATESSIZE ≤ 2 ^ IDX_BITS ∧ MAX_COMBINEDS ≤ 2 ^ IDX_BITS) ∧
    (∀ seq tid idx, seq < 2 ^ Opt.SEQ_BITS → tid < 2 ^ Opt.TID_BITS → idx < 2 ^ Opt.IDX_BITS →
      Opt.sti2seq (Opt.makeSeqTidIdx seq tid idx) = seq ∧
      Opt.sti2tid (Opt.makeSeqTidIdx seq tid idx) = tid ∧
      Opt.sti2idx (Opt.makeSeqTidIdx seq tid idx) = idx) ∧
    (∀ seq tid idx seq2 tid2 idx2, seq2 < 2 ^ Opt.SEQ_BITS → tid < 2 ^ Opt.TID_BITS →
      idx < 2 ^ Opt.IDX_BITS → tid2 < 2 ^ Opt.TID_BITS → idx2 < 2 ^ Opt.IDX_BITS → seq < seq2 →
      Opt.makeSeqTidIdx seq tid idx < Opt.makeSeqTidIdx seq2 tid2 idx2) ∧
    (Opt.MAX_THREADS ≤ 2 ^ Opt.TID_BITS ∧ Opt.STATESSIZE ≤ 2 ^ Opt.IDX_BITS ∧
      Opt.MAX_COMBINEDS ≤ 2 ^ Opt.IDX_BITS) := by
  refine ⟨?_, ?_, by decide, ?_, ?_, by decide⟩
  · intro seq tid idx h1 h2 h3
    exact ⟨sti2seq_make seq tid idx h1 h2 h3, sti2tid_make seq tid idx h1 h2 h3,
      sti2idx_make seq tid idx h1 h2 h3⟩
  · intro seq tid idx seq2 tid2 idx2 h1 h2 h3 h4 h5 hlt
    rw [makeSeqTidIdx_eq seq tid idx (lt_trans hlt h1) h2 h3,
      makeSeqTidIdx_eq seq2 tid2 idx2 h1 h4 h5]
    simp only [TID_BITS, IDX_BITS] at h2 h3 h4 h5
    omega
  · intro seq tid idx h1 h2 h3
    exact ⟨Opt.opt_sti2seq_make seq tid idx h1 h2 h3, Opt.opt_sti2tid_make seq tid idx h1 h2 h3,
      Opt.opt_sti2idx_make seq tid idx h1 h2 h3⟩
  · intro seq tid idx seq2 tid2 idx2 h1 h2 h3 h4 h5 hlt
    rw [Opt.opt_makeSeqTidIdx_eq seq tid idx (lt_trans hlt h1) h2 h3,
      Opt.opt_makeSeqTidIdx_eq seq2 tid2 idx2 h1 h4 h5]
    simp only [Opt.TID_BITS, Opt.IDX_BITS] at h2 h3 h4 h5
    omega

theorem C15_ticket_round_trip_witness :
    (sti2seq (makeSeqTidIdx 5 3 2) = 5 ∧ sti2tid (makeSeqTidIdx 5 3 2) = 3 ∧
      sti2idx (makeSeqTidIdx 5 3 2) = 2) ∧
    makeSeqTidIdx 5 255 4095 < makeSeqTidIdx 6 0 0 ∧
    (Opt.sti2seq (Opt.makeSeqTidIdx 5 3 2) = 5 ∧ Opt.sti2tid (Opt.makeSeqTidIdx 5 3 2) = 3 ∧
      Opt.sti2idx (Opt.makeSeqTidIdx 5 3 2) = 2) ∧
    Opt.makeSeqTidIdx 5 255 65535 < Opt.makeSeqTidIdx 6 0 0 :=
  ⟨C15_ticket_round_trip.1 5 3 2 (by decide) (by decide) (by decide),
    C15_ticket_round_trip.2.1 5 255 4095 6 0 0 (by decide) (by decide) (by decide) (by decide)
      (by decide) (by decide),
    C15_ticket_round_trip.2.2.2.1 5 3 2 (by decide) (by decide) (by decide),
    C15_ticket_round_trip.2.2.2.2.1 5 255 65535 6 0 0 (by decide) (by decide) (by decide)
      (by decide) (by decide) (by decide)⟩

/-! ## The allocator -/

theorem highestBitLoop_some (val : Nat) : ∀ (fuel b r : Nat), highestBitLoop val fuel b = some r →
    b ≤ r ∧ r < 63 ∧ val < 2 ^ (r + 1) ∧ (r = b ∨ 2 ^ r ≤ val) := by
  intro fuel
  induction fuel with
  | zero => intro b r h; simp [highestBitLoop] at h
  | succ fuel ih =>
    intro b r h
    unfold highestBitLoop at h
    by_cases h64 : 64 ≤ b + 1
    · rw [if_pos h64] at h
      exact absurd h (by simp)
    · rw [if_neg h64] at h
      by_cases hs : val >>> (b + 1) ≠ 0
      · rw [if_pos hs] at h
        obtain ⟨h1, h2, h3, h4⟩ := ih (b + 1) r h
        refine ⟨by omega, h2, h3, Or.inr ?_⟩
        rcases h4 with h4 | h4
        · subst h4
          rw [Nat.shiftRight_eq_div_pow] at hs
          by_contra hlt
          exact hs (Nat.div_eq_of_lt (by omega))
        · exact h4
      · rw [if_neg hs, Option.some.injEq] at h
        subst h
        refine ⟨le_refl _, by omega, ?_, Or.inl rfl⟩
        rw [ne_eq, not_not, Nat.shiftRight_eq_div_pow] at hs
        by_contra hge
        have : 0 < val / 2 ^ (b + 1) := Nat.div_pos (by omega) (by positivity)
        omega

theorem highestBitLoop_defined (val : Nat) (hv : val < 2 ^ 63) : ∀ (fuel b : Nat),
    (b = 0 ∨ 2 ^ b ≤ val) → 63 ≤ fuel + b → ∃ r, highestBitLoop val fuel b = some r := by
  intro fuel
  induction fuel with
  | zero =>
    intro b hb hf
    exfalso
    rcases hb with hb | hb
    · omega
    · have : 2 ^ 63 ≤ 2 ^ b := Nat.pow_le_pow_right (by decide) (by omega)
      omega
  | succ fuel ih =>
    intro b hb hf
    have hb62 : b ≤ 62 := by
      rcases hb with hb | hb
      · omega
      · by_contra hc
        have : 2 ^ 63 ≤ 2 ^ b := Nat.pow_le_pow_right (by decide) (by omega)
        omega
    unfold highestBitLoop
    have h64 : ¬ 64 ≤ b + 1 := by omega
    rw [if_neg h64]
    by_cases hs : val >>> (b + 1) ≠ 0
    · rw [if_pos hs]
      apply ih (b + 1) _ (by omega)
      right
      rw [Nat.shiftRight_eq_div_pow] at hs
      by_contra hlt
      exact hs (Nat.div_eq_of_lt (by omega))
    · rw [if_neg hs]
      exact ⟨b, rfl⟩

/-- For every value up to `2^31`, `highestBit` is the exponent of the smallest power of
two that is at least the value. -/
theorem highestBit_spec (val : Nat) (hv : val ≤ 2 ^ 31) :
    ∃ k, highestBit val = some k ∧ k ≤ 31 ∧ val ≤ 2 ^ k ∧ ∀ j, val ≤ 2 ^ j → k ≤ j := by
  obtain ⟨r, hr⟩ := highestBitLoop_defined val (by omega) 64 0 (Or.inl rfl) (by omega)
  obtain ⟨-, -, h3, h4⟩ := highestBitLoop_some val 64 0 r hr
  have hr31 : r ≤ 31 := by
    rcases h4 with h4 | h4
    · omega
    · by_contra hc
      have : 2 ^ 32 ≤ 2 ^ r := Nat.pow_le_pow_right (by decide) (by omega)
      omega
  unfold highestBit
  rw [hr]
  by_cases h31 : r < 31
  · have hs : shl1 r = some (2 ^ r) := by simp [shl1, h31]
    simp only [hs]
    by_cases hgt : val > 2 ^ r
    · refine ⟨r + 1, by simp [hgt], by omega, by omega, ?_⟩
      intro j hj
      by_contra hc
      have : 2 ^ j ≤ 2 ^ r := Nat.pow_le_pow_right (by decide) (by omega)
      omega
    · refine ⟨r, by simp [hgt], by omega, by omega, ?_⟩
      intro j hj
      rcases h4 with h4 | h4
      · omega
      · by_contra hc
        have : 2 ^ (j + 1) ≤ 2 ^ r := Nat.pow_le_pow_right (by decide) (by omega)
        rw [Nat.pow_succ] at this
        have : 0 < 2 ^ j := by positivity
        omega
  · have hr' : r = 31 := by omega
    subst hr'
    have hs : shl1 31 = some (2 ^ 64 - 2 ^ 31) := by decide
    simp only [hs]
    have hgt : ¬ val > 2 ^ 64 - 2 ^ 31 := by omega
    refine ⟨31, by rw [if_neg hgt], le_refl _, hv, ?_⟩
    intro j hj
    rcases h4 with h4 | h4
    · omega
    · by_contra hc
      have : 2 ^ (j + 1) ≤ 2 ^ 31 := Nat.pow_le_pow_right (by decide) (by omega)
      rw [Nat.pow_succ] at this
      have : 0 < 2 ^ j := by positivity
      omega

theorem highestBit_le (val k : Nat) (h : highestBit val = some k) :
    k ≤ 31 ∧ ∃ sh, shl1 k = some sh := by
  unfold highestBit at h
  cases hl : highestBitLoop val 64 0 with
  | none => simp [hl] at h
  | some r =>
    simp only [hl] at h
    obtain ⟨-, -, h3, h4⟩ := highestBitLoop_some val 64 0 r hl
    by_cases h31 : r < 31
    · have hs : shl1 r = some (2 ^ r) := by simp [shl1, h31]
      simp only [hs, Option.some.injEq] at h
      have hk : k ≤ 31 := by
        rw [← h]; split <;> omega
      refine ⟨hk, ?_⟩
      unfold shl1
      by_cases hk2 : k < 31
      · exact ⟨2 ^ k, by rw [if_pos hk2]⟩
      · have : k = 31 := by omega
        subst this
        exact ⟨2 ^ 64 - 2 ^ 31, by decide⟩
    · by_cases h31' : r = 31
      · subst h31'
        have hs : shl1 31 = some (2 ^ 64 - 2 ^ 31) := by decide
        simp only [hs, Option.some.injEq] at h
        have hgt : ¬ val > 2 ^ 64 - 2 ^ 31 := by
          have : (2:Nat) ^ (31 + 1) = 4294967296 := by norm_num
          omega
        simp only [hgt, if_false] at h
        subst h
        exact ⟨le_refl _, _, hs⟩
      · have hs : shl1 r = none := by simp [shl1, h31, h31']
        simp [hs] at h


theorem load64_lt (m : Mem) (a : Nat) : load64 m a < 2 ^ 64 := by
  rw [load64_eq]
  have b0 := (m a).isLt
  have b1 := (m (a+1)).isLt
  have b2 := (m (a+2)).isLt
  have b3 := (m (a+3)).isLt
  have b4 := (m (a+4)).isLt
  have b5 := (m (a+5)).isLt
  have b6 := (m (a+6)).isLt
  have b7 := (m (a+7)).isLt
  omega

theorem EsLoco_malloc_eq (P S n k sh : Nat) (c : Nat → Prog)
    (hk : highestBit ((n + 16) % 2 ^ 64) = some k) (hs : shl1 k = some sh) :
    EsLoco_malloc P S n c = some (.pload (P + 8 + 16 * k) fun fl =>
        if fl ≠ 0 then
          .pload (P + 8 + 16 * k) fun myblock =>
            .pload myblock fun next =>
              .pstore (P + 8 + 16 * k) next (c ((myblock + 16) % 2 ^ 64))
        else
          .pload P fun top =>
            if (top + sh) % 2 ^ 64 > (S + P) % 2 ^ 64 then c 0
            else
              .pload P fun myblock =>
                .pload P fun top1 =>
                  .pstore P ((top1 + sh) % 2 ^ 64)
                    (.pstore (myblock + 8) k (c ((myblock + 16) % 2 ^ 64)))) := by
  unfold EsLoco_malloc
  simp only [hk, hs]

theorem run_pload (a : Nat) (k : Nat → Prog) (m : Mem) :
    (Prog.pload a k).run m = (k (load64 m a)).run m := rfl

theorem run_pstore (a v : Nat) (k : Prog) (m : Mem) :
    (Prog.pstore a v k).run m = k.run (store64 m a v) := rfl

theorem run_ret (r : Nat) (m : Mem) : (Prog.ret r).run m = (.value r, m) := rfl

/-- A block on top of the free list of its class is popped by `malloc` and pushed back
by `free`, which leaves the memory as it was. -/
theorem mallocFree_pop (P S n k b : Nat) (m : Mem)
    (hk : highestBit ((n + 16) % 2 ^ 64) = some k)
    (hb : load64 m (P + 8 + 16 * k) = b) (hb0 : b ≠ 0)
    (hb1 : P + 8 + 16 * kMaxBlockSize ≤ b) (hb2 : b + 16 < 2 ^ 64)
    (hsz : load64 m (b + 8) = k) :
    ∃ prog, mallocFree P S n = some prog ∧ prog.run m = (.value (b + 16), m) := by
  obtain ⟨hk31, sh, hs⟩ := highestBit_le _ _ hk
  have hm := EsLoco_malloc_eq P S n k sh (fun p => EsLoco_free P p (.ret p)) hk hs
  refine ⟨_, hm, ?_⟩
  simp only [kMaxBlockSize] at hb1
  have e1 : (b + 16) % 2 ^ 64 = b + 16 := Nat.mod_eq_of_lt hb2
  have e2 : (b + 16 + 2 ^ 64 - 16) % 2 ^ 64 = b := by omega
  have hp : ¬ (b + 16 = 0) := by omega
  have hsz2 : load64 (store64 m (P + 8 + 16 * k) (load64 m b)) (b + 8) = k := by
    rw [load64_store64_other _ _ _ _ (by omega)]; exact hsz
  have hfl : load64 (store64 m (P + 8 + 16 * k) (load64 m b)) (P + 8 + 16 * k) = load64 m b := by
    rw [load64_store64_same]; exact Nat.mod_eq_of_lt (load64_lt _ _)
  rw [run_pload, hb, if_pos hb0, run_pload, hb, run_pload, run_pstore, e1]
  unfold EsLoco_free
  beta_reduce
  rw [if_neg hp]
  simp only [e2]
  rw [run_pload, hsz2, run_pload, hfl, run_pstore, run_pstore, run_ret]
  rw [store64_comm m (P + 8 + 16 * k) b (load64 m b) (load64 m b) (by omega),
    store64_load64_same, store64_store64_same, ← hb, store64_load64_same]


theorem mallocFreeTimes_stable (P S n p : Nat) (m : Mem) (prog : Prog)
    (h1 : mallocFree P S n = some prog) (h2 : prog.run m = (.value p, m)) :
    ∀ M, mallocFreeTimes P S n M m = some (List.replicate M p, m) := by
  intro M
  induction M with
  | zero => rfl
  | succ M ih =>
    unfold mallocFreeTimes
    simp only [h1, h2, ih, List.replicate_succ]

theorem EsLoco_getUsedSize_congr (P : Nat) (m1 m2 : Mem) (h : load64 m1 P = load64 m2 P) :
    EsLoco_getUsedSize P m1 = EsLoco_getUsedSize P m2 := by
  unfold EsLoco_getUsedSize
  rw [h]

/-- C14. `EsLoco::malloc` and `EsLoco::free`: on a pool whose top and whose free block
of the request's size class, if there is one, lie above the array of free lists, the
free block recording its class in its header, a first `p = malloc(n)` followed by
`free(p)` leaves a memory on which `malloc(n); free(.)`, repeated any number of times,
returns `p` every time and changes nothing; `getUsedSize()` keeps the value it had after
the first allocation. -/
theorem C14_malloc_free_stable (P S n k : Nat) (m0 : Mem)
    (hk : highestBit ((n + 16) % 2 ^ 64) = some k)
    (htop : P + 8 + 16 * kMaxBlockSize ≤ load64 m0 P ∧ load64 m0 P + 16 < 2 ^ 64)
    (hfl : load64 m0 (P + 8 + 16 * k) ≠ 0 →
      P + 8 + 16 * kMaxBlockSize ≤ load64 m0 (P + 8 + 16 * k) ∧
      load64 m0 (P + 8 + 16 * k) + 16 < 2 ^ 64 ∧
      load64 m0 (load64 m0 (P + 8 + 16 * k) + 8) = k) :
    ∃ p m1 m2, mallocOn P S n m0 = some (.value p, m1) ∧
      (EsLoco_free P p (.ret 0)).run m1 = (.value 0, m2) ∧
      EsLoco_getUsedSize P m2 = EsLoco_getUsedSize P m1 ∧
      ∀ M, mallocFreeTimes P S n M m2 = some (List.replicate M p, m2) := by
  obtain ⟨hk31, sh, hs⟩ := highestBit_le _ _ hk
  have hm := EsLoco_malloc_eq P S n k sh Prog.ret hk hs
  have hmf := EsLoco_malloc_eq P S n k sh (fun p => EsLoco_free P p (.ret p)) hk hs
  simp only [kMaxBlockSize] at htop hfl
  obtain ⟨ht1, ht2⟩ := htop
  by_cases hz : load64 m0 (P + 8 + 16 * k) ≠ 0
  · -- a block of the class is free: it is popped and pushed back
    obtain ⟨hb1, hb2, hsz⟩ := hfl hz
    generalize hb : load64 m0 (P + 8 + 16 * k) = b at hz hb1 hb2 hsz
    have e1 : (b + 16) % 2 ^ 64 = b + 16 := Nat.mod_eq_of_lt hb2
    have e2 : (b + 16 + 2 ^ 64 - 16) % 2 ^ 64 = b := by omega
    have hp : ¬ (b + 16 = 0) := by omega
    have hsz2 : load64 (store64 m0 (P + 8 + 16 * k) (load64 m0 b)) (b + 8) = k := by
      rw [load64_store64_other _ _ _ _ (by omega)]; exact hsz
    have hfl2 : load64 (store64 m0 (P + 8 + 16 * k) (load64 m0 b)) (P + 8 + 16 * k)
        = load64 m0 b := by
      rw [load64_store64_same]; exact Nat.mod_eq_of_lt (load64_lt _ _)
    obtain ⟨prog, hp1, hp2⟩ := mallocFree_pop P S n k b m0 hk hb hz
      (by simp only [kMaxBlockSize]; exact hb1) hb2 hsz
    refine ⟨b + 16, store64 m0 (P + 8 + 16 * k) (load64 m0 b), m0, ?_, ?_, ?_,
      mallocFreeTimes_stable P S n (b + 16) m0 prog hp1 hp2⟩
    · unfold mallocOn
      rw [hm, Option.map_some', run_pload, hb, if_pos hz, run_pload, hb, run_pload, run_pstore,
        run_ret, e1]
    · unfold EsLoco_free
      rw [if_neg hp]
      simp only [e2]
      rw [run_pload, hsz2, run_pload, hfl2, run_pstore, run_pstore, run_ret,
        store64_comm m0 (P + 8 + 16 * k) b (load64 m0 b) (load64 m0 b) (by omega),
        store64_load64_same, store64_store64_same, ← hb, store64_load64_same]
    · apply EsLoco_getUsedSize_congr
      rw [load64_store64_other _ _ _ _ (by omega)]
  · rw [ne_eq, not_not] at hz
    generalize htp : load64 m0 P = top at ht1 ht2
    by_cases hfit : (top + sh) % 2 ^ 64 > (S + P) % 2 ^ 64
    · -- the pool is exhausted: `malloc` returns `nullptr` and `free` does nothing
      refine ⟨0, m0, m0, ?_, by unfold EsLoco_free; rw [if_pos rfl, run_ret], rfl,
        mallocFreeTimes_stable P S n 0 m0 _ hmf ?_⟩
      · unfold mallocOn
        rw [hm, Option.map_some', run_pload, hz, if_neg (by simp), run_pload, htp, if_pos hfit,
          run_ret]
      · rw [run_pload, hz, if_neg (by simp), run_pload, htp, if_pos hfit]
        unfold EsLoco_free
        beta_reduce
        rw [if_pos rfl, run_ret]
    · -- a new block is carved, freed and from then on popped and pushed back
      have e1 : (top + 16) % 2 ^ 64 = top + 16 := Nat.mod_eq_of_lt ht2
      have e2 : (top + 16 + 2 ^ 64 - 16) % 2 ^ 64 = top := by omega
      have hp : ¬ (top + 16 = 0) := by omega
      have hk64 : k % 2 ^ 64 = k := Nat.mod_eq_of_lt (by omega)
      have htop64 : top % 2 ^ 64 = top := Nat.mod_eq_of_lt (by omega)
      have hsz1 : load64 (store64 (store64 m0 P ((top + sh) % 2 ^ 64)) (top + 8) k) (top + 8)
          = k := by
        rw [load64_store64_same, hk64]
      have hfl1 : load64 (store64 (store64 m0 P ((top + sh) % 2 ^ 64)) (top + 8) k)
          (P + 8 + 16 * k) = 0 := by
        rw [load64_store64_other _ _ _ _ (by omega), load64_store64_other _ _ _ _ (by omega), hz]
      obtain ⟨prog, hp1, hp2⟩ := mallocFree_pop P S n k top
        (store64 (store64 (store64 (store64 m0 P ((top + sh) % 2 ^ 64)) (top + 8) k) top 0)
          (P + 8 + 16 * k) top) hk
        (by rw [load64_store64_same, htop64]) (by omega)
        (by simp only [kMaxBlockSize]; exact ht1) ht2
        (by rw [load64_store64_other _ _ _ _ (by omega), load64_store64_other _ _ _ _ (by omega),
          hsz1])
      refine ⟨top + 16, store64 (store64 m0 P ((top + sh) % 2 ^ 64)) (top + 8) k,
        store64 (store64 (store64 (store64 m0 P ((top + sh) % 2 ^ 64)) (top + 8) k) top 0)
          (P + 8 + 16 * k) top, ?_, ?_, ?_,
        mallocFreeTimes_stable P S n (top + 16) _ prog hp1 hp2⟩
      · unfold mallocOn
        rw [hm, Option.map_some', run_pload, hz, if_neg (by simp), run_pload, htp, if_neg hfit,
          run_pload, htp, run_pload, htp, run_pstore, run_pstore, run_ret, e1]
      · unfold EsLoco_free
        rw [if_neg hp]
        simp only [e2]
        rw [run_pload, hsz1, run_pload, hfl1, run_pstore, run_pstore, run_ret]
      · apply EsLoco_getUsedSize_congr
        rw [load64_store64_other _ _ _ _ (by omega), load64_store64_other _ _ _ _ (by omega)]


theorem C14_malloc_free_stable_witness :
    ∃ p m1 m2, mallocOn 1024 4096 100 (freshPool 1024) = some (.value p, m1) ∧
      (EsLoco_free 1024 p (.ret 0)).run m1 = (.value 0, m2) ∧
      EsLoco_getUsedSize 1024 m2 = EsLoco_getUsedSize 1024 m1 ∧
      ∀ M, mallocFreeTimes 1024 4096 100 M m2 = some (List.replicate M p, m2) :=
  C14_malloc_free_stable 1024 4096 100 7 (freshPool 1024) (by decide) (by decide)
    (fun h => absurd (by decide) h)

/-- C12. `EsLoco::highestBit` and `EsLoco::malloc` above one gigabyte.  The expression
`1 << b` is an `int`: for a request of `2^31 - 15` bytes, `2^31 + 1` with the header,
`highestBit` compares with `(uint64_t)INT_MIN` and returns the class 31, whose blocks of
`2^31` bytes are too small; and for a request of `2^30 - 15` bytes on a new pool of 4 GB
the class is 31 as it should be, but the block is carved by adding `INT_MIN` to the pool
top, which moves it back by `2^31` bytes instead of advancing it. -/
theorem C12_rounding_int_shift :
    highestBit (2 ^ 31 - 15 + 16) = some 31 ∧ ¬ (2 ^ 31 - 15 + 16 ≤ 2 ^ 31) ∧
    load64 (freshPool defaultGlobals.g_main_addr) defaultGlobals.g_main_addr = 0x7fddc0000700 ∧
    highestBit (2 ^ 30 - 15 + 16) = some 31 ∧
    mallocTop defaultGlobals.g_main_addr (2 ^ 32) (2 ^ 30 - 15)
        (freshPool defaultGlobals.g_main_addr)
      = some (.value (0x7fddc0000700 + 16), 0x7fddc0000700 - 2 ^ 31) := by
  decide

/-- C13. `EsLoco::malloc` on the pool of 16 MB that `Redo` creates by default, right
after `EsLoco::init`: a request of `2^30` bytes has the class 31, no block of which fits
in the pool, and its free list is empty, yet `malloc` does not return `nullptr`: the
bound check adds `INT_MIN` to the pool top, so the block at the old top is returned,
which extends far beyond the end of the pool, and the pool top is moved back by `2^31`
bytes, below the pool. -/
theorem C13_block_past_pool_end :
    defaultGlobals.g_main_addr = 0x7fddc0000400 ∧ defaultGlobals.g_main_size = 2 ^ 24 ∧
    load64 (freshPool defaultGlobals.g_main_addr) defaultGlobals.g_main_addr = 0x7fddc0000700 ∧
    highestBit (2 ^ 30 + 16) = some 31 ∧
    load64 (freshPool defaultGlobals.g_main_addr) (defaultGlobals.g_main_addr + 8 + 16 * 31) = 0 ∧
    0x7fddc0000700 + 2 ^ 31 > defaultGlobals.g_main_addr + defaultGlobals.g_main_size ∧
    mallocTop defaultGlobals.g_main_addr defaultGlobals.g_main_size (2 ^ 30)
        (freshPool defaultGlobals.g_main_addr)
      = some (.value (0x7fddc0000700 + 16), 0x7fddc0000700 - 2 ^ 31) ∧
    0x7fddc0000700 - 2 ^ 31 < defaultGlobals.g_main_addr := by
  decide


/-- X2. `EsLoco::malloc` for requests of up to `2^30 - 16` bytes: the size class `k` is
the exponent of the smallest power of two that is at least the request plus the 16-byte
header, and when the free list of the class is empty and the block fits below the end of
the pool, the pool top advances by exactly `2^k` bytes, the class is recorded in the
header of the block at the old top, and the block address plus 16 is returned. -/
theorem X2_malloc_rounding (P S n : Nat) (hn : n + 16 ≤ 2 ^ 30) :
    ∃ k, highestBit ((n + 16) % 2 ^ 64) = some k ∧ n + 16 ≤ 2 ^ k ∧ (∀ j, n + 16 ≤ 2 ^ j → k ≤ j) ∧
      ∀ m : Mem, load64 m (P + 8 + 16 * k) = 0 → load64 m P + 2 ^ k ≤ S + P → S + P < 2 ^ 64 →
        mallocOn P S n m = some (.value (load64 m P + 16),
          store64 (store64 m P (load64 m P + 2 ^ k)) (load64 m P + 8) k) := by
  have e0 : (n + 16) % 2 ^ 64 = n + 16 := Nat.mod_eq_of_lt (by omega)
  obtain ⟨k, hk, -, hle, hmin⟩ := highestBit_spec (n + 16) (by omega)
  have hk30 : k ≤ 30 := hmin 30 hn
  rw [← e0] at hk
  refine ⟨k, hk, hle, hmin, ?_⟩
  intro m hz hfit hSP
  have hs : shl1 k = some (2 ^ k) := by unfold shl1; rw [if_pos (by omega)]
  have hpow : 2 ^ k ≤ 2 ^ 30 := Nat.pow_le_pow_right (by decide) hk30
  have e1 : (load64 m P + 2 ^ k) % 2 ^ 64 = load64 m P + 2 ^ k := Nat.mod_eq_of_lt (by omega)
  have e2 : (S + P) % 2 ^ 64 = S + P := Nat.mod_eq_of_lt hSP
  have e3 : (load64 m P + 16) % 2 ^ 64 = load64 m P + 16 := by
    apply Nat.mod_eq_of_lt
    have : 16 ≤ 2 ^ k := le_trans (by omega) hle
    omega
  unfold mallocOn
  rw [EsLoco_malloc_eq P S n k (2 ^ k) Prog.ret hk hs, Option.map_some', run_pload, hz,
    if_neg (by simp), run_pload, e1, e2, if_neg (by omega), run_pload, run_pload, run_pstore,
    run_pstore, run_ret, e1, e3]

theorem X2_malloc_rounding_witness :
    ∃ k, highestBit ((100 + 16) % 2 ^ 64) = some k ∧ 100 + 16 ≤ 2 ^ k ∧
      (∀ j, 100 + 16 ≤ 2 ^ j → k ≤ j) ∧
      ∀ m : Mem, load64 m (1024 + 8 + 16 * k) = 0 → load64 m 1024 + 2 ^ k ≤ 4096 + 1024 →
        4096 + 1024 < 2 ^ 64 →
        mallocOn 1024 4096 100 m = some (.value (load64 m 1024 + 16),
          store64 (store64 m 1024 (load64 m 1024 + 2 ^ k)) (load64 m 1024 + 8) k) :=
  X2_malloc_rounding 1024 4096 100 (by decide)

/-- X3. `EsLoco::malloc` for requests of up to `2^30 - 16` bytes on a pool that ends more
than `2^30` bytes below `2^64` and whose top is inside it: when the free list of the
request's class `k` is empty and a block of `2^k` bytes does not fit between the pool
top and the end of the pool, `malloc` returns `nullptr` and leaves every byte, hence the
pool top and every free list, unchanged. -/
theorem X3_malloc_exhaustion (P S n k : Nat) (m : Mem) (hn : n + 16 ≤ 2 ^ 30)
    (hk : highestBit ((n + 16) % 2 ^ 64) = some k) (hSP : S + P + 2 ^ 30 < 2 ^ 64)
    (htop : load64 m P ≤ S + P) (hz : load64 m (P + 8 + 16 * k) = 0)
    (hfull : S + P < load64 m P + 2 ^ k) :
    mallocOn P S n m = some (.value 0, m) := by
  have e0 : (n + 16) % 2 ^ 64 = n + 16 := Nat.mod_eq_of_lt (by omega)
  obtain ⟨k2, hk2, -, hle, hmin⟩ := highestBit_spec (n + 16) (by omega)
  rw [e0, hk2, Option.some.injEq] at hk
  subst hk
  have hk30 : k2 ≤ 30 := hmin 30 hn
  rw [← e0] at hk2
  have hs : shl1 k2 = some (2 ^ k2) := by unfold shl1; rw [if_pos (by omega)]
  have hpow : 2 ^ k2 ≤ 2 ^ 30 := Nat.pow_le_pow_right (by decide) hk30
  have e1 : (load64 m P + 2 ^ k2) % 2 ^ 64 = load64 m P + 2 ^ k2 :=
    Nat.mod_eq_of_lt (by omega)
  have e2 : (S + P) % 2 ^ 64 = S + P := Nat.mod_eq_of_lt (by omega)
  unfold mallocOn
  rw [EsLoco_malloc_eq P S n k2 (2 ^ k2) Prog.ret hk2 hs, Option.map_some', run_pload, hz,
    if_neg (by simp), run_pload, e1, e2, if_pos (by omega), run_ret]

theorem X3_malloc_exhaustion_witness :
    mallocOn defaultGlobals.g_main_addr defaultGlobals.g_main_size (2 ^ 30 - 16)
        (freshPool defaultGlobals.g_main_addr)
      = some (.value 0, freshPool defaultGlobals.g_main_addr) :=
  X3_malloc_exhaustion defaultGlobals.g_main_addr defaultGlobals.g_main_size (2 ^ 30 - 16) 30
    (freshPool defaultGlobals.g_main_addr) (by decide) (by decide) (by decide) (by decide)
    (by decide) (by decide)


/-! ## The root directory -/

theorem exec_put_get (s : Redo) (tid : Nat) (q : Nat × Nat) (a b v : Nat)
    (hst : (s.tlocal tid).st = some q) :
    (exec tid (.pstore a v (.pload b fun p => .ret p)) s).1
      = .value (pload s.g (s.tlocal tid).tl_cx_size
          (pstore s.g (s.tlocal tid).tl_cx_size (s.getState q) s.mem a v).2 b) := by
  simp only [exec, hst]
  simp

theorem created_null : ∀ i, i < NUM_OBJS →
    (ns_read_transaction 0 (get_object created.per.objects i) created).1 = .value 0 ∧
    (ns_write_transaction 0 (get_object created.per.objects i) 0 created).1 = .value 0 := by
  decide!

/-- C16. `Redo::put_object` and `Redo::get_object`, inside a write transaction of thread
`tid`, with the root directory of `NUM_OBJS` slots inside the main region: for every
index `i < NUM_OBJS` and every pointer `p`, `get_object(i)` after `put_object(i, p)`
returns `p`, and `get_object(j)` for every other `j < NUM_OBJS` returns what it returned
before; and after `createFile` on a new file (default layout), `get_object(i)` returns
null for every `i < NUM_OBJS`, in a read transaction and in a write transaction. -/
theorem C16_root_directory (s : Redo) (tid : Nat) (q : Nat × Nat) (objects i p : Nat)
    (hst : (s.tlocal tid).st = some q) (hobj : ADDR_IS_IN_MAIN s.g objects = true)
    (hend : objects + 8 * NUM_OBJS ≤ s.g.g_main_addr_end) (hi : i < NUM_OBJS)
    (hp : p < 2 ^ 64) :
    (exec tid (put_object objects i p (get_object objects i)) s).1 = .value p ∧
    (∀ j, j < NUM_OBJS → j ≠ i →
      (exec tid (put_object objects i p (get_object objects j)) s).1
        = (exec tid (get_object objects j) s).1) ∧
    (∀ i, i < NUM_OBJS →
      (ns_read_transaction 0 (get_object created.per.objects i) created).1 = .value 0 ∧
      (ns_write_transaction 0 (get_object created.per.objects i) 0 created).1 = .value 0) := by
  have hin : ∀ j, j < NUM_OBJS → ADDR_IS_IN_MAIN s.g (objects + 8 * j) = true := by
    intro j hj
    simp only [ADDR_IS_IN_MAIN, Globals.g_main_addr_end, Bool.and_eq_true, decide_eq_true_eq,
      NUM_OBJS] at hobj hend hj ⊢
    omega
  refine ⟨?_, ?_, created_null⟩
  · unfold put_object get_object
    rw [exec_put_get s tid q _ _ _ hst, pstore_main _ _ _ _ _ _ (hin i hi),
      pload_main _ _ _ _ (hin i hi), load64_store64_same, Nat.mod_eq_of_lt hp]
  · intro j hj hne
    unfold put_object get_object
    rw [exec_put_get s tid q _ _ _ hst, pstore_main _ _ _ _ _ _ (hin i hi),
      pload_main _ _ _ _ (hin j hj), load64_store64_other _ _ _ _ (by omega)]
    simp only [exec]
    rw [pload_main _ _ _ _ (hin j hj)]


theorem C16_root_directory_witness :
    (exec 0 (put_object 1808 3 77 (get_object 1808 3)) writing).1 = .value 77 ∧
    (∀ j, j < NUM_OBJS → j ≠ 3 →
      (exec 0 (put_object 1808 3 77 (get_object 1808 j)) writing).1
        = (exec 0 (get_object 1808 j) writing).1) ∧
    (∀ i, i < NUM_OBJS →
      (ns_read_transaction 0 (get_object created.per.objects i) created).1 = .value 0 ∧
      (ns_write_transaction 0 (get_object created.per.objects i) 0 created).1 = .value 0) :=
  C16_root_directory writing 0 (0, 1) 1808 3 77 rfl (by decide) (by decide) (by decide)
    (by decide)

/-! ## The key-value store: lemmas and theorems -/

/-! ### Chains -/

theorem IsChain_congr (nodes nodes2 : Nat → TMHashMap.Node) :
    ∀ (l : List Nat) (p : Nat), (∀ a, a ∈ l → (nodes2 a).next = (nodes a).next) →
      IsChain nodes p l → IsChain nodes2 p l := by
  intro l
  induction l with
  | nil => intro p _ h; exact h
  | cons a l ih =>
    intro p hn h
    obtain ⟨h1, h2, h3⟩ := h
    refine ⟨h1, h2, ?_⟩
    rw [hn a (List.mem_cons_self _ _)]
    exact ih _ (fun x hx => hn x (List.mem_cons_of_mem _ hx)) h3

theorem IsChain_zero_not_mem (nodes : Nat → TMHashMap.Node) :
    ∀ (l : List Nat) (p : Nat), IsChain nodes p l → 0 ∉ l := by
  intro l
  induction l with
  | nil => intro p _; simp
  | cons a l ih =>
    intro p h
    obtain ⟨-, h2, h3⟩ := h
    simp only [List.mem_cons, not_or]
    exact ⟨fun h0 => h2 h0.symm, ih _ h3⟩

/-- The chain that starts after the nodes `pre`. -/
theorem IsChain_suffix (nodes : Nat → TMHashMap.Node) :
    ∀ (pre : List Nat) (a : Nat) (rest : List Nat) (p : Nat), IsChain nodes p (pre ++ a :: rest) →
      IsChain nodes a (a :: rest) := by
  intro pre
  induction pre with
  | nil =>
    intro a rest p h
    obtain ⟨-, h2, h3⟩ := h
    exact ⟨rfl, h2, h3⟩
  | cons x pre ih =>
    intro a rest p h
    obtain ⟨-, -, h3⟩ := h
    exact ih a rest _ h3

/-- A node linked after the last node of a chain. -/
theorem IsChain_snoc (nodes nodes2 : Nat → TMHashMap.Node) (x new : Nat) (hnew : new ≠ 0)
    (hx : (nodes2 x).next = new) (hn : (nodes2 new).next = 0) :
    ∀ (l : List Nat) (p : Nat), (∀ a, a ∈ l → (nodes2 a).next = (nodes a).next) →
      IsChain nodes p (l ++ [x]) → IsChain nodes2 p (l ++ [x] ++ [new]) := by
  intro l
  induction l with
  | nil =>
    intro p _ h
    obtain ⟨h1, h2, -⟩ := h
    exact ⟨h1, h2, hx, hnew, hn⟩
  | cons a l ih =>
    intro p hl h
    obtain ⟨h1, h2, h3⟩ := h
    refine ⟨h1, h2, ?_⟩
    rw [hl a (List.mem_cons_self _ _)]
    exact ih _ (fun y hy => hl y (List.mem_cons_of_mem _ hy)) h3

/-- The node `a` unlinked from the node `x` before it. -/
theorem IsChain_unlink (nodes nodes2 : Nat → TMHashMap.Node) (x a : Nat) (rest : List Nat)
    (hx : (nodes2 x).next = (nodes a).next)
    (hr : ∀ y, y ∈ rest → (nodes2 y).next = (nodes y).next) :
    ∀ (l : List Nat) (p : Nat), (∀ y, y ∈ l → (nodes2 y).next = (nodes y).next) →
      IsChain nodes p (l ++ [x] ++ a :: rest) → IsChain nodes2 p (l ++ [x] ++ rest) := by
  intro l
  induction l with
  | nil =>
    intro p _ h
    obtain ⟨h1, h2, -, -, h5⟩ := h
    refine ⟨h1, h2, ?_⟩
    rw [hx]
    exact IsChain_congr nodes nodes2 rest _ hr h5
  | cons b l ih =>
    intro p hl h
    obtain ⟨h1, h2, h3⟩ := h
    refine ⟨h1, h2, ?_⟩
    rw [hl b (List.mem_cons_self _ _)]
    exact ih _ (fun y hy => hl y (List.mem_cons_of_mem _ hy)) h3

theorem nodup_length_le (n : Nat) : ∀ (l : List Nat), l.Nodup → (∀ a, a ∈ l → a ≠ 0 ∧ a ≤ n) →
    l.length ≤ n := by
  intro l hnd hl
  have h1 : l.toFinset ⊆ Finset.Icc 1 n := by
    intro a ha
    rw [List.mem_toFinset] at ha
    rw [Finset.mem_Icc]
    obtain ⟨h0, hn⟩ := hl a ha
    exact ⟨by omega, hn⟩
  have h2 := Finset.card_le_card h1
  rw [List.toFinset_card_of_nodup hnd, Nat.card_Icc] at h2
  omega

/-! ### `innerGet` -/

theorem innerGetLoop_spec (m : TMHashMap) (k sv : Slice) :
    ∀ (l : List Nat) (p fuel : Nat), IsChain m.nodes p l → l.length < fuel →
      m.innerGetLoop k sv fuel p
        = some (match (l.map m.nodes).find? fun nd => decide (nd.key = k) with
          | some nd => (true, nd.val)
          | none => (false, sv)) := by
  intro l
  induction l with
  | nil =>
    intro p fuel h hf
    obtain ⟨fuel, rfl⟩ : ∃ f, fuel = f + 1 := ⟨fuel - 1, by simp at hf; omega⟩
    have hp : p = 0 := h
    subst hp
    simp [TMHashMap.innerGetLoop]
  | cons a l ih =>
    intro p fuel h hf
    obtain ⟨fuel, rfl⟩ : ∃ f, fuel = f + 1 := ⟨fuel - 1, by simp at hf; omega⟩
    obtain ⟨h1, h2, h3⟩ := h
    subst h1
    unfold TMHashMap.innerGetLoop
    rw [if_neg h2]
    by_cases hk : (m.nodes p).key = k
    · rw [if_pos hk]
      simp [hk]
    · rw [if_neg hk, ih _ _ h3 (by simp at hf; omega)]
      simp [hk]

theorem Rep_chain_length (m : TMHashMap) (ch : Nat → List Nat) (h : m.Rep ch) (b : Nat) :
    (ch b).length ≤ m.top := by
  apply nodup_length_le
  · exact List.Nodup.of_map _ (h.keys b)
  · intro a ha
    exact ⟨fun h0 => IsChain_zero_not_mem _ _ _ (h.chain b) (h0 ▸ ha), (h.live b a ha).1⟩

/-- On a well-formed map `innerGet` returns, and it finds the value that the chains
hold for the key, or leaves `*oldValue` as it is. -/
theorem innerGet_spec (m : TMHashMap) (ch : Nat → List Nat) (h : m.Rep ch) (k sv : Slice) :
    m.innerGet k sv = some (match m.contents ch k with
      | some v => (true, v)
      | none => (false, sv)) := by
  unfold TMHashMap.innerGet
  rw [if_neg (by have := h.cap_pos; omega),
    innerGetLoop_spec m k sv _ _ _ (h.chain _) (by have := Rep_chain_length m ch h (m.getBucket k); omega)]
  unfold TMHashMap.contents
  cases (List.map m.nodes (ch (m.getBucket k))).find? fun nd => decide (nd.key = k) <;> rfl

/-! ### The fields after an assignment -/

@[simp] theorem setBucket_capacity (m : TMHashMap) (i p : Nat) :
    (m.setBucket i p).capacity = m.capacity := rfl
@[simp] theorem setBucket_sizeHM (m : TMHashMap) (i p : Nat) :
    (m.setBucket i p).sizeHM = m.sizeHM := rfl
@[simp] theorem setBucket_buckets (m : TMHashMap) (i p j : Nat) :
    (m.setBucket i p).buckets j = if j = i then p else m.buckets j := rfl
@[simp] theorem setBucket_nodes (m : TMHashMap) (i p : Nat) :
    (m.setBucket i p).nodes = m.nodes := rfl
@[simp] theorem setBucket_top (m : TMHashMap) (i p : Nat) : (m.setBucket i p).top = m.top := rfl
@[simp] theorem setBucket_freeNodes (m : TMHashMap) (i p : Nat) :
    (m.setBucket i p).freeNodes = m.freeNodes := rfl

@[simp] theorem setNext_capacity (m : TMHashMap) (a p : Nat) :
    (m.setNext a p).capacity = m.capacity := rfl
@[simp] theorem setNext_sizeHM (m : TMHashMap) (a p : Nat) :
    (m.setNext a p).sizeHM = m.sizeHM := rfl
@[simp] theorem setNext_buckets (m : TMHashMap) (a p : Nat) :
    (m.setNext a p).buckets = m.buckets := rfl
@[simp] theorem setNext_top (m : TMHashMap) (a p : Nat) : (m.setNext a p).top = m.top := rfl
@[simp] theorem setNext_freeNodes (m : TMHashMap) (a p : Nat) :
    (m.setNext a p).freeNodes = m.freeNodes := rfl
theorem setNext_key (m : TMHashMap) (a p x : Nat) :
    ((m.setNext a p).nodes x).key = (m.nodes x).key := by
  unfold TMHashMap.setNext
  by_cases h : x = a
  · simp [h]
  · simp [h]
theorem setNext_val (m : TMHashMap) (a p x : Nat) :
    ((m.setNext a p).nodes x).val = (m.nodes x).val := by
  unfold TMHashMap.setNext
  by_cases h : x = a
  · simp [h]
  · simp [h]
theorem setNext_next_same (m : TMHashMap) (a p : Nat) : ((m.setNext a p).nodes a).next = p := by
  simp [TMHashMap.setNext]
theorem setNext_next_other (m : TMHashMap) (a p x : Nat) (h : x ≠ a) :
    ((m.setNext a p).nodes x).next = (m.nodes x).next := by
  simp [TMHashMap.setNext, h]

@[simp] theorem setVal_capacity (m : TMHashMap) (a : Nat) (v : Slice) :
    (m.setVal a v).capacity = m.capacity := rfl
@[simp] theorem setVal_sizeHM (m : TMHashMap) (a : Nat) (v : Slice) :
    (m.setVal a v).sizeHM = m.sizeHM := rfl
@[simp] theorem setVal_buckets (m : TMHashMap) (a : Nat) (v : Slice) :
    (m.setVal a v).buckets = m.buckets := rfl
@[simp] theorem setVal_top (m : TMHashMap) (a : Nat) (v : Slice) : (m.setVal a v).top = m.top := rfl
@[simp] theorem setVal_freeNodes (m : TMHashMap) (a : Nat) (v : Slice) :
    (m.setVal a v).freeNodes = m.freeNodes := rfl
theorem setVal_key (m : TMHashMap) (a : Nat) (v : Slice) (x : Nat) :
    ((m.setVal a v).nodes x).key = (m.nodes x).key := by
  unfold TMHashMap.setVal
  by_cases h : x = a
  · simp [h]
  · simp [h]
theorem setVal_next (m : TMHashMap) (a : Nat) (v : Slice) (x : Nat) :
    ((m.setVal a v).nodes x).next = (m.nodes x).next := by
  unfold TMHashMap.setVal
  by_cases h : x = a
  · simp [h]
  · simp [h]
theorem setVal_val_same (m : TMHashMap) (a : Nat) (v : Slice) : ((m.setVal a v).nodes a).val = v := by
  simp [TMHashMap.setVal]
theorem setVal_val_other (m : TMHashMap) (a : Nat) (v : Slice) (x : Nat) (h : x ≠ a) :
    ((m.setVal a v).nodes x).val = (m.nodes x).val := by
  simp [TMHashMap.setVal, h]

@[simp] theorem tmDelete_capacity (m : TMHashMap) (a : Nat) :
    (m.tmDelete a).capacity = m.capacity := rfl
@[simp] theorem tmDelete_sizeHM (m : TMHashMap) (a : Nat) : (m.tmDelete a).sizeHM = m.sizeHM := rfl
@[simp] theorem tmDelete_buckets (m : TMHashMap) (a : Nat) :
    (m.tmDelete a).buckets = m.buckets := rfl
@[simp] theorem tmDelete_nodes (m : TMHashMap) (a : Nat) : (m.tmDelete a).nodes = m.nodes := rfl
@[simp] theorem tmDelete_top (m : TMHashMap) (a : Nat) : (m.tmDelete a).top = m.top := rfl
@[simp] theorem tmDelete_freeNodes (m : TMHashMap) (a : Nat) :
    (m.tmDelete a).freeNodes = a :: m.freeNodes := rfl

theorem getBucket_congr (m m2 : TMHashMap) (h : m2.capacity = m.capacity) (k : Slice) :
    m2.getBucket k = m.getBucket k := by
  unfold TMHashMap.getBucket
  rw [h]

/-! ### Searching a chain -/

theorem find_map_congr (f f2 : Nat → TMHashMap.Node) (k : Slice) :
    ∀ (l : List Nat), (∀ x, x ∈ l → (f2 x).key = (f x).key ∧
        ((f x).key = k → (f2 x).val = (f x).val)) →
      ((l.map f2).find? fun nd => decide (nd.key = k)).map (fun nd => nd.val)
        = ((l.map f).find? fun nd => decide (nd.key = k)).map (fun nd => nd.val) := by
  intro l
  induction l with
  | nil => intro _; rfl
  | cons a l ih =>
    intro h
    obtain ⟨h1, h2⟩ := h a (List.mem_cons_self _ _)
    simp only [List.map_cons, List.find?_cons]
    by_cases hk : (f a).key = k
    · have hk2 : (f2 a).key = k := by rw [h1]; exact hk
      simp only [hk, hk2, decide_True, Option.map_some', h2 hk]
    · have hk2 : ¬ (f2 a).key = k := by rw [h1]; exact hk
      simp only [hk, hk2, decide_False]
      exact ih fun x hx => h x (List.mem_cons_of_mem _ hx)

theorem find_map_none (f : Nat → TMHashMap.Node) (k : Slice) (l : List Nat)
    (h : ∀ x, x ∈ l → (f x).key ≠ k) :
    (l.map f).find? (fun nd => decide (nd.key = k)) = none := by
  rw [List.find?_eq_none]
  intro nd hnd
  rw [List.mem_map] at hnd
  obtain ⟨x, hx, rfl⟩ := hnd
  simpa using h x hx

theorem find_map_append (f : Nat → TMHashMap.Node) (k : Slice) (l1 l2 : List Nat)
    (h : ∀ x, x ∈ l1 → (f x).key ≠ k) :
    ((l1 ++ l2).map f).find? (fun nd => decide (nd.key = k))
      = (l2.map f).find? (fun nd => decide (nd.key = k)) := by
  rw [List.map_append, List.find?_append, find_map_none f k l1 h]
  rfl

/-! ### `innerPut` -/

/-- What the loop of `innerPut` computes on a chain: the value of the first node with
the key is replaced, or a new node is linked after the last node. -/
theorem innerPutLoop_spec (m : TMHashMap) (k v : Slice) (h : Nat) (full : List Nat) :
    ∀ (rest pre : List Nat) (node prev fuel : Nat), full = pre ++ rest →
      IsChain m.nodes node rest → (∀ a, a ∈ pre → (m.nodes a).key ≠ k) →
      ((pre = [] ∧ prev = node) ∨ (∃ pre0, pre = pre0 ++ [prev] ∧ prev ≠ 0)) →
      rest.length < fuel →
      (∃ pre2 a rest2, full = pre2 ++ a :: rest2 ∧ (∀ x, x ∈ pre2 → (m.nodes x).key ≠ k) ∧
        (m.nodes a).key = k ∧
        m.innerPutLoop k v h fuel node prev = some (false, m.setVal a v)) ∨
      ((∀ x, x ∈ full → (m.nodes x).key ≠ k) ∧
        ((full = [] ∧ m.innerPutLoop k v h fuel node prev
            = some (true, (m.tmNew k v).2.setBucket h (m.tmNew k v).1)) ∨
         (∃ pre0 last, full = pre0 ++ [last] ∧ m.innerPutLoop k v h fuel node prev
            = some (true, (m.tmNew k v).2.setNext last (m.tmNew k v).1)))) := by
  intro rest
  induction rest with
  | nil =>
    intro pre node prev fuel hfull hc hpre hprev hf
    obtain ⟨fuel, rfl⟩ : ∃ f, fuel = f + 1 := ⟨fuel - 1, by simp at hf; omega⟩
    have hn : node = 0 := hc
    subst hn
    rw [List.append_nil] at hfull
    subst hfull
    right
    refine ⟨hpre, ?_⟩
    unfold TMHashMap.innerPutLoop
    rw [if_pos rfl]
    rcases hprev with ⟨h1, h2⟩ | ⟨pre0, h1, h2⟩
    · left
      subst h2
      exact ⟨h1, by rw [if_pos rfl]⟩
    · right
      exact ⟨pre0, prev, h1, by rw [if_neg (fun e => h2 e.symm)]⟩
  | cons a rest ih =>
    intro pre node prev fuel hfull hc hpre hprev hf
    obtain ⟨fuel, rfl⟩ : ∃ f, fuel = f + 1 := ⟨fuel - 1, by simp at hf; omega⟩
    obtain ⟨h1, h2, h3⟩ := hc
    subst h1
    unfold TMHashMap.innerPutLoop
    rw [if_neg h2]
    by_cases hk : (m.nodes node).key = k
    · left
      exact ⟨pre, node, rest, hfull, hpre, hk, by rw [if_pos hk]⟩
    · rw [if_neg hk]
      apply ih (pre ++ [node]) _ node fuel (by rw [hfull, List.append_assoc]; rfl) h3
      · intro x hx
        rw [List.mem_append, List.mem_singleton] at hx
        rcases hx with hx | hx
        · exact hpre x hx
        · rw [hx]; exact hk
      · exact Or.inr ⟨pre, rfl, h2⟩
      · simp at hf; omega

/-- The map after `innerPut` has replaced the value of the node `a`, which is the first
node with the key `k` in its chain. -/
theorem Rep_setVal (m : TMHashMap) (ch : Nat → List Nat) (h : m.Rep ch) (k v : Slice)
    (pre2 : List Nat) (a : Nat) (rest2 : List Nat)
    (hch : ch (m.getBucket k) = pre2 ++ a :: rest2)
    (hpre : ∀ x, x ∈ pre2 → (m.nodes x).key ≠ k) (ha : (m.nodes a).key = k) :
    (m.setVal a v).Rep ch ∧
    ∀ k2, (m.setVal a v).contents ch k2 = if k2 = k then some v else m.contents ch k2 := by
  have hgb : ∀ k2, (m.setVal a v).getBucket k2 = m.getBucket k2 :=
    fun k2 => getBucket_congr m _ rfl k2
  constructor
  · exact
      { cap_pos := h.cap_pos
        chain := fun b => IsChain_congr m.nodes _ (ch b) _ (fun x _ => setVal_next m a v x)
          (h.chain b)
        live := by
          intro b x hx
          obtain ⟨h1, h2, h3⟩ := h.live b x hx
          refine ⟨h1, h2, ?_⟩
          rw [hgb, setVal_key]
          exact h3
        keys := by
          intro b
          have e : (ch b).map (fun x => ((m.setVal a v).nodes x).key)
              = (ch b).map (fun x => (m.nodes x).key) :=
            List.map_congr_left fun x _ => setVal_key m a v x
          rw [e]
          exact h.keys b
        free := h.free
        free_nodup := h.free_nodup
        size := h.size }
  · intro k2
    unfold TMHashMap.contents
    rw [hgb]
    by_cases hk : k2 = k
    · subst hk
      rw [if_pos rfl, hch, find_map_append _ _ _ _ (fun x hx => by rw [setVal_key]; exact hpre x hx)]
      simp only [List.map_cons, List.find?_cons, setVal_key, ha, decide_True, Option.map_some',
        setVal_val_same]
    · rw [if_neg hk]
      apply find_map_congr
      intro x _
      refine ⟨setVal_key m a v x, fun hx => ?_⟩
      apply setVal_val_other
      intro hxa
      rw [hxa, ha] at hx
      exact hk hx.symm

/-- What `PTM_NEW<Node>` returns on a well-formed map: a node that is in no chain. -/
theorem tmNew_spec (m : TMHashMap) (ch : Nat → List Nat) (h : m.Rep ch) (k v : Slice) :
    (m.tmNew k v).2.capacity = m.capacity ∧ (m.tmNew k v).2.sizeHM = m.sizeHM ∧
    (m.tmNew k v).2.buckets = m.buckets ∧ m.top ≤ (m.tmNew k v).2.top ∧
    (m.tmNew k v).1 ≠ 0 ∧ (m.tmNew k v).1 ≤ (m.tmNew k v).2.top ∧
    (∀ b, (m.tmNew k v).1 ∉ ch b) ∧
    (∀ a, a ∈ (m.tmNew k v).2.freeNodes → a ∈ m.freeNodes ∧ a ≠ (m.tmNew k v).1) ∧
    (m.tmNew k v).2.freeNodes.Nodup ∧
    (m.tmNew k v).2.nodes (m.tmNew k v).1 = { key := k, val := v } ∧
    (∀ x, x ≠ (m.tmNew k v).1 → (m.tmNew k v).2.nodes x = m.nodes x) := by
  cases hf : m.freeNodes with
  | nil =>
    have e : m.tmNew k v = (m.top + 1, { m with top := m.top + 1, nodes := fun x =>
        if x = m.top + 1 then { key := k, val := v } else m.nodes x }) := by
      unfold TMHashMap.tmNew
      rw [hf]
    rw [e]
    dsimp only
    refine ⟨rfl, rfl, rfl, Nat.le_succ _, Nat.succ_ne_zero _, le_refl _, ?_, ?_, ?_,
      ?_, ?_⟩
    · intro b hb
      have := (h.live b _ hb).1
      omega
    · intro a ha
      rw [hf] at ha
      simp at ha
    · rw [hf]; exact List.nodup_nil
    · simp
    · intro x hx
      simp [hx]
  | cons a rest =>
    have e : m.tmNew k v = (a, { m with freeNodes := rest, nodes := fun x =>
        if x = a then { key := k, val := v } else m.nodes x }) := by
      unfold TMHashMap.tmNew
      rw [hf]
    rw [e]
    dsimp only
    have hnd := h.free_nodup
    rw [hf, List.nodup_cons] at hnd
    obtain ⟨ha0, hat⟩ := h.free a (by rw [hf]; exact List.mem_cons_self _ _)
    refine ⟨rfl, rfl, rfl, le_refl _, ha0, hat, ?_, ?_, hnd.2, ?_, ?_⟩
    · intro b hb
      exact (h.live b a hb).2.1 (by rw [hf]; exact List.mem_cons_self _ _)
    · intro x hx
      exact ⟨List.mem_cons_of_mem _ hx, fun e2 => hnd.1 (e2 ▸ hx)⟩
    · simp
    · intro x hx
      simp [hx]

theorem Rep_nodup (m : TMHashMap) (ch : Nat → List Nat) (h : m.Rep ch) (b : Nat) :
    (ch b).Nodup := List.Nodup.of_map _ (h.keys b)

theorem Rep_ne_zero (m : TMHashMap) (ch : Nat → List Nat) (h : m.Rep ch) (b a : Nat)
    (ha : a ∈ ch b) : a ≠ 0 :=
  fun h0 => IsChain_zero_not_mem _ _ _ (h.chain b) (h0 ▸ ha)

/-- The chains of two buckets share no node. -/
theorem Rep_disjoint (m : TMHashMap) (ch : Nat → List Nat) (h : m.Rep ch) (b1 b2 a : Nat)
    (h1 : a ∈ ch b1) (h2 : a ∈ ch b2) : b1 = b2 := by
  rw [← (h.live b1 a h1).2.2, ← (h.live b2 a h2).2.2]

/-- The map after a node `new` with the key `k`, which no node of its bucket has, and
the value `v` has been linked at the end of the chain of the bucket of `k`. -/
theorem Rep_insert (m m2 : TMHashMap) (ch : Nat → List Nat) (h : m.Rep ch) (k v : Slice)
    (new : Nat) (hk : ∀ x, x ∈ ch (m.getBucket k) → (m.nodes x).key ≠ k)
    (hcap : m2.capacity = m.capacity) (hsz : m2.sizeHM = m.sizeHM) (htop : m.top ≤ m2.top)
    (hnew0 : new ≠ 0) (hnewtop : new ≤ m2.top) (hnewch : ∀ b, new ∉ ch b)
    (hfree : ∀ a, a ∈ m2.freeNodes → a ∈ m.freeNodes ∧ a ≠ new) (hfnd : m2.freeNodes.Nodup)
    (hnk : (m2.nodes new).key = k) (hnv : (m2.nodes new).val = v)
    (hkv : ∀ x, x ≠ new → (m2.nodes x).key = (m.nodes x).key ∧ (m2.nodes x).val = (m.nodes x).val)
    (hchain : ∀ b, IsChain m2.nodes (m2.buckets b)
      (if b = m.getBucket k then ch (m.getBucket k) ++ [new] else ch b)) :
    m2.Rep (fun b => if b = m.getBucket k then ch (m.getBucket k) ++ [new] else ch b) ∧
    ∀ k2, m2.contents (fun b => if b = m.getBucket k then ch (m.getBucket k) ++ [new] else ch b) k2
      = if k2 = k then some v else m.contents ch k2 := by
  have hgb : ∀ k2, m2.getBucket k2 = m.getBucket k2 := fun k2 => getBucket_congr m _ hcap k2
  have hold : ∀ b x, x ∈ ch b → x ≠ new := fun b x hx e => hnewch b (e ▸ hx)
  have hmapk : ∀ b, (ch b).map (fun x => (m2.nodes x).key) = (ch b).map (fun x => (m.nodes x).key) :=
    fun b => List.map_congr_left fun x hx => (hkv x (hold b x hx)).1
  constructor
  · exact
      { cap_pos := by rw [hcap]; exact h.cap_pos
        chain := hchain
        live := by
          intro b x hx
          have hcase : (x ∈ ch b) ∨ (b = m.getBucket k ∧ x = new) := by
            by_cases hb : b = m.getBucket k
            · simp only [hb, if_true, List.mem_append, List.mem_singleton] at hx
              rcases hx with hx | hx
              · exact Or.inl (hb ▸ hx)
              · exact Or.inr ⟨hb, hx⟩
            · simp only [hb, if_false] at hx
              exact Or.inl hx
          rcases hcase with hx | ⟨hb, hx⟩
          · obtain ⟨h1, h2, h3⟩ := h.live b x hx
            refine ⟨le_trans h1 htop, fun hf => h2 (hfree x hf).1, ?_⟩
            rw [hgb, (hkv x (hold b x hx)).1]
            exact h3
          · subst hx
            refine ⟨hnewtop, fun hf => (hfree x hf).2 rfl, ?_⟩
            rw [hgb, hnk, hb]
        keys := by
          intro b
          by_cases hb : b = m.getBucket k
          · simp only [hb, if_true, List.map_append, List.map_cons, List.map_nil, hmapk, hnk]
            rw [List.nodup_append]
            refine ⟨h.keys _, List.nodup_singleton _, ?_⟩
            intro y hy1 hy2
            rw [List.mem_singleton] at hy2
            rw [List.mem_map] at hy1
            obtain ⟨x, hx, hxy⟩ := hy1
            exact hk x hx (hxy.trans hy2)
          · simp only [hb, if_false, hmapk]
            exact h.keys b
        free := by
          intro a ha
          obtain ⟨h1, h2⟩ := h.free a (hfree a ha).1
          exact ⟨h1, le_trans h2 htop⟩
        free_nodup := hfnd
        size := by rw [hsz]; exact h.size }
  · intro k2
    unfold TMHashMap.contents
    rw [hgb]
    by_cases hb : m.getBucket k2 = m.getBucket k
    · simp only [hb, if_true]
      by_cases hk2 : k2 = k
      · subst hk2
        rw [if_pos rfl, find_map_append _ _ _ _ (fun x hx => by
          rw [(hkv x (hold _ x hx)).1]; exact hk x hx)]
        simp only [List.map_cons, List.map_nil, List.find?_cons, hnk, decide_True,
          Option.map_some', hnv]
      · rw [if_neg hk2, List.map_append, List.find?_append, List.map_cons, List.map_nil,
          List.find?_cons]
        have hne : ¬ (m2.nodes new).key = k2 := by rw [hnk]; exact fun e => hk2 e.symm
        simp only [hne, decide_False, List.find?_nil, Option.or_none]
        rw [← hb]
        apply find_map_congr
        intro x hx
        exact ⟨(hkv x (hold _ x hx)).1, fun _ => (hkv x (hold _ x hx)).2⟩
    · simp only [hb, if_false]
      have hk2 : k2 ≠ k := fun e => hb (by rw [e])
      rw [if_neg hk2]
      apply find_map_congr
      intro x hx
      exact ⟨(hkv x (hold _ x hx)).1, fun _ => (hkv x (hold _ x hx)).2⟩

/-- On a well-formed map `innerPut` returns and leaves a well-formed map, which holds
`v` for `k` and for every other key what the map held before. -/
theorem innerPut_spec (m : TMHashMap) (ch : Nat → List Nat) (h : m.Rep ch) (k v : Slice) :
    ∃ r ch2, m.innerPut k v = some r ∧ r.2.Rep ch2 ∧
      (r.1 = true ↔ m.contents ch k = none) ∧
      ∀ k2, r.2.contents ch2 k2 = if k2 = k then some v else m.contents ch k2 := by
  have hlen := Rep_chain_length m ch h (m.getBucket k)
  have hloop := innerPutLoop_spec m k v (m.getBucket k) (ch (m.getBucket k))
    (ch (m.getBucket k)) [] (m.buckets (m.getBucket k)) (m.buckets (m.getBucket k)) (m.top + 1)
    rfl (h.chain _) (by simp) (Or.inl ⟨rfl, rfl⟩) (by omega)
  have hput : m.innerPut k v = m.innerPutLoop k v (m.getBucket k) (m.top + 1)
      (m.buckets (m.getBucket k)) (m.buckets (m.getBucket k)) := by
    unfold TMHashMap.innerPut
    rw [if_neg (by have := h.cap_pos; omega)]
  rw [hput]
  rcases hloop with ⟨pre2, a, rest2, hch, hpre, ha, hres⟩ | ⟨hk, hres⟩
  · -- the key is in the chain
    obtain ⟨hrep, hcont⟩ := Rep_setVal m ch h k v pre2 a rest2 hch hpre ha
    refine ⟨_, ch, hres, hrep, ?_, hcont⟩
    simp only [Bool.false_eq_true, false_iff]
    unfold TMHashMap.contents
    rw [hch, find_map_append _ _ _ _ hpre]
    simp [ha]
  · -- the key is not in the chain: a new node
    obtain ⟨t1, t2, t3, t4, t5, t6, t7, t8, t9, t10, t11⟩ := tmNew_spec m ch h k v
    have hnone : m.contents ch k = none := by
      unfold TMHashMap.contents
      rw [find_map_none _ _ _ hk]
      rfl
    rcases hres with ⟨hnil, hres⟩ | ⟨pre0, last, hlast, hres⟩
    · obtain ⟨hrep, hcont⟩ := Rep_insert m ((m.tmNew k v).2.setBucket (m.getBucket k)
        (m.tmNew k v).1) ch h k v (m.tmNew k v).1 hk t1 t2 t4 t5 t6 t7 t8 t9
        (by rw [setBucket_nodes, t10]) (by rw [setBucket_nodes, t10])
        (fun x hx => by rw [setBucket_nodes, t11 x hx]; exact ⟨rfl, rfl⟩)
        (by
          intro b
          rw [setBucket_nodes, setBucket_buckets]
          by_cases hb : b = m.getBucket k
          · rw [if_pos hb, if_pos hb, hnil]
            exact ⟨rfl, t5, by rw [t10]; rfl⟩
          · rw [if_neg hb, if_neg hb, t3]
            exact IsChain_congr m.nodes _ (ch b) _
              (fun x hx => by rw [t11 x (fun e => t7 b (e ▸ hx))]) (h.chain b))
      exact ⟨_, _, hres, hrep, by simp [hnone], hcont⟩
    · have hlm : last ∈ ch (m.getBucket k) := by rw [hlast]; simp
      have hlnew : last ≠ (m.tmNew k v).1 := fun e => t7 _ (e ▸ hlm)
      obtain ⟨hrep, hcont⟩ := Rep_insert m ((m.tmNew k v).2.setNext last (m.tmNew k v).1) ch h
        k v (m.tmNew k v).1 hk t1 t2 t4 t5 t6 t7 t8 t9
        (by rw [setNext_key, t10]) (by rw [setNext_val, t10])
        (fun x hx => by rw [setNext_key, setNext_val, t11 x hx]; exact ⟨rfl, rfl⟩)
        (by
          intro b
          rw [setNext_buckets, t3]
          by_cases hb : b = m.getBucket k
          · rw [if_pos hb, hb, hlast]
            have hnd := Rep_nodup m ch h (m.getBucket k)
            rw [hlast] at hnd
            apply IsChain_snoc m.nodes _ last (m.tmNew k v).1 t5 (setNext_next_same _ _ _)
              (by rw [setNext_next_other _ _ _ _ (fun e => hlnew e.symm), t10]) pre0
            · intro x hx
              have hxl : x ≠ last := by
                intro e
                subst e
                rw [List.nodup_append] at hnd
                exact hnd.2.2 hx (List.mem_singleton_self _)
              rw [setNext_next_other _ _ _ _ hxl,
                t11 x (fun e => t7 (m.getBucket k) (by rw [← e, hlast]; simp [hx]))]
            · rw [← hlast]
              exact h.chain _
          · rw [if_neg hb]
            apply IsChain_congr m.nodes _ (ch b) _ _ (h.chain b)
            intro x hx
            have hxl : x ≠ last := fun e => hb (Rep_disjoint m ch h _ _ _ hx (e ▸ hlm))
            rw [setNext_next_other _ _ _ _ hxl, t11 x (fun e => t7 b (e ▸ hx))])
      exact ⟨_, _, hres, hrep, by simp [hnone], hcont⟩

/-! ### `innerRemove` -/

/-- What the loop of `innerRemove` computes on a chain: the first node with the key is
unlinked, from the bucket or from the node before it, and freed. -/
theorem innerRemoveLoop_spec (m : TMHashMap) (k : Slice) (h : Nat) (full : List Nat)
    (hnd : full.Nodup) :
    ∀ (rest pre : List Nat) (node prev fuel : Nat), full = pre ++ rest →
      IsChain m.nodes node rest → (∀ a, a ∈ pre → (m.nodes a).key ≠ k) →
      ((pre = [] ∧ prev = node) ∨ (∃ pre0, pre = pre0 ++ [prev])) →
      rest.length < fuel →
      (∃ a rest2, full = a :: rest2 ∧ (m.nodes a).key = k ∧
        m.innerRemoveLoop k h fuel node prev
          = some (true, (m.setBucket h (m.nodes a).next).tmDelete a)) ∨
      (∃ pre0 prev0 a rest2, full = pre0 ++ [prev0] ++ a :: rest2 ∧
        (∀ x, x ∈ pre0 ++ [prev0] → (m.nodes x).key ≠ k) ∧ (m.nodes a).key = k ∧
        m.innerRemoveLoop k h fuel node prev
          = some (true, (m.setNext prev0 (m.nodes a).next).tmDelete a)) ∨
      ((∀ x, x ∈ full → (m.nodes x).key ≠ k) ∧
        m.innerRemoveLoop k h fuel node prev = some (false, m)) := by
  intro rest
  induction rest with
  | nil =>
    intro pre node prev fuel hfull hc hpre _ hf
    obtain ⟨fuel, rfl⟩ : ∃ f, fuel = f + 1 := ⟨fuel - 1, by simp at hf; omega⟩
    have hn : node = 0 := hc
    subst hn
    rw [List.append_nil] at hfull
    subst hfull
    right; right
    refine ⟨hpre, ?_⟩
    unfold TMHashMap.innerRemoveLoop
    rw [if_pos rfl]
  | cons a rest ih =>
    intro pre node prev fuel hfull hc hpre hprev hf
    obtain ⟨fuel, rfl⟩ : ∃ f, fuel = f + 1 := ⟨fuel - 1, by simp at hf; omega⟩
    obtain ⟨h1, h2, h3⟩ := hc
    subst h1
    unfold TMHashMap.innerRemoveLoop
    rw [if_neg h2]
    by_cases hk : (m.nodes node).key = k
    · rw [if_pos hk]
      rcases hprev with ⟨hp1, hp2⟩ | ⟨pre0, hp1⟩
      · left
        subst hp1
        subst hp2
        exact ⟨prev, rest, hfull, hk, by rw [if_pos rfl]⟩
      · right; left
        subst hp1
        have hne : node ≠ prev := by
          intro e
          subst e
          rw [hfull] at hnd
          have := (List.nodup_append.mp hnd).2.2
          exact this (List.mem_append_right _ (List.mem_singleton_self _))
            (List.mem_cons_self _ _)
        exact ⟨pre0, prev, node, rest, hfull, hpre, hk, by rw [if_neg hne]⟩
    · rw [if_neg hk]
      apply ih (pre ++ [node]) _ node fuel (by rw [hfull, List.append_assoc]; rfl) h3
      · intro x hx
        rw [List.mem_append, List.mem_singleton] at hx
        rcases hx with hx | hx
        · exact hpre x hx
        · rw [hx]; exact hk
      · exact Or.inr ⟨pre, rfl⟩
      · simp at hf; omega

/-- The map after the node `a`, which is the first node with the key `k` in its chain,
has been unlinked and freed. -/
theorem Rep_remove (m m2 : TMHashMap) (ch : Nat → List Nat) (h : m.Rep ch) (k : Slice)
    (pre : List Nat) (a : Nat) (rest2 : List Nat)
    (hch : ch (m.getBucket k) = pre ++ a :: rest2)
    (hpre : ∀ x, x ∈ pre → (m.nodes x).key ≠ k) (ha : (m.nodes a).key = k)
    (hcap : m2.capacity = m.capacity) (hsz : m2.sizeHM = m.sizeHM) (htop : m2.top = m.top)
    (hfree : m2.freeNodes = a :: m.freeNodes)
    (hkv : ∀ x, (m2.nodes x).key = (m.nodes x).key ∧ (m2.nodes x).val = (m.nodes x).val)
    (hchain : ∀ b, IsChain m2.nodes (m2.buckets b)
      (if b = m.getBucket k then pre ++ rest2 else ch b)) :
    m2.Rep (fun b => if b = m.getBucket k then pre ++ rest2 else ch b) ∧
    ∀ k2, m2.contents (fun b => if b = m.getBucket k then pre ++ rest2 else ch b) k2
      = if k2 = k then none else m.contents ch k2 := by
  have hgb : ∀ k2, m2.getBucket k2 = m.getBucket k2 := fun k2 => getBucket_congr m _ hcap k2
  have hnd := Rep_nodup m ch h (m.getBucket k)
  rw [hch] at hnd
  have ham : a ∈ ch (m.getBucket k) := by rw [hch]; simp
  have hsub : ∀ b x, x ∈ (if b = m.getBucket k then pre ++ rest2 else ch b) → x ∈ ch b ∧ x ≠ a := by
    intro b x hx
    by_cases hb : b = m.getBucket k
    · simp only [hb, if_true, List.mem_append] at hx
      rw [hb, hch]
      refine ⟨by simp only [List.mem_append, List.mem_cons]; tauto, ?_⟩
      intro e
      subst e
      rw [List.nodup_append, List.nodup_cons] at hnd
      rcases hx with hx | hx
      · exact hnd.2.2 hx (List.mem_cons_self _ _)
      · exact hnd.2.1.1 hx
    · simp only [hb, if_false] at hx
      exact ⟨hx, fun e => hb (Rep_disjoint m ch h _ _ _ hx (e ▸ ham))⟩
  have hmapk : ∀ l : List Nat, l.map (fun x => (m2.nodes x).key) = l.map (fun x => (m.nodes x).key) :=
    fun l => List.map_congr_left fun x _ => (hkv x).1
  have hkeys := h.keys (m.getBucket k)
  rw [hch, List.map_append, List.map_cons, List.nodup_append, List.nodup_cons] at hkeys
  have hrest : ∀ x, x ∈ rest2 → (m.nodes x).key ≠ k := by
    intro x hx e
    exact hkeys.2.1.1 (by rw [ha, ← e]; exact List.mem_map_of_mem _ hx)
  constructor
  · exact
      { cap_pos := by rw [hcap]; exact h.cap_pos
        chain := hchain
        live := by
          intro b x hx
          obtain ⟨hx1, hx2⟩ := hsub b x hx
          obtain ⟨h1, h2, h3⟩ := h.live b x hx1
          refine ⟨by rw [htop]; exact h1, ?_, ?_⟩
          · rw [hfree, List.mem_cons, not_or]
            exact ⟨hx2, h2⟩
          · rw [hgb, (hkv x).1]
            exact h3
        keys := by
          intro b
          by_cases hb : b = m.getBucket k
          · simp only [hb, if_true, hmapk, List.map_append]
            rw [List.nodup_append]
            exact ⟨hkeys.1, hkeys.2.1.2, fun y hy1 hy2 => hkeys.2.2 hy1 (List.mem_cons_of_mem _ hy2)⟩
          · simp only [hb, if_false, hmapk]
            exact h.keys b
        free := by
          intro x hx
          rw [hfree, List.mem_cons] at hx
          rw [htop]
          rcases hx with hx | hx
          · subst hx
            exact ⟨Rep_ne_zero m ch h _ _ ham, (h.live _ _ ham).1⟩
          · exact h.free x hx
        free_nodup := by
          rw [hfree, List.nodup_cons]
          exact ⟨(h.live _ _ ham).2.1, h.free_nodup⟩
        size := by rw [hsz]; exact h.size }
  · intro k2
    unfold TMHashMap.contents
    rw [hgb]
    by_cases hb : m.getBucket k2 = m.getBucket k
    · simp only [hb, if_true]
      by_cases hk2 : k2 = k
      · subst hk2
        rw [if_pos rfl, find_map_none _ _ _ (fun x hx => by
          rw [(hkv x).1]
          rw [List.mem_append] at hx
          rcases hx with hx | hx
          · exact hpre x hx
          · exact hrest x hx)]
        rfl
      · rw [if_neg hk2, hch]
        have e1 : ((pre ++ a :: rest2).map m.nodes).find? (fun nd => decide (nd.key = k2))
            = ((pre ++ rest2).map m.nodes).find? (fun nd => decide (nd.key = k2)) := by
          have hne : ¬ (m.nodes a).key = k2 := by rw [ha]; exact fun e => hk2 e.symm
          simp only [List.map_append, List.map_cons, List.find?_append, List.find?_cons, hne,
            decide_False]
        rw [e1]
        apply find_map_congr
        intro x _
        exact ⟨(hkv x).1, fun _ => (hkv x).2⟩
    · simp only [hb, if_false]
      have hk2 : k2 ≠ k := fun e => hb (by rw [e])
      rw [if_neg hk2]
      apply find_map_congr
      intro x _
      exact ⟨(hkv x).1, fun _ => (hkv x).2⟩

/-- On a well-formed map `innerRemove` returns, true if and only if the map held a
value for `k`, and leaves a well-formed map, which holds nothing for `k` and for every
other key what the map held before. -/
theorem innerRemove_spec (m : TMHashMap) (ch : Nat → List Nat) (h : m.Rep ch) (k : Slice) :
    ∃ r ch2, m.innerRemove k = some r ∧ r.2.Rep ch2 ∧
      (r.1 = true ↔ m.contents ch k ≠ none) ∧
      ∀ k2, r.2.contents ch2 k2 = if k2 = k then none else m.contents ch k2 := by
  have hlen := Rep_chain_length m ch h (m.getBucket k)
  have hnd := Rep_nodup m ch h (m.getBucket k)
  have hloop := innerRemoveLoop_spec m k (m.getBucket k) (ch (m.getBucket k)) hnd
    (ch (m.getBucket k)) [] (m.buckets (m.getBucket k)) (m.buckets (m.getBucket k)) (m.top + 1)
    rfl (h.chain _) (by simp) (Or.inl ⟨rfl, rfl⟩) (by omega)
  have hrem : m.innerRemove k = m.innerRemoveLoop k (m.getBucket k) (m.top + 1)
      (m.buckets (m.getBucket k)) (m.buckets (m.getBucket k)) := by
    unfold TMHashMap.innerRemove
    rw [if_neg (by have := h.cap_pos; omega)]
  rw [hrem]
  rcases hloop with ⟨a, rest2, hch, ha, hres⟩ | ⟨pre0, prev0, a, rest2, hch, hpre, ha, hres⟩ |
    ⟨hk, hres⟩
  · -- the first node of the chain has the key
    have hsome : m.contents ch k ≠ none := by
      unfold TMHashMap.contents
      rw [hch]
      simp [ha]
    have hc := h.chain (m.getBucket k)
    rw [hch] at hc
    obtain ⟨hrep, hcont⟩ := Rep_remove m ((m.setBucket (m.getBucket k) (m.nodes a).next).tmDelete a)
      ch h k [] a rest2 hch (by simp) ha rfl rfl rfl rfl (fun x => ⟨rfl, rfl⟩)
      (by
        intro b
        rw [tmDelete_nodes, tmDelete_buckets, setBucket_nodes, setBucket_buckets]
        by_cases hb : b = m.getBucket k
        · rw [if_pos hb, if_pos hb]
          exact hc.2.2
        · rw [if_neg hb, if_neg hb]
          exact h.chain b)
    exact ⟨_, _, hres, hrep, by simp [hsome], hcont⟩
  · -- a later node has the key
    have hsome : m.contents ch k ≠ none := by
      unfold TMHashMap.contents
      rw [hch, find_map_append _ _ _ _ hpre]
      simp [ha]
    have hnd2 := hnd
    rw [hch] at hnd2
    have hpm : prev0 ∈ ch (m.getBucket k) := by rw [hch]; simp
    obtain ⟨hrep, hcont⟩ := Rep_remove m ((m.setNext prev0 (m.nodes a).next).tmDelete a)
      ch h k (pre0 ++ [prev0]) a rest2 hch hpre ha rfl rfl rfl rfl
      (fun x => ⟨setNext_key _ _ _ _, setNext_val _ _ _ _⟩)
      (by
        intro b
        rw [tmDelete_nodes, tmDelete_buckets, setNext_buckets]
        by_cases hb : b = m.getBucket k
        · rw [if_pos hb, hb]
          apply IsChain_unlink m.nodes _ prev0 a rest2 (setNext_next_same _ _ _) _ pre0
          · intro y hy
            apply setNext_next_other
            intro e
            subst e
            rw [List.append_assoc, List.nodup_append] at hnd2
            exact hnd2.2.2 hy (List.mem_cons_self _ _)
          · rw [← hch]
            exact h.chain _
          · intro y hy
            apply setNext_next_other
            intro e
            subst e
            rw [List.nodup_append] at hnd2
            exact hnd2.2.2 (List.mem_append_right _ (List.mem_singleton_self _))
              (List.mem_cons_of_mem _ hy)
        · rw [if_neg hb]
          apply IsChain_congr m.nodes _ (ch b) _ _ (h.chain b)
          intro x hx
          apply setNext_next_other
          exact fun e => hb (Rep_disjoint m ch h _ _ _ hx (e ▸ hpm)))
    exact ⟨_, _, hres, hrep, by simp [hsome], hcont⟩
  · -- no node has the key
    have hnone : m.contents ch k = none := by
      unfold TMHashMap.contents
      rw [find_map_none _ _ _ hk]
      rfl
    refine ⟨_, ch, hres, h, by simp [hnone], ?_⟩
    intro k2
    by_cases hk2 : k2 = k
    · rw [if_pos hk2, hk2, hnone]
    · rw [if_neg hk2]

/-! ### The store -/

theorem Rep_create (capacity : Nat) (h : 0 < capacity) :
    (TMHashMap.create capacity).Rep (fun _ => []) :=
  { cap_pos := h
    chain := fun _ => rfl
    live := fun _ _ ha => by simp at ha
    keys := fun _ => List.nodup_nil
    free := fun _ ha => by simp [TMHashMap.create] at ha
    free_nodup := List.nodup_nil
    size := rfl }

/-- Every state of the store reached from a new store has a well-formed map that holds
for every key the value the store should hold. -/
theorem Reached_rep (db : DBImpl) (c : Slice → Option Slice) (h : db.Reached c) :
    ∃ ch, db.hashMap.Rep ch ∧ ∀ k, db.hashMap.contents ch k = c k := by
  induction h with
  | start =>
    refine ⟨fun _ => [], Rep_create _ (by decide), ?_⟩
    intro k
    rfl
  | put db db1 c k v st _ hput ih =>
    obtain ⟨ch, hrep, hc⟩ := ih
    obtain ⟨r, ch2, hr, hrep2, -, hc2⟩ := innerPut_spec db.hashMap ch hrep k v
    unfold DBImpl.Put at hput
    rw [hr] at hput
    simp only [Option.some.injEq, Prod.mk.injEq] at hput
    obtain ⟨-, rfl⟩ := hput
    refine ⟨ch2, hrep2, ?_⟩
    intro k2
    rw [hc2 k2, hc k2]
  | delete db db1 c k st _ hdel ih =>
    obtain ⟨ch, hrep, hc⟩ := ih
    obtain ⟨r, ch2, hr, hrep2, -, hc2⟩ := innerRemove_spec db.hashMap ch hrep k
    unfold DBImpl.Delete at hdel
    rw [hr] at hdel
    simp only [Option.some.injEq, Prod.mk.injEq] at hdel
    obtain ⟨-, rfl⟩ := hdel
    refine ⟨ch2, hrep2, ?_⟩
    intro k2
    rw [hc2 k2, hc k2]

/-- `Get` returns what the store should hold for the key. -/
theorem Get_reached (db : DBImpl) (c : Slice → Option Slice) (h : db.Reached c) (k sv : Slice) :
    db.Get k sv = some (match c k with
      | some v => (.OK, v)
      | none => (.NotFound, sv)) := by
  obtain ⟨ch, hrep, hc⟩ := Reached_rep db c h
  unfold DBImpl.Get
  rw [innerGet_spec db.hashMap ch hrep k sv, hc k]
  cases c k <;> rfl

/-- `Put` returns OK and leaves a state of the store that holds `v` for `k`. -/
theorem Put_reached (db : DBImpl) (c : Slice → Option Slice) (h : db.Reached c) (k v : Slice) :
    ∃ db1, db.Put k v = some (.OK, db1) ∧ db1.Reached (fun x => if x = k then some v else c x) := by
  obtain ⟨ch, hrep, -⟩ := Reached_rep db c h
  obtain ⟨r, ch2, hr, -, -, -⟩ := innerPut_spec db.hashMap ch hrep k v
  have hput : db.Put k v = some (.OK, { db with hashMap := r.2 }) := by
    unfold DBImpl.Put
    rw [hr]
  exact ⟨_, hput, .put db _ c k v .OK h hput⟩

/-- `Delete` returns OK or NotFound, according to whether the store held a value for
`k`, and leaves a state of the store that holds nothing for `k`. -/
theorem Delete_reached (db : DBImpl) (c : Slice → Option Slice) (h : db.Reached c) (k : Slice) :
    ∃ db1, db.Delete k = some (if c k ≠ none then .OK else .NotFound, db1) ∧
      db1.Reached (fun x => if x = k then none else c x) := by
  obtain ⟨ch, hrep, hc⟩ := Reached_rep db c h
  obtain ⟨r, ch2, hr, -, hb, -⟩ := innerRemove_spec db.hashMap ch hrep k
  have hdel : db.Delete k = some (if c k ≠ none then .OK else .NotFound,
      { db with hashMap := r.2 }) := by
    unfold DBImpl.Delete
    rw [hr]
    rw [hc k] at hb
    dsimp only
    by_cases hck : c k ≠ none
    · rw [if_pos hck, if_pos (hb.mpr hck)]
    · rw [if_neg hck, if_neg (fun e => hck (hb.mp e))]
  exact ⟨_, hdel, .delete db _ c k _ h hdel⟩

theorem innerPut_reached (m : TMHashMap) (c : Slice → Option Slice)
    (h : DBImpl.Reached { hashMap := m } c) (k v : Slice) :
    ∃ r, m.innerPut k v = some r ∧
      DBImpl.Reached { hashMap := r.2 } (fun x => if x = k then some v else c x) := by
  obtain ⟨ch, hrep, -⟩ := Reached_rep _ c h
  obtain ⟨r, ch2, hr, -, -, -⟩ := innerPut_spec m ch hrep k v
  refine ⟨r, hr, .put _ _ c k v .OK h ?_⟩
  unfold DBImpl.Put
  rw [hr]

theorem innerRemove_reached (m : TMHashMap) (c : Slice → Option Slice)
    (h : DBImpl.Reached { hashMap := m } c) (k : Slice) :
    ∃ r, m.innerRemove k = some r ∧
      DBImpl.Reached { hashMap := r.2 } (fun x => if x = k then none else c x) := by
  obtain ⟨ch, hrep, -⟩ := Reached_rep _ c h
  obtain ⟨r, ch2, hr, -, -, -⟩ := innerRemove_spec m ch hrep k
  refine ⟨r, hr, .delete _ _ c k (if r.1 then .OK else .NotFound) h ?_⟩
  unfold DBImpl.Delete
  rw [hr]

/-- The loop of `DBImpl::Write` empties the batch and applies its updates from the last
one to the first one. -/
theorem WriteLoop_spec (vec : List WriteBatch.Op) :
    ∀ (fuel : Nat) (m : TMHashMap) (c : Slice → Option Slice),
      DBImpl.Reached { hashMap := m } c → vec.length < fuel →
      ∃ m2, DBImpl.WriteLoop fuel m vec = some (m2, []) ∧
        DBImpl.Reached { hashMap := m2 } (vec.foldr WriteBatch.Op.apply c) := by
  induction vec using List.reverseRecOn with
  | nil =>
    intro fuel m c h hf
    obtain ⟨fuel, rfl⟩ : ∃ f, fuel = f + 1 := ⟨fuel - 1, by simp at hf; omega⟩
    exact ⟨m, rfl, h⟩
  | append_singleton init oper ih =>
    intro fuel m c h hf
    obtain ⟨fuel, rfl⟩ : ∃ f, fuel = f + 1 := ⟨fuel - 1, by simp at hf; omega⟩
    have hlen : init.length < fuel := by simp at hf; omega
    unfold DBImpl.WriteLoop
    have hl : (init ++ [oper]).getLast? = some oper := by simp
    rw [hl]
    dsimp only
    rw [List.dropLast_concat, List.foldr_append]
    by_cases hop : oper.operation = true
    · obtain ⟨r, hr, hreach⟩ := innerPut_reached m c h (cstr oper.key) (cstr oper.value)
      rw [if_pos hop, hr]
      dsimp only
      have e : WriteBatch.Op.apply oper c
          = fun x => if x = cstr oper.key then some (cstr oper.value) else c x := by
        funext x
        simp [WriteBatch.Op.apply, hop]
      rw [List.foldr_cons, List.foldr_nil, e]
      exact ih fuel r.2 _ hreach hlen
    · obtain ⟨r, hr, hreach⟩ := innerRemove_reached m c h (cstr oper.key)
      rw [if_neg hop, hr]
      dsimp only
      have e : WriteBatch.Op.apply oper c
          = fun x => if x = cstr oper.key then none else c x := by
        funext x
        simp [WriteBatch.Op.apply, hop]
      rw [List.foldr_cons, List.foldr_nil, e]
      exact ih fuel r.2 _ hreach hlen

/-- `Write` returns OK, empties the batch and leaves the state of the store in which
the updates of the batch have been applied from the last one to the first one. -/
theorem Write_reached (db : DBImpl) (c : Slice → Option Slice) (h : db.Reached c)
    (batch : WriteBatch) :
    ∃ db1, db.Write batch = some (.OK, db1, {}) ∧
      db1.Reached (batch.trans.foldr WriteBatch.Op.apply c) := by
  obtain ⟨m2, hm, hreach⟩ := WriteLoop_spec batch.trans (batch.trans.length + 1) db.hashMap c h
    (Nat.lt_succ_self _)
  refine ⟨{ hashMap := m2 }, ?_, hreach⟩
  unfold DBImpl.Write
  rw [hm]

/-! ### The claims about the store -/

/-- C17. `DBImpl::Put` and `DBImpl::Get`, in every state of the store that a single
thread reaches from a new store by `Put` and `Delete`, where `c` gives for every key the
value last put and not deleted since: `Put(k, v)` returns OK, whether or not `k` had a
value; `Get(k)` then returns OK and yields exactly `v`; `Get` of every other key returns
after the `Put` what it returned before; and `Get` of a key that has no value returns
NotFound and leaves `*value` as it was. -/
theorem C17_put_get (db : DBImpl) (c : Slice → Option Slice) (h : db.Reached c) (k v : Slice) :
    ∃ db1, db.Put k v = some (.OK, db1) ∧
      (∀ sv, db1.Get k sv = some (.OK, v)) ∧
      (∀ k2 sv, k2 ≠ k → db1.Get k2 sv = db.Get k2 sv) ∧
      (∀ k2 sv, c k2 = none → db.Get k2 sv = some (.NotFound, sv)) := by
  obtain ⟨db1, hput, hreach⟩ := Put_reached db c h k v
  refine ⟨db1, hput, ?_, ?_, ?_⟩
  · intro sv
    rw [Get_reached db1 _ hreach k sv, if_pos rfl]
  · intro k2 sv hne
    rw [Get_reached db1 _ hreach k2 sv, Get_reached db c h k2 sv, if_neg hne]
  · intro k2 sv hc
    rw [Get_reached db c h k2 sv, hc]

theorem C17_put_get_witness :
    ∃ db1, DBImpl.open.Put key1 value1 = some (.OK, db1) ∧
      (∀ sv, db1.Get key1 sv = some (.OK, value1)) ∧
      (∀ k2 sv, k2 ≠ key1 → db1.Get k2 sv = DBImpl.open.Get k2 sv) ∧
      (∀ k2 sv, (fun _ => none : Slice → Option Slice) k2 = none →
        DBImpl.open.Get k2 sv = some (.NotFound, sv)) :=
  C17_put_get DBImpl.open (fun _ => none) .start key1 value1

/-- C19. `DBImpl::Write` under `PTMDB_CAPTURE_BY_COPY`, in every state of the store
reached from a new store: the loop takes `vec[vec.size()-1]` and pops it, so the updates
of a batch are applied from the last one added to the first one, and the batch is left
empty.  After the batch `Put(key, v1)`, `Delete(key)`, `Put(key, v2)`, `Put(key, v3)`
has been written, `Get` yields `v1` for the key, not `v3`. -/
theorem C19_write_reverses_batch (db : DBImpl) (c : Slice → Option Slice) (h : db.Reached c)
    (batch : WriteBatch) (key v1 v2 v3 : Slice) :
    (∃ db1, db.Write batch = some (.OK, db1, {}) ∧
      db1.Reached (batch.trans.foldr WriteBatch.Op.apply c)) ∧
    ∃ db1, db.Write (headerBatch key v1 v2 v3) = some (.OK, db1, {}) ∧
      ∀ sv, db1.Get (cstr key) sv = some (.OK, cstr v1) := by
  refine ⟨Write_reached db c h batch, ?_⟩
  obtain ⟨db1, hw, hreach⟩ := Write_reached db c h (headerBatch key v1 v2 v3)
  refine ⟨db1, hw, ?_⟩
  intro sv
  rw [Get_reached db1 _ hreach (cstr key) sv]
  simp [headerBatch, WriteBatch.Put, WriteBatch.Delete, WriteBatch.Op.apply]

theorem C19_write_reverses_batch_witness :
    (∃ db1, DBImpl.open.Write {} = some (.OK, db1, {}) ∧
      db1.Reached (({} : WriteBatch).trans.foldr WriteBatch.Op.apply (fun _ => none))) ∧
    ∃ db1, DBImpl.open.Write (headerBatch key1 value1 value2 value3) = some (.OK, db1, {}) ∧
      ∀ sv, db1.Get (cstr key1) sv = some (.OK, cstr value1) :=
  C19_write_reverses_batch DBImpl.open (fun _ => none) .start {} key1 value1 value2 value3

/-- C20. `TMHashMapIterator::SeekToFirst`, in every state of the store reached from a
new store by `Put` and `Delete`: `innerPut` and `innerRemove` never change `sizeHM`,
which stays 0, so `SeekToFirst` sets `bucket` to -1 and the iterator is not valid, and
`Next` leaves it so, also when the map has entries: after `Put(k, v)`, `Get(k)` yields
`v` and `SeekToFirst` still leaves the iterator not valid. -/
theorem C20_seek_to_first_invalid (db : DBImpl) (c : Slice → Option Slice) (h : db.Reached c)
    (k v : Slice) (it : TMHashMapIterator) :
    (TMHashMapIterator.SeekToFirst db.hashMap it).Valid = false ∧
    ∃ db1, db.Put k v = some (.OK, db1) ∧ (∀ sv, db1.Get k sv = some (.OK, v)) ∧
      (TMHashMapIterator.SeekToFirst db1.hashMap it).Valid = false ∧
      (TMHashMapIterator.Next db1.hashMap (TMHashMapIterator.SeekToFirst db1.hashMap it)).Valid
        = false := by
  have key : ∀ (d : DBImpl) (c2 : Slice → Option Slice), d.Reached c2 →
      TMHashMapIterator.SeekToFirst d.hashMap it = { it with bucket := -1 } := by
    intro d c2 hd
    obtain ⟨ch, hrep, -⟩ := Reached_rep d c2 hd
    unfold TMHashMapIterator.SeekToFirst
    rw [if_pos hrep.size]
  obtain ⟨db1, hput, hreach⟩ := Put_reached db c h k v
  refine ⟨by rw [key db c h]; rfl, db1, hput, ?_, by rw [key db1 _ hreach]; rfl, ?_⟩
  · intro sv
    rw [Get_reached db1 _ hreach k sv, if_pos rfl]
  · rw [key db1 _ hreach]
    rfl

theorem C20_seek_to_first_invalid_witness :
    (TMHashMapIterator.SeekToFirst DBImpl.open.hashMap {}).Valid = false ∧
    ∃ db1, DBImpl.open.Put key1 value1 = some (.OK, db1) ∧
      (∀ sv, db1.Get key1 sv = some (.OK, value1)) ∧
      (TMHashMapIterator.SeekToFirst db1.hashMap {}).Valid = false ∧
      (TMHashMapIterator.Next db1.hashMap (TMHashMapIterator.SeekToFirst db1.hashMap {})).Valid
        = false :=
  C20_seek_to_first_invalid DBImpl.open (fun _ => none) .start key1 value1 {}

/-! ## Queues, hazard pointers, crash boundary and the store: lemmas and theorems -/

theorem int64_id (x : Int) (h0 : -(2 ^ 63) ≤ x) (h1 : x < 2 ^ 63) : int64 x = x := by
  unfold int64
  omega

theorem index_tmod (SIZE : Nat) (hS : 0 < SIZE) (n : Nat) :
    TMArrayQueue.index SIZE (Int.tmod (n : Int) SIZE) = some (n % SIZE) := by
  have h : Int.tmod (n : Int) (SIZE : Int) = ((n % SIZE : Nat) : Int) := by
    simp [Int.tmod]
  rw [h]
  unfold TMArrayQueue.index
  have h2 : n % SIZE < SIZE := Nat.mod_lt _ hS
  rw [if_pos ⟨by omega, by exact_mod_cast h2⟩, Int.toNat_natCast]

theorem mod_add_ne (SIZE h i j : Nat) (hj : j < SIZE) (hi : i < j) :
    (h + i) % SIZE ≠ (h + j) % SIZE := by
  intro e
  have e2 : (h + i) ≡ (h + j) [MOD SIZE] := e
  have e3 : i ≡ j [MOD SIZE] := Nat.ModEq.add_left_cancel' h e2
  have e4 : i % SIZE = j % SIZE := e3
  rw [Nat.mod_eq_of_lt (by omega), Nat.mod_eq_of_lt hj] at e4
  omega

theorem Holds_create {K : Type} (SIZE : Nat) (items0 : Nat → K) :
    (TMArrayQueue.create items0).Holds SIZE [] 0 where
  head_nonneg := by simp [TMArrayQueue.create]
  tail_eq := by simp [TMArrayQueue.create]
  length_le := by simp
  tail_le := by simp [TMArrayQueue.create]
  items_eq := by intro i h; simp at h

theorem calls_spec {K : Type} [Inhabited K] (SIZE : Nat) (hS : 0 < SIZE) (hS2 : SIZE < 2 ^ 31) :
    ∀ (ops : List (QueueCall K)) (q : TMArrayQueue K) (l : List K) (n : Nat),
      q.Holds SIZE l n → n + ops.length < 2 ^ 62 →
      ∃ q1, TMArrayQueue.calls SIZE q ops = some (boundedFifo SIZE l ops, q1) := by
  intro ops
  induction ops with
  | nil => intro q l n _ _; exact ⟨q, by simp [TMArrayQueue.calls, boundedFifo]⟩
  | cons op rest ih =>
    intro q l n hq hn
    obtain ⟨hh, ht, hl, hn1, hi⟩ := hq
    obtain ⟨h, hhe⟩ := Int.eq_ofNat_of_zero_le hh
    simp only [List.length_cons] at hn
    cases op with
    | enqueue x =>
      by_cases hfull : l.length = SIZE
      · have e : q.enqueue SIZE x = some (false, q) := by
          unfold TMArrayQueue.enqueue
          rw [int64_id _ (by omega) (by omega), if_pos (by omega)]
        obtain ⟨q1, h1⟩ := ih q l (n + 1) ⟨hh, ht, hl, by omega, hi⟩ (by omega)
        refine ⟨q1, ?_⟩
        simp only [TMArrayQueue.calls, e, h1, boundedFifo, if_pos hfull]
      · have e : q.enqueue SIZE x = some (true,
            { q with items := fun k => if k = (h + l.length) % SIZE then x else q.items k,
                     tail := q.tail + 1 }) := by
          unfold TMArrayQueue.enqueue
          rw [int64_id _ (by omega) (by omega), if_neg (by omega)]
          have : q.tail = ((h + l.length : Nat) : Int) := by rw [ht, hhe]; push_cast; rfl
          rw [this, index_tmod SIZE hS]
          simp only
          rw [int64_id _ (by omega) (by omega)]
        have hq1 : TMArrayQueue.Holds SIZE
            { q with items := fun k => if k = (h + l.length) % SIZE then x else q.items k,
                     tail := q.tail + 1 } (l ++ [x]) (n + 1) := by
          refine ⟨hh, ?_, ?_, ?_, ?_⟩
          · simp only [List.length_append, List.length_singleton]; rw [ht]; push_cast; ring
          · simp only [List.length_append, List.length_singleton]; omega
          · simp only; omega
          · intro i hi2
            simp only [List.length_append, List.length_singleton] at hi2
            have hht : q.head.toNat = h := by rw [hhe]; simp
            simp only [hht]
            by_cases hlast : i = l.length
            · subst hlast
              simp
            · have hil : i < l.length := by omega
              rw [if_neg (mod_add_ne SIZE h i l.length (by omega) hil)]
              have := hi i hil
              rw [hht] at this
              rw [this]
              simp [List.getElem_append_left, hil]
        obtain ⟨q1, h1⟩ := ih _ (l ++ [x]) (n + 1) hq1 (by omega)
        refine ⟨q1, ?_⟩
        simp only [TMArrayQueue.calls, e, h1, boundedFifo, if_neg hfull]
    | dequeue =>
      cases l with
      | nil =>
        have e : q.dequeue SIZE = some (TMArrayQueue.EMPTY K, q) := by
          unfold TMArrayQueue.dequeue
          rw [if_pos (by simpa using ht.symm)]
        obtain ⟨q1, h1⟩ := ih q [] (n + 1) ⟨hh, ht, hl, by omega, hi⟩ (by omega)
        refine ⟨q1, ?_⟩
        simp only [TMArrayQueue.calls, e, h1, boundedFifo]
      | cons y l =>
        simp only [List.length_cons] at ht hl
        have e : q.dequeue SIZE = some (y, { q with head := q.head + 1 }) := by
          unfold TMArrayQueue.dequeue
          rw [if_neg (by omega)]
          rw [hhe, index_tmod SIZE hS]
          simp only
          rw [int64_id _ (by omega) (by omega)]
          have := hi 0 (by simp)
          have hht : q.head.toNat = h := by rw [hhe]; simp
          rw [hht] at this
          simp only [Nat.add_zero] at this
          rw [this]
          simp [hhe]
        have hq1 : TMArrayQueue.Holds SIZE { q with head := q.head + 1 } l (n + 1) := by
          refine ⟨by simp only; omega, ?_, by omega, by simp only; omega, ?_⟩
          · simp only; rw [ht]; push_cast; ring
          · intro i hi2
            have := hi (i + 1) (by simp; omega)
            have hht : q.head.toNat = h := by rw [hhe]; simp
            have hht2 : (q.head + 1).toNat = h + 1 := by rw [hhe]; omega
            simp only [hht2]
            rw [hht] at this
            have e3 : h + 1 + i = h + (i + 1) := by ring
            rw [e3, this]
            simp
        obtain ⟨q1, h1⟩ := ih _ l (n + 1) hq1 (by omega)
        refine ⟨q1, ?_⟩
        simp only [TMArrayQueue.calls, e, h1, boundedFifo]

/-- C21, as stated, fails for an item equal to `EMPTY`: on a queue of capacity 40 of
`uint64_t`, `enqueue(0)` is accepted and the following `dequeue()` returns 0, which is
`EMPTY`, although the queue held one item. -/
theorem C21_empty_item_counterexample :
    (TMArrayQueue.calls 40 (TMArrayQueue.create fun _ => 7) [.enqueue 0, .dequeue]).map Prod.fst
      = some [.accepted true, .item (TMArrayQueue.EMPTY Nat)] := by
  decide

/-- C21, amended.  On a `TMArrayQueue` of capacity `SIZE` (an `int`, at least 1), every
sequence of fewer than `2^62` calls of `enqueue` and `dequeue` on a new queue returns
what the bounded first-in first-out queue `boundedFifo` returns: `enqueue` returns
`false`, leaving the queue as it is, exactly when the queue holds `SIZE` items, and
`dequeue` returns `EMPTY` when the queue holds no item and the oldest item not yet
dequeued otherwise (which is `EMPTY` only if `EMPTY` itself was enqueued). -/
theorem C21_bounded_queue {K : Type} [Inhabited K] (SIZE : Nat) (hS : 0 < SIZE)
    (hS2 : SIZE < 2 ^ 31) (items0 : Nat → K) (ops : List (QueueCall K))
    (hops : ops.length < 2 ^ 62) :
    (TMArrayQueue.calls SIZE (TMArrayQueue.create items0) ops).map Prod.fst
      = some (boundedFifo SIZE [] ops) := by
  obtain ⟨q1, h1⟩ := calls_spec SIZE hS hS2 ops (TMArrayQueue.create items0) [] 0
    (Holds_create SIZE items0) (by omega)
  rw [h1]
  rfl

theorem C21_bounded_queue_witness :
    (TMArrayQueue.calls 40 (TMArrayQueue.create fun _ => 7)
        [.enqueue 33, .enqueue 44, .dequeue, .dequeue, .dequeue]).map Prod.fst
      = some [.accepted true, .accepted true, .item 33, .item 44, .item (TMArrayQueue.EMPTY Nat)] :=
  C21_bounded_queue 40 (by decide) (by decide) (fun _ => 7)
    [.enqueue 33, .enqueue 44, .dequeue, .dequeue, .dequeue] (by decide)

/-- C26, the behaviour of the code.  On a new `TMLinkedListFatQueue` of `uint64_t`,
`enqueue(33)` and `enqueue(44)` are accepted, the first `dequeue()` returns 33 and the
second returns `EMPTY` (0) although 44 is in the queue: `dequeue` returns `EMPTY`
whenever `head == tail`, whether or not the single node still holds items. -/
theorem C26_fat_queue_loses_tail_items :
    (TMLinkedListFatQueue.calls
        (TMLinkedListFatQueue.create (fun _ => { item := fun _ => 0 } : Nat → FatNode Nat))
        [.enqueue 33, .enqueue 44, .dequeue, .dequeue]).map Prod.fst
      = some [.accepted true, .accepted true, .item 33, .item (TMArrayQueue.EMPTY Nat)] := by
  decide

theorem scanSlots_iff (h : HazardPointers) (t obj : Nat) :
    ∀ n, h.scanSlots t obj n = true ↔ ∃ i, i < n ∧ h.hp t i = obj := by
  intro n
  induction n with
  | zero => simp [HazardPointers.scanSlots]
  | succ n ih =>
    unfold HazardPointers.scanSlots
    by_cases hn : h.hp t n = obj
    · simp only [hn, if_true, true_iff]; exact ⟨n, by omega, hn⟩
    · simp only [hn, if_false, ih]
      constructor
      · rintro ⟨i, hi, he⟩; exact ⟨i, by omega, he⟩
      · rintro ⟨i, hi, he⟩
        have : i ≠ n := by rintro rfl; exact hn he
        exact ⟨i, by omega, he⟩

theorem scanThreads_iff (h : HazardPointers) (obj : Nat) :
    ∀ n t0, h.scanThreads obj n t0 = false ↔
      ∃ t i, t0 ≤ t ∧ t < t0 + n ∧ i < h.maxHPs ∧ h.hp t i = obj := by
  intro n
  induction n with
  | zero =>
    intro t0
    simp only [HazardPointers.scanThreads, Bool.true_eq_false, false_iff]
    rintro ⟨t, i, h1, h2, -⟩
    omega
  | succ n ih =>
    intro t0
    unfold HazardPointers.scanThreads
    by_cases hs : h.scanSlots t0 obj h.maxHPs = true
    · rw [if_pos hs]
      simp only [true_iff]
      obtain ⟨i, hi, he⟩ := (scanSlots_iff h t0 obj _).mp hs
      exact ⟨t0, i, le_refl _, by omega, hi, he⟩
    · rw [if_neg hs, ih]
      constructor
      · rintro ⟨t, i, h1, h2, h3, h4⟩; exact ⟨t, i, by omega, by omega, h3, h4⟩
      · rintro ⟨t, i, h1, h2, h3, h4⟩
        have : t ≠ t0 := by
          rintro rfl
          exact hs ((scanSlots_iff h t obj _).mpr ⟨i, h3, h4⟩)
        exact ⟨t, i, by omega, by omega, h3, h4⟩

theorem canDelete_iff (h : HazardPointers) (obj : Nat) :
    h.canDelete obj = true ↔ ¬ h.Referenced obj := by
  unfold HazardPointers.canDelete HazardPointers.Referenced
  rw [← Bool.not_eq_false, scanThreads_iff]
  constructor
  · rintro hn ⟨t, i, h1, h2, h3⟩; exact hn ⟨t, i, Nat.zero_le _, by omega, h2, h3⟩
  · rintro hn ⟨t, i, _, h1, h2, h3⟩; exact hn ⟨t, i, by omega, h2, h3⟩


theorem canDelete_congr (h1 h2 : HazardPointers) (hhp : h2.hp = h1.hp)
    (hH : h2.maxHPs = h1.maxHPs) (hT : h2.maxThreads = h1.maxThreads) (obj : Nat) :
    h2.canDelete obj = h1.canDelete obj := by
  rw [Bool.eq_iff_iff, canDelete_iff, canDelete_iff]
  unfold HazardPointers.Referenced
  rw [hhp, hH, hT]

theorem retireLoop_spec (tid : Nat) :
    ∀ (rest kept : List Nat) (h : HazardPointers) (fuel : Nat),
      h.retiredList tid = kept ++ rest → rest.length ≤ fuel →
      (HazardPointers.retireLoop tid fuel kept.length h).retiredList tid
          = kept ++ rest.filter (fun o => !h.canDelete o) ∧
        (HazardPointers.retireLoop tid fuel kept.length h).deleted
          = h.deleted ++ (rest.filter (fun o => h.canDelete o)).map (fun o => (o, tid)) ∧
        (HazardPointers.retireLoop tid fuel kept.length h).hp = h.hp ∧
        (HazardPointers.retireLoop tid fuel kept.length h).maxHPs = h.maxHPs ∧
        (HazardPointers.retireLoop tid fuel kept.length h).maxThreads = h.maxThreads ∧
        ∀ t, t ≠ tid →
          (HazardPointers.retireLoop tid fuel kept.length h).retiredList t = h.retiredList t := by
  intro rest
  induction rest with
  | nil =>
    intro kept h fuel hl _
    have hlen : ¬ (kept.length < (h.retiredList tid).length) := by rw [hl]; simp
    cases fuel with
    | zero => simp [HazardPointers.retireLoop, hl]
    | succ fuel =>
      unfold HazardPointers.retireLoop
      rw [if_neg hlen]
      simp [hl]
  | cons o rest ih =>
    intro kept h fuel hl hf
    cases fuel with
    | zero => simp at hf
    | succ fuel =>
      simp only [List.length_cons, Nat.add_le_add_iff_right] at hf
      have hlen : kept.length < (h.retiredList tid).length := by rw [hl]; simp
      have hobj : (h.retiredList tid).getD kept.length 0 = o := by
        rw [hl, List.getD_eq_getElem?_getD, List.getElem?_append_right (le_refl _)]
        simp
      unfold HazardPointers.retireLoop
      rw [if_pos hlen]
      simp only [hobj]
      by_cases hc : h.canDelete o = true
      · rw [if_pos hc]
        have herase : (h.retiredList tid).eraseIdx kept.length = kept ++ rest := by
          rw [hl, List.eraseIdx_append_of_length_le (le_refl _)]
          simp
        rw [herase]
        have := ih kept ((h.setRetired tid (kept ++ rest)).callDeleter o tid) fuel
          (by simp [HazardPointers.setRetired, HazardPointers.callDeleter]) hf
        have hcd : ∀ x, ((h.setRetired tid (kept ++ rest)).callDeleter o tid).canDelete x
            = h.canDelete x :=
          fun x => canDelete_congr h ((h.setRetired tid (kept ++ rest)).callDeleter o tid)
            rfl rfl rfl x
        simp only [hcd] at this
        obtain ⟨a1, a2, a3, a4, a5, a6⟩ := this
        refine ⟨?_, ?_, a3, a4, a5, ?_⟩
        · rw [a1]; simp [hc]
        · rw [a2]; simp [hc, HazardPointers.setRetired, HazardPointers.callDeleter]
        · intro t ht
          rw [a6 t ht]
          simp [ht, HazardPointers.setRetired, HazardPointers.callDeleter]
      · rw [if_neg hc]
        have := ih (kept ++ [o]) h fuel (by simp [hl]) hf
        simp only [List.length_append, List.length_singleton] at this
        obtain ⟨a1, a2, a3, a4, a5, a6⟩ := this
        refine ⟨?_, ?_, a3, a4, a5, a6⟩
        · rw [a1]; simp [hc]
        · rw [a2]; simp [hc]

/-- C22.  For every state of the slots and of the retired lists, `retire(ptr, tid)`
(with `maxHPs`, `maxThreads` and `tid` within the arrays) returns, and with `dels` the
objects it passes to the deleter, in order: an object held by some slot `hp[t][i]`,
`t < maxThreads`, `i < maxHPs`, is not among `dels` and occurs in the retired list of
`tid` as often as it was retired; an object held by no slot is no longer in the retired
list and is passed to the deleter once for every time it was retired (once, if it was
retired once).  The slots are not changed. -/
theorem C22_retire_respects_hazard_pointers (h : HazardPointers) (ptr tid : Nat)
    (hH : h.maxHPs ≤ HP_MAX_HPS) (hT : h.maxThreads ≤ HP_MAX_THREADS)
    (htid : tid < HP_MAX_THREADS) :
    ∃ (h1 : HazardPointers) (dels : List Nat), h.retire ptr tid = some h1 ∧ h1.hp = h.hp ∧
      h1.deleted = h.deleted ++ dels.map (fun o => (o, tid)) ∧
      (∀ t, t ≠ tid → h1.retiredList t = h.retiredList t) ∧
      (∀ o, h.Referenced o →
        o ∉ dels ∧ (h1.retiredList tid).count o = (h.retiredList tid ++ [ptr]).count o) ∧
      (∀ o, ¬ h.Referenced o →
        o ∉ h1.retiredList tid ∧ dels.count o = (h.retiredList tid ++ [ptr]).count o) := by
  have hcd : ∀ x, (h.setRetired tid (h.retiredList tid ++ [ptr])).canDelete x = h.canDelete x :=
    fun x => canDelete_congr h (h.setRetired tid (h.retiredList tid ++ [ptr])) rfl rfl rfl x
  have hs := retireLoop_spec tid (h.retiredList tid ++ [ptr]) []
    (h.setRetired tid (h.retiredList tid ++ [ptr]))
    (h.retiredList tid ++ [ptr]).length (by simp [HazardPointers.setRetired]) (le_refl _)
  simp only [hcd, List.length_nil, List.nil_append] at hs
  obtain ⟨a1, a2, a3, -, -, a6⟩ := hs
  refine ⟨_, (h.retiredList tid ++ [ptr]).filter (fun o => h.canDelete o), ?_, a3, a2, ?_, ?_, ?_⟩
  · unfold HazardPointers.retire
    rw [if_pos ⟨hH, hT, htid⟩]
    simp [HazardPointers.setRetired]
  · intro t ht; rw [a6 t ht]; simp [ht, HazardPointers.setRetired]
  · intro o ho
    have hc : h.canDelete o = false := by
      rw [← Bool.not_eq_true, canDelete_iff]; exact not_not.mpr ho
    refine ⟨?_, ?_⟩
    · intro hm
      have := (List.mem_filter.mp hm).2
      rw [hc] at this; cases this
    · rw [a1]
      exact List.count_filter (by simp [hc])
  · intro o ho
    have hc : h.canDelete o = true := (canDelete_iff h o).mpr ho
    refine ⟨?_, ?_⟩
    · rw [a1]
      intro hm
      have := (List.mem_filter.mp hm).2
      rw [hc] at this; simp at this
    · exact List.count_filter (by simp [hc])

theorem C22_retire_respects_hazard_pointers_witness :
    ∃ (h1 : HazardPointers) (dels : List Nat), hpExample.retire 600 0 = some h1 ∧
      h1.hp = hpExample.hp ∧
      h1.deleted = hpExample.deleted ++ dels.map (fun o => (o, 0)) ∧
      (∀ t, t ≠ 0 → h1.retiredList t = hpExample.retiredList t) ∧
      (∀ o, hpExample.Referenced o →
        o ∉ dels ∧ (h1.retiredList 0).count o = (hpExample.retiredList 0 ++ [600]).count o) ∧
      (∀ o, ¬ hpExample.Referenced o →
        o ∉ h1.retiredList 0 ∧ dels.count o = (hpExample.retiredList 0 ++ [600]).count o) :=
  C22_retire_respects_hazard_pointers hpExample 600 0 (by decide) (by decide) (by decide)

/-- C27, the behaviour of the code.  When the head of the replica `newComb` already has
the sequence of the target ticket `ltail`, the loop of `Redo::apply_redologs` runs no
iteration and the local variable `ringTicket` is never assigned; the function still
executes `newComb->head.store(ringTicket)` and returns the replica.  The head is then
the indeterminate value `uninit` of that variable, whatever it is; nothing else
changes. -/
theorem C27_head_indeterminate (s : Redo) (newComb initCombSeq lastAppliedTicket ltail tid
    uninit : Nat) (h : sti2seq lastAppliedTicket = sti2seq ltail) :
    apply_redologs newComb initCombSeq lastAppliedTicket ltail tid uninit s
        = (true, s.setHead newComb uninit) ∧
      ((apply_redologs newComb initCombSeq lastAppliedTicket ltail tid uninit s).2.combs
        newComb).head = uninit := by
  have e : apply_redologs newComb initCombSeq lastAppliedTicket ltail tid uninit s
      = (true, s.setHead newComb uninit) := by
    unfold apply_redologs
    simp only [h, Nat.sub_self, redoLoop, ne_eq, not_true_eq_false, if_false]
  rw [e]
  exact ⟨rfl, by simp [Redo.setHead, Redo.setComb]⟩

theorem C27_head_indeterminate_witness :
    apply_redologs 1 0 (reopened.combs 1).head (reopened.combs reopened.cur).head 0
        (makeSeqTidIdx 5 0 0) reopened
        = (true, reopened.setHead 1 (makeSeqTidIdx 5 0 0)) ∧
      ((apply_redologs 1 0 (reopened.combs 1).head (reopened.combs reopened.cur).head 0
        (makeSeqTidIdx 5 0 0) reopened).2.combs 1).head = makeSeqTidIdx 5 0 0 :=
  C27_head_indeterminate reopened 1 0 (reopened.combs 1).head
    (reopened.combs reopened.cur).head 0 (makeSeqTidIdx 5 0 0) (by decide!)

/-- C24, the behaviour of the code.  Thread 0 runs a write transaction on replica 1
(`tl_cx_size = 4096`) while replica 0 is current, and has stored 77 in the counter, which
the closure itself reads back as 77.  A `readTx` started by the closure does not run as
a nested transaction (only `tl_nested_read_trans` is tested): it binds the thread to the
current replica 0 and returns 3, not 77, and on return sets `tl_cx_size` to 0.  The next
store of the write transaction, 9, therefore lands in replica 0, the replica that
`curComb` designates and readers use, while replica 1, which the transaction holds
exclusively, still has 77. -/
theorem C24_nested_read_rebinds_replica :
    (midWrite.tlocal 0).tl_nested_write_trans = 1 ∧
    (midWrite.tlocal 0).tl_cx_size = 4096 ∧
    midWrite.cur = 0 ∧
    (midWrite.combs 1).rwLock.writer = true ∧
    (exec 0 (readCell counterAddr) midWrite).1 = .value 77 ∧
    nestedRead.1 = .value 3 ∧
    (nestedRead.2.tlocal 0).tl_cx_size = 0 ∧
    load64 (storeAfterRead.replica 0) counterAddr = 9 ∧
    load64 (storeAfterRead.replica 1) counterAddr = 77 ∧
    storeAfterRead.cur = 0 := by
  decide!

/-- C29, the behaviour of the code.  On the pool of 16 MB that `Redo` creates by default,
right after `EsLoco::init`, four calls of `malloc` and no `free`: a request of `2^30`
bytes is given the block at the pool top `0x7fddc0000700`, and the pool top moves back by
`2^31` bytes; two requests of `2^30 - 16` bytes are then given blocks of `2^30` bytes
below the pool, which bring the pool top back to `0x7fddc0000700`; and a request of 100
bytes is given the block at `0x7fddc0000700` again.  The first and the fourth block are
both live and have the same address, and the second and third lie below `poolAddr`. -/
theorem C29_live_blocks_overlap :
    defaultGlobals.g_main_addr = 0x7fddc0000400 ∧ defaultGlobals.g_main_size = 2 ^ 24 ∧
    (mallocs defaultGlobals.g_main_addr defaultGlobals.g_main_size
        [2 ^ 30, 2 ^ 30 - 16, 2 ^ 30 - 16, 100] (freshPool defaultGlobals.g_main_addr)).map Prod.fst
      = some [0x7fddc0000700 + 16, 0x7fddc0000700 - 2 ^ 31 + 16, 0x7fddc0000700 - 2 ^ 30 + 16,
          0x7fddc0000700 + 16] ∧
    0x7fddc0000700 - 2 ^ 31 + 16 < defaultGlobals.g_main_addr := by
  decide

theorem destroyBuckets_empty (m : TMHashMap) (hb : ∀ i, m.buckets i = 0) :
    ∀ n i, TMHashMap.destroyBuckets n i m = some m := by
  intro n
  induction n with
  | zero => intro i; rfl
  | succ n ih =>
    intro i
    unfold TMHashMap.destroyBuckets
    simp only [TMHashMap.destroyChain, hb, if_true]
    exact ih (i + 1)

/-- C30, the behaviour of the code.  On a region whose root pointer 0 is null, the
constructor of `DBImpl` makes a `TMHashMap` and stores its address in root pointer 0.
The destructor deletes that map, which frees its nodes, its buckets and its block, and
leaves root pointer 0 as it is: afterwards the root pointer is not null and points to a
block that is free.  A `DBImpl` constructed after that finds the root pointer not null
and adopts the deleted map, without making a new one. -/
theorem C30_root_pointer_dangles (r r2 : StoreRegion) (h0 : r.root0 = 0)
    (hf : 0 ∉ r.freeBlocks)
    (hd : DBImpl.destruct (DBImpl.construct r).1 (DBImpl.construct r).2 = some r2) :
    (DBImpl.construct r).2.root0 = (DBImpl.construct r).1 ∧
    (DBImpl.construct r).2.live (DBImpl.construct r).1 = true ∧
    r2.root0 = (DBImpl.construct r).1 ∧ r2.root0 ≠ 0 ∧
    r2.live r2.root0 = false ∧ r2.root0 ∈ r2.freeBlocks ∧
    DBImpl.construct r2 = (r2.root0, r2) := by
  have hc : DBImpl.construct r = (r.tmNew.1, { r.tmNew.2 with root0 := r.tmNew.1 }) := by
    unfold DBImpl.construct
    simp [h0]
  have hne : r.tmNew.1 ≠ 0 := by
    unfold StoreRegion.tmNew
    cases hfb : r.freeBlocks with
    | nil => simp
    | cons b l =>
      simp only
      rintro rfl
      exact hf (by rw [hfb]; simp)
  rw [hc] at hd ⊢
  simp only at hd ⊢
  unfold DBImpl.destruct StoreRegion.tmDelete at hd
  rw [if_neg hne] at hd
  simp only at hd
  split at hd
  · cases hd
  · rename_i m hm
    simp only [Option.some.injEq] at hd
    subst hd
    simp only [if_true, true_and]
    refine ⟨by simp [StoreRegion.tmNew], hne, by simp, ?_⟩
    unfold DBImpl.construct
    simp [hne]

theorem destruct_new :
    ∃ r2, DBImpl.destruct (DBImpl.construct {}).1 (DBImpl.construct {}).2 = some r2 := by
  have hc : (DBImpl.construct {}).1 = 1 := rfl
  have hm : (DBImpl.construct {}).2.hashMaps 1 = TMHashMap.create (10 * 1024 * 1024) := rfl
  have hd : (TMHashMap.create (10 * 1024 * 1024)).destroy
      = some (TMHashMap.create (10 * 1024 * 1024)) :=
    destroyBuckets_empty _ (fun _ => rfl) _ _
  rw [hc]
  unfold DBImpl.destruct StoreRegion.tmDelete
  rw [if_neg (by decide), hm, hd]
  exact ⟨_, rfl⟩

theorem C30_root_pointer_dangles_witness :
    ∃ r2, DBImpl.destruct (DBImpl.construct {}).1 (DBImpl.construct {}).2 = some r2 ∧
      (DBImpl.construct {}).2.root0 = (DBImpl.construct {}).1 ∧
      (DBImpl.construct {}).2.live (DBImpl.construct {}).1 = true ∧
      r2.root0 = (DBImpl.construct {}).1 ∧ r2.root0 ≠ 0 ∧
      r2.live r2.root0 = false ∧ r2.root0 ∈ r2.freeBlocks ∧
      DBImpl.construct r2 = (r2.root0, r2) :=
  destruct_new.elim fun r2 h =>
    ⟨r2, h, C30_root_pointer_dangles {} r2 rfl (by simp) h⟩

/-- C23, the behaviour of the code when the closure of the write transaction starts a
read transaction.  After three committed increments the current replica 0 holds 3.  A write
transaction of thread 0 stores 77 in the counter, in replica 1, then calls `readTx`, and
then stores 9: that store is written to replica 0 while the header still designates
replica 0 (`curComb` has not moved, nothing was committed).  The current replica then
holds 9, which is neither the state before the transaction (3) nor the state the
transaction would commit, and replica 1 holds only the first store. -/
theorem C23_current_replica_written :
    currentCounter threeIncrements = 3 ∧
    storeAfterRead.per.curComb = threeIncrements.per.curComb ∧
    storeAfterRead.cur = threeIncrements.cur ∧
    (storeAfterRead.tlocal 0).tl_nested_write_trans = 1 ∧
    currentCounter storeAfterRead = 9 ∧
    load64 (storeAfterRead.replica (1 - storeAfterRead.cur)) counterAddr = 77 := by
  decide!

theorem cutAfter_inMain (g : Globals) (e : Nat) (f : Prog) (hf : f.InMain g) :
    ∀ n, (f.cutAfter e n).InMain g := by
  induction hf with
  | ret r => intro n; cases n <;> exact .ret r
  | raise x => intro n; cases n <;> exact .raise x
  | pload a k h1 h2 _ ih =>
    intro n
    cases n with
    | zero => exact .raise e
    | succ n => exact .pload a _ h1 h2 (fun v => ih v n)
  | pstore a v k h1 h2 _ ih =>
    intro n
    cases n with
    | zero => exact .raise e
    | succ n => exact .pstore a v _ h1 h2 (ih n)

theorem cutAfter_run_value (e : Nat) (f : Prog) :
    ∀ (n : Nat) (m : Mem) (r : Nat), ((f.cutAfter e n).run m).1 = .value r →
      (f.cutAfter e n).run m = f.run m := by
  induction f with
  | ret r0 => intro n m r _; cases n <;> rfl
  | raise x => intro n m r _; cases n <;> rfl
  | pload a k ih =>
    intro n m r h
    cases n with
    | zero => simp [Prog.cutAfter, Prog.run] at h
    | succ n =>
      simp only [Prog.cutAfter, Prog.run] at h ⊢
      exact ih _ n m r h
  | pstore a v k ih =>
    intro n m r h
    cases n with
    | zero => simp [Prog.cutAfter, Prog.run] at h
    | succ n =>
      simp only [Prog.cutAfter, Prog.run] at h ⊢
      exact ih n _ r h

/-- X6.  From a quiescent state, in which the replica `cur` is current, a
write transaction of thread `tid` whose closure `f` only loads and stores cells of the
main region works on the replica `1 - cur`, which is not the current one.  If the
attempt is interrupted after the acquisition of the replica (copy or replay) and any
number `n` of loads and stores of its closure, the header still
designates `cur`, the thread is still bound to `1 - cur` and every byte outside the
replica `1 - cur` is as before the transaction, so the current replica holds the state
before the transaction; and if the attempt runs to its end, the header designates
`1 - cur`, which holds all the stores of `f` applied to the state before, and the bytes
outside the replica `1 - cur` are still unchanged.  The current replica is never a
partly written one. -/
theorem X6_crash_boundary_quiescent (s : Redo) (tid uninit : Nat) (f : Prog) (n e : Nat)
    (hq : Quiescent s tid) (hf : f.InMain s.g) :
    1 - s.cur ≠ s.cur ∧
    (∀ y, (∀ x, ADDR_IS_IN_MAIN s.g x = true → y ≠ x + s.offsetOf (1 - s.cur)) →
      (ns_write_transaction tid (f.cutAfter e n) uninit s).2.mem y = s.mem y) ∧
    (((ns_write_transaction tid (f.cutAfter e n) uninit s).2.per = s.per ∧
        ((ns_write_transaction tid (f.cutAfter e n) uninit s).2.tlocal tid).tl_cx_size
          = s.offsetOf (1 - s.cur) ∧
        ∀ x, ADDR_IS_IN_MAIN s.g x = true →
          (ns_write_transaction tid (f.cutAfter e n) uninit s).2.replica s.cur x
            = s.replica s.cur x) ∨
      ((ns_write_transaction tid (f.cutAfter e n) uninit s).2.cur = 1 - s.cur ∧
        (∀ x, ADDR_IS_IN_MAIN s.g x = true →
          (ns_write_transaction tid (f.cutAfter e n) uninit s).2.replica (1 - s.cur) x
            = (f.run (s.replica s.cur)).2 x) ∧
        ∀ x, ADDR_IS_IN_MAIN s.g x = true →
          (ns_write_transaction tid (f.cutAfter e n) uninit s).2.replica s.cur x
            = s.replica s.cur x)) := by
  obtain ⟨m5, hd, st1, m1, -, h52, -, -, -, -, -, hv, ho, hval, hexc⟩ :=
    ns_write_transaction_quiescent s tid uninit (f.cutAfter e n) hq (cutAfter_inMain s.g e f hf n)
  have hcur := hq.cur_le
  have hout : ∀ y, (∀ x, ADDR_IS_IN_MAIN s.g x = true → y ≠ x + s.offsetOf (1 - s.cur)) →
      m1 y = s.mem y := fun y hy => by rw [ho y hy, h52 y hy]
  have hd1 : ∀ x, ADDR_IS_IN_MAIN s.g x = true → ∀ x1, ADDR_IS_IN_MAIN s.g x1 = true →
      x + s.cur * s.g.g_main_size ≠ x1 + s.offsetOf (1 - s.cur) := fun x hx x1 hx1 =>
    replica_disjoint s.g s.cur x x1 hcur hx hx1
  refine ⟨by omega, ?_, ?_⟩
  · intro y hy
    cases hrun : ((f.cutAfter e n).run (s.replica s.cur)).1 with
    | value r =>
      rw [hval r hrun]
      obtain ⟨-, -, -, -, hm, -⟩ := committed_simple s tid (f.cutAfter e n) m5 hd st1 m1 r
      simp only [hm]
      exact hout y hy
    | raised x =>
      rw [hexc (.raised x) hrun (fun r h => by cases h)]
      have hmem : (executed s tid (f.cutAfter e n) m5 hd st1 m1).mem = m1 := by simp [executed]
      simp only [hmem]
      exact hout y hy
    | fault =>
      rw [hexc .fault hrun (fun r h => by cases h)]
      have hmem : (executed s tid (f.cutAfter e n) m5 hd st1 m1).mem = m1 := by simp [executed]
      simp only [hmem]
      exact hout y hy
  · have hexec : ∀ out, ((f.cutAfter e n).run (s.replica s.cur)).1 = out →
        (∀ r, out ≠ .value r) →
        (ns_write_transaction tid (f.cutAfter e n) uninit s).2.per = s.per ∧
        ((ns_write_transaction tid (f.cutAfter e n) uninit s).2.tlocal tid).tl_cx_size
          = s.offsetOf (1 - s.cur) ∧
        ∀ x, ADDR_IS_IN_MAIN s.g x = true →
          (ns_write_transaction tid (f.cutAfter e n) uninit s).2.replica s.cur x
            = s.replica s.cur x := by
      intro out hrun hnv
      rw [hexc out hrun hnv]
      have hg : (executed s tid (f.cutAfter e n) m5 hd st1 m1).g = s.g := by simp [executed]
      have hper : (executed s tid (f.cutAfter e n) m5 hd st1 m1).per = s.per := by
        simp [executed]
      have hmem : (executed s tid (f.cutAfter e n) m5 hd st1 m1).mem = m1 := by simp [executed]
      have htl : (executed s tid (f.cutAfter e n) m5 hd st1 m1).tlocal tid
          = (acquired s tid (f.cutAfter e n) m5 hd).tlocal tid := by simp [executed]
      refine ⟨hper, by rw [htl, acquired_tlocal], ?_⟩
      intro x hx
      unfold Redo.replica Redo.offsetOf
      simp only [hmem, hg]
      exact hout _ (hd1 x hx)
    cases hrun : ((f.cutAfter e n).run (s.replica s.cur)).1 with
    | value r =>
      right
      rw [hval r hrun]
      obtain ⟨hg, -, -, -, hm, -⟩ := committed_simple s tid (f.cutAfter e n) m5 hd st1 m1 r
      obtain ⟨hc, -⟩ := committed_cur s tid (f.cutAfter e n) m5 hd st1 m1 r hq
      refine ⟨hc, ?_, ?_⟩
      · intro x hx
        have hoff : (committed s tid (f.cutAfter e n) m5 hd st1 m1 r).offsetOf (1 - s.cur)
            = s.offsetOf (1 - s.cur) := by unfold Redo.offsetOf; rw [hg]
        have hrep : (committed s tid (f.cutAfter e n) m5 hd st1 m1 r).replica (1 - s.cur) x
            = m1 (x + s.offsetOf (1 - s.cur)) := by
          unfold Redo.replica
          rw [hm, hoff]
        rw [hrep, hv x hx, cutAfter_run_value e f n _ r hrun]
      · intro x hx
        unfold Redo.replica Redo.offsetOf
        simp only [hm, hg]
        exact hout _ (hd1 x hx)
    | raised x => exact Or.inl (hexec _ hrun (fun r h => by cases h))
    | fault => exact Or.inl (hexec _ hrun (fun r h => by cases h))

theorem X6_crash_boundary_quiescent_witness :
    1 - (createFileStart smallGlobals zeroMem).cur ≠ (createFileStart smallGlobals zeroMem).cur ∧
    (∀ y, (∀ x, ADDR_IS_IN_MAIN (createFileStart smallGlobals zeroMem).g x = true →
        y ≠ x + (createFileStart smallGlobals zeroMem).offsetOf
          (1 - (createFileStart smallGlobals zeroMem).cur)) →
      (ns_write_transaction 0 (incrProg.cutAfter 5 1) 0
        (createFileStart smallGlobals zeroMem)).2.mem y
        = (createFileStart smallGlobals zeroMem).mem y) ∧
    (((ns_write_transaction 0 (incrProg.cutAfter 5 1) 0
          (createFileStart smallGlobals zeroMem)).2.per = (createFileStart smallGlobals zeroMem).per ∧
        ((ns_write_transaction 0 (incrProg.cutAfter 5 1) 0
          (createFileStart smallGlobals zeroMem)).2.tlocal 0).tl_cx_size
          = (createFileStart smallGlobals zeroMem).offsetOf
              (1 - (createFileStart smallGlobals zeroMem).cur) ∧
        ∀ x, ADDR_IS_IN_MAIN (createFileStart smallGlobals zeroMem).g x = true →
          (ns_write_transaction 0 (incrProg.cutAfter 5 1) 0
            (createFileStart smallGlobals zeroMem)).2.replica
              (createFileStart smallGlobals zeroMem).cur x
            = (createFileStart smallGlobals zeroMem).replica
                (createFileStart smallGlobals zeroMem).cur x) ∨
      ((ns_write_transaction 0 (incrProg.cutAfter 5 1) 0
          (createFileStart smallGlobals zeroMem)).2.cur
          = 1 - (createFileStart smallGlobals zeroMem).cur ∧
        (∀ x, ADDR_IS_IN_MAIN (createFileStart smallGlobals zeroMem).g x = true →
          (ns_write_transaction 0 (incrProg.cutAfter 5 1) 0
            (createFileStart smallGlobals zeroMem)).2.replica
              (1 - (createFileStart smallGlobals zeroMem).cur) x
            = (incrProg.run ((createFileStart smallGlobals zeroMem).replica
                (createFileStart smallGlobals zeroMem).cur)).2 x) ∧
        ∀ x, ADDR_IS_IN_MAIN (createFileStart smallGlobals zeroMem).g x = true →
          (ns_write_transaction 0 (incrProg.cutAfter 5 1) 0
            (createFileStart smallGlobals zeroMem)).2.replica
              (createFileStart smallGlobals zeroMem).cur x
            = (createFileStart smallGlobals zeroMem).replica
                (createFileStart smallGlobals zeroMem).cur x)) :=
  X6_crash_boundary_quiescent (createFileStart smallGlobals zeroMem) 0 0 incrProg 1 5
    (quiescent_createFileStart smallGlobals 0 (by decide) (by decide) (by decide) (by decide))
    incrProg_inMain

/-- C28, the behaviour of the code.  Thread 0 runs a write transaction bound to replica 1
(`tl_cx_size = 4096`) while replica 0 is current, and constructs the `PSlice` of the 15
bytes of `key1` in a block it has allocated.  `TM_PMALLOC` returns 2864 and the members
`data_` and `size_` are stored in replica 1 and logged.  The 15 bytes and the
terminating zero are written at 2864, which is in replica 0, the current replica; the
bytes at `2864 + 4096` in replica 1 are still zero; the redo log has entries for the
counter, the pool top, the two block headers and the two members only, none for 2864 or
2872; and `data()` returns 2864, not `2864 + 4096`. -/
theorem C28_slice_bytes_bypass_replica :
    (sliceBlock.2.tlocal 0).tl_cx_size = 4096 ∧ sliceBlock.2.cur = 0 ∧
    sliceBlock.1 = .value 2832 ∧ sliceMade.1 = .value 2864 ∧
    load64 (sliceMade.2.replica 1) 2832 = 2864 ∧ load64 (sliceMade.2.replica 1) (2832 + 8) = 15 ∧
    bytesAt sliceBlock.2.mem 2864 16 = List.replicate 16 0 ∧
    bytesAt sliceMade.2.mem 2864 16 = key1 ++ [0] ∧
    bytesAt sliceMade.2.mem (2864 + 4096) 16 = List.replicate 16 0 ∧
    loggedAddrs 0 sliceMade.2 = [1808, 1024, 2824, 2840, 2856, 2832] ∧
    PSlice.data 0 sliceSelf sliceMade.2 = 2864 := by
  decide!

/-! ## RedoOpt: the set of cache lines to flush -/

namespace Opt

theorem findCL_fresh (node : NodeCLAggr) (cl : Nat) (h : ∀ j, (node.log j).addrCL ≠ cl) :
    ∀ fuel be, findCL node cl fuel be = false := by
  intro fuel
  induction fuel with
  | zero => intro be; rfl
  | succ fuel ih =>
    intro be
    cases be with
    | none => rfl
    | some b =>
      unfold findCL
      rw [if_neg (h b)]
      exact ih _

theorem searchCL_fresh (a : CLAggregate) (cl hashAddr : Nat)
    (h : ∀ nd j, ((a.nodes nd).log j).addrCL ≠ cl) :
    ∀ fuel i node, (∀ nd, node = some nd → fuel ≤ nd + 1) → (node = none → fuel = 0) →
      searchCL a cl hashAddr fuel i node = some false := by
  intro fuel
  induction fuel with
  | zero => intro i node _ _; rfl
  | succ fuel ih =>
    intro i node h1 h2
    cases node with
    | none => exact absurd (h2 rfl) (by omega)
    | some nd =>
      have hf := h1 nd rfl
      have hrec : searchCL a cl hashAddr fuel (i + 1) (if nd = 0 then none else some (nd - 1))
          = some false := by
        apply ih
        · intro nd1 hnd1
          by_cases h0 : nd = 0
          · simp [h0] at hnd1
          · simp only [h0, if_false, Option.some.injEq] at hnd1
            omega
        · intro hn
          by_cases h0 : nd = 0
          · omega
          · simp [h0] at hn
      unfold searchCL
      by_cases hi : i = 32
      · rw [if_pos hi]
      · rw [if_neg hi]
        simp only [findCL_fresh (a.nodes nd) cl (h nd), Bool.false_eq_true, and_false, if_false]
        split
        · exact hrec
        · exact hrec

theorem Filled_new : ({} : CLAggregate).Filled 0 where
  numCL_eq := rfl
  tail_eq := rfl
  nodes_eq := rfl
  log_eq := by intro nd j; simp

theorem Filled_fresh (a : CLAggregate) (n : Nat) (h : a.Filled n) :
    ∀ nd j, ((a.nodes nd).log j).addrCL ≠ 64 * (n + 1) := by
  intro nd j
  rw [h.log_eq]
  split
  · rename_i hc; omega
  · omega

theorem appendCL_log (a : CLAggregate) (tail cl hashAddr nd j : Nat) :
    (((appendCL a tail cl hashAddr).nodes nd).log j).addrCL
      = if nd = tail ∧ j = a.numCL % HASH_BUCKETS then cl else ((a.nodes nd).log j).addrCL := by
  unfold appendCL CLAggregate.setNode
  by_cases h1 : nd = tail
  · by_cases h2 : j = a.numCL % HASH_BUCKETS
    · simp [h1, h2]
    · simp [h1, h2]
  · simp [h1]

theorem Filled_step (a : CLAggregate) (n usedSize : Nat) (h : a.Filled n)
    (hu : n + 1 ≤ 3 * usedSize / (64 * 4)) :
    ∃ a1, a.addIfAbsent usedSize (64 * (n + 1)) = some (false, a1) ∧ a1.Filled (n + 1) := by
  obtain ⟨h1, h2, h3, h4⟩ := h
  have hfresh := Filled_fresh a n ⟨h1, h2, h3, h4⟩
  unfold CLAggregate.addIfAbsent
  simp only [h1]
  by_cases hn : n = 0
  · subst hn
    rw [if_neg (by simp)]
    refine ⟨_, rfl, ?_, ?_, ?_, ?_⟩
    · simp [appendCL, h1]
    · simp [appendCL, CLAggregate.setNode, h2, HASH_BUCKETS]
    · simp [appendCL, CLAggregate.setNode, h3, HASH_BUCKETS]
    · intro nd j
      rw [appendCL_log, h4, h1, h2]
      simp only [HASH_BUCKETS]
      by_cases hc : nd = (0 - 1) / 1024 ∧ j = 0 % 1024
      · rw [if_pos hc, if_pos (by omega)]
        omega
      · rw [if_neg hc, if_neg (by omega), if_neg (by omega)]
  · rw [if_pos hn, if_neg (by omega)]
    have hs : searchCL a (64 * (n + 1)) (CLAggregate.hash (64 * (n + 1))) (numCLnodes n) 0
        (some a.logTailCL) = some false := by
      apply searchCL_fresh a _ _ hfresh
      · intro nd hnd
        simp only [Option.some.injEq] at hnd
        subst hnd
        rw [h2]
        unfold numCLnodes
        simp only [HASH_BUCKETS]
        split <;> omega
      · intro hc; cases hc
    rw [hs]
    simp only
    by_cases hm : n % HASH_BUCKETS = 0
    · rw [if_pos hm, if_neg (by omega)]
      simp only [HASH_BUCKETS] at hm
      refine ⟨_, rfl, ?_, ?_, ?_, ?_⟩
      · simp [appendCL, CLAggregate.setNode, h1]
      · simp only [appendCL, CLAggregate.setNode, h2, HASH_BUCKETS]
        omega
      · simp only [appendCL, CLAggregate.setNode, h2, HASH_BUCKETS]
        omega
      · intro nd j
        rw [appendCL_log]
        simp only [CLAggregate.setNode, h1, h2, HASH_BUCKETS]
        by_cases hc : nd = (n - 1) / 1024 + 1 ∧ j = n % 1024
        · rw [if_pos hc]
          obtain ⟨rfl, rfl⟩ := hc
          rw [if_pos (by omega)]
          omega
        · rw [if_neg hc]
          by_cases hnd : nd = (n - 1) / 1024 + 1
          · rw [if_pos hnd]
            have : ¬ (j < 1024 ∧ nd * 1024 + j < n + 1) := by omega
            simp [this]
          · rw [if_neg hnd, h4]
            simp only [HASH_BUCKETS]
            by_cases hlt : j < 1024 ∧ nd * 1024 + j < n
            · rw [if_pos hlt, if_pos (by omega)]
            · rw [if_neg hlt, if_neg (by omega)]
    · rw [if_neg hm]
      simp only [HASH_BUCKETS] at hm
      refine ⟨_, rfl, ?_, ?_, ?_, ?_⟩
      · simp [appendCL, CLAggregate.setNode, h1]
      · simp only [appendCL, CLAggregate.setNode, h2, HASH_BUCKETS]
        omega
      · simp only [appendCL, CLAggregate.setNode, h3, HASH_BUCKETS]
        omega
      · intro nd j
        rw [appendCL_log, h4, h1, h2]
        simp only [HASH_BUCKETS]
        by_cases hc : nd = (n - 1) / 1024 ∧ j = n % 1024
        · rw [if_pos hc]
          obtain ⟨rfl, rfl⟩ := hc
          rw [if_pos (by omega)]
          omega
        · rw [if_neg hc]
          by_cases hlt : j < 1024 ∧ nd * 1024 + j < n
          · rw [if_pos hlt, if_pos (by omega)]
          · rw [if_neg hlt, if_neg (by omega)]

theorem Filled_merge (usedSize : Nat) :
    ∀ (m k : Nat) (a : CLAggregate), a.Filled k → k + m ≤ 3 * usedSize / (64 * 4) →
      ∃ a1, CLAggregate.merge usedSize a ((List.range' k m).map fun i => 64 * (i + 1))
          = some (false, a1) ∧ a1.Filled (k + m) := by
  intro m
  induction m with
  | zero => intro k a h _; exact ⟨a, rfl, h⟩
  | succ m ih =>
    intro k a h hu
    obtain ⟨a1, e1, h1⟩ := Filled_step a k usedSize h (by omega)
    obtain ⟨a2, e2, h2⟩ := ih (k + 1) a1 h1 (by omega)
    have hkm : k + 1 + m = k + (m + 1) := by omega
    rw [hkm] at h2
    refine ⟨a2, ?_, h2⟩
    rw [List.range'_succ, List.map_cons]
    unfold CLAggregate.merge
    rw [e1]
    simp only
    rw [e2]
    rfl

theorem firstLines_succ (n : Nat) :
    firstLines (n + 1) = firstLines n ++ [64 * (n + 1)] := by
  unfold firstLines
  rw [List.range_succ, List.map_append]
  rfl

theorem flush_two_nodes (a : CLAggregate) (h : a.Filled 1025) (off : Nat) :
    a.flushDeferredPWBs off = some ((firstLines 1025).map (fun x => x + off)) := by
  obtain ⟨h1, h2, h3, h4⟩ := h
  have hn : numCLnodes 1025 = 2 := by decide
  have e0 : (List.range 1024).map (fun k => ((a.nodes 0).log k).addrCL + off)
      = (firstLines 1024).map (fun x => x + off) := by
    unfold firstLines
    rw [List.map_map]
    apply List.map_congr_left
    intro k hk
    have hk2 := List.mem_range.mp hk
    simp only [h4, HASH_BUCKETS, Function.comp]
    rw [if_pos (by omega)]
    omega
  have e1 : (List.range 1).map (fun k => ((a.nodes 1).log k).addrCL + off)
      = [64 * 1025 + off] := by
    simp only [List.range_succ, List.range_zero, List.nil_append, List.map_cons, List.map_nil,
      h4, HASH_BUCKETS]
    rw [if_pos (by omega)]
  have hf : a.flushDeferredPWBs off
      = some ((List.range 1024).map (fun k => ((a.nodes 0).log k).addrCL + off)
          ++ ((List.range 1).map (fun k => ((a.nodes 1).log k).addrCL + off) ++ [])) := by
    unfold CLAggregate.flushDeferredPWBs
    rw [if_neg (by omega), h1, hn]
    have hnn : a.numNodes = 2 := by rw [h3]; rfl
    simp only [flushNodes, h1, hnn, hn]
    rw [if_pos (by omega), if_pos (by omega)]
    rfl
  rw [hf, e0, e1, firstLines_succ 1024, List.map_append]
  rfl

theorem stale_tail_flush (a : CLAggregate) (h : a.Filled 1025) (usedSize cl off : Nat) :
    a.reset.logTailCL = 1 ∧
    ∃ a3, a.reset.addIfAbsent usedSize cl = some (false, a3) ∧ a3.numCL = 1 ∧
      a3.flushDeferredPWBs off = some [64 + off] := by
  obtain ⟨h1, h2, h3, h4⟩ := h
  have ht : a.reset.logTailCL = 1 := by
    unfold CLAggregate.reset
    simp only [h2, HASH_BUCKETS]
  have hnn : a.reset.numNodes = 2 := by
    unfold CLAggregate.reset
    simp only [h3, HASH_BUCKETS]
  have hz : a.reset.numCL = 0 := rfl
  have hadd : a.reset.addIfAbsent usedSize cl
      = some (false, appendCL a.reset 1 cl (CLAggregate.hash cl)) := by
    unfold CLAggregate.addIfAbsent
    rw [if_neg (by rw [hz]; simp), ht]
  have hnum : (appendCL a.reset 1 cl (CLAggregate.hash cl)).numCL = 1 := by
    simp [appendCL, hz]
  have hnodes : (appendCL a.reset 1 cl (CLAggregate.hash cl)).numNodes = 2 := by
    simp [appendCL, CLAggregate.setNode, hnn]
  have hlog : (((appendCL a.reset 1 cl (CLAggregate.hash cl)).nodes 0).log 0).addrCL = 64 := by
    rw [appendCL_log, if_neg (by omega)]
    have : a.reset.nodes = a.nodes := rfl
    rw [this, h4]
    simp only [HASH_BUCKETS]
    rw [if_pos (by omega)]
  refine ⟨ht, _, hadd, hnum, ?_⟩
  unfold CLAggregate.flushDeferredPWBs
  rw [if_neg (by rw [hnum]; simp), hnum]
  have hn : numCLnodes 1 = 1 := by decide
  rw [hn]
  simp only [flushNodes, hnodes, hnum, hn, HASH_BUCKETS]
  rw [if_pos (by omega)]
  simp only [Nat.sub_self, if_true, if_neg (show ¬ (1 % 1024 = 0) by omega),
    show (1 % 1024 : Nat) = 1 from rfl, List.range_succ, List.range_zero, List.nil_append,
    List.map_cons, List.map_nil, List.append_nil, hlog]

/-- C25, the behaviour of the code.  On a new `CLAggregate`, with 1 MB of the pool in
use, `merge` adds the 1025 cache lines 64, 128, ..., 65600 without switching to copy
mode; the last one goes to a second `NodeCLAggr`, to which `logTailCL` then points, and
`flushDeferredPWBs` writes back all 1025 lines.  `reset()` sets `numCL` to 0 but leaves
`logTailCL` at the second node.  The next `addIfAbsent`, of the line 320000, therefore
stores the line in the second node, and `flushDeferredPWBs`, which walks `numCL = 1`
entries from `logHeadCL`, writes back the line 64 of the earlier epoch (at the replica
offset 4096) and not the line 320000 that was added since the reset. -/
theorem C25_stale_tail_misses_flush :
    ∃ a1 a3, CLAggregate.merge (2 ^ 20) {} (firstLines 1025) = some (false, a1) ∧
      a1.flushDeferredPWBs 4096 = some ((firstLines 1025).map (fun x => x + 4096)) ∧
      a1.reset.numCL = 0 ∧ a1.reset.logTailCL = 1 ∧
      a1.reset.addIfAbsent (2 ^ 20) 320000 = some (false, a3) ∧ a3.numCL = 1 ∧
      a3.flushDeferredPWBs 4096 = some [64 + 4096] ∧
      320000 + 4096 ∉ [64 + 4096] := by
  obtain ⟨a1, e1, h1⟩ := Filled_merge (2 ^ 20) 1025 0 {} Filled_new (by decide)
  rw [Nat.zero_add] at h1
  obtain ⟨ht, a3, e3, hn3, hf3⟩ := stale_tail_flush a1 h1 (2 ^ 20) 320000 4096
  refine ⟨a1, a3, ?_, flush_two_nodes a1 h1 4096, rfl, ht, e3, hn3, hf3, by decide⟩
  have : firstLines 1025 = (List.range' 0 1025).map fun i => 64 * (i + 1) := by
    unfold firstLines
    rw [List.range_eq_range']
  rw [this]
  exact e1

end Opt

end RedoDB
